import Mathlib

/-!
# Nakshatra: proof-number search and endgame tablebase generation

A shallow embedding of `src/pn_search.cpp`, `src/egtb_gen.cpp` and
`src/eval_suicide.cpp`, followed by theorems about the embedded functions.

Conventions of the embedding.

* The arena `pns_tree_buffer_` is a total map from offsets to nodes; a node
  pointer is an offset and a nullable pointer is an `Option Nat`.
* `Board` is its move stack on top of the position it was constructed from;
  everything the collaborators (move generator, evaluator, tablebase) compute
  is a function of the board and is a field of `Engine`.
* The move stack is a list of moves. In `board.h` it is the array
  `entries_[1000]` of `MoveStack`, whose methods check no bound and whose
  `entries_[0]` belongs to the position at construction: the list stands for
  the array while it holds at most 999 moves, and a move can be made on a
  board of at most 998 plies only (`Board.HasRoom`). The theorems that state
  that the board is restored after moves were made and taken back (C3, C11)
  assume that room.
* Loops that need not terminate take a `fuel` argument and return `none` when
  it runs out; `none` also stands for a failed `assert` and for a null pointer
  dereference.
* Stream output (`std::cout`, `printf`, the progress files) is not modelled.
-/

set_option autoImplicit false

namespace Nakshatra

/-! ## Common types -/

/-- The two sides (`Side::WHITE`, `Side::BLACK`). -/
inductive Side where
  | WHITE
  | BLACK
deriving DecidableEq, Repr

/-- The other side (`OppositeSide`). -/
def OppositeSide : Side → Side
  | Side.WHITE => Side.BLACK
  | Side.BLACK => Side.WHITE

/-- A move: only the two squares read by `RedundantMoves` are kept
(`move.h` is not part of the sources). -/
structure Move where
  from_index : Nat
  to_index : Nat
deriving DecidableEq, Repr

/-- The default constructed move `Move()`. -/
def Move.null : Move := ⟨0, 0⟩

/-- The length of the array `entries_` of `Board::MoveStack` (`board.h`). -/
def MOVE_STACK_ENTRIES : Nat := 1000

/-- Modelled from the spec: `board.cpp` is absent. A board is the position it
was constructed from (`fen`) and its move stack; "Make appends one history
entry; Unmake pops one", and unmake "returns false iff the stack is empty".
The list holds the moves of `entries_[1]` to `entries_[size_]` of the
`MoveStack` of `board.h`, the last one first; `entries_[0]` is the entry of
the position at construction. The array has `MOVE_STACK_ENTRIES` entries and
`Push` and `Top` check no bound, so the list stands for the array only while
it holds fewer than `MOVE_STACK_ENTRIES` moves. -/
structure Board where
  fen : String
  move_stack_ : List Move
deriving DecidableEq, Repr

/-- `Board::MakeMove`: pushes the move, without any validity check. In the
source the push is `++size_` and the entry is written at
`Top() = entries_ + size_`, which lies inside `entries_[1000]` only on a
board that has room (`Board.HasRoom`); beyond that the behaviour of the
source is undefined and this function does not describe it. -/
def Board.MakeMove (b : Board) (m : Move) : Board :=
  { b with move_stack_ := m :: b.move_stack_ }

/-- `Board::UnmakeLastMove`: pops the last move and reports whether there was
one. -/
def Board.UnmakeLastMove (b : Board) : Bool × Board :=
  match b.move_stack_ with
  | [] => (false, b)
  | _ :: rest => (true, { b with move_stack_ := rest })

/-- `Board::Ply`: the size of the move stack. -/
def Board.Ply (b : Board) : Nat := b.move_stack_.length

/-- The move stack has room for one more move: after `++size_` the entry
`entries_[size_]` still lies inside the array `entries_[1000]`. -/
def Board.HasRoom (b : Board) : Prop := b.Ply + 1 < MOVE_STACK_ENTRIES

/-- The board after a line of moves, the first move of the list made first. -/
def Board.PlayLine (b : Board) (line : List Move) : Board :=
  line.foldl Board.MakeMove b

/-- `Board(SUICIDE, fen)`: a fresh board for a position string. -/
def Board.ofFEN (fen : String) : Board := ⟨fen, []⟩

/-! ## Proof-number search: data model -/

/-- `PNSParams::PNSType`. -/
inductive PNSType where
  | PN1
  | PN2
deriving DecidableEq, Repr

/-- `PNSParams` (declared in the absent `pn_search.h`; the fields are those
read in `pn_search.cpp`). The two fractions are `double` in the source. -/
structure PNSParams where
  pns_type : PNSType
  pn2_tree_limit : Int
  pn2_full_search : Bool
  pn2_max_nodes_fraction_a : ℚ
  pn2_max_nodes_fraction_b : ℚ
  save_progress : Int
  log_progress : Int

/-- Modelled from the spec: the parameters `Expand` builds for the nested
search, `PNSParams pn2_params; pn2_params.pns_type = PN1;`. The defaults of
the other fields live in the absent header; progress saving and logging are
"PN² only", so they are off here. -/
def PNSParams.nested : PNSParams :=
  { pns_type := PNSType.PN1, pn2_tree_limit := 0, pn2_full_search := false,
    pn2_max_nodes_fraction_a := 0, pn2_max_nodes_fraction_b := 0,
    save_progress := 0, log_progress := 0 }

/-- `PNSNode`: a node of the search tree. `parent` and `children` are the
nullable node pointers of the source. -/
structure PNSNode where
  move : Move
  parent : Option Nat
  children : Option Nat
  children_size : Nat
  proof : Nat
  disproof : Nat
  tree_size : Nat
deriving DecidableEq, Repr

/-- Modelled from the spec: the default constructed node `PNSNode()` (the
constructor is in the absent `pn_search.h`): no parent, no children, an
unsolved pair and "`tree_size` of a leaf is 1". -/
def PNSNode.fresh : PNSNode :=
  { move := Move.null, parent := none, children := none, children_size := 0,
    proof := 1, disproof := 1, tree_size := 1 }

/-- An entry of the memory-mapped tablebase: its content is only read through
`EGTBResult`. -/
structure EGTBIndexEntry where
  code : Nat
deriving DecidableEq, Repr

/-- The immutable surroundings of a `PNSearch` object: the constants of
`common.h` and `pn_search.h`, and the collaborators it calls on its board. -/
structure Engine where
  /-- The constant `INF_NODES`. -/
  INF_NODES : Nat
  /-- The constant `WIN` (a loss is `-WIN`). -/
  WIN : Int
  /-- The constant `DRAW`. -/
  DRAW : Int
  /-- The constant `UNKNOWN`. -/
  UNKNOWN : Int
  /-- The member `max_nodes_`. -/
  max_nodes_ : Int
  /-- The moves `movegen_->GenerateMoves` puts in the move array. -/
  GenerateMoves : Board → List Move
  /-- The method `movegen_->CountMoves()`. -/
  movegen_CountMoves : Board → Nat
  /-- The free function `movegen::CountMoves(side, board)`. -/
  CountMoves : Side → Board → Nat
  /-- The value of `evaluator_->Result()`. -/
  Result : Board → Int
  /-- The value of `board_->SideToMove()`. -/
  SideToMove : Board → Side
  /-- The value of `board_->BitBoard(side)`. -/
  BitBoard : Board → Side → Nat
  /-- The piece constant `BISHOP` (the black bishop is `-BISHOP`). -/
  BISHOP : Int
  /-- The value of `board_->BitBoard(piece)`. -/
  BitBoardPiece : Board → Int → Nat
  /-- The member `egtb_` (nullable) with its `Lookup`. -/
  egtb_ : Option (Board → Option EGTBIndexEntry)
  /-- The function `EGTBResult`. -/
  EGTBResult : EGTBIndexEntry → Int
  /-- The member `timer_` (nullable): the answer of the n-th call of
  `timer_expired()`. -/
  timer_ : Option (Nat → Bool)
  /-- Whether the n-th reading of a stop watch satisfies
  `ElapsedTime() / 100 > secs`. -/
  progress_due : Nat → Int → Bool
  /-- The `double` expression `ceil(max(num_nodes, 1) * f_x)` of `PnNodes`,
  as an integer. -/
  pn2_ramp : PNSParams → Int → Int
  /-- The `double` quotient `static_cast<double>(disproof) / proof`. -/
  double_div : Nat → Nat → ℚ
  /-- The constant `DBL_MAX`. -/
  DBL_MAX : ℚ

/-- The mutable members of a `PNSearch` object, with the counters of the two
clocks it polls. -/
structure PNSearch where
  pns_tree_buffer_ : Nat → PNSNode
  next_ : Nat
  board_ : Board
  timer_polls : Nat
  clock_reads : Nat

/-- The node an arena pointer points to. -/
def PNSearch.node (s : PNSearch) (p : Nat) : PNSNode := s.pns_tree_buffer_ p

/-- A store through an arena pointer. -/
def PNSearch.setNode (s : PNSearch) (p : Nat) (n : PNSNode) : PNSearch :=
  { s with pns_tree_buffer_ := Function.update s.pns_tree_buffer_ p n }

/-- The pointers from `children_begin(node)` up to `children_end(node)`, that
is `children` to `children + children_size` (empty for a null `children`). -/
def PNSNode.children_range (n : PNSNode) : List Nat :=
  match n.children with
  | some c => List.range' c n.children_size
  | none => []

/-- `OnlyOneBitSet` of `common.h`. -/
def OnlyOneBitSet (x : Nat) : Bool := x ≠ 0 && (x &&& (x - 1)) == 0

/-- The constant `PNS_MAX_DEPTH`. -/
def PNS_MAX_DEPTH : Int := 600

/-! ## Proof-number search: operations -/

/-- `PNSearch::RedundantMoves`. -/
def RedundantMoves (s : PNSearch) (pns_node : Nat) : Bool :=
  match (s.node pns_node).parent with
  | none => false
  | some p2 =>
    match (s.node p2).parent with
    | none => false
    | some p3 =>
      match (s.node p3).parent with
      | none => false
      | some p4 =>
        let m1 := (s.node pns_node).move
        let m2 := (s.node p2).move
        let m3 := (s.node p3).move
        let m4 := (s.node p4).move
        m1.from_index == m3.to_index && m1.to_index == m3.from_index &&
        m2.from_index == m4.to_index && m2.to_index == m4.from_index

/-- The child `FindMpn` steps to from `mpn`: the first child with a non-zero
proof number when `mpn->proof == INF_NODES`, else the first child whose
disproof number is `mpn->proof`; `mpn` itself when the inner loop finds
none. -/
def SelectChild (E : Engine) (s : PNSearch) (mpn : Nat) : Nat :=
  if (s.node mpn).proof = E.INF_NODES then
    ((s.node mpn).children_range.find? (fun c => (s.node c).proof ≠ 0)).getD mpn
  else
    ((s.node mpn).children_range.find?
      (fun c => (s.node mpn).proof = (s.node c).disproof)).getD mpn

/-- `PNSearch::FindMpn`: returns the node reached, the new depth and the
state (the board has the moves of the descent played). -/
def FindMpn (E : Engine) : Nat → Nat → Int → PNSearch → Option (Nat × Int × PNSearch)
  | 0, _, _, _ => none
  | fuel + 1, mpn, depth, s =>
    match (s.node mpn).children with
    | none => some (mpn, depth, s)
    | some _ =>
      let next := SelectChild E s mpn
      FindMpn E fuel next (depth + 1)
        { s with board_ := s.board_.MakeMove (s.node next).move }

/-- The proof number `UpdateAncestors` computes from the children. -/
def ProofOfChildren (E : Engine) (kids : List PNSNode) : Nat :=
  kids.foldl (fun proof child => if child.disproof < proof then child.disproof else proof)
    E.INF_NODES

/-- The disproof number `UpdateAncestors` computes from the children. -/
def DisproofOfChildren (E : Engine) (kids : List PNSNode) : Nat :=
  kids.foldl (fun disproof child =>
      if child.proof = E.INF_NODES then E.INF_NODES
      else if disproof ≠ E.INF_NODES then disproof + child.proof
      else disproof) 0

/-- The loop `pns_node->tree_size = 1; for child: pns_node->tree_size +=
child->tree_size`, store by store. -/
def RefreshTreeSize (s : PNSearch) (pns_node : Nat) : PNSearch :=
  (s.node pns_node).children_range.foldl
    (fun t child =>
      t.setNode pns_node
        { t.node pns_node with
          tree_size := (t.node pns_node).tree_size + (t.node child).tree_size })
    (s.setNode pns_node { s.node pns_node with tree_size := 1 })

/-- `PNSearch::UpdateTreeSize`. -/
def UpdateTreeSize (s : PNSearch) (pns_node : Nat) : PNSearch :=
  match (s.node pns_node).children with
  | some _ => RefreshTreeSize s pns_node
  | none => s

/-- The block `if (pns_node->children) { ... }` of the loop of
`UpdateAncestors`: the flag tells whether the function returned from inside
it, the pair being unchanged. -/
def UpdateNode (E : Engine) (s : PNSearch) (pns_node : Nat) : Bool × PNSearch :=
  match (s.node pns_node).children with
  | none => (false, s)
  | some _ =>
    let kids := (s.node pns_node).children_range.map s.node
    let proof := ProofOfChildren E kids
    let disproof := DisproofOfChildren E kids
    let s1 := RefreshTreeSize s pns_node
    if (s1.node pns_node).proof = proof ∧ (s1.node pns_node).disproof = disproof then
      (true, s1)
    else
      (false, s1.setNode pns_node { s1.node pns_node with proof := proof, disproof := disproof })

/-- `PNSearch::UpdateAncestors`: returns the node it stopped at, the new depth
and the state. -/
def UpdateAncestors (E : Engine) :
    Nat → Nat → Nat → Int → PNSearch → Option (Nat × Int × PNSearch)
  | 0, _, _, _, _ => none
  | fuel + 1, pns_node, pns_root, depth, s =>
    match UpdateNode E s pns_node with
    | (true, s1) => some (pns_node, depth, s1)
    | (false, s1) =>
      if pns_node = pns_root then some (pns_node, depth, s1)
      else
        match (s1.node pns_node).parent with
        | none => none
        | some parent =>
          match s1.board_.UnmakeLastMove with
          | (false, _) => none
          | (true, b) =>
            UpdateAncestors E fuel parent pns_root (depth - 1) { s1 with board_ := b }

/-- The result `Expand` uses for a child: the evaluator's, replaced by the
tablebase's when the evaluator does not know, a tablebase is attached, each
side has one piece and the lookup succeeds. Evaluated on the board after the
child's move. -/
def ChildResult (E : Engine) (b : Board) : Int :=
  let result := E.Result b
  if result = E.UNKNOWN then
    match E.egtb_ with
    | none => result
    | some lookup =>
      if OnlyOneBitSet (E.BitBoard b Side.WHITE) && OnlyOneBitSet (E.BitBoard b Side.BLACK) then
        match lookup b with
        | some entry => E.EGTBResult entry
        | none => result
      else result
  else result

/-- The pair `Expand` gives a child from its result. -/
def ChildPair (E : Engine) (b : Board) : Nat × Nat :=
  let result := ChildResult E b
  if result = E.DRAW then (E.INF_NODES, E.INF_NODES)
  else if result = -E.WIN then (E.INF_NODES, 0)
  else if result = E.WIN then (0, E.INF_NODES)
  else (1, E.CountMoves (E.SideToMove b) b)

/-- The body of the child loop of `Expand` (PN1), for the moves from index
`i` on: clean node at `next_ + i`, move and parent set, move played, pair set
from the result, move taken back. -/
def ExpandChildren (E : Engine) (pns_node : Nat) : List Move → Nat → PNSearch → PNSearch
  | [], _, s => s
  | m :: rest, i, s =>
    let child := s.next_ + i
    let s1 := s.setNode child { PNSNode.fresh with move := m, parent := some pns_node }
    let s2 := { s1 with board_ := s1.board_.MakeMove (s1.node child).move }
    let pair := ChildPair E s2.board_
    let s3 := s2.setNode child { s2.node child with proof := pair.1, disproof := pair.2 }
    let s4 := { s3 with board_ := s3.board_.UnmakeLastMove.2 }
    ExpandChildren E pns_node rest (i + 1) s4

/-- The PN1 branch of `Expand`. -/
def ExpandPN1 (E : Engine) (pns_node : Nat) (s : PNSearch) : PNSearch :=
  let move_array := E.GenerateMoves s.board_
  let s1 :=
    if move_array.length ≠ 0 then
      s.setNode pns_node
        { s.node pns_node with
          children := some s.next_,
          children_size := move_array.length,
          tree_size := 1 + move_array.length }
    else s
  let s2 := ExpandChildren E pns_node move_array 0 s1
  { s2 with next_ := s2.next_ + move_array.length }

/-- `PNSearch::PnNodes`. -/
def PnNodes (E : Engine) (pns_params : PNSParams) (num_nodes : Int) : Int :=
  if pns_params.pn2_full_search then E.max_nodes_ - num_nodes
  else min (E.pn2_ramp pns_params num_nodes) (E.max_nodes_ - num_nodes)

/-- The pruning loop of the PN2 branch of `Expand`: every child loses its
children. The bounds of the loop are read once (they could only move if the
node were one of its own children). -/
def DropGrandchildren (s : PNSearch) (pns_node : Nat) : PNSearch :=
  (s.node pns_node).children_range.foldl
    (fun t child => t.setNode child { t.node child with children := none, children_size := 0 })
    s

/-- `PNSearch::Expand`. The nested search of the PN2 branch is the argument
`pns`, which `Pns` instantiates with itself: it takes the budget, the
parameters and the root, and returns the state and the node count. -/
def Expand (E : Engine)
    (pns : Int → PNSParams → Nat → PNSearch → Option (PNSearch × Int))
    (pns_params : PNSParams) (num_nodes : Int) (pns_node_depth : Int)
    (pns_node : Nat) (s : PNSearch) : Option PNSearch :=
  if RedundantMoves s pns_node || decide (pns_node_depth ≥ PNS_MAX_DEPTH) then
    let s1 := s.setNode pns_node
      { s.node pns_node with proof := E.INF_NODES, disproof := E.INF_NODES }
    if (s1.node pns_node).children = none ∧ (s1.node pns_node).children_size = 0 then some s1
    else none
  else if pns_params.pns_type = PNSType.PN2 then
    let pn2_next := s.next_
    match pns (PnNodes E pns_params num_nodes) PNSParams.nested pns_node s with
    | none => none
    | some (s1, _) =>
      if (s1.node pns_node).proof = 0 ∨ (s1.node pns_node).disproof = 0 then
        some { s1.setNode pns_node
                { s1.node pns_node with children := none, children_size := 0 } with
               next_ := pn2_next }
      else
        let s2 := DropGrandchildren s1 pns_node
        some { s2 with next_ := pn2_next + (s2.node pns_node).children_size }
  else some (ExpandPN1 E pns_node s)

/-- The locals of the main loop of `Pns`, with the state. -/
structure PnsLoop where
  s : PNSearch
  num_nodes : Int
  cur_node : Nat
  depth : Int
  save_progress_nodes : Int
  log_progress_secs : Int

/-- The condition of the main loop of `Pns`, evaluated left to right; the
timer is polled only when the first two conjuncts hold. -/
def PnsCond (E : Engine) (search_nodes : Int) (pns_root : Nat) (l : PnsLoop) :
    Bool × PnsLoop :=
  if l.num_nodes < search_nodes ∧
      ((l.s.node pns_root).proof ≠ 0 ∧ (l.s.node pns_root).disproof ≠ 0) then
    match E.timer_ with
    | none => (true, l)
    | some expired =>
      (!expired l.s.timer_polls, { l with s := { l.s with timer_polls := l.s.timer_polls + 1 } })
  else (false, l)

/-- The progress blocks at the head of the loop body of `Pns`: they only
write output, but each asserts that the search is a PN2 one. -/
def PnsProgress (E : Engine) (pns_params : PNSParams) (l : PnsLoop) : Option PnsLoop :=
  let after_save : Option PnsLoop :=
    if pns_params.save_progress > 0 ∧ l.num_nodes > l.save_progress_nodes then
      if pns_params.pns_type = PNSType.PN2 then
        some { l with save_progress_nodes := l.save_progress_nodes + pns_params.save_progress }
      else none
    else some l
  match after_save with
  | none => none
  | some l1 =>
    if pns_params.log_progress > 0 then
      let l2 := { l1 with s := { l1.s with clock_reads := l1.s.clock_reads + 1 } }
      if E.progress_due l1.s.clock_reads l1.log_progress_secs then
        if pns_params.pns_type = PNSType.PN2 then
          some { l2 with log_progress_secs := l2.log_progress_secs + pns_params.log_progress }
        else none
      else some l2
    else some l1

/-- One run of the body of the main loop of `Pns`. -/
def PnsBody (E : Engine)
    (pns : Int → PNSParams → Nat → PNSearch → Option (PNSearch × Int))
    (fuel : Nat) (pns_params : PNSParams) (pns_root : Nat) (l : PnsLoop) :
    Option PnsLoop :=
  match PnsProgress E pns_params l with
  | none => none
  | some l1 =>
    match FindMpn E fuel l1.cur_node l1.depth l1.s with
    | none => none
    | some (mpn, depth, s1) =>
      match Expand E pns pns_params l1.num_nodes depth mpn s1 with
      | none => none
      | some s2 =>
        let num_nodes := l1.num_nodes + (s2.node mpn).children_size
        let climbed : Option (Nat × Int × PNSearch) :=
          if pns_params.pns_type = PNSType.PN2 then
            match (s2.node mpn).parent with
            | some parent =>
              match s2.board_.UnmakeLastMove with
              | (false, _) => none
              | (true, b) => some (parent, depth - 1, { s2 with board_ := b })
            | none => some (mpn, depth, s2)
          else some (mpn, depth, s2)
        match climbed with
        | none => none
        | some (mpn1, depth1, s3) =>
          match UpdateAncestors E fuel mpn1 pns_root depth1 s3 with
          | none => none
          | some (cur_node, depth2, s4) =>
            some { l1 with s := s4, num_nodes := num_nodes, cur_node := cur_node,
                           depth := depth2 }

/-- The main loop of `Pns`: at most `n` runs of the body. -/
def PnsMainLoop (E : Engine)
    (pns : Int → PNSParams → Nat → PNSearch → Option (PNSearch × Int))
    (fuel : Nat) (search_nodes : Int) (pns_params : PNSParams) (pns_root : Nat) :
    Nat → PnsLoop → Option PnsLoop
  | 0, _ => none
  | n + 1, l =>
    match PnsCond E search_nodes pns_root l with
    | (false, l1) => some l1
    | (true, l1) =>
      match PnsBody E pns fuel pns_params pns_root l1 with
      | none => none
      | some l2 => PnsMainLoop E pns fuel search_nodes pns_params pns_root n l2

/-- The closing loop of `Pns`, which walks `cur_node` back to the root. -/
def PnsUnwind : Nat → Nat → Nat → Int → PNSearch → Option (Int × PNSearch)
  | 0, _, _, _, _ => none
  | fuel + 1, pns_root, cur_node, depth, s =>
    if cur_node = pns_root then some (depth, s)
    else
      match (s.node cur_node).parent with
      | none => none
      | some parent =>
        match s.board_.UnmakeLastMove with
        | (false, _) => none
        | (true, b) =>
          PnsUnwind fuel pns_root parent (depth - 1)
            (UpdateTreeSize { s with board_ := b } parent)

/-- The locals of `Pns` at its first loop test. -/
def PnsInit (pns_params : PNSParams) (pns_root : Nat) (s : PNSearch) : PnsLoop :=
  { s := s, num_nodes := 0, cur_node := pns_root, depth := 0,
    save_progress_nodes := pns_params.save_progress,
    log_progress_secs := pns_params.log_progress }

/-- `PNSearch::Pns` up to its closing `assert(depth == 0)`: the state, the
node count and the depth after the two loops. -/
def PnsLoops (E : Engine)
    (pns : Int → PNSParams → Nat → PNSearch → Option (PNSearch × Int))
    (fuel : Nat) (search_nodes : Int) (pns_params : PNSParams) (pns_root : Nat)
    (s : PNSearch) : Option (PNSearch × Int × Int) :=
  match PnsMainLoop E pns fuel search_nodes pns_params pns_root fuel
      (PnsInit pns_params pns_root s) with
  | none => none
  | some l =>
    match PnsUnwind fuel pns_root l.cur_node l.depth l.s with
    | none => none
    | some (depth, s1) => some (s1, l.num_nodes, depth)

/-- The end of `Pns`: `assert(depth == 0)`, and the assertion guarding the
last `SaveTree`. -/
def PnsFinish (pns_params : PNSParams) (r : PNSearch × Int × Int) : Option (PNSearch × Int) :=
  if r.2.2 = 0 then
    if pns_params.save_progress > 0 ∧ pns_params.pns_type ≠ PNSType.PN2 then none
    else some (r.1, r.2.1)
  else none

/-- `PNSearch::Pns`, returning the state and `*num_nodes`. The first argument
bounds the nesting of `Pns` inside `Expand`, the second the runs of each
loop. -/
def Pns (E : Engine) : Nat → Nat → Int → PNSParams → Nat → PNSearch → Option (PNSearch × Int)
  | 0, _, _, _, _, _ => none
  | level + 1, fuel, search_nodes, pns_params, pns_root, s =>
    match PnsLoops E (Pns E level fuel) fuel search_nodes pns_params pns_root s with
    | none => none
    | some r => PnsFinish pns_params r

/-! ## The room of the move stack -/

/-- A line of play from board `b`: every move of the list is one the move
generator yields on the board reached by the moves before it. -/
def LegalLine (E : Engine) : Board → List Move → Prop
  | _, [] => True
  | b, m :: rest => m ∈ E.GenerateMoves b ∧ LegalLine E (b.MakeMove m) rest

/-- A bound on the distance from the board at entry at which `Pns` makes a
move. `Expand` draws a node at depth `PNS_MAX_DEPTH` or more, so a node gets
children, and a move is made from it, at a depth below `PNS_MAX_DEPTH` only.
In a PN2 search the nested searches count their depth from the node they
expand, which doubles the bound. -/
def SearchReach (pns_params : PNSParams) : Int :=
  if pns_params.pns_type = PNSType.PN2 then 2 * PNS_MAX_DEPTH else PNS_MAX_DEPTH

/-- The move stack has room for a search from board `b`: every board with a
legal move that a line of play from `b`, shorter than the reach of the
search, arrives at has room for one more move. `Pns` makes moves on such
boards only: `FindMpn` descends from a node to one of its children, `Expand`
makes the moves generated on the board of the node it expands. -/
def StackRoom (E : Engine) (pns_params : PNSParams) (b : Board) : Prop :=
  ∀ line : List Move, (line.length : Int) < SearchReach pns_params → LegalLine E b line →
    E.GenerateMoves (b.PlayLine line) ≠ [] → (b.PlayLine line).HasRoom

end Nakshatra

namespace Nakshatra

/-! ## Proof-number search: the shape of the tree -/

/-- The nodes of the tree of a search with root `r` that began with the arena
cursor at `n0` and has it at `nx`: the root and the nodes allocated since. -/
def InTree (r n0 nx i : Nat) : Prop := i = r ∨ (n0 ≤ i ∧ i < nx)

/-- The nodes under a root: the root itself and, for every node under the
root, the nodes between its `children_begin` and `children_end`. -/
inductive UnderRoot (s : PNSearch) (r : Nat) : Nat → Prop
  | root : UnderRoot s r r
  | child (p k : Nat) : UnderRoot s r p → k ∈ (s.node p).children_range → UnderRoot s r k

/-- The children of a node, as nodes. -/
def PNSearch.kids (s : PNSearch) (i : Nat) : List PNSNode :=
  (s.node i).children_range.map s.node

/-- The proof and disproof numbers of node `i` are those `UpdateAncestors`
computes from its children. -/
def ArithOK (E : Engine) (s : PNSearch) (i : Nat) : Prop :=
  (s.node i).proof = ProofOfChildren E (s.kids i) ∧
  (s.node i).disproof = DisproofOfChildren E (s.kids i)

/-- The `tree_size` of node `i` is one more than the sum over its children. -/
def SizeOK (s : PNSearch) (i : Nat) : Prop :=
  (s.node i).tree_size = 1 + ((s.kids i).map PNSNode.tree_size).sum

/-- `Chain s r x path`: following `parent` from `x` reaches `r`, and `path`
lists the nodes passed, from `x` up to the child of `r` (the root excluded). -/
inductive Chain (s : PNSearch) (r : Nat) : Nat → List Nat → Prop
  | root : Chain s r r []
  | step (x p : Nat) (rest : List Nat) :
      x ≠ r → (s.node x).parent = some p → Chain s r p rest → Chain s r x (x :: rest)

/-- The board reached from `b0` by playing the moves of a chain, the move of
the node nearest the root first. -/
def BoardAt (s : PNSearch) (b0 : Board) (path : List Nat) : Board :=
  { b0 with move_stack_ := path.map (fun i => (s.node i).move) ++ b0.move_stack_ }

/-- The arena holds a tree with root `r` in the slots `r` and `n0 .. next_`:
child blocks lie above their parent, inside the allocated part, are not empty
and point back to their parent; every allocated node lies in the block of its
parent; the root's block starts at `n0`; `children_size` is 0 for a childless
node and otherwise the length of a generated move list. -/
structure Shape (E : Engine) (s : PNSearch) (r n0 : Nat) : Prop where
  root_lt : r < n0
  le_next : n0 ≤ s.next_
  block : ∀ i c, InTree r n0 s.next_ i → (s.node i).children = some c →
    n0 ≤ c ∧ i < c ∧ 0 < (s.node i).children_size ∧
    c + (s.node i).children_size ≤ s.next_ ∧
    ∀ k, c ≤ k → k < c + (s.node i).children_size → (s.node k).parent = some i
  leaf : ∀ i, InTree r n0 s.next_ i → (s.node i).children = none →
    (s.node i).children_size = 0
  up : ∀ k, n0 ≤ k → k < s.next_ →
    ∃ p c, (s.node k).parent = some p ∧ InTree r n0 s.next_ p ∧
      (s.node p).children = some c ∧ c ≤ k ∧ k < c + (s.node p).children_size
  root_block : ∀ c, (s.node r).children = some c → c = n0
  moves : ∀ i, InTree r n0 s.next_ i →
    (s.node i).children_size = 0 ∨
    ∃ b, (s.node i).children_size = (E.GenerateMoves b).length

/-- The state of a search between two steps, for a search that began in state
`s0` with root `r`: the tree is well shaped, every node with children has the
numbers computed from them, the slots below the first allocated one are
untouched (the root apart, which keeps its parent and move). -/
structure TreeInv (E : Engine) (s0 s : PNSearch) (r : Nat) : Prop where
  shape : Shape E s r s0.next_
  arith : ∀ i, InTree r s0.next_ s.next_ i → (s.node i).children ≠ none → ArithOK E s i
  frame : ∀ i, i < s0.next_ → i ≠ r → s.node i = s0.node i
  root_parent : (s.node r).parent = (s0.node r).parent
  root_move : (s.node r).move = (s0.node r).move

/-- The position of the walk: `cur` is a tree node at the end of the chain
`path`, `depth` is the length of the chain and the board has the moves of
the chain played on top of the board `b0`. -/
structure OnPath (s : PNSearch) (r n0 : Nat) (b0 : Board) (cur : Nat) (depth : Int)
    (path : List Nat) : Prop where
  inT : InTree r n0 s.next_ cur
  chain : Chain s r cur path
  depth_eq : depth = path.length
  board_eq : s.board_ = BoardAt s b0 path

/-- Every node with children has an up to date `tree_size`, except possibly
the listed ones. -/
def SizesButFor (s : PNSearch) (r n0 : Nat) (stale : List Nat) : Prop :=
  ∀ i, InTree r n0 s.next_ i → (s.node i).children ≠ none → i ∉ stale → SizeOK s i

/-- What a search that began in state `s0` with root `r` leaves behind in
state `s`: a well shaped tree with up to date numbers and sizes, and the
board it began with. -/
structure PnsPost (E : Engine) (s0 s : PNSearch) (r : Nat) : Prop where
  tree : TreeInv E s0 s r
  sizes : SizesButFor s r s0.next_ []
  board : s.board_ = s0.board_

/-- What `Pns` needs of the state it starts in: the root lies below the arena
cursor and has no children (and, for a PN2 search, no parent). -/
structure PnsPre (pns_params : PNSParams) (s : PNSearch) (r : Nat) : Prop where
  below : r < s.next_
  childless : (s.node r).children = none
  size0 : (s.node r).children_size = 0
  orphan : pns_params.pns_type = PNSType.PN2 → (s.node r).parent = none

end Nakshatra

namespace Nakshatra

/-! ## Proof-number search: auxiliary notions for the proofs -/

/-- Two nodes agree on the fields that link the tree. -/
def LinksEq (a b : PNSNode) : Prop :=
  a.move = b.move ∧ a.parent = b.parent ∧ a.children = b.children ∧
  a.children_size = b.children_size

/-- State `t` differs from `s` at most in the numbers of node `x` (and in the
board and the clock counters). -/
structure Touch (s t : PNSearch) (x : Nat) : Prop where
  next_eq : t.next_ = s.next_
  others : ∀ i, i ≠ x → t.node i = s.node i
  links : LinksEq (t.node x) (s.node x)

/-- The slots below the first allocated one are as in `s0`, the root apart,
which keeps its parent and its move. -/
structure Framed (s0 s : PNSearch) (r : Nat) : Prop where
  frame : ∀ i, i < s0.next_ → i ≠ r → s.node i = s0.node i
  root_parent : (s.node r).parent = (s0.node r).parent
  root_move : (s.node r).move = (s0.node r).move

/-- Every node with children has the proof and disproof numbers computed from
them, except possibly those in `dirty`. -/
def ArithButFor (E : Engine) (s : PNSearch) (r n0 : Nat) (dirty : Nat → Prop) : Prop :=
  ∀ i, InTree r n0 s.next_ i → (s.node i).children ≠ none → ¬ dirty i → ArithOK E s i

/-- The nodes whose numbers may be out of date when `UpdateAncestors` is about
to treat `x`: `x` itself and, when `x` has no children, its parent. -/
def UADirty (s : PNSearch) (x i : Nat) : Prop :=
  i = x ∨ ((s.node x).children = none ∧ x ∈ (s.node i).children_range)

end Nakshatra

namespace Nakshatra

/-- State `t` has the cursor and the board of `s` and agrees with it on every
slot below the cursor. -/
structure AgreeBelow (s t : PNSearch) : Prop where
  next_eq : t.next_ = s.next_
  board_eq : t.board_ = s.board_
  nodes : ∀ i, i < s.next_ → t.node i = s.node i

end Nakshatra

namespace Nakshatra

/-- The node the child loop of `Expand` (PN1) leaves for the move `m`, when
the expanded node is `pns_node` and the board is `b`. -/
def ChildNode (E : Engine) (b : Board) (pns_node : Nat) (m : Move) : PNSNode :=
  { PNSNode.fresh with
    move := m, parent := some pns_node,
    proof := (ChildPair E (b.MakeMove m)).1, disproof := (ChildPair E (b.MakeMove m)).2 }

/-- The nested search a PN2 `Expand` runs does what `Pns` promises: from a
state that meets `PnsPre` it can only return a state that meets `PnsPost`. -/
def NestedOK (E : Engine)
    (pns : Int → PNSParams → Nat → PNSearch → Option (PNSearch × Int)) : Prop :=
  ∀ (budget : Int) (x : Nat) (s s1 : PNSearch) (nn : Int),
    PnsPre PNSParams.nested s x → pns budget PNSParams.nested x s = some (s1, nn) →
    PnsPost E s s1 x

end Nakshatra

namespace Nakshatra

/-- The invariant of the main loop of `Pns`, for a search with budget
`search_nodes` that began in state `s0` with root `r`: the tree is well
shaped and its numbers are up to date, the walk stands at `cur_node`, the
sizes are up to date except above `cur_node`, and the node count exceeds the
budget by less than the size of one block of children. -/
structure LoopInv (E : Engine) (s0 : PNSearch) (r : Nat) (search_nodes : Int)
    (l : PnsLoop) : Prop where
  shape : Shape E l.s r s0.next_
  framed : Framed s0 l.s r
  arith : ArithButFor E l.s r s0.next_ (fun _ => False)
  walk : ∃ path, OnPath l.s r s0.next_ s0.board_ l.cur_node l.depth path ∧
    SizesButFor l.s r s0.next_ (path ++ [r]).tail
  count : 0 ≤ l.num_nodes ∧
    (l.num_nodes = 0 ∨ ∃ b, l.num_nodes < search_nodes + (E.GenerateMoves b).length)

end Nakshatra

namespace Nakshatra

/-! ## The root move list of `Search` -/

/-- `PNSResult::MoveStat`; the score is a `double` in the source. -/
structure MoveStat where
  move : Move
  score : ℚ
  tree_size : Nat
  result : Int
deriving DecidableEq

/-- `PNSResult`. -/
structure PNSResult where
  ordered_moves : List MoveStat
  num_nodes : Int

/-- The entry `Search` builds for a child of the root. -/
def RootMoveStat (E : Engine) (pns_node : PNSNode) : MoveStat :=
  if pns_node.proof = 0 then
    { move := pns_node.move, score := E.DBL_MAX, tree_size := pns_node.tree_size,
      result := -E.WIN }
  else
    { move := pns_node.move,
      score := E.double_div pns_node.disproof pns_node.proof,
      tree_size := pns_node.tree_size,
      result :=
        if pns_node.proof = E.INF_NODES ∧ pns_node.disproof = 0 then E.WIN
        else if pns_node.proof = E.INF_NODES ∧ pns_node.disproof = E.INF_NODES then E.DRAW
        else E.UNKNOWN }

/-- `std::sort` with the comparator `a.score < b.score`: the standard library
only promises a permutation in which no entry is followed by one the
comparator puts before it; it is modelled by insertion sort. -/
def SortByScore (moves : List MoveStat) : List MoveStat :=
  moves.insertionSort (fun a b => a.score ≤ b.score)

/-- The budget `Search` passes to `Pns`; `none` when
`assert(pns_params.pn2_tree_limit <= max_nodes_)` fails. -/
def SearchBudget (E : Engine) (pns_params : PNSParams) : Option Int :=
  if pns_params.pns_type = PNSType.PN2 ∧ pns_params.pn2_tree_limit > 0 then
    if pns_params.pn2_tree_limit ≤ E.max_nodes_ then some pns_params.pn2_tree_limit
    else none
  else some E.max_nodes_

/-- `PNSearch::Search`: the root is the first slot of the arena. Returns the
state and `*pns_result`. -/
def Search (E : Engine) (level fuel : Nat) (pns_params : PNSParams)
    (pns_result : PNSResult) (s : PNSearch) : Option (PNSearch × PNSResult) :=
  let pns_root := 0
  let s0 := { s.setNode pns_root PNSNode.fresh with next_ := 1 }
  match SearchBudget E pns_params with
  | none => none
  | some search_nodes =>
    match Pns E level fuel search_nodes pns_params pns_root s0 with
    | none => none
    | some (s1, num_nodes) =>
      let stats := (s1.node pns_root).children_range.map (fun c => RootMoveStat E (s1.node c))
      some (s1, { num_nodes := num_nodes,
                  ordered_moves := SortByScore (pns_result.ordered_moves ++ stats) })

/-- The state of the main loop of `Pns` at its `k`-th test of the loop
condition (counting from 0), when the loop gets that far. -/
def PnsAfter (E : Engine)
    (pns : Int → PNSParams → Nat → PNSearch → Option (PNSearch × Int))
    (fuel : Nat) (search_nodes : Int) (pns_params : PNSParams) (pns_root : Nat) :
    Nat → PnsLoop → Option PnsLoop
  | 0, l => some l
  | k + 1, l =>
    match PnsCond E search_nodes pns_root l with
    | (false, _) => none
    | (true, l1) =>
      match PnsBody E pns fuel pns_params pns_root l1 with
      | none => none
      | some l2 => PnsAfter E pns fuel search_nodes pns_params pns_root k l2

/-! ## The Suicide evaluator -/

/-- `PopCount` of `common.h`, on 64-bit boards. -/
def PopCount (x : Nat) : Nat := ((List.range 64).filter (fun i => x.testBit i)).length

/-- `Board::NumPieces`. -/
def NumPieces (E : Engine) (b : Board) (side : Side) : Nat := PopCount (E.BitBoard b side)

/-- The mask `WHITE_SQUARES`. -/
def WHITE_SQUARES : Nat := 0xAA55AA55AA55AA55

/-- The mask `BLACK_SQUARES`. -/
def BLACK_SQUARES : Nat := 0x55AA55AA55AA55AA

/-- `RivalBishopsOnOppositeColoredSquares`. -/
def RivalBishopsOnOppositeColoredSquares (E : Engine) (b : Board) : Bool :=
  let white_bishop := E.BitBoardPiece b E.BISHOP
  let black_bishop := E.BitBoardPiece b (-E.BISHOP)
  (white_bishop ≠ 0 && black_bishop ≠ 0) &&
    (((white_bishop &&& WHITE_SQUARES) ≠ 0 && (black_bishop &&& BLACK_SQUARES) ≠ 0) ||
     ((white_bishop &&& BLACK_SQUARES) ≠ 0 && (black_bishop &&& WHITE_SQUARES) ≠ 0))

/-- `Eval<Variant::SUICIDE>::Result`. -/
def SuicideResult (E : Engine) (b : Board) : Int :=
  let side := E.SideToMove b
  let self_pieces := NumPieces E b side
  let opp_pieces := NumPieces E b (OppositeSide side)
  if self_pieces = 1 ∧ opp_pieces = 1 ∧ RivalBishopsOnOppositeColoredSquares E b = true then
    E.DRAW
  else
    let self_moves := E.movegen_CountMoves b
    if self_moves = 0 then
      if self_pieces < opp_pieces then E.WIN
      else if self_pieces = opp_pieces then E.DRAW
      else -E.WIN
    else E.UNKNOWN

/-! ## A small game for the examples

White to move at the root with one piece against two. The move `a` leaves
Black without a move; after `b` Black has the replies `d` and `e`; after `c`
Black has neither a piece nor a move. After `d` White has no move; after `e`
White has the one move `f`, after which Black has none. -/

/-- The moves of the small game. -/
def Demo.a : Move := ⟨0, 1⟩

/-- See `Demo.a`. -/
def Demo.b : Move := ⟨0, 2⟩

/-- See `Demo.a`. -/
def Demo.c : Move := ⟨0, 3⟩

/-- See `Demo.a`. -/
def Demo.d : Move := ⟨8, 9⟩

/-- See `Demo.a`. -/
def Demo.e : Move := ⟨8, 10⟩

/-- See `Demo.a`. -/
def Demo.f : Move := ⟨2, 4⟩

/-- The move lists of the small game, by the moves played so far (the last
one first). -/
def Demo.moves (b : Board) : List Move :=
  match b.move_stack_ with
  | [] => [Demo.c, Demo.a, Demo.b]
  | [⟨0, 2⟩] => [Demo.d, Demo.e]
  | [⟨8, 10⟩, ⟨0, 2⟩] => [Demo.f]
  | _ => []

/-- The side to move of the small game: White at the root, then in turn. -/
def Demo.side (b : Board) : Side :=
  if b.move_stack_.length % 2 = 0 then Side.WHITE else Side.BLACK

/-- The pieces of the small game: White has one piece and Black two, except
after `c`, when Black has none. -/
def Demo.bitboard (b : Board) (side : Side) : Nat :=
  match side with
  | Side.WHITE => 1
  | Side.BLACK =>
    match b.move_stack_ with
    | [⟨0, 3⟩] => 0
    | _ => 6

/-- The engine of the small game, before its evaluator is plugged in. -/
def Demo.base : Engine :=
  { INF_NODES := 1000000, WIN := 1000, DRAW := 0, UNKNOWN := -1, max_nodes_ := 1,
    GenerateMoves := Demo.moves,
    movegen_CountMoves := fun b => (Demo.moves b).length,
    CountMoves := fun _ b => (Demo.moves b).length,
    Result := fun _ => -1,
    SideToMove := Demo.side,
    BitBoard := Demo.bitboard,
    BISHOP := 3,
    BitBoardPiece := fun _ _ => 0,
    egtb_ := none,
    EGTBResult := fun _ => 0,
    timer_ := none,
    progress_due := fun _ _ => false,
    pn2_ramp := fun _ n => max n 1,
    double_div := fun d p => (d : ℚ) / (p : ℚ),
    DBL_MAX := 2 ^ 1024 - 2 ^ 971 }

/-- The engine of the small game, with the Suicide evaluator and room for one
node. -/
def Demo.engine : Engine := { Demo.base with Result := SuicideResult Demo.base }

/-- The engine of the small game with room for a hundred nodes. -/
def Demo.roomy : Engine := { Demo.engine with max_nodes_ := 100 }

/-- Parameters of a plain PN1 search. -/
def Demo.pn1 : PNSParams := PNSParams.nested

/-- Parameters of a PN2 search that spends the whole budget on each nested
search. -/
def Demo.pn2 : PNSParams :=
  { PNSParams.nested with pns_type := PNSType.PN2, pn2_full_search := true }

/-- A search object on the root of the small game, with a clean arena. -/
def Demo.start : PNSearch :=
  { pns_tree_buffer_ := fun _ => PNSNode.fresh, next_ := 1,
    board_ := Board.ofFEN "demo", timer_polls := 0, clock_reads := 0 }

/-- A search object on the position after `b` of the small game. -/
def Demo.afterB : PNSearch :=
  { Demo.start with board_ := (Board.ofFEN "demo").MakeMove Demo.b }

end Nakshatra

namespace Nakshatra

/-! ## The selection rule of `FindMpn` -/

/-- The test the inner loops of `FindMpn` apply to a child `c` of `x`: a
positive proof number when the proof number of `x` is `INF_NODES`, else a
disproof number equal to the proof number of `x`. -/
def MpnRule (E : Engine) (s : PNSearch) (x c : Nat) : Prop :=
  if (s.node x).proof = E.INF_NODES then 0 < (s.node c).proof
  else (s.node c).disproof = (s.node x).proof

/-- `c` is the first child of `x`, in arena order, that passes `MpnRule`. -/
def FirstChild (E : Engine) (s : PNSearch) (x c : Nat) : Prop :=
  c ∈ (s.node x).children_range ∧ MpnRule E s x c ∧
  ∀ c' ∈ (s.node x).children_range, c' < c → ¬ MpnRule E s x c'

/-- `Descent E s x path y`: from `x`, stepping each time to the first child
that passes `MpnRule`, one passes the nodes of `path` in turn and ends at the
childless node `y`. -/
inductive Descent (E : Engine) (s : PNSearch) : Nat → List Nat → Nat → Prop
  | stop (x : Nat) : (s.node x).children = none → Descent E s x [] x
  | step (x c y : Nat) (rest : List Nat) :
      (s.node x).children ≠ none → FirstChild E s x c → Descent E s c rest y →
      Descent E s x (c :: rest) y

/-- The pair of node `x` is neither `(INF_NODES, 0)` nor `(0, INF_NODES)`. -/
def Unsettled (E : Engine) (s : PNSearch) (x : Nat) : Prop :=
  ¬ ((s.node x).proof = E.INF_NODES ∧ (s.node x).disproof = 0) ∧
  ¬ ((s.node x).proof = 0 ∧ (s.node x).disproof = E.INF_NODES)

end Nakshatra

namespace Nakshatra

/-- The loop state of a PN1 search of the small game, from the position after
`b`, at the second test of the loop condition. -/
def Demo.secondTest : Option PnsLoop :=
  PnsAfter Demo.roomy (Pns Demo.roomy 0 5) 5 100 Demo.pn1 0 1 (PnsInit Demo.pn1 0 Demo.afterB)

end Nakshatra

namespace Nakshatra

/-- What a PN1 `Search` of the root of the small game returns, with room for
one node and an empty move list to fill. -/
def Demo.searchOut : Option (PNSearch × PNSResult) :=
  Search Demo.engine 1 5 Demo.pn1 ⟨[], 0⟩ Demo.start

/-- The child the small game's search builds for the move `c`. -/
def Demo.nodeC : PNSNode :=
  { move := Demo.c, parent := some 0, children := none, children_size := 0,
    proof := 0, disproof := 1000000, tree_size := 1 }

/-- The child the small game's search builds for the move `a`. -/
def Demo.nodeA : PNSNode :=
  { move := Demo.a, parent := some 0, children := none, children_size := 0,
    proof := 1000000, disproof := 0, tree_size := 1 }

/-- The child the small game's search builds for the move `b`. -/
def Demo.nodeB : PNSNode :=
  { move := Demo.b, parent := some 0, children := none, children_size := 0,
    proof := 1, disproof := 2, tree_size := 1 }

end Nakshatra

namespace Nakshatra

/-- The setting of the mate-in-one scenario: the evaluator of the engine is
the Suicide one, the two move counters agree, the result constants are
distinct, `INF_NODES` is positive, the `double` quotient is 0 for a zero
numerator and positive for a positive numerator and denominator, and
`DBL_MAX` is positive. -/
structure SuicideSetup (E : Engine) : Prop where
  evaluator : E.Result = SuicideResult E
  counts : ∀ b, E.CountMoves (E.SideToMove b) b = E.movegen_CountMoves b
  unknown_ne : E.UNKNOWN ≠ E.DRAW ∧ E.UNKNOWN ≠ E.WIN ∧ E.UNKNOWN ≠ -E.WIN
  draw_ne : E.DRAW ≠ -E.WIN
  inf_pos : 0 < E.INF_NODES
  div_zero : ∀ p, E.double_div 0 p = 0
  div_pos : ∀ d p, 0 < d → 0 < p → 0 < E.double_div d p
  max_pos : 0 < E.DBL_MAX

end Nakshatra

namespace Nakshatra

/-! ## The tablebase generator: data model -/

/-- `EGTBElement` (declared in the absent `egtb_gen.h`; the fields are those
`EGTBStore::Put` writes). -/
structure EGTBElement where
  fen : String
  moves_to_end : Int
  next_move : Move
  winner : Side
deriving DecidableEq, Repr

/-- `EGTBStore`: the member `store_`, a `std::map` from position strings to
elements, kept as the lookup function of the map. -/
structure EGTBStore where
  store_ : String → Option EGTBElement

/-- A default constructed `EGTBStore`. -/
def EGTBStore.empty : EGTBStore := ⟨fun _ => none⟩

/-- `EGTBStore::Get`: `none` is the null pointer. -/
def EGTBStore.Get (st : EGTBStore) (fen : String) : Option EGTBElement := st.store_ fen

/-- `EGTBStore::Put`: `store_[fen] = e`. -/
def EGTBStore.Put (st : EGTBStore) (fen : String) (moves_to_end : Int) (next_move : Move)
    (winner : Side) : EGTBStore :=
  ⟨fun k =>
    if k = fen then
      some { fen := fen, moves_to_end := moves_to_end, next_move := next_move, winner := winner }
    else st.store_ k⟩

/-- `EGTBStore::MergeFrom`: every element of the other map is assigned to its
key. -/
def EGTBStore.MergeFrom (st store : EGTBStore) : EGTBStore :=
  ⟨fun k =>
    match store.store_ k with
    | some e => some e
    | none => st.store_ k⟩

/-! ## The tablebase generator: one pass

The position strings are turned into boards by `Board.ofFEN`; the string of a
board after a move, `Board::ParseIntoFEN`, is the parameter `ParseIntoFEN`
(`board.cpp` is not part of the sources). The counters `superbest`,
`progress` and `i` of the source only feed `printf` and are left out. -/

/-- The locals of the move loops of a pass: the board and `count`, `best`,
`m`. -/
structure MoveScan where
  board : Board
  count : Int
  best : Int
  m : Move

/-- One run of the body of the move loop for a position with the winning side
to move. -/
def WinnerStep (ParseIntoFEN : Board → String) (winning_side : Side) (store : EGTBStore)
    (l : MoveScan) (move : Move) : MoveScan :=
  let board := l.board.MakeMove move
  let fen := ParseIntoFEN board
  let l1 : MoveScan :=
    match store.Get fen with
    | some e =>
      if e.winner = winning_side ∧ e.moves_to_end + 1 < l.best then
        { l with best := e.moves_to_end + 1, m := move, count := l.count + 1 }
      else l
    | none => l
  { l1 with board := board.UnmakeLastMove.2 }

/-- One run of the body of the move loop for a position with the other side
to move. -/
def LoserStep (ParseIntoFEN : Board → String) (winning_side : Side) (store : EGTBStore)
    (l : MoveScan) (move : Move) : MoveScan :=
  let board := l.board.MakeMove move
  let fen := ParseIntoFEN board
  let l1 : MoveScan :=
    match store.Get fen with
    | some e =>
      if e.winner = winning_side then
        let l2 : MoveScan :=
          if e.moves_to_end + 1 > l.best then
            { l with best := e.moves_to_end + 1, m := move }
          else l
        { l2 with count := l2.count + 1 }
      else l
    | none => l
  { l1 with board := board.UnmakeLastMove.2 }

/-- The branch of a pass for a position with the winning side to move: the
distance and the move to store, or `none` when the position stays in the
list. -/
def ClassifyWinner (E : Engine) (ParseIntoFEN : Board → String) (winning_side : Side)
    (store : EGTBStore) (fen : String) : Option (Int × Move) :=
  let board := Board.ofFEN fen
  let movelist := E.GenerateMoves board
  let l := movelist.foldl (WinnerStep ParseIntoFEN winning_side store)
    { board := board, count := 0, best := 10000, m := Move.null }
  if l.count ≥ 1 then some (l.best, l.m) else none

/-- The branch of a pass for a position with the other side to move. -/
def ClassifyLoser (E : Engine) (ParseIntoFEN : Board → String) (winning_side : Side)
    (store : EGTBStore) (fen : String) : Option (Int × Move) :=
  let board := Board.ofFEN fen
  let movelist := E.GenerateMoves board
  let l := movelist.foldl (LoserStep ParseIntoFEN winning_side store)
    { board := board, count := 0, best := -1, m := Move.null }
  if l.count = movelist.length then some (l.best, l.m) else none

/-- What a pass does with one position of the list. -/
def Classify (E : Engine) (ParseIntoFEN : Board → String) (winning_side : Side)
    (store : EGTBStore) (fen : String) : Option (Int × Move) :=
  if E.SideToMove (Board.ofFEN fen) = winning_side then
    ClassifyWinner E ParseIntoFEN winning_side store fen
  else ClassifyLoser E ParseIntoFEN winning_side store fen

/-- The locals a pass leaves: `all_pos_list` after the erasures, `temp_store`
and `deleted`. -/
structure PassOut where
  all_pos_list : List String
  temp_store : EGTBStore
  deleted : Bool

/-- The `for` loop over `all_pos_list` of one pass of the 3-argument
`Generate`, from the iterator on. -/
def GeneratePass (E : Engine) (ParseIntoFEN : Board → String) (winning_side : Side)
    (store : EGTBStore) : List String → EGTBStore → Bool → PassOut
  | [], temp_store, deleted =>
    { all_pos_list := [], temp_store := temp_store, deleted := deleted }
  | fen :: rest, temp_store, deleted =>
    match Classify E ParseIntoFEN winning_side store fen with
    | some (best, m) =>
      GeneratePass E ParseIntoFEN winning_side store rest
        (temp_store.Put fen best m winning_side) true
    | none =>
      let out := GeneratePass E ParseIntoFEN winning_side store rest temp_store deleted
      { out with all_pos_list := fen :: out.all_pos_list }

/-! ## The tablebase generator: the two `Generate` -/

/-- `EGTBGenerator::Generate` with three arguments: the `while (true)` loop,
with `fuel` bounding the number of passes (`none` when it runs out). Returns
`*store`. -/
def EGTBGenerator.Generate (E : Engine) (ParseIntoFEN : Board → String) :
    Nat → List String → Side → EGTBStore → Option EGTBStore
  | 0, _, _, _ => none
  | fuel + 1, all_pos_list, winning_side, store =>
    let out := GeneratePass E ParseIntoFEN winning_side store all_pos_list EGTBStore.empty false
    if !out.deleted then some store
    else
      EGTBGenerator.Generate E ParseIntoFEN fuel out.all_pos_list winning_side
        (store.MergeFrom out.temp_store)

/-- The first loop of the 4-argument `Generate`: the final positions go into
the store. -/
def SeedFinal (winning_side : Side) (final_pos_list : List String) (store : EGTBStore) :
    EGTBStore :=
  final_pos_list.foldl (fun st pos => st.Put pos 0 Move.null winning_side) store

/-- The second loop of the 4-argument `Generate`, from the iterator on: returns
`all_pos_list` after the erasures and the store. The evaluator is the Suicide
one, built without a tablebase. -/
def SeedAll (E : Engine) : List String → EGTBStore → List String × EGTBStore
  | [], store => ([], store)
  | fen :: rest, store =>
    let board := Board.ofFEN fen
    let result := SuicideResult E board
    if result = E.WIN then
      SeedAll E rest (store.Put fen 0 Move.null (E.SideToMove board))
    else if result = -E.WIN then
      SeedAll E rest (store.Put fen 0 Move.null (OppositeSide (E.SideToMove board)))
    else if result = E.DRAW then
      SeedAll E rest store
    else
      let out := SeedAll E rest store
      (fen :: out.1, out.2)

/-- `EGTBGenerator::Generate` with four arguments. -/
def EGTBGenerator.Generate4 (E : Engine) (ParseIntoFEN : Board → String) (fuel : Nat)
    (final_pos_list all_pos_list : List String) (winning_side : Side) (store : EGTBStore) :
    Option EGTBStore :=
  let store1 := SeedFinal winning_side final_pos_list store
  let seeded := SeedAll E all_pos_list store1
  EGTBGenerator.Generate E ParseIntoFEN fuel seeded.1 winning_side seeded.2

/-! ## The tablebase generator: the successive stores -/

/-- The values `*store` takes during the first loop of the 4-argument
`Generate`, one per `Put`. -/
def SeedFinalStores (winning_side : Side) : List String → EGTBStore → List EGTBStore
  | [], _ => []
  | pos :: rest, store =>
    store.Put pos 0 Move.null winning_side ::
      SeedFinalStores winning_side rest (store.Put pos 0 Move.null winning_side)

/-- The values `*store` takes during the second loop of the 4-argument
`Generate`, one per `Put`. -/
def SeedAllStores (E : Engine) : List String → EGTBStore → List EGTBStore
  | [], _ => []
  | fen :: rest, store =>
    let board := Board.ofFEN fen
    let result := SuicideResult E board
    if result = E.WIN then
      store.Put fen 0 Move.null (E.SideToMove board) ::
        SeedAllStores E rest (store.Put fen 0 Move.null (E.SideToMove board))
    else if result = -E.WIN then
      store.Put fen 0 Move.null (OppositeSide (E.SideToMove board)) ::
        SeedAllStores E rest (store.Put fen 0 Move.null (OppositeSide (E.SideToMove board)))
    else SeedAllStores E rest store

/-- The values `*store` takes during the 3-argument `Generate`, one per
`MergeFrom`, for at most `fuel` passes. -/
def GenerateStores (E : Engine) (ParseIntoFEN : Board → String) :
    Nat → List String → Side → EGTBStore → List EGTBStore
  | 0, _, _, _ => []
  | fuel + 1, all_pos_list, winning_side, store =>
    let out := GeneratePass E ParseIntoFEN winning_side store all_pos_list EGTBStore.empty false
    if !out.deleted then []
    else
      store.MergeFrom out.temp_store ::
        GenerateStores E ParseIntoFEN fuel out.all_pos_list winning_side
          (store.MergeFrom out.temp_store)

/-- The values `*store` takes during the 4-argument `Generate`: the store it
is given, then one value per `Put` of the seeding and per `MergeFrom` of the
passes. -/
def Generate4Stores (E : Engine) (ParseIntoFEN : Board → String) (fuel : Nat)
    (final_pos_list all_pos_list : List String) (winning_side : Side) (store : EGTBStore) :
    List EGTBStore :=
  let store1 := SeedFinal winning_side final_pos_list store
  let seeded := SeedAll E all_pos_list store1
  store :: (SeedFinalStores winning_side final_pos_list store ++
    (SeedAllStores E all_pos_list store1 ++
      GenerateStores E ParseIntoFEN fuel seeded.1 winning_side seeded.2))

/-! ## The tablebase generator: notions for the statements -/

/-- The distance a move offers: one more than the distance of the position it
leads to, when that position is in the store for the winning side. -/
def Offer (ParseIntoFEN : Board → String) (winning_side : Side) (store : EGTBStore)
    (board : Board) (move : Move) : Option Int :=
  match store.Get (ParseIntoFEN (board.MakeMove move)) with
  | some e => if e.winner = winning_side then some (e.moves_to_end + 1) else none
  | none => none

/-- The property of a stored position `k` with element `e` that the fixed
point is about: with the winning side to move, some legal move leads to a
stored position with the winning side as winner and distance one less; with
the other side to move, every legal move leads to a stored position with the
winning side as winner, and the largest distance among them is one less. -/
def Settled (E : Engine) (ParseIntoFEN : Board → String) (winning_side : Side)
    (store : EGTBStore) (k : String) (e : EGTBElement) : Prop :=
  if E.SideToMove (Board.ofFEN k) = winning_side then
    ∃ mv ∈ E.GenerateMoves (Board.ofFEN k), ∃ e2,
      store.Get (ParseIntoFEN ((Board.ofFEN k).MakeMove mv)) = some e2 ∧
      e2.winner = winning_side ∧ e2.moves_to_end = e.moves_to_end - 1
  else
    (∀ mv ∈ E.GenerateMoves (Board.ofFEN k), ∃ e2,
      store.Get (ParseIntoFEN ((Board.ofFEN k).MakeMove mv)) = some e2 ∧
      e2.winner = winning_side ∧ e2.moves_to_end ≤ e.moves_to_end - 1) ∧
    (∃ mv ∈ E.GenerateMoves (Board.ofFEN k), ∃ e2,
      store.Get (ParseIntoFEN ((Board.ofFEN k).MakeMove mv)) = some e2 ∧
      e2.winner = winning_side ∧ e2.moves_to_end = e.moves_to_end - 1)

/-- Every element of `store` is, unchanged, in `store2`. -/
def Extends (store store2 : EGTBStore) : Prop :=
  ∀ k e, store.Get k = some e → store2.Get k = some e

/-- What holds between two passes: no position of the list is in the store,
and every stored position with a positive distance is settled. -/
structure GenInv (E : Engine) (ParseIntoFEN : Board → String) (winning_side : Side)
    (all_pos_list : List String) (store : EGTBStore) : Prop where
  fresh : ∀ fen ∈ all_pos_list, store.Get fen = none
  settled : ∀ k e, store.Get k = some e → 0 < e.moves_to_end →
    Settled E ParseIntoFEN winning_side store k e

/-- Every position present in `store` is present in `store2`. -/
def Stays (store store2 : EGTBStore) : Prop :=
  ∀ k, store.Get k ≠ none → store2.Get k ≠ none

/-- No element of `store` has in `store2` a strictly larger `moves_to_end`. -/
def NoLarger (store store2 : EGTBStore) : Prop :=
  ∀ k e e2, store.Get k = some e → store2.Get k = some e2 → e2.moves_to_end ≤ e.moves_to_end

end Nakshatra

namespace Nakshatra

/-! ## A small endgame for the examples

White is the winning side. `f` is a final position. In `w1` White moves to
`f`. In `b2` Black moves to `w1` or to `f`. In `u` White moves to `z`, which
is in no list. `t`, `l` and `d` are positions without a move, with White to
move and fewer, more and as many pieces as Black. -/

/-- The move lists of the small endgame. -/
def Tiny.moves (b : Board) : List Move :=
  if b.move_stack_ = [] then
    if b.fen = "w1" then [⟨1, 0⟩]
    else if b.fen = "b2" then [⟨2, 1⟩, ⟨2, 0⟩]
    else if b.fen = "u" then [⟨3, 4⟩]
    else []
  else []

/-- The side to move of the small endgame: Black in `b2`, else White. -/
def Tiny.side (b : Board) : Side :=
  if b.fen = "b2" then Side.BLACK else Side.WHITE

/-- The pieces of the small endgame. -/
def Tiny.bitboard (b : Board) (side : Side) : Nat :=
  if b.fen = "t" then (match side with | Side.WHITE => 1 | Side.BLACK => 6)
  else if b.fen = "l" then (match side with | Side.WHITE => 6 | Side.BLACK => 1)
  else 1

/-- The position strings of the small endgame after a move. -/
def Tiny.ParseIntoFEN (b : Board) : String :=
  if b.move_stack_ = [] then b.fen
  else if b.fen = "w1" then "f"
  else if b.fen = "b2" then (if b.move_stack_ = [⟨2, 1⟩] then "w1" else "f")
  else "z"

/-- The engine of the small endgame. -/
def Tiny.engine : Engine :=
  { Demo.base with
    GenerateMoves := Tiny.moves,
    movegen_CountMoves := fun b => (Tiny.moves b).length,
    CountMoves := fun _ b => (Tiny.moves b).length,
    SideToMove := Tiny.side,
    BitBoard := Tiny.bitboard }

/-- What the 4-argument `Generate` returns on the small endgame, with `f`
final and `w1`, `b2`, `u`, `t`, `l`, `d` in the list. -/
def Tiny.generated : Option EGTBStore :=
  EGTBGenerator.Generate4 Tiny.engine Tiny.ParseIntoFEN 7 ["f"] ["b2", "w1", "u", "t", "l", "d"]
    Side.WHITE EGTBStore.empty

/-- A search object whose arena holds a line of four moves under the root in
which the third move takes back the first and the fourth takes back the
second: node `i + 1` is the only child of node `i`. -/
def Demo.shuffle : PNSearch :=
  { Demo.start with
    pns_tree_buffer_ := fun i =>
      if i = 1 then { PNSNode.fresh with parent := some 0, move := ⟨1, 2⟩ }
      else if i = 2 then { PNSNode.fresh with parent := some 1, move := ⟨5, 6⟩ }
      else if i = 3 then { PNSNode.fresh with parent := some 2, move := ⟨2, 1⟩ }
      else if i = 4 then { PNSNode.fresh with parent := some 3, move := ⟨6, 5⟩ }
      else PNSNode.fresh,
    next_ := 5 }

/-- The nested search a PN2 `Expand` of the position after `b` of the small
game runs, with room for one node. -/
def Demo.nested : Option (PNSearch × Int) :=
  Pns Demo.engine 1 5 (PnNodes Demo.engine Demo.pn2 0) PNSParams.nested 0 Demo.afterB

end Nakshatra

namespace Nakshatra

/-! ## Further notions for the statements -/

/-- The working set and the store at the start of pass `k` (counting from 0)
of the 3-argument `Generate`, when the loop gets that far. -/
def GenerateAfter (E : Engine) (ParseIntoFEN : Board → String) (winning_side : Side) :
    Nat → List String → EGTBStore → Option (List String × EGTBStore)
  | 0, all_pos_list, store => some (all_pos_list, store)
  | k + 1, all_pos_list, store =>
    let out := GeneratePass E ParseIntoFEN winning_side store all_pos_list EGTBStore.empty false
    if !out.deleted then none
    else
      GenerateAfter E ParseIntoFEN winning_side k out.all_pos_list
        (store.MergeFrom out.temp_store)

/-- A pair of proof and disproof numbers is consistent: the proof number is 0
only next to the disproof number `INF_NODES`, and the disproof number is 0 only
next to the proof number `INF_NODES`. -/
def ConsistentPair (E : Engine) (n : PNSNode) : Prop :=
  (n.proof = 0 → n.disproof = E.INF_NODES) ∧ (n.disproof = 0 → n.proof = E.INF_NODES)

/-- The colour of a square, as the parity of its row plus its column. -/
def SquareParity (i : Nat) : Nat := (i / 8 + i % 8) % 2

/-! ## A game with a drawn reply

White to move at the root has the one move `g`, after which Black has no
move; each side has one piece, so the position after `g` is drawn. -/

/-- The move lists of the game with a drawn reply. -/
def Stale.moves (b : Board) : List Move :=
  if b.move_stack_ = [] then [⟨0, 1⟩] else []

/-- The engine of the game with a drawn reply, before its evaluator is
plugged in. -/
def Stale.base : Engine :=
  { Demo.base with
    GenerateMoves := Stale.moves,
    movegen_CountMoves := fun b => (Stale.moves b).length,
    CountMoves := fun _ b => (Stale.moves b).length,
    BitBoard := fun _ _ => 1 }

/-- The engine of the game with a drawn reply, with the Suicide evaluator. -/
def Stale.engine : Engine := { Stale.base with Result := SuicideResult Stale.base }

/-- The loop state of a PN1 search of the game with a drawn reply, with room
for a hundred nodes, at the second test of the loop condition. -/
def Stale.secondTest : Option PnsLoop :=
  PnsAfter Stale.engine (Pns Stale.engine 0 5) 5 100 Demo.pn1 0 1 (PnsInit Demo.pn1 0 Demo.start)

/-- What `FindMpn` returns at the second run of the loop body of that search:
the pair of the root, the node returned, and the pair and the `children` of
that node. -/
def Stale.secondMpn : Option (Nat × Nat × Nat × Nat × Nat × Option Nat) :=
  Stale.secondTest.bind (fun l =>
    if (PnsCond Stale.engine 100 0 l).1 then
      (FindMpn Stale.engine 5 l.cur_node l.depth l.s).map (fun out =>
        ((l.s.node 0).proof, (l.s.node 0).disproof, out.1,
          (out.2.2.node out.1).proof, (out.2.2.node out.1).disproof,
          (out.2.2.node out.1).children))
    else none)

/-! ## A position with two lone bishops -/

/-- An engine whose boards hold a white bishop on square 2 and a black bishop
on square 5, and nothing else. -/
def Bishops.engine : Engine :=
  { Demo.base with
    BitBoard := fun _ side => match side with | Side.WHITE => 4 | Side.BLACK => 32,
    BitBoardPiece := fun _ piece => if piece = 3 then 4 else if piece = -3 then 32 else 0 }

/-- What holds at the start of pass `k` of the 3-argument `Generate` when it
began with all distances 0 and a move in every position of the list: the
stored distances lie between 0 and `k`; a position of the list with the
winning side to move has no offer below `k + 1`, and one with the other side
to move has a move without an offer below `k + 1`. -/
structure Layered (E : Engine) (ParseIntoFEN : Board → String) (winning_side : Side)
    (k : Nat) (all_pos_list : List String) (store : EGTBStore) : Prop where
  range : ∀ key e, store.Get key = some e → 0 ≤ e.moves_to_end ∧ e.moves_to_end ≤ k
  winner : ∀ fen ∈ all_pos_list, E.SideToMove (Board.ofFEN fen) = winning_side →
    ∀ mv ∈ E.GenerateMoves (Board.ofFEN fen), ∀ v,
      Offer ParseIntoFEN winning_side store (Board.ofFEN fen) mv = some v → (k : Int) + 1 ≤ v
  loser : ∀ fen ∈ all_pos_list, E.SideToMove (Board.ofFEN fen) ≠ winning_side →
    ∃ mv ∈ E.GenerateMoves (Board.ofFEN fen), ∀ v,
      Offer ParseIntoFEN winning_side store (Board.ofFEN fen) mv = some v → (k : Int) + 1 ≤ v

/-- The list and the store of the small endgame at the start of pass 1, after
the seeding of the final position `f`. -/
def Tiny.pass1 : Option (List String × EGTBStore) :=
  GenerateAfter Tiny.engine Tiny.ParseIntoFEN Side.WHITE 1 ["b2", "w1", "u"]
    (SeedFinal Side.WHITE ["f"] EGTBStore.empty)

end Nakshatra

namespace Nakshatra

/-- State `t` has the leaves of `s`: the arena cursor and every `children`
link are those of `s`, and every node that has no children in `s` is
unchanged. -/
def SameLeaves (s t : PNSearch) : Prop :=
  t.next_ = s.next_ ∧
  ∀ i, (t.node i).children = (s.node i).children ∧
    ((s.node i).children = none → t.node i = s.node i)

/-- Every node of the tree that has no children holds a consistent pair. -/
def LeavesConsistent (E : Engine) (s : PNSearch) (r n0 : Nat) : Prop :=
  ∀ i, InTree r n0 s.next_ i → (s.node i).children = none → ConsistentPair E (s.node i)

end Nakshatra

namespace Nakshatra

/-! ## Basic facts about the arena and the board -/

@[simp] theorem node_mk (t : Nat → PNSNode) (nx : Nat) (b : Board) (tp cr i : Nat) :
    (PNSearch.mk t nx b tp cr).node i = t i := rfl

@[simp] theorem node_setNode_same (s : PNSearch) (p : Nat) (n : PNSNode) :
    (s.setNode p n).node p = n := by
  simp [PNSearch.setNode, PNSearch.node]

@[simp] theorem node_setNode_ne (s : PNSearch) {p i : Nat} (n : PNSNode) (h : i ≠ p) :
    (s.setNode p n).node i = s.node i := by
  simp [PNSearch.setNode, PNSearch.node, Function.update_noteq h]

theorem node_setNode (s : PNSearch) (p i : Nat) (n : PNSNode) :
    (s.setNode p n).node i = if i = p then n else s.node i := by
  by_cases h : i = p
  · subst h; simp
  · simp [h]

@[simp] theorem next_setNode (s : PNSearch) (p : Nat) (n : PNSNode) :
    (s.setNode p n).next_ = s.next_ := rfl

@[simp] theorem board_setNode (s : PNSearch) (p : Nat) (n : PNSNode) :
    (s.setNode p n).board_ = s.board_ := rfl

@[simp] theorem polls_setNode (s : PNSearch) (p : Nat) (n : PNSNode) :
    (s.setNode p n).timer_polls = s.timer_polls := rfl

@[simp] theorem reads_setNode (s : PNSearch) (p : Nat) (n : PNSNode) :
    (s.setNode p n).clock_reads = s.clock_reads := rfl

theorem setNode_setNode (s : PNSearch) (p : Nat) (n n' : PNSNode) :
    (s.setNode p n).setNode p n' = s.setNode p n' := by
  simp [PNSearch.setNode]

theorem setNode_self (s : PNSearch) (p : Nat) : s.setNode p (s.node p) = s := by
  simp [PNSearch.setNode, PNSearch.node]

@[simp] theorem unmake_make (b : Board) (m : Move) :
    (b.MakeMove m).UnmakeLastMove = (true, b) := rfl

theorem mem_children_range {n : PNSNode} {k : Nat} :
    k ∈ n.children_range ↔
      ∃ c, n.children = some c ∧ c ≤ k ∧ k < c + n.children_size := by
  unfold PNSNode.children_range
  cases h : n.children with
  | none => simp
  | some c => simp [List.mem_range'_1]

theorem children_range_none {n : PNSNode} (h : n.children = none) :
    n.children_range = [] := by
  simp [PNSNode.children_range, h]

theorem children_range_some {n : PNSNode} {c : Nat} (h : n.children = some c) :
    n.children_range = List.range' c n.children_size := by
  simp [PNSNode.children_range, h]

/-- The `tree_size` loop, when the node is not one of its own children: one
store of `1 +` the sum over the children. -/
theorem RefreshTreeSize_eq (s : PNSearch) (x : Nat)
    (hx : x ∉ (s.node x).children_range) :
    RefreshTreeSize s x =
      s.setNode x { s.node x with tree_size := 1 + ((s.kids x).map PNSNode.tree_size).sum } := by
  have key : ∀ (L : List Nat) (a : Nat), x ∉ L →
      L.foldl (fun t child =>
          t.setNode x { t.node x with
            tree_size := (t.node x).tree_size + (t.node child).tree_size })
        (s.setNode x { s.node x with tree_size := a }) =
      s.setNode x { s.node x with
        tree_size := a + ((L.map s.node).map PNSNode.tree_size).sum } := by
    intro L
    induction L with
    | nil => intro a _; simp
    | cons c L ih =>
      intro a hc
      have hcx : c ≠ x := fun h => hc (by simp [h])
      have hL : x ∉ L := fun h => hc (by simp [h])
      simp only [List.foldl_cons, node_setNode_same, node_setNode_ne _ _ hcx, setNode_setNode]
      rw [ih _ hL]
      simp [Nat.add_assoc]
  unfold RefreshTreeSize PNSearch.kids
  exact key _ 1 hx

end Nakshatra

namespace Nakshatra

/-! ## Updates that only change the numbers of one node -/

theorem LinksEq.rfl' (a : PNSNode) : LinksEq a a := ⟨rfl, rfl, rfl, rfl⟩

theorem Touch.links_all {s t : PNSearch} {x : Nat} (h : Touch s t x) (i : Nat) :
    LinksEq (t.node i) (s.node i) := by
  by_cases hi : i = x
  · subst hi; exact h.links
  · rw [h.others i hi]; exact LinksEq.rfl' _

theorem Touch.children {s t : PNSearch} {x : Nat} (h : Touch s t x) (i : Nat) :
    (t.node i).children = (s.node i).children := (h.links_all i).2.2.1

theorem Touch.children_size {s t : PNSearch} {x : Nat} (h : Touch s t x) (i : Nat) :
    (t.node i).children_size = (s.node i).children_size := (h.links_all i).2.2.2

theorem Touch.parent {s t : PNSearch} {x : Nat} (h : Touch s t x) (i : Nat) :
    (t.node i).parent = (s.node i).parent := (h.links_all i).2.1

theorem Touch.move {s t : PNSearch} {x : Nat} (h : Touch s t x) (i : Nat) :
    (t.node i).move = (s.node i).move := (h.links_all i).1

theorem Touch.range {s t : PNSearch} {x : Nat} (h : Touch s t x) (i : Nat) :
    (t.node i).children_range = (s.node i).children_range := by
  unfold PNSNode.children_range
  rw [h.children i, h.children_size i]

theorem Touch.refl (s : PNSearch) (x : Nat) : Touch s s x :=
  ⟨rfl, fun _ _ => rfl, LinksEq.rfl' _⟩

theorem Touch.trans {s t u : PNSearch} {x : Nat} (h1 : Touch s t x) (h2 : Touch t u x) :
    Touch s u x := by
  refine ⟨h2.next_eq.trans h1.next_eq, fun i hi => (h2.others i hi).trans (h1.others i hi), ?_⟩
  obtain ⟨a, b, c, d⟩ := h1.links
  obtain ⟨a', b', c', d'⟩ := h2.links
  exact ⟨a'.trans a, b'.trans b, c'.trans c, d'.trans d⟩

theorem Touch.setNode (s : PNSearch) (x : Nat) (n : PNSNode) (h : LinksEq n (s.node x)) :
    Touch s (s.setNode x n) x :=
  ⟨rfl, fun i hi => node_setNode_ne s n hi, by simpa using h⟩

theorem Touch.board (s : PNSearch) (x : Nat) (b : Board) :
    Touch s { s with board_ := b } x :=
  ⟨rfl, fun _ _ => rfl, LinksEq.rfl' _⟩

theorem Touch.kids_of_not_mem {s t : PNSearch} {x : Nat} (h : Touch s t x) {i : Nat}
    (hx : x ∉ (s.node i).children_range) : t.kids i = s.kids i := by
  unfold PNSearch.kids
  rw [h.range i]
  apply List.map_congr_left
  intro k hk
  exact h.others k (fun e => hx (e ▸ hk))

theorem Touch.shape_of_touch {E : Engine} {s t : PNSearch} {x r n0 : Nat} (h : Touch s t x)
    (hs : Shape E s r n0) : Shape E t r n0 := by
  have hn := h.next_eq
  constructor
  · exact hs.root_lt
  · rw [hn]; exact hs.le_next
  · intro i c hi hc
    rw [hn] at hi ⊢
    rw [h.children i] at hc
    rw [h.children_size i]
    obtain ⟨a, b, c', d, e⟩ := hs.block i c hi hc
    exact ⟨a, b, c', d, fun k hk1 hk2 => by rw [h.parent k]; exact e k hk1 hk2⟩
  · intro i hi hc
    rw [hn] at hi
    rw [h.children i] at hc
    rw [h.children_size i]
    exact hs.leaf i hi hc
  · intro k hk1 hk2
    rw [hn] at hk2
    obtain ⟨p, c, a, b, c', d⟩ := hs.up k hk1 hk2
    refine ⟨p, c, ?_, ?_, ?_, ?_⟩
    · rw [h.parent k]; exact a
    · rw [hn]; exact b
    · rw [h.children p]; exact c'
    · rw [h.children_size p]; exact d
  · intro c hc
    rw [h.children r] at hc
    exact hs.root_block c hc
  · intro i hi
    rw [hn] at hi
    rw [h.children_size i]
    exact hs.moves i hi

theorem Touch.chain {s t : PNSearch} {x r : Nat} (h : Touch s t x) {y : Nat} {path : List Nat}
    (hc : Chain s r y path) : Chain t r y path := by
  induction hc with
  | root => exact Chain.root
  | step y p rest hy hp _ ih =>
    exact Chain.step y p rest hy (by rw [h.parent y]; exact hp) ih

theorem Touch.boardAt {s t : PNSearch} {x : Nat} (h : Touch s t x) (b0 : Board)
    (path : List Nat) : BoardAt t b0 path = BoardAt s b0 path := by
  unfold BoardAt
  congr 2
  apply List.map_congr_left
  intro i _
  exact h.move i

theorem Touch.framed_of_touch {s0 s t : PNSearch} {x r : Nat} (h : Touch s t x)
    (hx : x = r ∨ s0.next_ ≤ x) (hf : Framed s0 s r) : Framed s0 t r := by
  refine ⟨fun i hi hir => ?_, ?_, ?_⟩
  · have : i ≠ x := by
      rcases hx with hx | hx
      · rw [hx]; exact hir
      · omega
    rw [h.others i this]
    exact hf.frame i hi hir
  · rw [h.parent r]; exact hf.root_parent
  · rw [h.move r]; exact hf.root_move

/-! ## Folds over the children only read the children -/

theorem foldl_congr_mem {α β : Type} {f g : β → α → β} (L : List α)
    (h : ∀ b, ∀ a ∈ L, f b a = g b a) (b : β) : L.foldl f b = L.foldl g b := by
  induction L generalizing b with
  | nil => rfl
  | cons a L ih =>
    simp only [List.foldl_cons]
    rw [h b a (by simp)]
    exact ih (fun b a ha => h b a (by simp [ha])) _

theorem ProofOfChildren_congr (E : Engine) (L : List Nat) (f g : Nat → PNSNode)
    (h : ∀ k ∈ L, (f k).disproof = (g k).disproof) :
    ProofOfChildren E (L.map f) = ProofOfChildren E (L.map g) := by
  unfold ProofOfChildren
  rw [List.foldl_map, List.foldl_map]
  apply foldl_congr_mem
  intro b a ha
  rw [h a ha]

theorem DisproofOfChildren_congr (E : Engine) (L : List Nat) (f g : Nat → PNSNode)
    (h : ∀ k ∈ L, (f k).proof = (g k).proof) :
    DisproofOfChildren E (L.map f) = DisproofOfChildren E (L.map g) := by
  unfold DisproofOfChildren
  rw [List.foldl_map, List.foldl_map]
  apply foldl_congr_mem
  intro b a ha
  rw [h a ha]

/-- `ArithOK` at `i` only reads the pair of `i`, its child block and the pairs
of its children. -/
theorem ArithOK_congr {E : Engine} {s t : PNSearch} {i : Nat}
    (hr : (t.node i).children_range = (s.node i).children_range)
    (hp : (t.node i).proof = (s.node i).proof)
    (hd : (t.node i).disproof = (s.node i).disproof)
    (hk : ∀ k ∈ (s.node i).children_range,
      (t.node k).proof = (s.node k).proof ∧ (t.node k).disproof = (s.node k).disproof)
    (h : ArithOK E s i) : ArithOK E t i := by
  unfold ArithOK PNSearch.kids at *
  rw [hr, hp, hd]
  rw [ProofOfChildren_congr E _ t.node s.node (fun k hk' => (hk k hk').2),
    DisproofOfChildren_congr E _ t.node s.node (fun k hk' => (hk k hk').1)]
  exact h

/-- `SizeOK` at `i` only reads the size of `i`, its child block and the sizes
of its children. -/
theorem SizeOK_congr {s t : PNSearch} {i : Nat}
    (hr : (t.node i).children_range = (s.node i).children_range)
    (hz : (t.node i).tree_size = (s.node i).tree_size)
    (hk : ∀ k ∈ (s.node i).children_range, (t.node k).tree_size = (s.node k).tree_size)
    (h : SizeOK s i) : SizeOK t i := by
  unfold SizeOK PNSearch.kids at *
  rw [hr, hz, h]
  congr 2
  rw [List.map_map, List.map_map]
  apply List.map_congr_left
  intro k hk'
  exact (hk k hk').symm

end Nakshatra

namespace Nakshatra

/-! ## Consequences of the shape of the tree -/

theorem InTree.mono {r n0 nx nx' i : Nat} (h : InTree r n0 nx i) (hle : nx ≤ nx') :
    InTree r n0 nx' i := by
  rcases h with h | ⟨h1, h2⟩
  · exact Or.inl h
  · exact Or.inr ⟨h1, by omega⟩

theorem Shape.range_facts {E : Engine} {s : PNSearch} {r n0 i k : Nat}
    (hs : Shape E s r n0) (hi : InTree r n0 s.next_ i)
    (hk : k ∈ (s.node i).children_range) :
    (s.node k).parent = some i ∧ n0 ≤ k ∧ k < s.next_ ∧ i < k := by
  obtain ⟨c, hc, h1, h2⟩ := mem_children_range.mp hk
  obtain ⟨a, b, _, d, e⟩ := hs.block i c hi hc
  exact ⟨e k h1 h2, by omega, by omega, by omega⟩

theorem Shape.inTree_of_mem {E : Engine} {s : PNSearch} {r n0 i k : Nat}
    (hs : Shape E s r n0) (hi : InTree r n0 s.next_ i)
    (hk : k ∈ (s.node i).children_range) : InTree r n0 s.next_ k := by
  obtain ⟨_, a, b, _⟩ := hs.range_facts hi hk
  exact Or.inr ⟨a, b⟩

theorem Shape.not_mem_own {E : Engine} {s : PNSearch} {r n0 i : Nat}
    (hs : Shape E s r n0) (hi : InTree r n0 s.next_ i) :
    i ∉ (s.node i).children_range := by
  intro hk
  have := (hs.range_facts hi hk).2.2.2
  omega

theorem Shape.root_not_mem {E : Engine} {s : PNSearch} {r n0 i : Nat}
    (hs : Shape E s r n0) (hi : InTree r n0 s.next_ i) :
    r ∉ (s.node i).children_range := by
  intro hk
  have := (hs.range_facts hi hk).2.1
  have := hs.root_lt
  omega

theorem Shape.parent_unique {E : Engine} {s : PNSearch} {r n0 i k p : Nat}
    (hs : Shape E s r n0) (hi : InTree r n0 s.next_ i)
    (hk : k ∈ (s.node i).children_range) (hp : (s.node k).parent = some p) : i = p := by
  have := (hs.range_facts hi hk).1
  rw [this] at hp
  exact Option.some.inj hp

theorem Shape.parent_inTree {E : Engine} {s : PNSearch} {r n0 x p : Nat}
    (hs : Shape E s r n0) (hx : InTree r n0 s.next_ x) (hxr : x ≠ r)
    (hp : (s.node x).parent = some p) :
    InTree r n0 s.next_ p ∧ x ∈ (s.node p).children_range := by
  rcases hx with hx | ⟨h1, h2⟩
  · exact absurd hx hxr
  · obtain ⟨q, c, a, b, c', d1, d2⟩ := hs.up x h1 h2
    rw [a] at hp
    have hq : q = p := Option.some.inj hp
    subst hq
    exact ⟨b, mem_children_range.mpr ⟨c, c', d1, d2⟩⟩

/-! ## Chains -/

theorem Chain.root_nil {s : PNSearch} {r : Nat} {path : List Nat} (h : Chain s r r path) :
    path = [] := by
  cases h with
  | root => rfl
  | step _ _ _ hx _ _ => exact absurd rfl hx

theorem Chain.cons_inv {s : PNSearch} {r x : Nat} {path : List Nat} (h : Chain s r x path)
    (hx : x ≠ r) :
    ∃ p rest, path = x :: rest ∧ (s.node x).parent = some p ∧ Chain s r p rest := by
  cases h with
  | root => exact absurd rfl hx
  | step _ p rest _ hp hc => exact ⟨p, rest, rfl, hp, hc⟩

theorem Chain.head_mem {s : PNSearch} {r x : Nat} {path : List Nat} (h : Chain s r x path) :
    x ∈ path ++ [r] := by
  cases h with
  | root => simp
  | step _ _ _ _ _ _ => simp

theorem Chain.full_eq {s : PNSearch} {r x : Nat} {path : List Nat} (h : Chain s r x path) :
    ∃ rest, path ++ [r] = x :: rest := by
  cases h with
  | root => exact ⟨[], rfl⟩
  | step _ _ rest _ _ _ => exact ⟨rest ++ [r], rfl⟩

/-! ## One node of `UpdateAncestors` -/

theorem UpdateNode_leaf (E : Engine) (s : PNSearch) (x : Nat)
    (h : (s.node x).children = none) : UpdateNode E s x = (false, s) := by
  simp [UpdateNode, h]

/-- On a node with children that is not its own child, `UpdateNode` stores the
fresh size, and the fresh pair unless the pair is already the fresh one. -/
theorem UpdateNode_inner (E : Engine) (s : PNSearch) (x : Nat)
    (h : (s.node x).children ≠ none) (hx : x ∉ (s.node x).children_range) :
    ∃ t stop, UpdateNode E s x = (stop, t) ∧ Touch s t x ∧ SizeOK t x ∧ ArithOK E t x ∧
      (t.node x).tree_size = 1 + ((s.kids x).map PNSNode.tree_size).sum ∧
      t.board_ = s.board_ ∧
      (stop = true → (t.node x).proof = (s.node x).proof ∧
        (t.node x).disproof = (s.node x).disproof) := by
  obtain ⟨c, hc⟩ := Option.ne_none_iff_exists'.mp h
  have hr := RefreshTreeSize_eq s x hx
  have hT1 : Touch s (RefreshTreeSize s x) x := by
    rw [hr]; exact Touch.setNode s x _ ⟨rfl, rfl, rfl, rfl⟩
  have hk1 : (RefreshTreeSize s x).kids x = s.kids x := hT1.kids_of_not_mem hx
  have hn1 : (RefreshTreeSize s x).node x =
      { s.node x with tree_size := 1 + ((s.kids x).map PNSNode.tree_size).sum } := by
    rw [hr]; simp
  by_cases hpair : ((RefreshTreeSize s x).node x).proof = ProofOfChildren E (s.kids x) ∧
      ((RefreshTreeSize s x).node x).disproof = DisproofOfChildren E (s.kids x)
  · refine ⟨RefreshTreeSize s x, true, ?_, hT1, ?_, ?_, ?_, ?_, ?_⟩
    · simp only [UpdateNode, hc]
      exact if_pos hpair
    · unfold SizeOK; rw [hk1, hn1]
    · unfold ArithOK; rw [hk1]; exact hpair
    · rw [hn1]
    · rw [hr]; rfl
    · intro _; rw [hn1]; exact ⟨rfl, rfl⟩
  · refine ⟨(RefreshTreeSize s x).setNode x
        { (RefreshTreeSize s x).node x with
          proof := ProofOfChildren E (s.kids x),
          disproof := DisproofOfChildren E (s.kids x) }, false, ?_, ?_, ?_, ?_, ?_, ?_, ?_⟩
    · simp only [UpdateNode, hc]
      exact if_neg hpair
    · exact hT1.trans (Touch.setNode _ x _ ⟨rfl, rfl, rfl, rfl⟩)
    · have hT2 : Touch s ((RefreshTreeSize s x).setNode x
        { (RefreshTreeSize s x).node x with
          proof := ProofOfChildren E (s.kids x),
          disproof := DisproofOfChildren E (s.kids x) }) x :=
        hT1.trans (Touch.setNode _ x _ ⟨rfl, rfl, rfl, rfl⟩)
      unfold SizeOK; rw [hT2.kids_of_not_mem hx]; simp [hn1]
    · have hT2 : Touch s ((RefreshTreeSize s x).setNode x
        { (RefreshTreeSize s x).node x with
          proof := ProofOfChildren E (s.kids x),
          disproof := DisproofOfChildren E (s.kids x) }) x :=
        hT1.trans (Touch.setNode _ x _ ⟨rfl, rfl, rfl, rfl⟩)
      unfold ArithOK; rw [hT2.kids_of_not_mem hx]; simp
    · simp [hn1]
    · rw [board_setNode, hr]; rfl
    · intro h; exact absurd h (by simp)

end Nakshatra

namespace Nakshatra

/-! ## `UpdateAncestors` -/

theorem UpdateNode_facts (E : Engine) (s : PNSearch) (r n0 x : Nat)
    (hS : Shape E s r n0) (hx : InTree r n0 s.next_ x) :
    ∃ t stop, UpdateNode E s x = (stop, t) ∧ Touch s t x ∧ t.board_ = s.board_ ∧
      ((s.node x).children ≠ none → SizeOK t x ∧ ArithOK E t x) ∧
      (stop = true → (s.node x).children ≠ none ∧
        (t.node x).proof = (s.node x).proof ∧ (t.node x).disproof = (s.node x).disproof) := by
  by_cases hc : (s.node x).children = none
  · exact ⟨s, false, UpdateNode_leaf E s x hc, Touch.refl s x, rfl,
      fun h => absurd hc h, fun h => absurd h (by simp)⟩
  · obtain ⟨t, stop, h1, h2, h3, h4, _, h6, h7⟩ :=
      UpdateNode_inner E s x hc (hS.not_mem_own hx)
    exact ⟨t, stop, h1, h2, h6, fun _ => ⟨h3, h4⟩, fun h => ⟨hc, h7 h⟩⟩

theorem Touch.arith_other {E : Engine} {s t : PNSearch} {x i : Nat} (h : Touch s t x)
    (hi : i ≠ x)
    (hx : x ∉ (s.node i).children_range ∨
      ((t.node x).proof = (s.node x).proof ∧ (t.node x).disproof = (s.node x).disproof))
    (ha : ArithOK E s i) : ArithOK E t i := by
  apply ArithOK_congr (h.range i) _ _ _ ha
  · rw [h.others i hi]
  · rw [h.others i hi]
  · intro k hk
    by_cases hkx : k = x
    · subst hkx
      rcases hx with hx | hx
      · exact absurd hk hx
      · exact hx
    · rw [h.others k hkx]; exact ⟨rfl, rfl⟩

theorem Touch.size_other {s t : PNSearch} {x i : Nat} (h : Touch s t x)
    (hi : i ≠ x) (hx : x ∉ (s.node i).children_range)
    (ha : SizeOK s i) : SizeOK t i := by
  apply SizeOK_congr (h.range i) _ _ ha
  · rw [h.others i hi]
  · intro k hk
    have hkx : k ≠ x := fun e => hx (e ▸ hk)
    rw [h.others k hkx]

theorem BoardAt_cons_unmake (s : PNSearch) (b0 : Board) (x : Nat) (rest : List Nat) :
    (BoardAt s b0 (x :: rest)).UnmakeLastMove = (true, BoardAt s b0 rest) := rfl

/-- `UpdateAncestors`, started at a node `x` of the chain with everything but
`x` (and the parent of a childless `x`) up to date, returns with the whole
tree up to date and the walk at the node it returns. -/
theorem UpdateAncestors_spec (E : Engine) (s0 : PNSearch) (r : Nat) (b0 : Board) :
    ∀ (fuel x : Nat) (depth : Int) (s : PNSearch) (path : List Nat) (cur : Nat)
      (depth' : Int) (s' : PNSearch),
    Shape E s r s0.next_ → Framed s0 s r → OnPath s r s0.next_ b0 x depth path →
    ArithButFor E s r s0.next_ (UADirty s x) →
    SizesButFor s r s0.next_ (path ++ [r]) →
    UpdateAncestors E fuel x r depth s = some (cur, depth', s') →
    ∃ path', Shape E s' r s0.next_ ∧ Framed s0 s' r ∧
      OnPath s' r s0.next_ b0 cur depth' path' ∧
      ArithButFor E s' r s0.next_ (fun _ => False) ∧
      SizesButFor s' r s0.next_ (path' ++ [r]).tail ∧ s'.next_ = s.next_ := by
  intro fuel
  induction fuel with
  | zero => intro x depth s path cur depth' s' _ _ _ _ _ h; simp [UpdateAncestors] at h
  | succ f ih =>
    intro x depth s path cur depth' s' hS hF hP hA hZ hU
    have hxT := hP.inT
    obtain ⟨t, stop, hUN, hT, hB, hIn, hStop⟩ := UpdateNode_facts E s r s0.next_ x hS hxT
    have hn : t.next_ = s.next_ := hT.next_eq
    have hSt : Shape E t r s0.next_ := hT.shape_of_touch hS
    have hxT' : x = r ∨ s0.next_ ≤ x := by
      rcases hxT with h | ⟨h, _⟩
      · exact Or.inl h
      · exact Or.inr h
    have hFt : Framed s0 t r := hT.framed_of_touch hxT' hF
    obtain ⟨tl, hfull⟩ := hP.chain.full_eq
    -- a node that has `x` among its children is the next node of the chain
    have hpar : ∀ i, InTree r s0.next_ s.next_ i → x ∈ (s.node i).children_range →
        i ∈ tl := by
      intro i hi hxi
      have hxr : x ≠ r := fun e => hS.root_not_mem hi (e ▸ hxi)
      obtain ⟨p, rest, hp1, hp2, hp3⟩ := hP.chain.cons_inv hxr
      have hip : i = p := hS.parent_unique hi hxi hp2
      rw [hp1] at hfull
      simp only [List.cons_append, List.cons.injEq, true_and] at hfull
      rw [← hfull, hip]
      exact hp3.head_mem
    unfold UpdateAncestors at hU
    rw [hUN] at hU
    cases stop with
    | true =>
      simp only at hU
      obtain ⟨hcx, hpx⟩ := hStop rfl
      have e1 : x = cur := by injection hU with h; exact (Prod.mk.inj h).1
      have e2 : depth = depth' := by injection hU with h; exact (Prod.mk.inj (Prod.mk.inj h).2).1
      have e3 : t = s' := by injection hU with h; exact (Prod.mk.inj (Prod.mk.inj h).2).2
      subst e1 e2 e3
      refine ⟨path, hSt, hFt, ⟨?_, hT.chain hP.chain, hP.depth_eq, ?_⟩, ?_, ?_, hn⟩
      · rw [hn]; exact hxT
      · rw [hB, hT.boardAt]; exact hP.board_eq
      · intro i hi hci _
        rw [hn] at hi
        rw [hT.children i] at hci
        by_cases hix : i = x
        · subst hix; exact (hIn hcx).2
        · refine hT.arith_other hix (Or.inr hpx) (hA i hi hci ?_)
          rintro (h | ⟨h, _⟩)
          · exact hix h
          · exact hcx h
      · intro i hi hci hnot
        rw [hn] at hi
        rw [hT.children i] at hci
        rw [hfull, List.tail_cons] at hnot
        by_cases hix : i = x
        · subst hix; exact (hIn hcx).1
        · have hxi : x ∉ (s.node i).children_range := fun h => hnot (hpar i hi h)
          refine hT.size_other hix hxi (hZ i hi hci ?_)
          rw [hfull]
          simp only [List.mem_cons, not_or]
          exact ⟨hix, hnot⟩
    | false =>
      simp only at hU
      have hstale : ∀ i, InTree r s0.next_ s.next_ i → (s.node i).children ≠ none →
          i ∉ tl → SizeOK t i := by
        intro i hi hci hnot
        by_cases hix : i = x
        · subst hix; exact (hIn hci).1
        · have hxi : x ∉ (s.node i).children_range := fun h => hnot (hpar i hi h)
          refine hT.size_other hix hxi (hZ i hi hci ?_)
          rw [hfull]
          simp only [List.mem_cons, not_or]
          exact ⟨hix, hnot⟩
      have harith : ∀ i, InTree r s0.next_ s.next_ i → (s.node i).children ≠ none →
          x ∉ (s.node i).children_range → ArithOK E t i := by
        intro i hi hci hxi
        by_cases hix : i = x
        · subst hix; exact (hIn hci).2
        · refine hT.arith_other hix (Or.inl hxi) (hA i hi hci ?_)
          rintro (h | ⟨_, h⟩)
          · exact hix h
          · exact hxi h
      by_cases hxr : x = r
      · rw [if_pos hxr] at hU
        have e1 : x = cur := by injection hU with h; exact (Prod.mk.inj h).1
        have e2 : depth = depth' := by injection hU with h; exact (Prod.mk.inj (Prod.mk.inj h).2).1
        have e3 : t = s' := by injection hU with h; exact (Prod.mk.inj (Prod.mk.inj h).2).2
        subst e1 e2 e3
        refine ⟨path, hSt, hFt, ⟨?_, hT.chain hP.chain, hP.depth_eq, ?_⟩, ?_, ?_, hn⟩
        · rw [hn]; exact hxT
        · rw [hB, hT.boardAt]; exact hP.board_eq
        · intro i hi hci _
          rw [hn] at hi
          rw [hT.children i] at hci
          exact harith i hi hci (hxr ▸ hS.root_not_mem hi)
        · intro i hi hci hnot
          rw [hn] at hi
          rw [hT.children i] at hci
          rw [hfull, List.tail_cons] at hnot
          exact hstale i hi hci hnot
      · rw [if_neg hxr] at hU
        obtain ⟨p, rest, hp1, hp2, hp3⟩ := hP.chain.cons_inv hxr
        obtain ⟨hpT, hxp⟩ := hS.parent_inTree hxT hxr hp2
        rw [hT.parent x, hp2] at hU
        simp only at hU
        have hb : t.board_.UnmakeLastMove = (true, BoardAt s b0 rest) := by
          rw [hB, hP.board_eq, hp1]; rfl
        rw [hb] at hU
        simp only at hU
        have htl : tl = rest ++ [r] := by
          rw [hp1] at hfull
          simp only [List.cons_append, List.cons.injEq, true_and] at hfull
          exact hfull.symm
        have hTb : Touch s { t with board_ := BoardAt s b0 rest } x :=
          hT.trans (Touch.board t x _)
        have hpc : (s.node p).children ≠ none := by
          obtain ⟨c, hc, _⟩ := mem_children_range.mp hxp
          rw [hc]; simp
        obtain ⟨path', h1, h2, h3, h4, h5, h6⟩ := ih p (depth - 1)
          { t with board_ := BoardAt s b0 rest } rest cur depth' s'
          (hTb.shape_of_touch hS) (hTb.framed_of_touch hxT' hF)
          ⟨by show InTree r s0.next_ t.next_ p; rw [hn]; exact hpT, hTb.chain hp3,
            by rw [hP.depth_eq, hp1]; simp,
            by rw [hTb.boardAt]⟩
          (by
            intro i hi hci hnd
            have hi' : InTree r s0.next_ s.next_ i := by
              have : InTree r s0.next_ t.next_ i := hi
              rw [hn] at this; exact this
            have hci' : (s.node i).children ≠ none := by
              rw [← hTb.children i]; exact hci
            have hip : i ≠ p := fun e => hnd (Or.inl e)
            have hxi : x ∉ (s.node i).children_range :=
              fun h => hip (hS.parent_unique hi' h hp2)
            exact harith i hi' hci' hxi)
          (by
            intro i hi hci hnot
            have hi' : InTree r s0.next_ s.next_ i := by
              have : InTree r s0.next_ t.next_ i := hi
              rw [hn] at this; exact this
            have hci' : (s.node i).children ≠ none := by
              rw [← hTb.children i]; exact hci
            exact hstale i hi' hci' (by rw [htl]; exact hnot))
          hU
        exact ⟨path', h1, h2, h3, h4, h5, h6.trans hn⟩

end Nakshatra

namespace Nakshatra

/-! ## `FindMpn` -/

theorem SelectChild_mem_or_self (E : Engine) (s : PNSearch) (x : Nat) :
    SelectChild E s x ∈ (s.node x).children_range ∨ SelectChild E s x = x := by
  unfold SelectChild
  split
  · cases h : List.find? (fun c => decide ((s.node c).proof ≠ 0)) (s.node x).children_range with
    | none => right; rfl
    | some c => left; exact List.mem_of_find?_eq_some h
  · cases h : List.find? (fun c => decide ((s.node x).proof = (s.node c).disproof))
        (s.node x).children_range with
    | none => right; rfl
    | some c => left; exact List.mem_of_find?_eq_some h

theorem SelectChild_board (E : Engine) (s : PNSearch) (b : Board) (x : Nat) :
    SelectChild E { s with board_ := b } x = SelectChild E s x := rfl

/-- When the inner loop of `FindMpn` finds no child, the outer loop never
ends. -/
theorem FindMpn_stuck (E : Engine) (x : Nat) :
    ∀ (fuel : Nat) (depth : Int) (s : PNSearch),
      (s.node x).children ≠ none → SelectChild E s x = x →
      FindMpn E fuel x depth s = none := by
  intro fuel
  induction fuel with
  | zero => intro _ _ _ _; rfl
  | succ f ih =>
    intro depth s hc hsel
    obtain ⟨c, hc'⟩ := Option.ne_none_iff_exists'.mp hc
    unfold FindMpn
    rw [hc']
    simp only
    rw [hsel]
    exact ih _ _ hc hsel

theorem BoardAt_make (s : PNSearch) (b0 : Board) (k : Nat) (path : List Nat) :
    (BoardAt s b0 path).MakeMove (s.node k).move = BoardAt s b0 (k :: path) := rfl

/-- `FindMpn` walks down from a node of the tree to a childless node of the
tree, extends the chain by the nodes it passes and leaves the arena as it
is. -/
theorem FindMpn_spec (E : Engine) (r n0 : Nat) (b0 : Board) :
    ∀ (fuel x : Nat) (depth : Int) (s : PNSearch) (path : List Nat) (mpn : Nat)
      (depth' : Int) (s' : PNSearch),
    Shape E s r n0 → OnPath s r n0 b0 x depth path →
    FindMpn E fuel x depth s = some (mpn, depth', s') →
    ∃ ext, OnPath s' r n0 b0 mpn depth' (ext ++ path) ∧
      (s'.node mpn).children = none ∧ s' = { s with board_ := s'.board_ } := by
  intro fuel
  induction fuel with
  | zero => intro x depth s path mpn depth' s' _ _ h; simp [FindMpn] at h
  | succ f ih =>
    intro x depth s path mpn depth' s' hS hP hF
    unfold FindMpn at hF
    cases hc : (s.node x).children with
    | none =>
      rw [hc] at hF
      simp only at hF
      have e1 : x = mpn := by injection hF with h; exact (Prod.mk.inj h).1
      have e2 : depth = depth' := by injection hF with h; exact (Prod.mk.inj (Prod.mk.inj h).2).1
      have e3 : s = s' := by injection hF with h; exact (Prod.mk.inj (Prod.mk.inj h).2).2
      subst e1 e2 e3
      exact ⟨[], hP, hc, rfl⟩
    | some c =>
      rw [hc] at hF
      simp only at hF
      rcases SelectChild_mem_or_self E s x with hm | hself
      · obtain ⟨hpar, hk1, hk2, hk3⟩ := hS.range_facts hP.inT hm
        have hkr : SelectChild E s x ≠ r := by
          have := hS.root_lt; omega
        have hTb : Touch s
            { s with board_ := (s.board_.MakeMove (s.node (SelectChild E s x)).move) } x :=
          Touch.board s x _
        obtain ⟨ext, h1, h2, h3⟩ := ih (SelectChild E s x) (depth + 1) _
          (SelectChild E s x :: path) mpn depth' s' (hTb.shape_of_touch hS)
          ⟨Or.inr ⟨hk1, hk2⟩, hTb.chain (Chain.step _ x path hkr hpar hP.chain),
            by rw [hP.depth_eq]; simp,
            by show s.board_.MakeMove _ = _; rw [hP.board_eq]; rfl⟩ hF
        refine ⟨ext ++ [SelectChild E s x], ?_, h2, ?_⟩
        · rw [List.append_assoc]; exact h1
        · rw [h3]
      · rw [hself] at hF
        have hne : (s.node x).children ≠ none := by rw [hc]; simp
        have := FindMpn_stuck E x f (depth + 1)
          { s with board_ := (s.board_.MakeMove (s.node x).move) } hne hself
        rw [this] at hF
        exact absurd hF (by simp)

/-! ## The closing loop of `Pns` -/

theorem Touch.arith_same_pair {E : Engine} {s t : PNSearch} {x : Nat} (h : Touch s t x)
    (hp : (t.node x).proof = (s.node x).proof ∧ (t.node x).disproof = (s.node x).disproof)
    (i : Nat) (ha : ArithOK E s i) : ArithOK E t i := by
  have hall : ∀ k, (t.node k).proof = (s.node k).proof ∧
      (t.node k).disproof = (s.node k).disproof := by
    intro k
    by_cases hk : k = x
    · subst hk; exact hp
    · rw [h.others k hk]; exact ⟨rfl, rfl⟩
  exact ArithOK_congr (h.range i) (hall i).1 (hall i).2 (fun k _ => hall k) ha

theorem UpdateTreeSize_inner (s : PNSearch) (x : Nat)
    (h : (s.node x).children ≠ none) (hx : x ∉ (s.node x).children_range) :
    Touch s (UpdateTreeSize s x) x ∧ SizeOK (UpdateTreeSize s x) x ∧
      ((UpdateTreeSize s x).node x).proof = (s.node x).proof ∧
      ((UpdateTreeSize s x).node x).disproof = (s.node x).disproof ∧
      (UpdateTreeSize s x).board_ = s.board_ := by
  obtain ⟨c, hc⟩ := Option.ne_none_iff_exists'.mp h
  have hu : UpdateTreeSize s x = RefreshTreeSize s x := by
    simp [UpdateTreeSize, hc]
  have hr := RefreshTreeSize_eq s x hx
  have hT : Touch s (UpdateTreeSize s x) x := by
    rw [hu, hr]; exact Touch.setNode s x _ ⟨rfl, rfl, rfl, rfl⟩
  refine ⟨hT, ?_, ?_, ?_, ?_⟩
  · unfold SizeOK
    rw [hT.kids_of_not_mem hx, hu, hr]; simp
  · rw [hu, hr]; simp
  · rw [hu, hr]; simp
  · rw [hu, hr]; rfl

theorem BoardAt_nil (s : PNSearch) (b0 : Board) : BoardAt s b0 [] = b0 := rfl

/-- The closing loop of `Pns` walks back to the root, brings the sizes of the
nodes it passes up to date and takes their moves back. -/
theorem PnsUnwind_spec (E : Engine) (s0 : PNSearch) (r : Nat) (b0 : Board) :
    ∀ (fuel cur : Nat) (depth : Int) (s : PNSearch) (path : List Nat)
      (depth' : Int) (s' : PNSearch),
    Shape E s r s0.next_ → Framed s0 s r → OnPath s r s0.next_ b0 cur depth path →
    ArithButFor E s r s0.next_ (fun _ => False) →
    SizesButFor s r s0.next_ (path ++ [r]).tail →
    PnsUnwind fuel r cur depth s = some (depth', s') →
    Shape E s' r s0.next_ ∧ Framed s0 s' r ∧
      ArithButFor E s' r s0.next_ (fun _ => False) ∧
      SizesButFor s' r s0.next_ [] ∧ depth' = 0 ∧ s'.board_ = b0 ∧
      s'.next_ = s.next_ := by
  intro fuel
  induction fuel with
  | zero => intro cur depth s path depth' s' _ _ _ _ _ h; simp [PnsUnwind] at h
  | succ f ih =>
    intro cur depth s path depth' s' hS hF hP hA hZ hU
    unfold PnsUnwind at hU
    by_cases hcr : cur = r
    · rw [if_pos hcr] at hU
      have e1 : depth = depth' := by injection hU with h; exact (Prod.mk.inj h).1
      have e2 : s = s' := by injection hU with h; exact (Prod.mk.inj h).2
      subst e1 e2
      subst hcr
      have hnil := hP.chain.root_nil
      subst hnil
      refine ⟨hS, hF, hA, ?_, ?_, ?_, rfl⟩
      · simpa using hZ
      · rw [hP.depth_eq]; simp
      · rw [hP.board_eq]; rfl
    · rw [if_neg hcr] at hU
      obtain ⟨p, rest, hp1, hp2, hp3⟩ := hP.chain.cons_inv hcr
      obtain ⟨hpT, hxp⟩ := hS.parent_inTree hP.inT hcr hp2
      rw [hp2] at hU
      simp only at hU
      have hb : s.board_.UnmakeLastMove = (true, BoardAt s b0 rest) := by
        rw [hP.board_eq, hp1]; rfl
      rw [hb] at hU
      simp only at hU
      have hpc : (s.node p).children ≠ none := by
        obtain ⟨c, hc, _⟩ := mem_children_range.mp hxp
        rw [hc]; simp
      have hTb : Touch s { s with board_ := BoardAt s b0 rest } p := Touch.board s p _
      obtain ⟨hT2, hZp, hpp, hpd, hbb⟩ :=
        UpdateTreeSize_inner { s with board_ := BoardAt s b0 rest } p hpc (hS.not_mem_own hpT)
      have hT : Touch s (UpdateTreeSize { s with board_ := BoardAt s b0 rest } p) p :=
        hTb.trans hT2
      have hn := hT.next_eq
      have hpT' : p = r ∨ s0.next_ ≤ p := by
        rcases hpT with h | ⟨h, _⟩
        · exact Or.inl h
        · exact Or.inr h
      obtain ⟨tl, hfull⟩ := hp3.full_eq
      obtain ⟨h1, h2, h3, h4, h5, h6, h7⟩ := ih p (depth - 1) _ rest depth' s'
        (hT.shape_of_touch hS) (hT.framed_of_touch hpT' hF)
        ⟨by rw [hn]; exact hpT, hT.chain hp3, by rw [hP.depth_eq, hp1]; simp,
          by rw [hbb, hT.boardAt]⟩
        (by
          intro i hi hci _
          rw [hn] at hi
          rw [hT.children i] at hci
          exact hT.arith_same_pair ⟨hpp, hpd⟩ i (hA i hi hci (fun h => h)))
        (by
          intro i hi hci hnot
          rw [hn] at hi
          rw [hT.children i] at hci
          rw [hfull, List.tail_cons] at hnot
          by_cases hip : i = p
          · subst hip; exact hZp
          · have hpi : p ∉ (s.node i).children_range := by
              intro hmem
              have hpr : p ≠ r := fun e => hS.root_not_mem hi (e ▸ hmem)
              obtain ⟨q, rest', hq1, hq2, hq3⟩ := hp3.cons_inv hpr
              have hiq : i = q := hS.parent_unique hi hmem hq2
              rw [hq1] at hfull
              simp only [List.cons_append, List.cons.injEq, true_and] at hfull
              apply hnot
              rw [← hfull, hiq]
              exact hq3.head_mem
            refine hT.size_other hip hpi (hZ i hi hci ?_)
            rw [hp1, List.cons_append, List.tail_cons, hfull]
            simp only [List.mem_cons, not_or]
            exact ⟨hip, hnot⟩)
        hU
      exact ⟨h1, h2, h3, h4, h5, h6, h7.trans hn⟩

end Nakshatra

namespace Nakshatra

/-! ## The slots above the cursor do not matter -/

theorem InTree.lt_next {E : Engine} {s : PNSearch} {r n0 i : Nat} (hS : Shape E s r n0)
    (hi : InTree r n0 s.next_ i) : i < s.next_ := by
  rcases hi with h | ⟨_, h⟩
  · have := hS.root_lt; have := hS.le_next; omega
  · exact h

theorem Shape.kid_lt {E : Engine} {s : PNSearch} {r n0 i k : Nat} (hS : Shape E s r n0)
    (hi : InTree r n0 s.next_ i) (hk : k ∈ (s.node i).children_range) : k < s.next_ :=
  (hS.range_facts hi hk).2.2.1

theorem Chain.chain_inTree {E : Engine} {s : PNSearch} {r n0 x : Nat} {path : List Nat}
    (hS : Shape E s r n0) (hx : InTree r n0 s.next_ x) (hc : Chain s r x path) :
    ∀ y ∈ path, InTree r n0 s.next_ y := by
  induction hc with
  | root => intro y hy; simp at hy
  | step x p rest hxr hp _ ih =>
    intro y hy
    rcases List.mem_cons.mp hy with h | h
    · rw [h]; exact hx
    · exact ih (hS.parent_inTree hx hxr hp).1 y h

theorem Chain.congr {s t : PNSearch} {r x : Nat} {path : List Nat}
    (h : ∀ y ∈ path, (t.node y).parent = (s.node y).parent) (hc : Chain s r x path) :
    Chain t r x path := by
  induction hc with
  | root => exact Chain.root
  | step x p rest hxr hp _ ih =>
    refine Chain.step x p rest hxr ?_ (ih (fun y hy => h y (by simp [hy])))
    rw [h x (by simp)]; exact hp

theorem BoardAt_congr {s t : PNSearch} (b0 : Board) {path : List Nat}
    (h : ∀ y ∈ path, (t.node y).move = (s.node y).move) :
    BoardAt t b0 path = BoardAt s b0 path := by
  unfold BoardAt
  congr 2
  exact List.map_congr_left h

theorem AgreeBelow.inTree_iff {s t : PNSearch} (h : AgreeBelow s t) {r n0 i : Nat} :
    InTree r n0 t.next_ i ↔ InTree r n0 s.next_ i := by
  rw [h.next_eq]

theorem AgreeBelow.shape_of_agree {E : Engine} {s t : PNSearch} {r n0 : Nat} (h : AgreeBelow s t)
    (hS : Shape E s r n0) : Shape E t r n0 := by
  have hn := h.next_eq
  have hnode : ∀ i, InTree r n0 s.next_ i → t.node i = s.node i :=
    fun i hi => h.nodes i (InTree.lt_next hS hi)
  constructor
  · exact hS.root_lt
  · rw [hn]; exact hS.le_next
  · intro i c hi hc
    rw [hn] at hi ⊢
    rw [hnode i hi] at hc ⊢
    obtain ⟨a, b, c', d, e⟩ := hS.block i c hi hc
    refine ⟨a, b, c', d, fun k hk1 hk2 => ?_⟩
    rw [h.nodes k (by omega)]
    exact e k hk1 hk2
  · intro i hi hc
    rw [hn] at hi
    rw [hnode i hi] at hc ⊢
    exact hS.leaf i hi hc
  · intro k hk1 hk2
    rw [hn] at hk2
    obtain ⟨p, c, a, b, c', d⟩ := hS.up k hk1 hk2
    refine ⟨p, c, ?_, ?_, ?_, ?_⟩
    · rw [h.nodes k hk2]; exact a
    · rw [hn]; exact b
    · rw [hnode p b]; exact c'
    · rw [hnode p b]; exact d
  · intro c hc
    rw [hnode r (Or.inl rfl)] at hc
    exact hS.root_block c hc
  · intro i hi
    rw [hn] at hi
    rw [hnode i hi]
    exact hS.moves i hi

theorem AgreeBelow.framed_of_agree {E : Engine} {s0 s t : PNSearch} {r : Nat} (h : AgreeBelow s t)
    (hS : Shape E s r s0.next_) (hF : Framed s0 s r) : Framed s0 t r := by
  have hr : t.node r = s.node r := h.nodes r (InTree.lt_next hS (Or.inl rfl))
  refine ⟨fun i hi hir => ?_, ?_, ?_⟩
  · rw [h.nodes i (lt_of_lt_of_le hi hS.le_next)]
    exact hF.frame i hi hir
  · rw [hr]; exact hF.root_parent
  · rw [hr]; exact hF.root_move

theorem AgreeBelow.onPath {E : Engine} {s t : PNSearch} {r n0 x : Nat} {b0 : Board}
    {depth : Int} {path : List Nat} (h : AgreeBelow s t) (hS : Shape E s r n0)
    (hP : OnPath s r n0 b0 x depth path) : OnPath t r n0 b0 x depth path := by
  have hall := Chain.chain_inTree hS hP.inT hP.chain
  have hnode : ∀ y ∈ path, t.node y = s.node y :=
    fun y hy => h.nodes y (InTree.lt_next hS (hall y hy))
  refine ⟨h.inTree_iff.mpr hP.inT, Chain.congr (fun y hy => by rw [hnode y hy]) hP.chain,
    hP.depth_eq, ?_⟩
  rw [h.board_eq, BoardAt_congr (s := s) (t := t) b0 (fun y hy => by rw [hnode y hy])]
  exact hP.board_eq

theorem AgreeBelow.kids {E : Engine} {s t : PNSearch} {r n0 i : Nat} (h : AgreeBelow s t)
    (hS : Shape E s r n0) (hi : InTree r n0 s.next_ i) : t.kids i = s.kids i := by
  unfold PNSearch.kids
  rw [h.nodes i (InTree.lt_next hS hi)]
  apply List.map_congr_left
  intro k hk
  exact h.nodes k (hS.kid_lt hi hk)

theorem AgreeBelow.arith {E : Engine} {s t : PNSearch} {r n0 i : Nat} (h : AgreeBelow s t)
    (hS : Shape E s r n0) (hi : InTree r n0 s.next_ i) (ha : ArithOK E s i) :
    ArithOK E t i := by
  unfold ArithOK at *
  rw [h.kids hS hi, h.nodes i (InTree.lt_next hS hi)]
  exact ha

theorem AgreeBelow.size {E : Engine} {s t : PNSearch} {r n0 i : Nat} (h : AgreeBelow s t)
    (hS : Shape E s r n0) (hi : InTree r n0 s.next_ i) (ha : SizeOK s i) :
    SizeOK t i := by
  unfold SizeOK at *
  rw [h.kids hS hi, h.nodes i (InTree.lt_next hS hi)]
  exact ha

/-- While the root has no children nothing has been allocated. -/
theorem Shape.next_eq_of_root_leaf {E : Engine} {s : PNSearch} {r n0 : Nat}
    (hS : Shape E s r n0) (hr : (s.node r).children = none) : s.next_ = n0 := by
  by_contra hne
  have hlt : n0 < s.next_ := lt_of_le_of_ne hS.le_next (Ne.symm hne)
  obtain ⟨p, c, _, hp, hc, h1, _⟩ := hS.up n0 (le_refl _) hlt
  obtain ⟨_, h2, _⟩ := hS.block p c hp hc
  rcases hp with hp | ⟨hp, _⟩
  · rw [hp] at hc; rw [hr] at hc; exact absurd hc (by simp)
  · omega

/-! ## A childless node changes its numbers -/

/-- A step that only changes the numbers of a childless node `mpn` of the
tree (and slots above the cursor) keeps the tree well shaped and the walk in
place; only the parent of `mpn` may have out of date numbers afterwards. -/
theorem leaf_update (E : Engine) (s0 s s2 : PNSearch) (r : Nat) (b0 : Board) (mpn : Nat)
    (depth : Int) (path : List Nat)
    (hS : Shape E s r s0.next_) (hF : Framed s0 s r)
    (hP : OnPath s r s0.next_ b0 mpn depth path)
    (hleaf : (s.node mpn).children = none)
    (hA : ArithButFor E s r s0.next_ (fun _ => False))
    (hZ : SizesButFor s r s0.next_ (path ++ [r]).tail)
    (hn : s2.next_ = s.next_) (hb : s2.board_ = s.board_)
    (hold : ∀ i, i < s.next_ → i ≠ mpn → s2.node i = s.node i)
    (hl : LinksEq (s2.node mpn) (s.node mpn)) :
    Shape E s2 r s0.next_ ∧ Framed s0 s2 r ∧ OnPath s2 r s0.next_ b0 mpn depth path ∧
      ArithButFor E s2 r s0.next_ (fun i => i = mpn ∨ mpn ∈ (s2.node i).children_range) ∧
      SizesButFor s2 r s0.next_ (path ++ [r]).tail := by
  have hmT := hP.inT
  have hT : Touch s (s.setNode mpn (s2.node mpn)) mpn := Touch.setNode s mpn _ hl
  have hAg : AgreeBelow (s.setNode mpn (s2.node mpn)) s2 := by
    refine ⟨hn, hb, fun i hi => ?_⟩
    by_cases him : i = mpn
    · subst him; simp
    · rw [node_setNode_ne _ _ him]; exact hold i hi him
  have hSm : Shape E (s.setNode mpn (s2.node mpn)) r s0.next_ := hT.shape_of_touch hS
  have hmT' : mpn = r ∨ s0.next_ ≤ mpn := by
    rcases hmT with h | ⟨h, _⟩
    · exact Or.inl h
    · exact Or.inr h
  obtain ⟨tl, hfull⟩ := hP.chain.full_eq
  have hpar : ∀ i, InTree r s0.next_ s.next_ i → mpn ∈ (s.node i).children_range →
      i ∈ tl := by
    intro i hi hxi
    have hxr : mpn ≠ r := fun e => hS.root_not_mem hi (e ▸ hxi)
    obtain ⟨p, rest, hp1, hp2, hp3⟩ := hP.chain.cons_inv hxr
    have hip : i = p := hS.parent_unique hi hxi hp2
    rw [hp1] at hfull
    simp only [List.cons_append, List.cons.injEq, true_and] at hfull
    rw [← hfull, hip]
    exact hp3.head_mem
  refine ⟨hAg.shape_of_agree hSm, hAg.framed_of_agree hSm (hT.framed_of_touch hmT' hF), ?_, ?_, ?_⟩
  · apply hAg.onPath hSm
    exact ⟨hmT, hT.chain hP.chain, hP.depth_eq, by
      rw [board_setNode, hT.boardAt]; exact hP.board_eq⟩
  · intro i hi hci hnd
    have hi' : InTree r s0.next_ s.next_ i := by rw [hn] at hi; exact hi
    have hnode : s2.node i = (s.setNode mpn (s2.node mpn)).node i :=
      hAg.nodes i (InTree.lt_next hSm hi')
    have him : i ≠ mpn := fun e => hnd (Or.inl e)
    have hci' : (s.node i).children ≠ none := by
      rw [hnode, node_setNode_ne _ _ him] at hci; exact hci
    have hxi : mpn ∉ (s.node i).children_range := by
      intro hmem
      apply hnd; right
      rw [hnode, node_setNode_ne _ _ him]; exact hmem
    exact hAg.arith hSm hi' (hT.arith_other him (Or.inl hxi) (hA i hi' hci' (fun h => h)))
  · intro i hi hci hnot
    have hi' : InTree r s0.next_ s.next_ i := by rw [hn] at hi; exact hi
    have hnode : s2.node i = (s.setNode mpn (s2.node mpn)).node i :=
      hAg.nodes i (InTree.lt_next hSm hi')
    rw [hfull, List.tail_cons] at hnot
    have hci' : (s.node i).children ≠ none := by
      rw [hnode, hT.children i] at hci; exact hci
    have him : i ≠ mpn := fun e => hci' (e ▸ hleaf)
    have hxi : mpn ∉ (s.node i).children_range := fun h => hnot (hpar i hi' h)
    refine hAg.size hSm hi' (hT.size_other him hxi (hZ i hi' hci' ?_))
    rw [hfull, List.tail_cons]; exact hnot

end Nakshatra

namespace Nakshatra

/-! ## A childless node receives a block of children -/

/-- A step that gives the childless node `mpn` of the tree a block of `k`
childless children at the cursor, and moves the cursor past the block, keeps
the tree well shaped and the walk in place. The numbers of the other nodes
stay up to date, except those of the parent of `mpn` when the pair of `mpn`
changed. -/
theorem graft (E : Engine) (s0 s s2 : PNSearch) (r : Nat) (b0 : Board) (mpn : Nat)
    (depth : Int) (path : List Nat) (k : Nat)
    (hS : Shape E s r s0.next_) (hF : Framed s0 s r)
    (hP : OnPath s r s0.next_ b0 mpn depth path)
    (hleaf : (s.node mpn).children = none)
    (hA : ArithButFor E s r s0.next_ (fun _ => False))
    (hZ : SizesButFor s r s0.next_ (path ++ [r]).tail)
    (hk : 0 < k) (hn : s2.next_ = s.next_ + k) (hb : s2.board_ = s.board_)
    (hold : ∀ i, i < s.next_ → i ≠ mpn → s2.node i = s.node i)
    (hmp : (s2.node mpn).parent = (s.node mpn).parent)
    (hmm : (s2.node mpn).move = (s.node mpn).move)
    (hmc : (s2.node mpn).children = some s.next_)
    (hms : (s2.node mpn).children_size = k)
    (hmv : ∃ b, k = (E.GenerateMoves b).length)
    (hnew : ∀ j, s.next_ ≤ j → j < s.next_ + k →
      (s2.node j).parent = some mpn ∧ (s2.node j).children = none ∧
      (s2.node j).children_size = 0)
    (hsz : SizeOK s2 mpn) :
    Shape E s2 r s0.next_ ∧ Framed s0 s2 r ∧ OnPath s2 r s0.next_ b0 mpn depth path ∧
      (∀ i, InTree r s0.next_ s2.next_ i → (s2.node i).children ≠ none → i ≠ mpn →
        (mpn ∉ (s2.node i).children_range ∨
          ((s2.node mpn).proof = (s.node mpn).proof ∧
            (s2.node mpn).disproof = (s.node mpn).disproof)) → ArithOK E s2 i) ∧
      SizesButFor s2 r s0.next_ (path ++ [r]).tail := by
  have hmT := hP.inT
  have hm_lt : mpn < s.next_ := InTree.lt_next hS hmT
  have hmT' : mpn = r ∨ s0.next_ ≤ mpn := by
    rcases hmT with h | ⟨h, _⟩
    · exact Or.inl h
    · exact Or.inr h
  have hr_lt : r < s.next_ := InTree.lt_next hS (Or.inl rfl)
  have hpar_old : ∀ j, j < s.next_ → (s2.node j).parent = (s.node j).parent := by
    intro j hj
    by_cases hjm : j = mpn
    · rw [hjm]; exact hmp
    · rw [hold j hj hjm]
  have hmove_old : ∀ j, j < s.next_ → (s2.node j).move = (s.node j).move := by
    intro j hj
    by_cases hjm : j = mpn
    · rw [hjm]; exact hmm
    · rw [hold j hj hjm]
  have hsplit : ∀ i, InTree r s0.next_ s2.next_ i →
      (i < s.next_ ∧ InTree r s0.next_ s.next_ i) ∨ (s.next_ ≤ i ∧ i < s.next_ + k) := by
    intro i hi
    rw [hn] at hi
    rcases hi with h | ⟨h1, h2⟩
    · left; rw [h]; exact ⟨hr_lt, Or.inl rfl⟩
    · by_cases hlt : i < s.next_
      · left; exact ⟨hlt, Or.inr ⟨h1, hlt⟩⟩
      · right; exact ⟨by omega, h2⟩
  have hmono : ∀ i, InTree r s0.next_ s.next_ i → InTree r s0.next_ s2.next_ i :=
    fun i hi => hi.mono (by rw [hn]; omega)
  obtain ⟨tl, hfull⟩ := hP.chain.full_eq
  have hpar : ∀ i, InTree r s0.next_ s.next_ i → mpn ∈ (s.node i).children_range →
      i ∈ tl := by
    intro i hi hxi
    have hxr : mpn ≠ r := fun e => hS.root_not_mem hi (e ▸ hxi)
    obtain ⟨p, rest, hp1, hp2, hp3⟩ := hP.chain.cons_inv hxr
    have hip : i = p := hS.parent_unique hi hxi hp2
    rw [hp1] at hfull
    simp only [List.cons_append, List.cons.injEq, true_and] at hfull
    rw [← hfull, hip]
    exact hp3.head_mem
  have hShape : Shape E s2 r s0.next_ := by
    constructor
    · exact hS.root_lt
    · rw [hn]; have := hS.le_next; omega
    · intro i c hi hc
      rcases hsplit i hi with ⟨hlt, hiT⟩ | ⟨h1, h2⟩
      · by_cases him : i = mpn
        · subst him
          rw [hmc] at hc
          have hcn : s.next_ = c := Option.some.inj hc
          subst hcn
          rw [hms, hn]
          exact ⟨hS.le_next, hm_lt, hk, le_refl _, fun j hj1 hj2 => (hnew j hj1 hj2).1⟩
        · rw [hold i hlt him] at hc ⊢
          obtain ⟨a, b, c', d, e⟩ := hS.block i c hiT hc
          refine ⟨a, b, c', by rw [hn]; omega, fun j hj1 hj2 => ?_⟩
          rw [hpar_old j (by omega)]
          exact e j hj1 hj2
      · rw [(hnew i h1 h2).2.1] at hc
        exact absurd hc (by simp)
    · intro i hi hc
      rcases hsplit i hi with ⟨hlt, hiT⟩ | ⟨h1, h2⟩
      · by_cases him : i = mpn
        · subst him
          rw [hmc] at hc
          exact absurd hc (by simp)
        · rw [hold i hlt him] at hc ⊢
          exact hS.leaf i hiT hc
      · exact (hnew i h1 h2).2.2
    · intro j hj1 hj2
      rw [hn] at hj2
      by_cases hlt : j < s.next_
      · obtain ⟨p, c, a, b, c', d1, d2⟩ := hS.up j hj1 hlt
        have hpm : p ≠ mpn := by
          intro e
          rw [e, hleaf] at c'
          exact absurd c' (by simp)
        have hp_lt : p < s.next_ := InTree.lt_next hS b
        refine ⟨p, c, ?_, hmono p b, ?_, d1, ?_⟩
        · rw [hpar_old j hlt]; exact a
        · rw [hold p hp_lt hpm]; exact c'
        · rw [hold p hp_lt hpm]; exact d2
      · refine ⟨mpn, s.next_, (hnew j (by omega) hj2).1, hmono mpn hmT, hmc, by omega, ?_⟩
        rw [hms]; exact hj2
    · intro c hc
      by_cases hrm : r = mpn
      · rw [hrm, hmc] at hc
        have hcn : s.next_ = c := Option.some.inj hc
        rw [← hcn]
        exact hS.next_eq_of_root_leaf (hrm ▸ hleaf)
      · rw [hold r hr_lt hrm] at hc
        exact hS.root_block c hc
    · intro i hi
      rcases hsplit i hi with ⟨hlt, hiT⟩ | ⟨h1, h2⟩
      · by_cases him : i = mpn
        · subst him
          right
          obtain ⟨b, hb'⟩ := hmv
          exact ⟨b, by rw [hms]; exact hb'⟩
        · rw [hold i hlt him]
          exact hS.moves i hiT
      · left; exact (hnew i h1 h2).2.2
  have hall := Chain.chain_inTree hS hP.inT hP.chain
  refine ⟨hShape, ?_, ?_, ?_, ?_⟩
  · refine ⟨fun i hi hir => ?_, ?_, ?_⟩
    · have hlt : i < s.next_ := lt_of_lt_of_le hi hS.le_next
      have him : i ≠ mpn := by
        rcases hmT' with h | h
        · rw [h]; exact hir
        · omega
      rw [hold i hlt him]
      exact hF.frame i hi hir
    · rw [hpar_old r hr_lt]; exact hF.root_parent
    · rw [hmove_old r hr_lt]; exact hF.root_move
  · refine ⟨hmono mpn hmT, ?_, hP.depth_eq, ?_⟩
    · exact Chain.congr (fun y hy => hpar_old y (InTree.lt_next hS (hall y hy))) hP.chain
    · rw [hb, BoardAt_congr (s := s) (t := s2) b0
        (fun y hy => hmove_old y (InTree.lt_next hS (hall y hy)))]
      exact hP.board_eq
  · intro i hi hci him hcond
    rcases hsplit i hi with ⟨hlt, hiT⟩ | ⟨h1, h2⟩
    · have hnode := hold i hlt him
      have hci' : (s.node i).children ≠ none := by rw [← hnode]; exact hci
      refine ArithOK_congr (by rw [hnode]) (by rw [hnode]) (by rw [hnode]) ?_
        (hA i hiT hci' (fun h => h))
      intro j hj
      by_cases hjm : j = mpn
      · rcases hcond with hc | hc
        · rw [hnode, ← hjm] at hc
          exact absurd hj hc
        · rw [hjm]; exact hc
      · rw [hold j (hS.kid_lt hiT hj) hjm]
        exact ⟨rfl, rfl⟩
    · exact absurd (hnew i h1 h2).2.1 hci
  · intro i hi hci hnot
    rw [hfull, List.tail_cons] at hnot
    rcases hsplit i hi with ⟨hlt, hiT⟩ | ⟨h1, h2⟩
    · by_cases him : i = mpn
      · rw [him]; exact hsz
      · have hnode := hold i hlt him
        have hci' : (s.node i).children ≠ none := by rw [← hnode]; exact hci
        refine SizeOK_congr (by rw [hnode]) (by rw [hnode]) ?_ (hZ i hiT hci' ?_)
        · intro j hj
          have hjm : j ≠ mpn := fun e => hnot (hpar i hiT (e ▸ hj))
          rw [hold j (hS.kid_lt hiT hj) hjm]
        · rw [hfull, List.tail_cons]; exact hnot
    · exact absurd (hnew i h1 h2).2.1 hci

end Nakshatra

namespace Nakshatra

/-! ## The child loop of `Expand` and the pruning loop, in closed form -/

theorem ExpandChildren_cons (E : Engine) (x : Nat) (m : Move) (rest : List Move) (i : Nat)
    (s : PNSearch) :
    ExpandChildren E x (m :: rest) i s =
      ExpandChildren E x rest (i + 1) (s.setNode (s.next_ + i) (ChildNode E s.board_ x m)) := by
  rw [ExpandChildren]
  congr 1
  simp [PNSearch.setNode, PNSearch.node, ChildNode, Board.MakeMove, Board.UnmakeLastMove]

theorem ExpandChildren_spec (E : Engine) (x : Nat) :
    ∀ (ms : List Move) (i : Nat) (s : PNSearch),
      (ExpandChildren E x ms i s).next_ = s.next_ ∧
      (ExpandChildren E x ms i s).board_ = s.board_ ∧
      ∀ k, (ExpandChildren E x ms i s).node k =
        if s.next_ + i ≤ k ∧ k < s.next_ + i + ms.length then
          ChildNode E s.board_ x (ms.getD (k - (s.next_ + i)) Move.null)
        else s.node k := by
  intro ms
  induction ms with
  | nil =>
    intro i s
    refine ⟨rfl, rfl, fun k => ?_⟩
    have : ¬ (s.next_ + i ≤ k ∧ k < s.next_ + i + ([] : List Move).length) := by
      simp only [List.length_nil]; omega
    rw [if_neg this]; rfl
  | cons m rest ih =>
    intro i s
    rw [ExpandChildren_cons]
    obtain ⟨h1, h2, h3⟩ := ih (i + 1) (s.setNode (s.next_ + i) (ChildNode E s.board_ x m))
    refine ⟨h1, h2, fun k => ?_⟩
    rw [h3 k]
    simp only [next_setNode, board_setNode, List.length_cons]
    by_cases hk : k = s.next_ + i
    · subst hk
      have h1 : ¬ (s.next_ + (i + 1) ≤ s.next_ + i ∧
          s.next_ + i < s.next_ + (i + 1) + rest.length) := by omega
      have h2 : s.next_ + i ≤ s.next_ + i ∧
          s.next_ + i < s.next_ + i + (rest.length + 1) := by omega
      rw [if_neg h1, if_pos h2]
      simp
    · rw [node_setNode_ne _ _ hk]
      by_cases hin : s.next_ + (i + 1) ≤ k ∧ k < s.next_ + (i + 1) + rest.length
      · have h2 : s.next_ + i ≤ k ∧ k < s.next_ + i + (rest.length + 1) := by omega
        rw [if_pos hin, if_pos h2]
        have : k - (s.next_ + i) = (k - (s.next_ + (i + 1))) + 1 := by omega
        rw [this]
        simp
      · have h2 : ¬ (s.next_ + i ≤ k ∧ k < s.next_ + i + (rest.length + 1)) := by omega
        rw [if_neg hin, if_neg h2]

theorem ExpandPN1_nil (E : Engine) (x : Nat) (s : PNSearch)
    (h : E.GenerateMoves s.board_ = []) : ExpandPN1 E x s = s := by
  simp [ExpandPN1, h, ExpandChildren]

theorem ExpandPN1_spec (E : Engine) (x : Nat) (s : PNSearch)
    (h : E.GenerateMoves s.board_ ≠ []) (hx : x < s.next_) :
    (ExpandPN1 E x s).next_ = s.next_ + (E.GenerateMoves s.board_).length ∧
    (ExpandPN1 E x s).board_ = s.board_ ∧
    (ExpandPN1 E x s).node x =
      { s.node x with
        children := some s.next_,
        children_size := (E.GenerateMoves s.board_).length,
        tree_size := 1 + (E.GenerateMoves s.board_).length } ∧
    (∀ k, s.next_ ≤ k → k < s.next_ + (E.GenerateMoves s.board_).length →
      (ExpandPN1 E x s).node k =
        ChildNode E s.board_ x ((E.GenerateMoves s.board_).getD (k - s.next_) Move.null)) ∧
    (∀ k, k < s.next_ → k ≠ x → (ExpandPN1 E x s).node k = s.node k) := by
  have hlen : (E.GenerateMoves s.board_).length ≠ 0 := by
    intro h0; exact h (List.length_eq_zero.mp h0)
  obtain ⟨h1, h2, h3⟩ := ExpandChildren_spec E x (E.GenerateMoves s.board_) 0
    (s.setNode x { s.node x with
        children := some s.next_,
        children_size := (E.GenerateMoves s.board_).length,
        tree_size := 1 + (E.GenerateMoves s.board_).length })
  have hnode : ∀ k, (ExpandPN1 E x s).node k =
      (ExpandChildren E x (E.GenerateMoves s.board_) 0
        (s.setNode x { s.node x with
          children := some s.next_,
          children_size := (E.GenerateMoves s.board_).length,
          tree_size := 1 + (E.GenerateMoves s.board_).length })).node k := by
    intro k
    simp only [ExpandPN1, if_pos hlen, node_mk]
    rfl
  refine ⟨?_, ?_, ?_, ?_, ?_⟩
  · simp only [ExpandPN1, if_pos hlen]
    rw [h1]; rfl
  · simp only [ExpandPN1, if_pos hlen]
    rw [h2]; rfl
  · rw [hnode, h3]
    simp only [next_setNode, Nat.add_zero]
    rw [if_neg (by omega)]
    simp
  · intro k hk1 hk2
    rw [hnode, h3]
    simp only [next_setNode, Nat.add_zero, board_setNode]
    rw [if_pos ⟨hk1, hk2⟩]
  · intro k hk hkx
    rw [hnode, h3]
    simp only [next_setNode, Nat.add_zero]
    rw [if_neg (by omega)]
    exact node_setNode_ne _ _ hkx

theorem DropGrandchildren_fold (L : List Nat) :
    ∀ (s : PNSearch),
      let t := L.foldl (fun t child =>
        t.setNode child { t.node child with children := none, children_size := 0 }) s
      t.next_ = s.next_ ∧ t.board_ = s.board_ ∧
      ∀ j, t.node j =
        if j ∈ L then { s.node j with children := none, children_size := 0 } else s.node j := by
  induction L with
  | nil => intro s; exact ⟨rfl, rfl, fun j => by simp⟩
  | cons c L ih =>
    intro s
    obtain ⟨h1, h2, h3⟩ := ih (s.setNode c { s.node c with children := none, children_size := 0 })
    refine ⟨h1, h2, fun j => ?_⟩
    simp only [List.foldl_cons]
    rw [h3 j]
    by_cases hjc : j = c
    · subst hjc
      simp
    · rw [node_setNode_ne _ _ hjc]
      simp [hjc]

theorem DropGrandchildren_spec (s : PNSearch) (x : Nat) :
    (DropGrandchildren s x).next_ = s.next_ ∧ (DropGrandchildren s x).board_ = s.board_ ∧
    ∀ j, (DropGrandchildren s x).node j =
      if j ∈ (s.node x).children_range then
        { s.node j with children := none, children_size := 0 }
      else s.node j :=
  DropGrandchildren_fold (s.node x).children_range s

theorem sum_map_eq_length {α : Type} (L : List α) (f : α → Nat) (h : ∀ a ∈ L, f a = 1) :
    (L.map f).sum = L.length := by
  induction L with
  | nil => rfl
  | cons a L ih =>
    simp only [List.map_cons, List.sum_cons, List.length_cons]
    rw [h a (by simp), ih (fun b hb => h b (by simp [hb]))]
    omega

end Nakshatra

namespace Nakshatra

/-! ## `Expand` -/

theorem leaf_dirty_pn1 {E : Engine} {s2 : PNSearch} {r n0 mpn : Nat}
    (hleaf : (s2.node mpn).children = none)
    (h : ArithButFor E s2 r n0 (fun i => i = mpn ∨ mpn ∈ (s2.node i).children_range)) :
    ArithButFor E s2 r n0 (UADirty s2 mpn) := by
  intro i hi hci hnd
  apply h i hi hci
  rintro (e | e)
  · exact hnd (Or.inl e)
  · exact hnd (Or.inr ⟨hleaf, e⟩)

theorem leaf_dirty_pn2 {E : Engine} {s2 : PNSearch} {r n0 mpn : Nat}
    (hleaf : (s2.node mpn).children = none)
    (h : ArithButFor E s2 r n0 (fun i => i = mpn ∨ mpn ∈ (s2.node i).children_range)) :
    ArithButFor E s2 r n0 (fun i => mpn ∈ (s2.node i).children_range) := by
  intro i hi hci hnd
  apply h i hi hci
  rintro (e | e)
  · exact hci (e ▸ hleaf)
  · exact hnd e

/-- The state `Expand` leaves: the tree is well shaped, the walk is where it
was, the sizes are up to date except above the expanded node, and the numbers
are up to date except at the expanded node (PN1) or at its parent (PN2). -/
theorem Expand_spec (E : Engine)
    (pns : Int → PNSParams → Nat → PNSearch → Option (PNSearch × Int))
    (hN : NestedOK E pns) (s0 s s2 : PNSearch) (r : Nat) (b0 : Board)
    (pns_params : PNSParams) (nn : Int) (mpn : Nat) (depth : Int) (path : List Nat)
    (hS : Shape E s r s0.next_) (hF : Framed s0 s r)
    (hP : OnPath s r s0.next_ b0 mpn depth path)
    (hleaf : (s.node mpn).children = none)
    (hA : ArithButFor E s r s0.next_ (fun _ => False))
    (hZ : SizesButFor s r s0.next_ (path ++ [r]).tail)
    (hE : Expand E pns pns_params nn depth mpn s = some s2) :
    Shape E s2 r s0.next_ ∧ Framed s0 s2 r ∧ OnPath s2 r s0.next_ b0 mpn depth path ∧
      (pns_params.pns_type = PNSType.PN1 → ArithButFor E s2 r s0.next_ (UADirty s2 mpn)) ∧
      (pns_params.pns_type = PNSType.PN2 →
        ArithButFor E s2 r s0.next_ (fun i => mpn ∈ (s2.node i).children_range)) ∧
      SizesButFor s2 r s0.next_ (path ++ [r]).tail := by
  have hmT := hP.inT
  have hm_lt : mpn < s.next_ := InTree.lt_next hS hmT
  have hsize0 : (s.node mpn).children_size = 0 := hS.leaf mpn hmT hleaf
  unfold Expand at hE
  by_cases hred : (RedundantMoves s mpn || decide (depth ≥ PNS_MAX_DEPTH)) = true
  · rw [if_pos hred] at hE
    simp only at hE
    split at hE
    · have e : s.setNode mpn
          { s.node mpn with proof := E.INF_NODES, disproof := E.INF_NODES } = s2 :=
        Option.some.inj hE
      subst e
      obtain ⟨h1, h2, h3, h4, h5⟩ := leaf_update E s0 s
        (s.setNode mpn { s.node mpn with proof := E.INF_NODES, disproof := E.INF_NODES })
        r b0 mpn depth path hS hF hP hleaf
        hA hZ rfl rfl (fun i _ him => node_setNode_ne _ _ him)
        (by rw [node_setNode_same]; exact ⟨rfl, rfl, rfl, rfl⟩)
      have hl2 : ((s.setNode mpn
          { s.node mpn with proof := E.INF_NODES, disproof := E.INF_NODES }).node mpn).children
          = none := by rw [node_setNode_same]; exact hleaf
      exact ⟨h1, h2, h3, fun _ => leaf_dirty_pn1 hl2 h4, fun _ => leaf_dirty_pn2 hl2 h4, h5⟩
    · exact absurd hE (by simp)
  · rw [if_neg hred] at hE
    by_cases hpn2 : pns_params.pns_type = PNSType.PN2
    · rw [if_pos hpn2] at hE
      have hpn1 : ∀ (p : Prop), pns_params.pns_type = PNSType.PN1 → p := by
        intro p h; rw [hpn2] at h; exact absurd h (by decide)
      cases hp : pns (PnNodes E pns_params nn) PNSParams.nested mpn s with
      | none => rw [hp] at hE; exact absurd hE (by simp)
      | some r1 =>
        obtain ⟨s1, n1⟩ := r1
        rw [hp] at hE
        simp only at hE
        have hpost := hN _ mpn s s1 n1
          ⟨hm_lt, hleaf, hsize0, fun h => absurd h (by simp [PNSParams.nested])⟩ hp
        have nS := hpost.tree.shape
        have hrootT : InTree mpn s.next_ s1.next_ mpn := Or.inl rfl
        by_cases hsolved : (s1.node mpn).proof = 0 ∨ (s1.node mpn).disproof = 0
        · rw [if_pos hsolved] at hE
          have e := Option.some.inj hE
          subst e
          obtain ⟨h1, h2, h3, h4, h5⟩ := leaf_update E s0 s
            { s1.setNode mpn { s1.node mpn with children := none, children_size := 0 } with
              next_ := s.next_ }
            r b0 mpn depth path hS hF hP hleaf hA hZ rfl hpost.board
            (fun i hi him => by
              show (s1.setNode mpn _).node i = s.node i
              rw [node_setNode_ne _ _ him]
              exact hpost.tree.frame i hi him)
            (by
              show LinksEq ((s1.setNode mpn _).node mpn) (s.node mpn)
              rw [node_setNode_same]
              exact ⟨hpost.tree.root_move, hpost.tree.root_parent, hleaf.symm, hsize0.symm⟩)
          have hl2 : (PNSearch.node
              { s1.setNode mpn { s1.node mpn with children := none, children_size := 0 } with
                next_ := s.next_ } mpn).children = none := by
            show ((s1.setNode mpn _).node mpn).children = none
            rw [node_setNode_same]
          exact ⟨h1, h2, h3, hpn1 _, fun _ => leaf_dirty_pn2 hl2 h4, h5⟩
        · rw [if_neg hsolved] at hE
          have e := Option.some.inj hE
          subst e
          obtain ⟨d1, d2, d3⟩ := DropGrandchildren_spec s1 mpn
          have hmn : mpn ∉ (s1.node mpn).children_range := nS.not_mem_own hrootT
          have hDm : (DropGrandchildren s1 mpn).node mpn = s1.node mpn := by
            rw [d3, if_neg hmn]
          cases hc1 : (s1.node mpn).children with
          | none =>
            have hsz1 : (s1.node mpn).children_size = 0 := nS.leaf mpn hrootT hc1
            have hDall : ∀ j, (DropGrandchildren s1 mpn).node j = s1.node j := by
              intro j
              rw [d3, children_range_none hc1]
              simp
            obtain ⟨h1, h2, h3, h4, h5⟩ := leaf_update E s0 s
              { DropGrandchildren s1 mpn with
                next_ := s.next_ + ((DropGrandchildren s1 mpn).node mpn).children_size }
              r b0 mpn depth path hS hF hP hleaf hA hZ
              (by show s.next_ + _ = s.next_; rw [hDm, hsz1]; rfl)
              (by show (DropGrandchildren s1 mpn).board_ = s.board_; rw [d2]; exact hpost.board)
              (fun i hi him => by
                show (DropGrandchildren s1 mpn).node i = s.node i
                rw [hDall]
                exact hpost.tree.frame i hi him)
              (by
                show LinksEq ((DropGrandchildren s1 mpn).node mpn) (s.node mpn)
                rw [hDm]
                exact ⟨hpost.tree.root_move, hpost.tree.root_parent, hc1.trans hleaf.symm,
                  hsz1.trans hsize0.symm⟩)
            have hl2 : (PNSearch.node
                { DropGrandchildren s1 mpn with
                  next_ := s.next_ + ((DropGrandchildren s1 mpn).node mpn).children_size }
                mpn).children = none := by
              show ((DropGrandchildren s1 mpn).node mpn).children = none
              rw [hDm]; exact hc1
            exact ⟨h1, h2, h3, hpn1 _, fun _ => leaf_dirty_pn2 hl2 h4, h5⟩
          | some c =>
            have hcn : c = s.next_ := nS.root_block c hc1
            subst hcn
            obtain ⟨_, _, hk, hle, hkids⟩ := nS.block mpn s.next_ hrootT hc1
            have hrange : ∀ j, j ∈ (s1.node mpn).children_range ↔
                s.next_ ≤ j ∧ j < s.next_ + (s1.node mpn).children_size := by
              intro j
              rw [children_range_some hc1, List.mem_range'_1]
            have hc1' : (s1.node mpn).children ≠ none := by rw [hc1]; simp
            have hsz : SizeOK (DropGrandchildren s1 mpn) mpn := by
              refine SizeOK_congr (by rw [hDm]) (by rw [hDm]) ?_
                (hpost.sizes mpn hrootT hc1' (by simp))
              intro j _
              rw [d3]
              split <;> rfl
            have har : ArithOK E (DropGrandchildren s1 mpn) mpn := by
              refine ArithOK_congr (by rw [hDm]) (by rw [hDm]) (by rw [hDm]) ?_
                (hpost.tree.arith mpn hrootT hc1')
              intro j _
              rw [d3]
              split <;> exact ⟨rfl, rfl⟩
            have hmv : ∃ b, (s1.node mpn).children_size = (E.GenerateMoves b).length := by
              rcases nS.moves mpn hrootT with h | h
              · omega
              · exact h
            obtain ⟨h1, h2, h3, h4, h5⟩ := graft E s0 s
              { DropGrandchildren s1 mpn with
                next_ := s.next_ + ((DropGrandchildren s1 mpn).node mpn).children_size }
              r b0 mpn depth path (s1.node mpn).children_size hS hF hP hleaf hA hZ hk
              (by show s.next_ + _ = _; rw [hDm])
              (by show (DropGrandchildren s1 mpn).board_ = s.board_; rw [d2]; exact hpost.board)
              (fun i hi him => by
                show (DropGrandchildren s1 mpn).node i = s.node i
                rw [d3, if_neg (by rw [hrange]; omega)]
                exact hpost.tree.frame i hi him)
              (by
                show ((DropGrandchildren s1 mpn).node mpn).parent = _
                rw [hDm]; exact hpost.tree.root_parent)
              (by
                show ((DropGrandchildren s1 mpn).node mpn).move = _
                rw [hDm]; exact hpost.tree.root_move)
              (by
                show ((DropGrandchildren s1 mpn).node mpn).children = _
                rw [hDm]; exact hc1)
              (by
                show ((DropGrandchildren s1 mpn).node mpn).children_size = _
                rw [hDm])
              hmv
              (fun j hj1 hj2 => by
                show ((DropGrandchildren s1 mpn).node j).parent = some mpn ∧
                  ((DropGrandchildren s1 mpn).node j).children = none ∧
                  ((DropGrandchildren s1 mpn).node j).children_size = 0
                rw [d3, if_pos ((hrange j).mpr ⟨hj1, hj2⟩)]
                exact ⟨hkids j hj1 hj2, rfl, rfl⟩)
              hsz
            refine ⟨h1, h2, h3, hpn1 _, fun _ => ?_, h5⟩
            intro i hi hci hnd
            by_cases him : i = mpn
            · rw [him]; exact har
            · exact h4 i hi hci him (Or.inl hnd)
    · rw [if_neg hpn2] at hE
      have e : ExpandPN1 E mpn s = s2 := Option.some.inj hE
      subst e
      have hpn1 : ∀ (p : Prop), pns_params.pns_type = PNSType.PN2 → p :=
        fun _ h => absurd h hpn2
      by_cases hms : E.GenerateMoves s.board_ = []
      · rw [ExpandPN1_nil E mpn s hms]
        refine ⟨hS, hF, hP, fun _ => ?_, hpn1 _, hZ⟩
        intro i hi hci _
        exact hA i hi hci (fun h => h)
      · obtain ⟨g1, g2, g3, g4, g5⟩ := ExpandPN1_spec E mpn s hms hm_lt
        have hk : 0 < (E.GenerateMoves s.board_).length :=
          List.length_pos.mpr hms
        have hmc : ((ExpandPN1 E mpn s).node mpn).children = some s.next_ := by rw [g3]
        have hsz : SizeOK (ExpandPN1 E mpn s) mpn := by
          unfold SizeOK PNSearch.kids
          rw [children_range_some hmc, List.map_map]
          rw [sum_map_eq_length]
          · rw [g3]; simp
          · intro j hj
            rw [g3] at hj
            simp only [List.mem_range'_1] at hj
            simp only [Function.comp]
            rw [g4 j hj.1 hj.2]
            rfl
        obtain ⟨h1, h2, h3, h4, h5⟩ := graft E s0 s (ExpandPN1 E mpn s) r b0 mpn depth path
          (E.GenerateMoves s.board_).length hS hF hP hleaf hA hZ hk g1 g2 g5
          (by rw [g3]) (by rw [g3]) hmc (by rw [g3]) ⟨s.board_, rfl⟩
          (fun j hj1 hj2 => by rw [g4 j hj1 hj2]; exact ⟨rfl, rfl, rfl⟩) hsz
        refine ⟨h1, h2, h3, fun _ => ?_, hpn1 _, h5⟩
        intro i hi hci hnd
        have him : i ≠ mpn := fun e => hnd (Or.inl e)
        refine h4 i hi hci him (Or.inr ?_)
        rw [g3]; exact ⟨rfl, rfl⟩

end Nakshatra

namespace Nakshatra

/-! ## The main loop of `Pns` -/

theorem Touch.touch_of_eq {s t : PNSearch} (x : Nat)
    (e1 : t.pns_tree_buffer_ = s.pns_tree_buffer_) (e2 : t.next_ = s.next_) :
    Touch s t x := by
  have hnode : ∀ i, t.node i = s.node i := fun i => by simp [PNSearch.node, e1]
  exact ⟨e2, fun i _ => hnode i, by rw [hnode x]; exact LinksEq.rfl' _⟩

theorem Shape.shape_of_eq {E : Engine} {s t : PNSearch} {r n0 : Nat}
    (e1 : t.pns_tree_buffer_ = s.pns_tree_buffer_) (e2 : t.next_ = s.next_)
    (h : Shape E s r n0) : Shape E t r n0 :=
  (Touch.touch_of_eq r e1 e2).shape_of_touch h

theorem Framed.framed_of_eq {s0 s t : PNSearch} {r : Nat}
    (e1 : t.pns_tree_buffer_ = s.pns_tree_buffer_) (e2 : t.next_ = s.next_)
    (h : Framed s0 s r) : Framed s0 t r :=
  (Touch.touch_of_eq r e1 e2).framed_of_touch (Or.inl rfl) h

theorem ArithButFor.arith_of_eq {E : Engine} {s t : PNSearch} {r n0 : Nat}
    (e1 : t.pns_tree_buffer_ = s.pns_tree_buffer_) (e2 : t.next_ = s.next_)
    (h : ArithButFor E s r n0 (fun _ => False)) : ArithButFor E t r n0 (fun _ => False) := by
  have hT := Touch.touch_of_eq r e1 e2
  have hnode : ∀ i, t.node i = s.node i := fun i => by simp [PNSearch.node, e1]
  intro i hi hci _
  rw [e2] at hi
  rw [hnode i] at hci
  exact hT.arith_same_pair (by rw [hnode r]; exact ⟨rfl, rfl⟩) i (h i hi hci (fun f => f))

theorem SizesButFor.sizes_of_eq {s t : PNSearch} {r n0 : Nat} {stale : List Nat}
    (e1 : t.pns_tree_buffer_ = s.pns_tree_buffer_) (e2 : t.next_ = s.next_)
    (h : SizesButFor s r n0 stale) : SizesButFor t r n0 stale := by
  have hnode : ∀ i, t.node i = s.node i := fun i => by simp [PNSearch.node, e1]
  intro i hi hci hst
  rw [e2] at hi
  rw [hnode i] at hci
  exact SizeOK_congr (by rw [hnode i]) (by rw [hnode i]) (fun k _ => by rw [hnode k])
    (h i hi hci hst)

theorem OnPath.onPath_of_eq {s t : PNSearch} {r n0 x : Nat} {b0 : Board} {depth : Int}
    {path : List Nat}
    (e1 : t.pns_tree_buffer_ = s.pns_tree_buffer_) (e2 : t.next_ = s.next_)
    (e3 : t.board_ = s.board_)
    (h : OnPath s r n0 b0 x depth path) : OnPath t r n0 b0 x depth path := by
  have hT := Touch.touch_of_eq r e1 e2
  exact ⟨by rw [e2]; exact h.inT, hT.chain h.chain, h.depth_eq, by
    rw [e3, hT.boardAt]; exact h.board_eq⟩

theorem LoopInv.loopInv_of_eq {E : Engine} {s0 : PNSearch} {r : Nat} {sn : Int} {l l1 : PnsLoop}
    (h : LoopInv E s0 r sn l)
    (e1 : l1.s.pns_tree_buffer_ = l.s.pns_tree_buffer_) (e2 : l1.s.next_ = l.s.next_)
    (e3 : l1.s.board_ = l.s.board_) (e4 : l1.cur_node = l.cur_node)
    (e5 : l1.depth = l.depth) (e6 : l1.num_nodes = l.num_nodes) :
    LoopInv E s0 r sn l1 := by
  obtain ⟨path, hp, hz⟩ := h.walk
  refine ⟨Shape.shape_of_eq e1 e2 h.shape, Framed.framed_of_eq e1 e2 h.framed,
    ArithButFor.arith_of_eq e1 e2 h.arith, ⟨path, ?_, SizesButFor.sizes_of_eq e1 e2 hz⟩, ?_⟩
  · rw [e4, e5]; exact OnPath.onPath_of_eq e1 e2 e3 hp
  · rw [e6]; exact h.count

theorem PnsCond_spec (E : Engine) (sn : Int) (r : Nat) (l l1 : PnsLoop) (c : Bool)
    (h : PnsCond E sn r l = (c, l1)) :
    l1.s.pns_tree_buffer_ = l.s.pns_tree_buffer_ ∧ l1.s.next_ = l.s.next_ ∧
    l1.s.board_ = l.s.board_ ∧ l1.cur_node = l.cur_node ∧ l1.depth = l.depth ∧
    l1.num_nodes = l.num_nodes ∧ (c = true → l.num_nodes < sn) := by
  unfold PnsCond at h
  split at h
  · rename_i hc
    split at h
    · obtain ⟨e1, e2⟩ := Prod.mk.inj h
      subst e2
      exact ⟨rfl, rfl, rfl, rfl, rfl, rfl, fun _ => hc.1⟩
    · obtain ⟨e1, e2⟩ := Prod.mk.inj h
      subst e2
      exact ⟨rfl, rfl, rfl, rfl, rfl, rfl, fun _ => hc.1⟩
  · obtain ⟨e1, e2⟩ := Prod.mk.inj h
    subst e2
    exact ⟨rfl, rfl, rfl, rfl, rfl, rfl, fun hc => by rw [← e1] at hc; exact absurd hc (by simp)⟩

theorem PnsProgress_spec (E : Engine) (p : PNSParams) (l l1 : PnsLoop)
    (h : PnsProgress E p l = some l1) :
    l1.s.pns_tree_buffer_ = l.s.pns_tree_buffer_ ∧ l1.s.next_ = l.s.next_ ∧
    l1.s.board_ = l.s.board_ ∧ l1.cur_node = l.cur_node ∧ l1.depth = l.depth ∧
    l1.num_nodes = l.num_nodes := by
  unfold PnsProgress at h
  simp only at h
  split at h
  · exact absurd h (by simp)
  · rename_i la hla
    have hla' : la.s = l.s ∧ la.cur_node = l.cur_node ∧ la.depth = l.depth ∧
        la.num_nodes = l.num_nodes := by
      split at hla
      · split at hla
        · have := Option.some.inj hla; subst this; exact ⟨rfl, rfl, rfl, rfl⟩
        · exact absurd hla (by simp)
      · have := Option.some.inj hla; subst this; exact ⟨rfl, rfl, rfl, rfl⟩
    obtain ⟨a1, a2, a3, a4⟩ := hla'
    split at h
    · split at h
      · split at h
        · have := Option.some.inj h; subst this
          simp only
          rw [a1, a2, a3, a4]
          exact ⟨rfl, rfl, rfl, rfl, rfl, rfl⟩
        · exact absurd h (by simp)
      · have := Option.some.inj h; subst this
        simp only
        rw [a1, a2, a3, a4]
        exact ⟨rfl, rfl, rfl, rfl, rfl, rfl⟩
    · have := Option.some.inj h; subst this
      rw [a1, a2, a3, a4]
      exact ⟨rfl, rfl, rfl, rfl, rfl, rfl⟩

theorem mem_tail_append_of_mem_tail {α : Type} (ext path : List α) (r a : α)
    (h : a ∈ (path ++ [r]).tail) : a ∈ ((ext ++ path) ++ [r]).tail := by
  cases ext with
  | nil => simpa using h
  | cons e ext' =>
    simp only [List.cons_append, List.tail_cons, List.append_assoc]
    exact List.mem_append_right _ (List.mem_of_mem_tail h)

end Nakshatra

namespace Nakshatra

theorem PNSType.eq_PN1_of_ne {t : PNSType} (h : ¬ t = PNSType.PN2) : t = PNSType.PN1 := by
  cases t
  · rfl
  · exact absurd rfl h

/-- Climbing from the expanded node in `UpdateAncestors` restores the loop
invariant: the common end of the three ways the body of the main loop reaches
`UpdateAncestors`. -/
theorem LoopInv_of_update (E : Engine) (s0 : PNSearch) (r : Nat) (sn : Int) (fuel x : Nat)
    (depth : Int) (s : PNSearch) (path : List Nat) (l1 : PnsLoop) (nn : Int) (cur : Nat)
    (depth' : Int) (s' : PNSearch)
    (hS : Shape E s r s0.next_) (hF : Framed s0 s r)
    (hP : OnPath s r s0.next_ s0.board_ x depth path)
    (hA : ArithButFor E s r s0.next_ (UADirty s x))
    (hZ : SizesButFor s r s0.next_ (path ++ [r]))
    (hc : 0 ≤ nn ∧ (nn = 0 ∨ ∃ b, nn < sn + (E.GenerateMoves b).length))
    (hU : UpdateAncestors E fuel x r depth s = some (cur, depth', s')) :
    LoopInv E s0 r sn
      { l1 with s := s', num_nodes := nn, cur_node := cur, depth := depth' } := by
  obtain ⟨path', h1, h2, h3, h4, h5, _⟩ :=
    UpdateAncestors_spec E s0 r s0.board_ fuel x depth s path cur depth' s' hS hF hP hA hZ hU
  exact ⟨h1, h2, h4, ⟨path', h3, h5⟩, hc⟩

/-- The body of the main loop of `Pns` keeps the loop invariant. -/
theorem PnsBody_spec (E : Engine)
    (pns : Int → PNSParams → Nat → PNSearch → Option (PNSearch × Int))
    (hN : NestedOK E pns) (s0 : PNSearch) (r : Nat) (sn : Int) (fuel : Nat)
    (pns_params : PNSParams) (l l2 : PnsLoop)
    (horph : pns_params.pns_type = PNSType.PN2 → (s0.node r).parent = none)
    (hI : LoopInv E s0 r sn l) (hlt : l.num_nodes < sn)
    (hB : PnsBody E pns fuel pns_params r l = some l2) : LoopInv E s0 r sn l2 := by
  unfold PnsBody at hB
  cases h1 : PnsProgress E pns_params l with
  | none => rw [h1] at hB; exact absurd hB (by simp)
  | some l1 =>
    rw [h1] at hB
    simp only at hB
    obtain ⟨p1, p2, p3, p4, p5, p6⟩ := PnsProgress_spec E pns_params l l1 h1
    have hI1 : LoopInv E s0 r sn l1 := hI.loopInv_of_eq p1 p2 p3 p4 p5 p6
    have hlt1 : l1.num_nodes < sn := by rw [p6]; exact hlt
    obtain ⟨path, hp, hz⟩ := hI1.walk
    cases h2 : FindMpn E fuel l1.cur_node l1.depth l1.s with
    | none => rw [h2] at hB; exact absurd hB (by simp)
    | some res =>
      obtain ⟨mpn, depth, s1⟩ := res
      rw [h2] at hB
      simp only at hB
      obtain ⟨ext, f1, f2, f3⟩ := FindMpn_spec E r s0.next_ s0.board_ fuel _ _ _ path mpn
        depth s1 hI1.shape hp h2
      have e1 : s1.pns_tree_buffer_ = l1.s.pns_tree_buffer_ := by
        have h := congrArg PNSearch.pns_tree_buffer_ f3
        exact h
      have e2 : s1.next_ = l1.s.next_ := by
        have h := congrArg PNSearch.next_ f3
        exact h
      have hS1 := Shape.shape_of_eq e1 e2 hI1.shape
      have hZ1 : SizesButFor s1 r s0.next_ ((ext ++ path) ++ [r]).tail := by
        intro i hi hci hnot
        exact SizesButFor.sizes_of_eq e1 e2 hz i hi hci
          (fun hm => hnot (mem_tail_append_of_mem_tail ext path r i hm))
      cases h3 : Expand E pns pns_params l1.num_nodes depth mpn s1 with
      | none => rw [h3] at hB; exact absurd hB (by simp)
      | some s2 =>
        rw [h3] at hB
        simp only at hB
        obtain ⟨x1, x2, x3, x4, x5, x6⟩ := Expand_spec E pns hN s0 s1 s2 r s0.board_
          pns_params l1.num_nodes mpn depth (ext ++ path) hS1 (Framed.framed_of_eq e1 e2 hI1.framed)
          f1 f2 (ArithButFor.arith_of_eq e1 e2 hI1.arith) hZ1 h3
        have hcount : 0 ≤ l1.num_nodes + ((s2.node mpn).children_size : Int) ∧
            (l1.num_nodes + ((s2.node mpn).children_size : Int) = 0 ∨
              ∃ b, l1.num_nodes + ((s2.node mpn).children_size : Int) <
                sn + (E.GenerateMoves b).length) := by
          have h0 := hI1.count.1
          refine ⟨by omega, Or.inr ?_⟩
          rcases x1.moves mpn x3.inT with hm | ⟨b, hm⟩
          · exact ⟨s0.board_, by rw [hm]; simp; omega⟩
          · exact ⟨b, by rw [hm]; omega⟩
        have hweak : SizesButFor s2 r s0.next_ ((ext ++ path) ++ [r]) :=
          fun i hi hci hnot => x6 i hi hci (fun hm => hnot (List.mem_of_mem_tail hm))
        by_cases hpn2 : pns_params.pns_type = PNSType.PN2
        · rw [if_pos hpn2] at hB
          cases hpar : (s2.node mpn).parent with
          | none =>
            rw [hpar] at hB
            simp only at hB
            have hmr : mpn = r := by
              by_contra hne
              obtain ⟨p, _, _, hp', _⟩ := x3.chain.cons_inv hne
              rw [hpar] at hp'
              exact absurd hp' (by simp)
            cases h4 : UpdateAncestors E fuel mpn r depth s2 with
            | none => rw [h4] at hB; exact absurd hB (by simp)
            | some res4 =>
              obtain ⟨cur, depth2, s4⟩ := res4
              rw [h4] at hB
              simp only at hB
              have e := Option.some.inj hB
              rw [← e]
              refine LoopInv_of_update E s0 r sn fuel mpn depth s2 (ext ++ path) l1 _ cur depth2
                s4 x1 x2 x3 ?_ hweak hcount h4
              intro i hi hci hnd
              refine x5 hpn2 i hi hci (fun hm => ?_)
              rw [hmr] at hm
              exact x1.root_not_mem hi hm
          | some p =>
            rw [hpar] at hB
            simp only at hB
            have hmr : mpn ≠ r := by
              intro e
              rw [e, x2.root_parent, horph hpn2] at hpar
              exact absurd hpar (by simp)
            obtain ⟨p', rest, hp1, hp2, hp3⟩ := x3.chain.cons_inv hmr
            have hpp : p' = p := by rw [hpar] at hp2; exact (Option.some.inj hp2).symm
            subst hpp
            obtain ⟨hpT, hxp⟩ := x1.parent_inTree x3.inT hmr hpar
            have hb : s2.board_.UnmakeLastMove = (true, BoardAt s2 s0.board_ rest) := by
              rw [x3.board_eq, hp1]; rfl
            rw [hb] at hB
            simp only at hB
            cases h4 : UpdateAncestors E fuel p' r (depth - 1)
                { s2 with board_ := BoardAt s2 s0.board_ rest } with
            | none => rw [h4] at hB; exact absurd hB (by simp)
            | some res4 =>
              obtain ⟨cur, depth2, s4⟩ := res4
              rw [h4] at hB
              simp only at hB
              have e := Option.some.inj hB
              rw [← e]
              have hTb : Touch s2 { s2 with board_ := BoardAt s2 s0.board_ rest } p' :=
                Touch.board s2 p' _
              refine LoopInv_of_update E s0 r sn fuel p' (depth - 1) _ rest l1 _ cur depth2
                s4 (hTb.shape_of_touch x1) (Framed.framed_of_eq (s := s2) rfl rfl x2)
                ⟨hpT, hTb.chain hp3, by rw [x3.depth_eq, hp1]; simp, by rw [hTb.boardAt]⟩
                ?_ ?_ hcount h4
              · intro i hi hci hnd
                have hip : i ≠ p' := fun e => hnd (Or.inl e)
                refine x5 hpn2 i hi hci (fun hm => ?_)
                exact hip (x1.parent_unique hi hm hpar)
              · intro i hi hci hnot
                refine x6 i hi hci ?_
                rw [hp1]
                exact hnot
        · rw [if_neg hpn2] at hB
          simp only at hB
          cases h4 : UpdateAncestors E fuel mpn r depth s2 with
          | none => rw [h4] at hB; exact absurd hB (by simp)
          | some res4 =>
            obtain ⟨cur, depth2, s4⟩ := res4
            rw [h4] at hB
            simp only at hB
            have e := Option.some.inj hB
            rw [← e]
            exact LoopInv_of_update E s0 r sn fuel mpn depth s2 (ext ++ path) l1 _ cur depth2
              s4 x1 x2 x3 (x4 (PNSType.eq_PN1_of_ne hpn2)) hweak hcount h4

end Nakshatra

namespace Nakshatra

/-! ## `Pns` -/

theorem LoopInv_init (E : Engine) (pns_params : PNSParams) (s : PNSearch) (r : Nat)
    (sn : Int) (hpre : PnsPre pns_params s r) :
    LoopInv E s r sn (PnsInit pns_params r s) := by
  have hT : ∀ i, InTree r s.next_ s.next_ i → i = r := by
    intro i hi
    rcases hi with h | ⟨h1, h2⟩
    · exact h
    · omega
  refine ⟨⟨hpre.below, le_refl _, ?_, ?_, ?_, ?_, ?_⟩, ⟨fun _ _ _ => rfl, rfl, rfl⟩, ?_,
    ⟨[], ⟨Or.inl rfl, Chain.root, rfl, rfl⟩, ?_⟩, ⟨le_refl _, Or.inl rfl⟩⟩
  · intro i c hi hc
    have e : i = r := hT i hi
    have hc' : (s.node i).children = some c := hc
    rw [e, hpre.childless] at hc'
    exact absurd hc' (by simp)
  · intro i hi _
    have e : i = r := hT i hi
    show (s.node i).children_size = 0
    rw [e]; exact hpre.size0
  · intro k hk1 hk2
    have hk2' : k < s.next_ := hk2
    omega
  · intro c hc
    have hc' : (s.node r).children = some c := hc
    rw [hpre.childless] at hc'
    exact absurd hc' (by simp)
  · intro i hi
    have e : i = r := hT i hi
    left
    show (s.node i).children_size = 0
    rw [e]; exact hpre.size0
  · intro i hi hci _
    have e : i = r := hT i hi
    have hci' : (s.node i).children ≠ none := hci
    rw [e] at hci'
    exact absurd hpre.childless hci'
  · intro i hi hci _
    have e : i = r := hT i hi
    have hci' : (s.node i).children ≠ none := hci
    rw [e] at hci'
    exact absurd hpre.childless hci'

/-- The main loop of `Pns` keeps the loop invariant. -/
theorem PnsMainLoop_spec (E : Engine)
    (pns : Int → PNSParams → Nat → PNSearch → Option (PNSearch × Int))
    (hN : NestedOK E pns) (s0 : PNSearch) (r : Nat) (sn : Int) (fuel : Nat)
    (pns_params : PNSParams)
    (horph : pns_params.pns_type = PNSType.PN2 → (s0.node r).parent = none) :
    ∀ (n : Nat) (l l' : PnsLoop), LoopInv E s0 r sn l →
      PnsMainLoop E pns fuel sn pns_params r n l = some l' → LoopInv E s0 r sn l' := by
  intro n
  induction n with
  | zero => intro l l' _ h; simp [PnsMainLoop] at h
  | succ n ih =>
    intro l l' hI h
    unfold PnsMainLoop at h
    cases hc : PnsCond E sn r l with
    | mk c l1 =>
      rw [hc] at h
      obtain ⟨c1, c2, c3, c4, c5, c6, c7⟩ := PnsCond_spec E sn r l l1 c hc
      have hI1 : LoopInv E s0 r sn l1 := hI.loopInv_of_eq c1 c2 c3 c4 c5 c6
      cases c with
      | false =>
        simp only at h
        have e := Option.some.inj h
        rw [← e]; exact hI1
      | true =>
        simp only at h
        cases hb : PnsBody E pns fuel pns_params r l1 with
        | none => rw [hb] at h; exact absurd h (by simp)
        | some l2 =>
          rw [hb] at h
          simp only at h
          exact ih l2 l' (PnsBody_spec E pns hN s0 r sn fuel pns_params l1 l2 horph hI1
            (by rw [c6]; exact c7 rfl) hb) h

/-- The two loops of `Pns` leave a well formed tree with up to date numbers
and sizes, the board as it was and `depth` at 0; the node count exceeds the
budget by less than the size of one block of children. -/
theorem PnsLoops_spec (E : Engine)
    (pns : Int → PNSParams → Nat → PNSearch → Option (PNSearch × Int))
    (hN : NestedOK E pns) (fuel : Nat) (sn : Int) (pns_params : PNSParams) (r : Nat)
    (s s1 : PNSearch) (nn depth : Int) (hpre : PnsPre pns_params s r)
    (h : PnsLoops E pns fuel sn pns_params r s = some (s1, nn, depth)) :
    PnsPost E s s1 r ∧ depth = 0 ∧ 0 ≤ nn ∧
      (nn = 0 ∨ ∃ b, nn < sn + (E.GenerateMoves b).length) := by
  unfold PnsLoops at h
  cases hm : PnsMainLoop E pns fuel sn pns_params r fuel (PnsInit pns_params r s) with
  | none => rw [hm] at h; exact absurd h (by simp)
  | some l =>
    rw [hm] at h
    simp only at h
    have hI := PnsMainLoop_spec E pns hN s r sn fuel pns_params hpre.orphan fuel _ l
      (LoopInv_init E pns_params s r sn hpre) hm
    obtain ⟨path, hp, hz⟩ := hI.walk
    cases hu : PnsUnwind fuel r l.cur_node l.depth l.s with
    | none => rw [hu] at h; exact absurd h (by simp)
    | some res =>
      obtain ⟨d, t⟩ := res
      rw [hu] at h
      simp only at h
      have e := Option.some.inj h
      obtain ⟨e1, e2⟩ := Prod.mk.inj e
      obtain ⟨e2, e3⟩ := Prod.mk.inj e2
      subst e1 e2 e3
      obtain ⟨u1, u2, u3, u4, u5, u6, _⟩ := PnsUnwind_spec E s r s.board_ fuel l.cur_node
        l.depth l.s path d t hI.shape hI.framed hp hI.arith hz hu
      exact ⟨⟨⟨u1, fun i hi hci => u3 i hi hci (fun f => f), u2.frame, u2.root_parent,
        u2.root_move⟩, u4, u6⟩, u5, hI.count.1, hI.count.2⟩

/-- `Pns`, started on a childless root below the cursor, can only return a
state that meets `PnsPost`, with a node count that exceeds the budget by less
than the size of one block of children. -/
theorem Pns_spec (E : Engine) (fuel : Nat) :
    ∀ (level : Nat) (sn : Int) (pns_params : PNSParams) (r : Nat) (s s1 : PNSearch)
      (nn : Int), PnsPre pns_params s r →
      Pns E level fuel sn pns_params r s = some (s1, nn) →
      PnsPost E s s1 r ∧ 0 ≤ nn ∧ (nn = 0 ∨ ∃ b, nn < sn + (E.GenerateMoves b).length) := by
  intro level
  induction level with
  | zero => intro sn p r s s1 nn _ h; simp [Pns] at h
  | succ level ih =>
    intro sn p r s s1 nn hpre h
    have hN : NestedOK E (Pns E level fuel) :=
      fun budget x t t1 n1 hp hr => (ih budget PNSParams.nested x t t1 n1 hp hr).1
    unfold Pns at h
    cases hl : PnsLoops E (Pns E level fuel) fuel sn p r s with
    | none => rw [hl] at h; exact absurd h (by simp)
    | some res =>
      obtain ⟨t, n, d⟩ := res
      rw [hl] at h
      simp only at h
      obtain ⟨q1, q2, q3, q4⟩ := PnsLoops_spec E _ hN fuel sn p r s t n d hpre hl
      subst q2
      unfold PnsFinish at h
      rw [if_pos rfl] at h
      split at h
      · exact absurd h (by simp)
      · have e := Option.some.inj h
        obtain ⟨e1, e2⟩ := Prod.mk.inj e
        subst e1 e2
        exact ⟨q1, q3, q4⟩

end Nakshatra

namespace Nakshatra

/-! ## What the two folds of `UpdateAncestors` compute -/

theorem proof_fold_spec (kids : List PNSNode) :
    ∀ (acc : Nat),
      let p := kids.foldl
        (fun proof child => if child.disproof < proof then child.disproof else proof) acc
      p ≤ acc ∧ (∀ c ∈ kids, p ≤ c.disproof) ∧ (p = acc ∨ ∃ c ∈ kids, c.disproof = p) := by
  induction kids with
  | nil => intro acc; simp
  | cons k kids ih =>
    intro acc
    simp only [List.foldl_cons]
    obtain ⟨h1, h2, h3⟩ := ih (if k.disproof < acc then k.disproof else acc)
    refine ⟨?_, ?_, ?_⟩
    · refine le_trans h1 ?_
      split <;> omega
    · intro c hc
      rcases List.mem_cons.mp hc with e | e
      · rw [e]
        refine le_trans h1 ?_
        split <;> omega
      · exact h2 c e
    · rcases h3 with e | ⟨c, hc, e⟩
      · by_cases hlt : k.disproof < acc
        · right
          rw [if_pos hlt] at e ⊢
          exact ⟨k, by simp, e.symm⟩
        · left
          rw [if_neg hlt] at e ⊢
          exact e
      · right
        exact ⟨c, by simp [hc], e⟩

theorem disproof_fold_inf (E : Engine) (kids : List PNSNode) :
    kids.foldl (fun disproof child =>
      if child.proof = E.INF_NODES then E.INF_NODES
      else if disproof ≠ E.INF_NODES then disproof + child.proof
      else disproof) E.INF_NODES = E.INF_NODES := by
  induction kids with
  | nil => rfl
  | cons k kids ih =>
    simp only [List.foldl_cons]
    by_cases h : k.proof = E.INF_NODES
    · rw [if_pos h]; exact ih
    · rw [if_neg h, if_neg (by simp)]; exact ih

theorem disproof_fold_some_inf (E : Engine) (kids : List PNSNode) :
    ∀ (acc : Nat), (∃ c ∈ kids, c.proof = E.INF_NODES) →
      kids.foldl (fun disproof child =>
        if child.proof = E.INF_NODES then E.INF_NODES
        else if disproof ≠ E.INF_NODES then disproof + child.proof
        else disproof) acc = E.INF_NODES := by
  induction kids with
  | nil => intro acc h; obtain ⟨c, hc, _⟩ := h; simp at hc
  | cons k kids ih =>
    intro acc h
    simp only [List.foldl_cons]
    by_cases hk : k.proof = E.INF_NODES
    · rw [if_pos hk]; exact disproof_fold_inf E kids
    · obtain ⟨c, hc, e⟩ := h
      rcases List.mem_cons.mp hc with e' | e'
      · rw [e'] at e; exact absurd e hk
      · exact ih _ ⟨c, e', e⟩

theorem disproof_fold_sum (E : Engine) (kids : List PNSNode) :
    ∀ (acc : Nat), (∀ c ∈ kids, c.proof ≠ E.INF_NODES) →
      acc + (kids.map PNSNode.proof).sum < E.INF_NODES →
      kids.foldl (fun disproof child =>
        if child.proof = E.INF_NODES then E.INF_NODES
        else if disproof ≠ E.INF_NODES then disproof + child.proof
        else disproof) acc = acc + (kids.map PNSNode.proof).sum := by
  induction kids with
  | nil => intro acc _ _; simp
  | cons k kids ih =>
    intro acc h hlt
    simp only [List.map_cons, List.sum_cons] at hlt
    simp only [List.foldl_cons, List.map_cons, List.sum_cons]
    rw [if_neg (h k (by simp)), if_pos (by omega)]
    rw [ih _ (fun c hc => h c (by simp [hc])) (by omega)]
    omega

/-- The proof number of `UpdateAncestors` is a lower bound of the children's
disproof numbers, and is one of them as soon as one is at most `INF_NODES`. -/
theorem ProofOfChildren_spec (E : Engine) (kids : List PNSNode) :
    (∀ c ∈ kids, ProofOfChildren E kids ≤ c.disproof) ∧
    ((∃ c ∈ kids, c.disproof ≤ E.INF_NODES) →
      ∃ c ∈ kids, c.disproof = ProofOfChildren E kids) := by
  obtain ⟨h1, h2, h3⟩ := proof_fold_spec kids E.INF_NODES
  refine ⟨h2, ?_⟩
  rintro ⟨c, hc, hle⟩
  rcases h3 with e | e
  · refine ⟨c, hc, ?_⟩
    have := h2 c hc
    unfold ProofOfChildren
    omega
  · exact e

/-- The disproof number of `UpdateAncestors` is `INF_NODES` when a child has
proof number `INF_NODES`, and otherwise the sum of the children's proof
numbers when that sum is below `INF_NODES`. -/
theorem DisproofOfChildren_spec (E : Engine) (kids : List PNSNode) :
    ((∃ c ∈ kids, c.proof = E.INF_NODES) → DisproofOfChildren E kids = E.INF_NODES) ∧
    ((∀ c ∈ kids, c.proof ≠ E.INF_NODES) → (kids.map PNSNode.proof).sum < E.INF_NODES →
      DisproofOfChildren E kids = (kids.map PNSNode.proof).sum) := by
  refine ⟨disproof_fold_some_inf E kids 0, fun h hlt => ?_⟩
  have := disproof_fold_sum E kids 0 h (by omega)
  unfold DisproofOfChildren
  rw [this]; omega

/-! ## The tree under the root -/

theorem UnderRoot.under_inTree {E : Engine} {s : PNSearch} {r n0 i : Nat} (hS : Shape E s r n0)
    (h : UnderRoot s r i) : InTree r n0 s.next_ i := by
  induction h with
  | root => exact Or.inl rfl
  | child p k _ hk ih => exact hS.inTree_of_mem ih hk

/-- The invariant of the main loop holds at every test of the loop
condition. -/
theorem PnsAfter_spec (E : Engine)
    (pns : Int → PNSParams → Nat → PNSearch → Option (PNSearch × Int))
    (hN : NestedOK E pns) (s0 : PNSearch) (r : Nat) (sn : Int) (fuel : Nat)
    (pns_params : PNSParams)
    (horph : pns_params.pns_type = PNSType.PN2 → (s0.node r).parent = none) :
    ∀ (k : Nat) (l l' : PnsLoop), LoopInv E s0 r sn l →
      PnsAfter E pns fuel sn pns_params r k l = some l' → LoopInv E s0 r sn l' := by
  intro k
  induction k with
  | zero =>
    intro l l' hI h
    have e : l = l' := Option.some.inj h
    rw [← e]; exact hI
  | succ k ih =>
    intro l l' hI h
    unfold PnsAfter at h
    cases hc : PnsCond E sn r l with
    | mk c l1 =>
      rw [hc] at h
      obtain ⟨c1, c2, c3, c4, c5, c6, c7⟩ := PnsCond_spec E sn r l l1 c hc
      have hI1 : LoopInv E s0 r sn l1 := hI.loopInv_of_eq c1 c2 c3 c4 c5 c6
      cases c with
      | false => exact absurd h (by simp)
      | true =>
        simp only at h
        cases hb : PnsBody E pns fuel pns_params r l1 with
        | none => rw [hb] at h; exact absurd h (by simp)
        | some l2 =>
          rw [hb] at h
          simp only at h
          exact ih l2 l' (PnsBody_spec E pns hN s0 r sn fuel pns_params l1 l2 horph hI1
            (by rw [c6]; exact c7 rfl) hb) h

theorem NestedOK_Pns (E : Engine) (level fuel : Nat) : NestedOK E (Pns E level fuel) :=
  fun budget x t t1 n1 hp hr => (Pns_spec E fuel level budget PNSParams.nested x t t1 n1 hp hr).1

end Nakshatra

namespace Nakshatra

/-! ## Claims about `Pns` -/

/-- C1: whenever `Pns` returns, in PN1 or PN2 mode and whatever ended its
loop, every node under `pns_root` that has children carries the numbers
`UpdateAncestors` computes from its children: its proof number is at most
every child's disproof number and is the disproof number of a child (as soon
as one of them is at most `INF_NODES`), so it is their minimum; its disproof
number is `INF_NODES` when a child has proof number `INF_NODES`, and otherwise
the sum of the children's proof numbers when that sum stays below
`INF_NODES`. The nodes above the one where `UpdateAncestors` stopped are among
them: none is left with stale numbers. `Pns` is entered as `Search` and
`Expand` enter it, on a childless root below the arena cursor. -/
theorem C1_numbers_up_to_date_on_return (E : Engine) (level fuel : Nat) (search_nodes : Int)
    (pns_params : PNSParams) (pns_root : Nat) (s : PNSearch) (out : PNSearch × Int)
    (hpre : PnsPre pns_params s pns_root)
    (hret : Pns E level fuel search_nodes pns_params pns_root s = some out) :
    ∀ i, UnderRoot out.1 pns_root i → (out.1.node i).children ≠ none →
      ArithOK E out.1 i ∧
      (∀ c ∈ out.1.kids i, (out.1.node i).proof ≤ c.disproof) ∧
      ((∃ c ∈ out.1.kids i, c.disproof ≤ E.INF_NODES) →
        ∃ c ∈ out.1.kids i, c.disproof = (out.1.node i).proof) ∧
      ((∃ c ∈ out.1.kids i, c.proof = E.INF_NODES) →
        (out.1.node i).disproof = E.INF_NODES) ∧
      ((∀ c ∈ out.1.kids i, c.proof ≠ E.INF_NODES) →
        ((out.1.kids i).map PNSNode.proof).sum < E.INF_NODES →
        (out.1.node i).disproof = ((out.1.kids i).map PNSNode.proof).sum) := by
  obtain ⟨s1, nn⟩ := out
  intro i hi hc
  have hpost := (Pns_spec E fuel level search_nodes pns_params pns_root s s1 nn hpre hret).1
  have ha : ArithOK E s1 i := hpost.tree.arith i (hi.under_inTree hpost.tree.shape) hc
  have hp := ProofOfChildren_spec E (s1.kids i)
  have hd := DisproofOfChildren_spec E (s1.kids i)
  refine ⟨ha, ?_, ?_, ?_, ?_⟩
  · intro c hcm; show (s1.node i).proof ≤ _; rw [ha.1]; exact hp.1 c hcm
  · intro h; show ∃ c ∈ s1.kids i, c.disproof = (s1.node i).proof; rw [ha.1]; exact hp.2 h
  · intro h; show (s1.node i).disproof = _; rw [ha.2]; exact hd.1 h
  · intro h1 h2; show (s1.node i).disproof = _; rw [ha.2]; exact hd.2 h1 h2

/-- C1, on the small game: a PN1 search of the position after `b` returns,
and the root's proof number is at most the disproof number of each of its
children. -/
theorem C1_numbers_up_to_date_on_return_witness :
    ∃ out, Pns Demo.roomy 2 5 100 Demo.pn1 0 Demo.afterB = some out ∧
      (out.1.node 0).children ≠ none ∧
      ∀ c ∈ out.1.kids 0, (out.1.node 0).proof ≤ c.disproof :=
  ⟨(Pns Demo.roomy 2 5 100 Demo.pn1 0 Demo.afterB).get (by decide),
    (Option.some_get _).symm, by decide,
    (C1_numbers_up_to_date_on_return Demo.roomy 2 5 100 Demo.pn1 0 Demo.afterB _
      ⟨by decide, rfl, rfl, fun _ => rfl⟩ (Option.some_get _).symm 0 UnderRoot.root
      (by decide)).2.1⟩

/-- C4 fails as stated: on the small game, a PN1 search with a budget of one
node returns with a node count of three, the size of the one block of
children it expanded. -/
theorem C4_budget_exceeded :
    ∃ out, Pns Demo.engine 1 5 1 Demo.pn1 0 Demo.start = some out ∧ ¬ out.2 ≤ 1 :=
  ⟨(Pns Demo.engine 1 5 1 Demo.pn1 0 Demo.start).get (by decide),
    (Option.some_get _).symm, by decide⟩

/-- C4, amended: the budget is tested before each expansion and not after it,
so the node count `Pns` reports is not negative and stays below
`search_nodes + B`, where `B` bounds the number of moves the generator yields
in any position (for a budget of at least one node). -/
theorem C4_node_count_bound (E : Engine) (level fuel : Nat) (search_nodes : Int)
    (pns_params : PNSParams) (pns_root : Nat) (s : PNSearch) (out : PNSearch × Int) (B : Nat)
    (hB : ∀ b, (E.GenerateMoves b).length ≤ B)
    (hbudget : 1 ≤ search_nodes)
    (hpre : PnsPre pns_params s pns_root)
    (hret : Pns E level fuel search_nodes pns_params pns_root s = some out) :
    0 ≤ out.2 ∧ out.2 < search_nodes + B := by
  obtain ⟨s1, nn⟩ := out
  obtain ⟨_, h1, h2⟩ := Pns_spec E fuel level search_nodes pns_params pns_root s s1 nn hpre hret
  refine ⟨h1, ?_⟩
  show nn < search_nodes + B
  rcases h2 with e | ⟨b, hb⟩
  · rw [e]; omega
  · have := hB b; omega

theorem Demo.moves_le (b : Board) : (Demo.moves b).length ≤ 3 := by
  unfold Demo.moves
  split <;> simp

/-- C4, amended, on the small game, where no position has more than three
moves: with a budget of one node the count stays below four. -/
theorem C4_node_count_bound_witness :
    ∃ out, Pns Demo.engine 1 5 1 Demo.pn1 0 Demo.start = some out ∧
      0 ≤ out.2 ∧ out.2 < 1 + 3 :=
  ⟨(Pns Demo.engine 1 5 1 Demo.pn1 0 Demo.start).get (by decide),
    (Option.some_get _).symm,
    C4_node_count_bound Demo.engine 1 5 1 Demo.pn1 0 Demo.start _ 3 Demo.moves_le (by decide)
      ⟨by decide, rfl, rfl, fun _ => rfl⟩ (Option.some_get _).symm⟩

/-- C10: whenever `Pns` returns, every node under `pns_root` that has children
has `tree_size` one more than the sum of the `tree_size` of its children. While
the main loop runs, at every test of its condition, the nodes whose
`tree_size` may be out of date are strict ancestors of `cur_node`: every other
node with children satisfies the equation; the closing loop brings the
ancestors up to date on its way to the root. -/
theorem C10_tree_size_additive (E : Engine) (level fuel : Nat) (search_nodes : Int)
    (pns_params : PNSParams) (pns_root : Nat) (s : PNSearch)
    (hpre : PnsPre pns_params s pns_root) :
    (∀ out, Pns E (level + 1) fuel search_nodes pns_params pns_root s = some out →
      ∀ i, UnderRoot out.1 pns_root i → (out.1.node i).children ≠ none →
        (out.1.node i).tree_size = 1 + ((out.1.kids i).map PNSNode.tree_size).sum) ∧
    (∀ (k : Nat) (l : PnsLoop),
      PnsAfter E (Pns E level fuel) fuel search_nodes pns_params pns_root k
        (PnsInit pns_params pns_root s) = some l →
      ∃ path, Chain l.s pns_root l.cur_node path ∧
        ∀ i, UnderRoot l.s pns_root i → (l.s.node i).children ≠ none →
          i ∉ (path ++ [pns_root]).tail →
          (l.s.node i).tree_size = 1 + ((l.s.kids i).map PNSNode.tree_size).sum) := by
  have hN := NestedOK_Pns E level fuel
  refine ⟨?_, ?_⟩
  · intro out h i hi hc
    obtain ⟨s1, nn⟩ := out
    have hpost := (Pns_spec E fuel (level + 1) search_nodes pns_params pns_root s s1 nn hpre
      h).1
    exact hpost.sizes i (hi.under_inTree hpost.tree.shape) hc (by simp)
  · intro k l h
    have hI := PnsAfter_spec E _ hN s pns_root search_nodes fuel pns_params hpre.orphan k _ l
      (LoopInv_init E pns_params s pns_root search_nodes hpre) h
    obtain ⟨path, hp, hz⟩ := hI.walk
    exact ⟨path, hp.chain, fun i hi hc hn => hz i (hi.under_inTree hI.shape) hc hn⟩

/-- C10, on the small game: after a PN1 search of the position after `b` the
root, which has children, has the size of its children plus one. -/
theorem C10_tree_size_additive_witness :
    ∃ out, Pns Demo.roomy 2 5 100 Demo.pn1 0 Demo.afterB = some out ∧
      (out.1.node 0).children ≠ none ∧
      (out.1.node 0).tree_size = 1 + ((out.1.kids 0).map PNSNode.tree_size).sum :=
  ⟨(Pns Demo.roomy 2 5 100 Demo.pn1 0 Demo.afterB).get (by decide),
    (Option.some_get _).symm, by decide,
    (C10_tree_size_additive Demo.roomy 1 5 100 Demo.pn1 0 Demo.afterB
      ⟨by decide, rfl, rfl, fun _ => rfl⟩).1 _ (Option.some_get _).symm 0 UnderRoot.root
      (by decide)⟩

end Nakshatra

namespace Nakshatra

/-! ## `FindMpn` ends -/

theorem find_range_first (p : Nat → Bool) :
    ∀ (n a c : Nat), (List.range' a n).find? p = some c →
      a ≤ c ∧ c < a + n ∧ p c = true ∧ ∀ c', a ≤ c' → c' < c → p c' = false := by
  intro n
  induction n with
  | zero => intro a c h; simp at h
  | succ n ih =>
    intro a c h
    rw [List.range'_succ, List.find?_cons] at h
    cases hp : p a with
    | true =>
      rw [hp] at h
      have e : a = c := Option.some.inj h
      subst e
      exact ⟨le_refl _, by omega, hp, fun c' h1 h2 => by omega⟩
    | false =>
      rw [hp] at h
      obtain ⟨h1, h2, h3, h4⟩ := ih (a + 1) c h
      refine ⟨by omega, by omega, h3, fun c' hc1 hc2 => ?_⟩
      by_cases e : c' = a
      · rw [e]; exact hp
      · exact h4 c' (by omega) hc2

theorem disproof_fold_zero (E : Engine) (kids : List PNSNode)
    (h : ∀ c ∈ kids, c.proof = 0) : DisproofOfChildren E kids = 0 := by
  unfold DisproofOfChildren
  induction kids with
  | nil => rfl
  | cons k kids ih =>
    simp only [List.foldl_cons]
    have hk : k.proof = 0 := h k (by simp)
    by_cases e : k.proof = E.INF_NODES
    · rw [if_pos e, disproof_fold_inf, ← e]
      exact hk
    · rw [if_neg e]
      have : (0 : Nat) ≠ E.INF_NODES := by rw [← hk]; exact e
      rw [if_pos this, hk]
      exact ih (fun c hc => h c (by simp [hc]))

theorem mem_kids {s : PNSearch} {i : Nat} {c : PNSNode} (h : c ∈ s.kids i) :
    ∃ k ∈ (s.node i).children_range, s.node k = c := by
  unfold PNSearch.kids at h
  exact List.mem_map.mp h

/-- On a node with children whose numbers are up to date and whose pair is
neither `(INF_NODES, 0)` nor `(0, INF_NODES)`, the inner loop of `FindMpn`
finds a child: the first one that passes the rule, and its pair is again
neither of the two. -/
theorem SelectChild_first (E : Engine) (s : PNSearch) (x : Nat)
    (hc : (s.node x).children ≠ none) (ha : ArithOK E s x) (hu : Unsettled E s x) :
    FirstChild E s x (SelectChild E s x) ∧ Unsettled E s (SelectChild E s x) := by
  obtain ⟨c0, hc0⟩ := Option.ne_none_iff_exists'.mp hc
  have hrange := children_range_some hc0
  have hp := proof_fold_spec (s.kids x) E.INF_NODES
  obtain ⟨hp1, hp2, hp3⟩ := hp
  have hproof : (s.node x).proof = ProofOfChildren E (s.kids x) := ha.1
  unfold ProofOfChildren at hproof
  rw [← hproof] at hp1 hp2 hp3
  by_cases hinf : (s.node x).proof = E.INF_NODES
  · -- some child has a proof number that is not 0
    have hex : ∃ k ∈ (s.node x).children_range, (s.node k).proof ≠ 0 := by
      by_contra hno
      have hall : ∀ c ∈ s.kids x, c.proof = 0 := by
        intro c hcm
        obtain ⟨k, hk, e⟩ := mem_kids hcm
        by_contra hne
        exact hno ⟨k, hk, by rw [e]; exact hne⟩
      have := disproof_fold_zero E (s.kids x) hall
      exact hu.1 ⟨hinf, by rw [ha.2]; exact this⟩
    cases hf : (s.node x).children_range.find? (fun c => decide ((s.node c).proof ≠ 0)) with
    | none =>
      obtain ⟨k, hk, hne⟩ := hex
      have := List.find?_eq_none.mp hf k hk
      simp at this
      exact absurd this hne
    | some c =>
      have hsel : SelectChild E s x = c := by
        unfold SelectChild
        rw [if_pos hinf, hf]; rfl
      rw [hsel]
      have hf' := hf
      rw [hrange] at hf'
      obtain ⟨f1, f2, f3, f4⟩ := find_range_first _ _ _ _ hf'
      have hcm : c ∈ (s.node x).children_range := by
        rw [hrange, List.mem_range'_1]; exact ⟨f1, f2⟩
      have hcp : (s.node c).proof ≠ 0 := by simpa using f3
      refine ⟨⟨hcm, ?_, ?_⟩, ?_, ?_⟩
      · unfold MpnRule; rw [if_pos hinf]; omega
      · intro c' hc' hlt
        unfold MpnRule; rw [if_pos hinf]
        rw [hrange, List.mem_range'_1] at hc'
        have := f4 c' hc'.1 hlt
        simp at this
        omega
      · rintro ⟨e1, e2⟩
        have hle := hp2 (s.node c) (List.mem_map.mpr ⟨c, hcm, rfl⟩)
        rw [hinf, e2] at hle
        have : E.INF_NODES = 0 := by omega
        rw [this] at e1
        exact hcp e1
      · rintro ⟨e1, _⟩
        exact hcp e1
  · -- the minimum is attained
    have hex : ∃ k ∈ (s.node x).children_range, (s.node k).disproof = (s.node x).proof := by
      rcases hp3 with e | ⟨c, hcm, e⟩
      · exact absurd e hinf
      · obtain ⟨k, hk, e'⟩ := mem_kids hcm
        exact ⟨k, hk, by rw [e']; exact e⟩
    cases hf : (s.node x).children_range.find?
        (fun c => decide ((s.node x).proof = (s.node c).disproof)) with
    | none =>
      obtain ⟨k, hk, he⟩ := hex
      have := List.find?_eq_none.mp hf k hk
      simp at this
      exact absurd he.symm this
    | some c =>
      have hsel : SelectChild E s x = c := by
        unfold SelectChild
        rw [if_neg hinf, hf]; rfl
      rw [hsel]
      have hf' := hf
      rw [hrange] at hf'
      obtain ⟨f1, f2, f3, f4⟩ := find_range_first _ _ _ _ hf'
      have hcm : c ∈ (s.node x).children_range := by
        rw [hrange, List.mem_range'_1]; exact ⟨f1, f2⟩
      have hcd : (s.node x).proof = (s.node c).disproof := by simpa using f3
      refine ⟨⟨hcm, ?_, ?_⟩, ?_, ?_⟩
      · unfold MpnRule; rw [if_neg hinf]; exact hcd.symm
      · intro c' hc' hlt
        unfold MpnRule; rw [if_neg hinf]
        rw [hrange, List.mem_range'_1] at hc'
        have := f4 c' hc'.1 hlt
        simp at this
        exact fun e => this e.symm
      · rintro ⟨e1, e2⟩
        have hd := (DisproofOfChildren_spec E (s.kids x)).1
          ⟨s.node c, List.mem_map.mpr ⟨c, hcm, rfl⟩, e1⟩
        apply hu.2
        exact ⟨by rw [hcd, e2], by rw [ha.2]; exact hd⟩
      · rintro ⟨_, e2⟩
        rw [← hcd] at e2
        exact hinf e2

theorem Descent_board {E : Engine} {s : PNSearch} (b : Board) {x y : Nat} {path : List Nat}
    (h : Descent E { s with board_ := b } x path y) : Descent E s x path y := by
  induction h with
  | stop x hx => exact Descent.stop x hx
  | step x c y rest h1 h2 _ ih => exact Descent.step x c y rest h1 h2 ih

/-- From a node of the tree whose pair is neither `(INF_NODES, 0)` nor
`(0, INF_NODES)`, `FindMpn` ends when its fuel exceeds the number of slots
between the node and the cursor; it follows the selection rule down to a
childless node, plays the moves of the nodes it passes and counts them. -/
theorem FindMpn_descends (E : Engine) (r n0 : Nat) :
    ∀ (fuel : Nat) (s : PNSearch) (x : Nat) (depth : Int),
      Shape E s r n0 →
      (∀ i, InTree r n0 s.next_ i → (s.node i).children ≠ none → ArithOK E s i) →
      InTree r n0 s.next_ x → Unsettled E s x → s.next_ - x < fuel →
      ∃ path mpn, Descent E s x path mpn ∧ (s.node mpn).children = none ∧
        FindMpn E fuel x depth s = some (mpn, depth + path.length,
          { s with board_ := { s.board_ with
              move_stack_ := path.reverse.map (fun i => (s.node i).move) ++
                s.board_.move_stack_ } }) := by
  intro fuel
  induction fuel with
  | zero => intro s x depth _ _ _ _ h; omega
  | succ f ih =>
    intro s x depth hS hA hx hu hf
    cases hc : (s.node x).children with
    | none =>
      refine ⟨[], x, Descent.stop x hc, hc, ?_⟩
      unfold FindMpn
      rw [hc]
      simp
    | some c0 =>
      have hne : (s.node x).children ≠ none := by rw [hc]; simp
      obtain ⟨hfirst, hgood⟩ := SelectChild_first E s x hne (hA x hx hne) hu
      obtain ⟨_, hk1, hk2, hk3⟩ := hS.range_facts hx hfirst.1
      have hTb : Touch s { s with board_ :=
          (s.board_.MakeMove (s.node (SelectChild E s x)).move) } x := Touch.board s x _
      obtain ⟨path, mpn, d1, d2, d3⟩ := ih
        { s with board_ := (s.board_.MakeMove (s.node (SelectChild E s x)).move) }
        (SelectChild E s x) (depth + 1) (hTb.shape_of_touch hS)
        (fun i hi hci => hA i hi hci) (Or.inr ⟨hk1, hk2⟩) hgood
        (by show s.next_ - _ < f; omega)
      refine ⟨SelectChild E s x :: path, mpn, Descent.step x _ mpn path hne hfirst
        (Descent_board _ d1), d2, ?_⟩
      unfold FindMpn
      rw [hc]
      simp only
      rw [d3]
      simp only [List.length_cons, List.reverse_cons, List.map_append, List.map_cons,
        List.map_nil, List.append_assoc, List.singleton_append, Board.MakeMove, node_mk]
      congr 3
      push_cast
      ring

end Nakshatra

namespace Nakshatra

/-! ## Claims about `FindMpn` -/

/-- C9: in a well shaped tree whose nodes with children all carry the numbers
computed from their children, `FindMpn`, started at a tree node with positive
proof and disproof numbers, ends (as soon as its fuel exceeds the number of
arena slots between the start node and the cursor) and returns a node without
children. At each level it steps to the first child, in arena order, that
passes the rule (`child.disproof = parent.proof` when `parent.proof` is not
`INF_NODES`, `child.proof > 0` when it is); it plays the moves of exactly the
nodes it steps to, in that order, and adds 1 to `depth` for each. -/
theorem C9_find_mpn_follows_rule (E : Engine) (s : PNSearch) (r n0 start fuel : Nat)
    (depth : Int) (hS : Shape E s r n0)
    (hA : ∀ i, InTree r n0 s.next_ i → (s.node i).children ≠ none → ArithOK E s i)
    (hstart : InTree r n0 s.next_ start)
    (hp : 0 < (s.node start).proof) (hd : 0 < (s.node start).disproof)
    (hfuel : s.next_ - start < fuel) :
    ∃ path mpn, Descent E s start path mpn ∧ (s.node mpn).children = none ∧
      FindMpn E fuel start depth s = some (mpn, depth + path.length,
        { s with board_ := { s.board_ with
            move_stack_ := path.reverse.map (fun i => (s.node i).move) ++
              s.board_.move_stack_ } }) :=
  FindMpn_descends E r n0 fuel s start depth hS hA hstart
    ⟨fun h => by omega, fun h => by omega⟩ hfuel

theorem Demo.secondTest_isSome : Demo.secondTest.isSome = true := by decide

/-- C9, on the small game: in the tree a PN1 search of the position after `b`
has built after one run of its main loop, `FindMpn` started at the root
returns a childless node. -/
theorem C9_find_mpn_follows_rule_witness :
    ∃ l, Demo.secondTest = some l ∧
      ∃ path mpn, Descent Demo.roomy l.s 0 path mpn ∧ (l.s.node mpn).children = none ∧
        FindMpn Demo.roomy 5 0 0 l.s = some (mpn, (0 : Int) + path.length,
          { l.s with board_ := { l.s.board_ with
              move_stack_ := path.reverse.map (fun i => (l.s.node i).move) ++
                l.s.board_.move_stack_ } }) := by
  have hI := PnsAfter_spec Demo.roomy _ (NestedOK_Pns Demo.roomy 0 5) Demo.afterB 0 100 5
    Demo.pn1 (fun _ => rfl) 1 _ (Demo.secondTest.get Demo.secondTest_isSome)
    (LoopInv_init Demo.roomy Demo.pn1 Demo.afterB 0 100 ⟨by decide, rfl, rfl, fun _ => rfl⟩)
    (Option.some_get _).symm
  exact ⟨Demo.secondTest.get Demo.secondTest_isSome, (Option.some_get _).symm,
    C9_find_mpn_follows_rule Demo.roomy _ 0 1 0 5 0 hI.shape
      (fun i hi hc => hI.arith i hi hc (fun f => f))
      (Or.inl rfl) (by decide) (by decide) (by decide)⟩

end Nakshatra

namespace Nakshatra

/-! ## `Search` -/

/-- What `Search` returns, in terms of the `Pns` call it makes. -/
theorem Search_out (E : Engine) (level fuel : Nat) (pns_params : PNSParams)
    (pns_result : PNSResult) (s : PNSearch) (out : PNSearch × PNSResult)
    (h : Search E level fuel pns_params pns_result s = some out) :
    ∃ budget nn, SearchBudget E pns_params = some budget ∧
      Pns E level fuel budget pns_params 0 { s.setNode 0 PNSNode.fresh with next_ := 1 } =
        some (out.1, nn) ∧
      out.2.num_nodes = nn ∧
      out.2.ordered_moves = SortByScore (pns_result.ordered_moves ++
        (out.1.node 0).children_range.map (fun c => RootMoveStat E (out.1.node c))) := by
  unfold Search at h
  simp only at h
  cases hb : SearchBudget E pns_params with
  | none => rw [hb] at h; exact absurd h (by simp)
  | some budget =>
    rw [hb] at h
    simp only at h
    cases hp : Pns E level fuel budget pns_params 0
        { s.setNode 0 PNSNode.fresh with next_ := 1 } with
    | none => rw [hp] at h; exact absurd h (by simp)
    | some r =>
      obtain ⟨s1, nn⟩ := r
      rw [hp] at h
      simp only at h
      have e := Option.some.inj h
      rw [← e]
      exact ⟨budget, nn, rfl, hp, rfl, rfl⟩

theorem SortByScore_perm (moves : List MoveStat) : List.Perm (SortByScore moves) moves :=
  List.perm_insertionSort _ moves

theorem SortByScore_sorted (moves : List MoveStat) :
    List.Sorted (fun a b => a.score ≤ b.score) (SortByScore moves) := by
  haveI : IsTotal MoveStat (fun a b => a.score ≤ b.score) := ⟨fun a b => le_total _ _⟩
  haveI : IsTrans MoveStat (fun a b => a.score ≤ b.score) :=
    ⟨fun a b c h1 h2 => le_trans h1 h2⟩
  exact List.sorted_insertionSort _ moves

theorem mem_SortByScore {moves : List MoveStat} {e : MoveStat} :
    e ∈ SortByScore moves ↔ e ∈ moves :=
  (SortByScore_perm moves).mem_iff

/-- The label `Search` gives a child of the root, case by case. -/
theorem RootMoveStat_result (E : Engine) (n : PNSNode) :
    (n.proof = 0 → (RootMoveStat E n).result = -E.WIN) ∧
    (n.proof ≠ 0 → n.proof = E.INF_NODES → n.disproof = 0 →
      (RootMoveStat E n).result = E.WIN) ∧
    (n.proof ≠ 0 → n.proof = E.INF_NODES → n.disproof = E.INF_NODES →
      (RootMoveStat E n).result = E.DRAW) ∧
    (n.proof ≠ 0 → ¬ (n.proof = E.INF_NODES ∧ (n.disproof = 0 ∨ n.disproof = E.INF_NODES)) →
      (RootMoveStat E n).result = E.UNKNOWN) := by
  refine ⟨fun h => ?_, fun h1 h2 h3 => ?_, fun h1 h2 h3 => ?_, fun h1 h2 => ?_⟩
  · simp only [RootMoveStat, if_pos h]
  · simp only [RootMoveStat, if_neg h1, if_pos (And.intro h2 h3)]
  · have hne : ¬ (n.proof = E.INF_NODES ∧ n.disproof = 0) := by
      rintro ⟨_, e⟩; rw [e] at h3; rw [← h3] at h2; exact h1 h2
    simp only [RootMoveStat, if_neg h1, if_neg hne, if_pos (And.intro h2 h3)]
  · have a : ¬ (n.proof = E.INF_NODES ∧ n.disproof = 0) := fun e => h2 ⟨e.1, Or.inl e.2⟩
    have b : ¬ (n.proof = E.INF_NODES ∧ n.disproof = E.INF_NODES) :=
      fun e => h2 ⟨e.1, Or.inr e.2⟩
    simp only [RootMoveStat, if_neg h1, if_neg a, if_neg b]

theorem RootMoveStat_fields (E : Engine) (n : PNSNode) :
    (RootMoveStat E n).move = n.move ∧ (RootMoveStat E n).tree_size = n.tree_size ∧
    (RootMoveStat E n).score =
      if n.proof = 0 then E.DBL_MAX else E.double_div n.disproof n.proof := by
  unfold RootMoveStat
  split <;> simp

end Nakshatra

namespace Nakshatra

/-! ## The search of the small game -/

theorem Demo.searchOut_isSome : Demo.searchOut.isSome = true := by decide

theorem Demo.searchOut_range :
    ((Demo.searchOut.get Demo.searchOut_isSome).1.node 0).children_range = [1, 2, 3] := by
  decide

theorem Demo.searchOut_node1 :
    (Demo.searchOut.get Demo.searchOut_isSome).1.node 1 = Demo.nodeC := by decide

theorem Demo.searchOut_node2 :
    (Demo.searchOut.get Demo.searchOut_isSome).1.node 2 = Demo.nodeA := by decide

theorem Demo.searchOut_node3 :
    (Demo.searchOut.get Demo.searchOut_isSome).1.node 3 = Demo.nodeB := by decide

theorem Demo.score_nodeC : (RootMoveStat Demo.engine Demo.nodeC).score = 2 ^ 1024 - 2 ^ 971 := by
  simp [RootMoveStat, Demo.nodeC, Demo.engine, Demo.base]

theorem Demo.score_nodeA : (RootMoveStat Demo.engine Demo.nodeA).score = 0 := by
  simp [RootMoveStat, Demo.nodeA, Demo.engine, Demo.base]

theorem Demo.score_nodeB : (RootMoveStat Demo.engine Demo.nodeB).score = 2 := by
  simp [RootMoveStat, Demo.nodeB, Demo.engine, Demo.base]

/-- The move list the search of the small game returns: `a`, `b`, `c`. -/
theorem Demo.searchOut_moves :
    (Demo.searchOut.get Demo.searchOut_isSome).2.ordered_moves =
      [RootMoveStat Demo.engine Demo.nodeA, RootMoveStat Demo.engine Demo.nodeB,
        RootMoveStat Demo.engine Demo.nodeC] := by
  obtain ⟨_, _, _, _, _, h⟩ := Search_out Demo.engine 1 5 Demo.pn1 ⟨[], 0⟩ Demo.start
    (Demo.searchOut.get Demo.searchOut_isSome) (Option.some_get _).symm
  rw [h, Demo.searchOut_range]
  simp only [List.nil_append, List.map_cons, List.map_nil, Demo.searchOut_node1,
    Demo.searchOut_node2, Demo.searchOut_node3]
  have h1 : (RootMoveStat Demo.engine Demo.nodeA).score ≤
      (RootMoveStat Demo.engine Demo.nodeB).score := by
    rw [Demo.score_nodeA, Demo.score_nodeB]; norm_num
  have h2 : ¬ (RootMoveStat Demo.engine Demo.nodeC).score ≤
      (RootMoveStat Demo.engine Demo.nodeA).score := by
    rw [Demo.score_nodeA, Demo.score_nodeC]; norm_num
  have h3 : ¬ (RootMoveStat Demo.engine Demo.nodeC).score ≤
      (RootMoveStat Demo.engine Demo.nodeB).score := by
    rw [Demo.score_nodeB, Demo.score_nodeC]; norm_num
  simp only [SortByScore, List.insertionSort, List.orderedInsert, if_pos h1, if_neg h2,
    if_neg h3]

end Nakshatra

namespace Nakshatra

/-! ## Claims about the move list of `Search` -/

/-- C5 fails as stated: in the list the search of the small game returns, the
child of the root for the move `c` has the pair `(0, INF_NODES)`, and its
entry carries the result `-WIN`, a loss, not `WIN`. -/
theorem C5_proved_child_is_a_loss :
    ∃ out, Demo.searchOut = some out ∧
      ∃ c ∈ (out.1.node 0).children_range,
        (out.1.node c).proof = 0 ∧ (out.1.node c).disproof = Demo.engine.INF_NODES ∧
        RootMoveStat Demo.engine (out.1.node c) ∈ out.2.ordered_moves ∧
        (RootMoveStat Demo.engine (out.1.node c)).result = -Demo.engine.WIN ∧
        (RootMoveStat Demo.engine (out.1.node c)).result ≠ Demo.engine.WIN := by
  refine ⟨Demo.searchOut.get Demo.searchOut_isSome, (Option.some_get _).symm, 1, ?_, ?_, ?_,
    ?_, ?_, ?_⟩
  · rw [Demo.searchOut_range]; decide
  · rw [Demo.searchOut_node1]; rfl
  · rw [Demo.searchOut_node1]; rfl
  · rw [Demo.searchOut_moves, Demo.searchOut_node1]; simp
  · rw [Demo.searchOut_node1]; rfl
  · rw [Demo.searchOut_node1]; decide

/-- C5, amended: the labels are from the point of view of the side to move at
the root. Every child of the root has its entry in the list `Search` returns,
and the result of the entry is `-WIN` (a loss) when the child's proof number
is 0, in particular for the pair `(0, INF_NODES)`; otherwise it is `WIN` for
the pair `(INF_NODES, 0)`, `DRAW` for `(INF_NODES, INF_NODES)` and `UNKNOWN`
for every other pair. -/
theorem C5_root_labels (E : Engine) (level fuel : Nat) (pns_params : PNSParams)
    (pns_result : PNSResult) (s : PNSearch) (out : PNSearch × PNSResult)
    (hret : Search E level fuel pns_params pns_result s = some out) :
    ∀ c ∈ (out.1.node 0).children_range,
      RootMoveStat E (out.1.node c) ∈ out.2.ordered_moves ∧
      ((out.1.node c).proof = 0 → (RootMoveStat E (out.1.node c)).result = -E.WIN) ∧
      ((out.1.node c).proof ≠ 0 → (out.1.node c).proof = E.INF_NODES →
        (out.1.node c).disproof = 0 → (RootMoveStat E (out.1.node c)).result = E.WIN) ∧
      ((out.1.node c).proof ≠ 0 → (out.1.node c).proof = E.INF_NODES →
        (out.1.node c).disproof = E.INF_NODES →
        (RootMoveStat E (out.1.node c)).result = E.DRAW) ∧
      ((out.1.node c).proof ≠ 0 →
        ¬ ((out.1.node c).proof = E.INF_NODES ∧
          ((out.1.node c).disproof = 0 ∨ (out.1.node c).disproof = E.INF_NODES)) →
        (RootMoveStat E (out.1.node c)).result = E.UNKNOWN) := by
  intro c hc
  obtain ⟨_, _, _, _, _, h⟩ := Search_out E level fuel pns_params pns_result s out hret
  refine ⟨?_, RootMoveStat_result E (out.1.node c)⟩
  rw [h, mem_SortByScore]
  exact List.mem_append_right _ (List.mem_map.mpr ⟨c, hc, rfl⟩)

/-- C5, amended, on the small game: the entry of the child for the move `a`,
whose pair is `(INF_NODES, 0)`, is in the list and carries `WIN`. -/
theorem C5_root_labels_witness :
    ∃ out, Demo.searchOut = some out ∧
      RootMoveStat Demo.engine (out.1.node 2) ∈ out.2.ordered_moves ∧
      (RootMoveStat Demo.engine (out.1.node 2)).result = Demo.engine.WIN :=
  ⟨Demo.searchOut.get Demo.searchOut_isSome, (Option.some_get _).symm,
    (C5_root_labels Demo.engine 1 5 Demo.pn1 ⟨[], 0⟩ Demo.start
      (Demo.searchOut.get Demo.searchOut_isSome) (Option.some_get Demo.searchOut_isSome).symm 2
      (by rw [Demo.searchOut_range]; decide)).1,
    (C5_root_labels Demo.engine 1 5 Demo.pn1 ⟨[], 0⟩ Demo.start
      (Demo.searchOut.get Demo.searchOut_isSome) (Option.some_get Demo.searchOut_isSome).symm 2
      (by rw [Demo.searchOut_range]; decide)).2.2.1
      (by rw [Demo.searchOut_node2]; decide) (by rw [Demo.searchOut_node2]; rfl)
      (by rw [Demo.searchOut_node2]; rfl)⟩

/-- C6: when `Search` is called with an empty `ordered_moves`, the list it
leaves there is a permutation of the entries of the children of the root, one
per child, and its scores do not decrease from front to back; the entry of a
child carries the child's move and `tree_size`, and its score is `DBL_MAX`
when the child's proof number is 0 and the quotient `disproof / proof`
otherwise. -/
theorem C6_sorted_permutation (E : Engine) (level fuel : Nat) (pns_params : PNSParams)
    (pns_result : PNSResult) (s : PNSearch) (out : PNSearch × PNSResult)
    (hempty : pns_result.ordered_moves = [])
    (hret : Search E level fuel pns_params pns_result s = some out) :
    List.Perm out.2.ordered_moves
      ((out.1.node 0).children_range.map (fun c => RootMoveStat E (out.1.node c))) ∧
    List.Sorted (fun a b => a.score ≤ b.score) out.2.ordered_moves ∧
    ∀ n : PNSNode, (RootMoveStat E n).move = n.move ∧
      (RootMoveStat E n).tree_size = n.tree_size ∧
      (RootMoveStat E n).score =
        if n.proof = 0 then E.DBL_MAX else E.double_div n.disproof n.proof := by
  obtain ⟨_, _, _, _, _, h⟩ := Search_out E level fuel pns_params pns_result s out hret
  rw [hempty, List.nil_append] at h
  refine ⟨?_, ?_, RootMoveStat_fields E⟩
  · rw [h]; exact SortByScore_perm _
  · rw [h]; exact SortByScore_sorted _

/-- C6, on the small game: the list the search returns is a permutation of the
entries of the three children of the root, in the order of their scores. -/
theorem C6_sorted_permutation_witness :
    ∃ out, Demo.searchOut = some out ∧
      List.Perm out.2.ordered_moves
        ((out.1.node 0).children_range.map (fun c => RootMoveStat Demo.engine (out.1.node c))) ∧
      List.Sorted (fun a b => a.score ≤ b.score) out.2.ordered_moves :=
  ⟨Demo.searchOut.get Demo.searchOut_isSome, (Option.some_get _).symm,
    (C6_sorted_permutation Demo.engine 1 5 Demo.pn1 ⟨[], 0⟩ Demo.start
      (Demo.searchOut.get Demo.searchOut_isSome) rfl (Option.some_get Demo.searchOut_isSome).symm).1,
    (C6_sorted_permutation Demo.engine 1 5 Demo.pn1 ⟨[], 0⟩ Demo.start
      (Demo.searchOut.get Demo.searchOut_isSome) rfl (Option.some_get Demo.searchOut_isSome).symm).2.1⟩

/-- C7 fails as stated: in the list the search of the small game returns, the
entry of the child for `b`, whose proof number is 1, comes before the entry of
the child for `c`, whose proof number is 0. -/
theorem C7_proved_child_sorts_after :
    ∃ out, Demo.searchOut = some out ∧
      ∃ pre post, out.2.ordered_moves =
          pre ++ RootMoveStat Demo.engine (out.1.node 3) :: post ∧
        RootMoveStat Demo.engine (out.1.node 1) ∈ post ∧
        3 ∈ (out.1.node 0).children_range ∧ 0 < (out.1.node 3).proof ∧
        1 ∈ (out.1.node 0).children_range ∧ (out.1.node 1).proof = 0 := by
  refine ⟨Demo.searchOut.get Demo.searchOut_isSome, (Option.some_get _).symm,
    [RootMoveStat Demo.engine Demo.nodeA], [RootMoveStat Demo.engine Demo.nodeC], ?_, ?_, ?_,
    ?_, ?_, ?_⟩
  · rw [Demo.searchOut_moves, Demo.searchOut_node3]; rfl
  · rw [Demo.searchOut_node1]; simp
  · rw [Demo.searchOut_range]; decide
  · rw [Demo.searchOut_node3]; decide
  · rw [Demo.searchOut_range]; decide
  · rw [Demo.searchOut_node1]; rfl

/-- C7, amended: root children with proof number 0 sort last. Their entries
have the score `DBL_MAX`, so in the list `Search` returns every entry that
follows the entry of such a child has a score of at least `DBL_MAX`: the
entries with a smaller score, those of the children with a positive proof
number and a quotient below `DBL_MAX`, all come before it. -/
theorem C7_proved_children_sort_last (E : Engine) (level fuel : Nat)
    (pns_params : PNSParams) (pns_result : PNSResult) (s : PNSearch)
    (out : PNSearch × PNSResult)
    (hret : Search E level fuel pns_params pns_result s = some out) :
    ∀ (pre post : List MoveStat) (x : MoveStat),
      out.2.ordered_moves = pre ++ x :: post →
      (∃ c ∈ (out.1.node 0).children_range,
        (out.1.node c).proof = 0 ∧ x = RootMoveStat E (out.1.node c)) →
      x.score = E.DBL_MAX ∧ ∀ y ∈ post, E.DBL_MAX ≤ y.score := by
  intro pre post x hsplit hx
  obtain ⟨_, _, _, _, _, h⟩ := Search_out E level fuel pns_params pns_result s out hret
  obtain ⟨c, _, hp, hxe⟩ := hx
  have hscore : x.score = E.DBL_MAX := by
    rw [hxe, (RootMoveStat_fields E (out.1.node c)).2.2, if_pos hp]
  have hsorted : List.Sorted (fun a b => a.score ≤ b.score) out.2.ordered_moves := by
    rw [h]; exact SortByScore_sorted _
  rw [hsplit] at hsorted
  have hpw := (List.pairwise_append.mp hsorted).2.1
  refine ⟨hscore, fun y hy => ?_⟩
  rw [← hscore]
  exact (List.pairwise_cons.mp hpw).1 y hy

/-- C7, amended, on the small game: the entry of the child for `c`, whose
proof number is 0, has the score `DBL_MAX` and stands at the end of the
list. -/
theorem C7_proved_children_sort_last_witness :
    ∃ out, Demo.searchOut = some out ∧
      out.2.ordered_moves = [RootMoveStat Demo.engine Demo.nodeA,
        RootMoveStat Demo.engine Demo.nodeB] ++ RootMoveStat Demo.engine Demo.nodeC :: [] ∧
      (RootMoveStat Demo.engine Demo.nodeC).score = Demo.engine.DBL_MAX :=
  ⟨Demo.searchOut.get Demo.searchOut_isSome, (Option.some_get _).symm,
    Demo.searchOut_moves,
    (C7_proved_children_sort_last Demo.engine 1 5 Demo.pn1 ⟨[], 0⟩ Demo.start
      (Demo.searchOut.get Demo.searchOut_isSome) (Option.some_get Demo.searchOut_isSome).symm
      [RootMoveStat Demo.engine Demo.nodeA, RootMoveStat Demo.engine Demo.nodeB] []
      (RootMoveStat Demo.engine Demo.nodeC) Demo.searchOut_moves
      ⟨1, by rw [Demo.searchOut_range]; decide, by rw [Demo.searchOut_node1]; rfl,
        by rw [Demo.searchOut_node1]⟩).1⟩

end Nakshatra

namespace Nakshatra

/-! ## One run of the main loop from a childless root -/

theorem PnsProgress_off (E : Engine) (p : PNSParams) (l : PnsLoop)
    (h1 : p.save_progress ≤ 0) (h2 : p.log_progress ≤ 0) : PnsProgress E p l = some l := by
  unfold PnsProgress
  have a : ¬ (p.save_progress > 0 ∧ l.num_nodes > l.save_progress_nodes) := by
    rintro ⟨h, _⟩; omega
  have b : ¬ (p.log_progress > 0) := by omega
  simp only [if_neg a, if_neg b]

theorem FindMpn_leaf (E : Engine) (f x : Nat) (d : Int) (s : PNSearch)
    (h : (s.node x).children = none) : FindMpn E (f + 1) x d s = some (x, d, s) := by
  unfold FindMpn
  rw [h]

theorem Expand_plain (E : Engine)
    (pns : Int → PNSParams → Nat → PNSearch → Option (PNSearch × Int))
    (p : PNSParams) (nn depth : Int) (x : Nat) (s : PNSearch)
    (h1 : RedundantMoves s x = false) (h2 : depth < PNS_MAX_DEPTH)
    (h3 : p.pns_type = PNSType.PN1) :
    Expand E pns p nn depth x s = some (ExpandPN1 E x s) := by
  unfold Expand
  have a : ¬ ((RedundantMoves s x || decide (depth ≥ PNS_MAX_DEPTH)) = true) := by
    rw [h1]
    simp
    exact h2
  have b : ¬ (p.pns_type = PNSType.PN2) := by rw [h3]; decide
  rw [if_neg a, if_neg b]

theorem UpdateAncestors_root (E : Engine) (f r : Nat) (d : Int) (s : PNSearch) :
    UpdateAncestors E (f + 1) r r d s = some (r, d, (UpdateNode E s r).2) := by
  unfold UpdateAncestors
  cases h : UpdateNode E s r with
  | mk stop t =>
    cases stop with
    | true => rfl
    | false => simp

theorem RedundantMoves_orphan (s : PNSearch) (x : Nat) (h : (s.node x).parent = none) :
    RedundantMoves s x = false := by
  unfold RedundantMoves
  rw [h]

/-- The body of the main loop in PN1 mode, run with the walk at a childless,
parentless root and the progress output off: the root is expanded and
updated. -/
theorem PnsBody_at_root (E : Engine)
    (pns : Int → PNSParams → Nat → PNSearch → Option (PNSearch × Int))
    (f : Nat) (p : PNSParams) (r : Nat) (l : PnsLoop)
    (h1 : p.save_progress ≤ 0) (h2 : p.log_progress ≤ 0) (h3 : p.pns_type = PNSType.PN1)
    (hcur : l.cur_node = r) (hdepth : l.depth = 0)
    (hleaf : (l.s.node r).children = none) (hpar : (l.s.node r).parent = none) :
    PnsBody E pns (f + 1) p r l =
      some { l with
        s := (UpdateNode E (ExpandPN1 E r l.s) r).2,
        num_nodes := l.num_nodes + ((ExpandPN1 E r l.s).node r).children_size,
        cur_node := r, depth := 0 } := by
  unfold PnsBody
  rw [PnsProgress_off E p l h1 h2]
  simp only
  rw [hcur, hdepth, FindMpn_leaf E f r 0 l.s hleaf]
  simp only
  rw [Expand_plain E pns p l.num_nodes 0 r l.s (RedundantMoves_orphan l.s r hpar)
    (by decide) h3]
  simp only
  have b : ¬ (p.pns_type = PNSType.PN2) := by rw [h3]; decide
  rw [if_neg b]
  simp only
  rw [UpdateAncestors_root]

end Nakshatra

namespace Nakshatra

theorem PnsCond_go (E : Engine) (sn : Int) (r : Nat) (l : PnsLoop)
    (h1 : l.num_nodes < sn) (h2 : (l.s.node r).proof ≠ 0) (h3 : (l.s.node r).disproof ≠ 0)
    (h4 : E.timer_ = none) : PnsCond E sn r l = (true, l) := by
  unfold PnsCond
  rw [if_pos ⟨h1, h2, h3⟩, h4]

theorem PnsCond_solved (E : Engine) (sn : Int) (r : Nat) (l : PnsLoop)
    (h : (l.s.node r).proof = 0 ∨ (l.s.node r).disproof = 0) :
    PnsCond E sn r l = (false, l) := by
  unfold PnsCond
  have a : ¬ (l.num_nodes < sn ∧ ((l.s.node r).proof ≠ 0 ∧ (l.s.node r).disproof ≠ 0)) := by
    rintro ⟨_, h2, h3⟩
    rcases h with h | h
    · exact h2 h
    · exact h3 h
  rw [if_neg a]

/-- A PN1 search whose first expansion settles the root: `Pns` returns after
one run of its main loop, with the expanded and updated root. -/
theorem Pns_one_run (E : Engine) (lv f : Nat) (sn : Int) (p : PNSParams) (r : Nat)
    (s0 : PNSearch)
    (h1 : p.save_progress ≤ 0) (h2 : p.log_progress ≤ 0) (h3 : p.pns_type = PNSType.PN1)
    (hsn : 0 < sn) (htimer : E.timer_ = none)
    (hleaf : (s0.node r).children = none) (hpar : (s0.node r).parent = none)
    (hp : (s0.node r).proof ≠ 0) (hd : (s0.node r).disproof ≠ 0)
    (hsolved : ((UpdateNode E (ExpandPN1 E r s0) r).2.node r).proof = 0 ∨
      ((UpdateNode E (ExpandPN1 E r s0) r).2.node r).disproof = 0) :
    Pns E (lv + 1) (f + 2) sn p r s0 =
      some ((UpdateNode E (ExpandPN1 E r s0) r).2,
        (0 : Int) + ((ExpandPN1 E r s0).node r).children_size) := by
  have hbody := PnsBody_at_root E (Pns E lv (f + 2)) (f + 1) p r (PnsInit p r s0) h1 h2 h3
    rfl rfl hleaf hpar
  have hmain : PnsMainLoop E (Pns E lv (f + 2)) (f + 2) sn p r (f + 2) (PnsInit p r s0) =
      some { PnsInit p r s0 with
        s := (UpdateNode E (ExpandPN1 E r s0) r).2,
        num_nodes := (0 : Int) + ((ExpandPN1 E r s0).node r).children_size,
        cur_node := r, depth := 0 } := by
    rw [PnsMainLoop, PnsCond_go E sn r (PnsInit p r s0) hsn hp hd htimer]
    simp only
    rw [hbody]
    simp only
    rw [PnsMainLoop, PnsCond_solved E sn r _ hsolved]
    rfl
  unfold Pns PnsLoops
  rw [hmain]
  simp only
  rw [PnsUnwind, if_pos rfl]
  simp only
  unfold PnsFinish
  simp only
  rw [if_pos trivial, if_neg (by rintro ⟨h, _⟩; omega)]

theorem map_range_getD {α β : Type} (g : α → β) (d : α) (ms : List α) :
    ∀ a, (List.range' a ms.length).map (fun c => g (ms.getD (c - a) d)) = ms.map g := by
  induction ms with
  | nil => intro a; rfl
  | cons m ms ih =>
    intro a
    rw [List.length_cons, List.range'_succ, List.map_cons, List.map_cons]
    congr 1
    · simp
    · rw [← ih (a + 1)]
      apply List.map_congr_left
      intro c hc
      rw [List.mem_range'_1] at hc
      have : c - a = (c - (a + 1)) + 1 := by omega
      rw [this]
      simp

end Nakshatra

namespace Nakshatra

/-! ## The mate-in-one scenario -/

theorem SuicideResult_no_moves (E : Engine) (b : Board) (h : E.movegen_CountMoves b = 0) :
    SuicideResult E b = E.DRAW ∨ SuicideResult E b = E.WIN ∨ SuicideResult E b = -E.WIN := by
  unfold SuicideResult
  simp only [h]
  split
  · left; rfl
  · rw [if_pos trivial]
    split
    · right; left; rfl
    · split
      · left; rfl
      · right; right; rfl

theorem SuicideResult_mate (E : Engine) (b : Board) (h : E.movegen_CountMoves b = 0)
    (hmore : NumPieces E b (OppositeSide (E.SideToMove b)) < NumPieces E b (E.SideToMove b)) :
    SuicideResult E b = -E.WIN := by
  unfold SuicideResult
  simp only [h]
  have a : ¬ (NumPieces E b (E.SideToMove b) = 1 ∧
      NumPieces E b (OppositeSide (E.SideToMove b)) = 1 ∧
      RivalBishopsOnOppositeColoredSquares E b = true) := by
    rintro ⟨h1, h2, _⟩; omega
  rw [if_neg a, if_pos trivial, if_neg (by omega), if_neg (by omega)]

theorem ChildResult_known (E : Engine) (b : Board) (h : E.Result b ≠ E.UNKNOWN) :
    ChildResult E b = E.Result b := by
  unfold ChildResult
  simp only [if_neg h]

theorem ChildPair_eq (E : Engine) (b : Board) :
    ChildPair E b =
      if ChildResult E b = E.DRAW then (E.INF_NODES, E.INF_NODES)
      else if ChildResult E b = -E.WIN then (E.INF_NODES, 0)
      else if ChildResult E b = E.WIN then (0, E.INF_NODES)
      else (1, E.CountMoves (E.SideToMove b) b) := rfl

theorem ChildPair_mate (E : Engine) (hE : SuicideSetup E) (b : Board)
    (h : E.movegen_CountMoves b = 0)
    (hmore : NumPieces E b (OppositeSide (E.SideToMove b)) < NumPieces E b (E.SideToMove b)) :
    ChildPair E b = (E.INF_NODES, 0) := by
  have hr : E.Result b = -E.WIN := by rw [hE.evaluator]; exact SuicideResult_mate E b h hmore
  have hc : ChildResult E b = -E.WIN := by
    rw [ChildResult_known E b (by rw [hr]; exact fun e => hE.unknown_ne.2.2 e.symm), hr]
  rw [ChildPair_eq, if_neg (by rw [hc]; exact fun e => hE.draw_ne e.symm), if_pos hc]

theorem ChildPair_zero (E : Engine) (hE : SuicideSetup E) (b : Board)
    (h2 : (ChildPair E b).2 = 0) (h1 : (ChildPair E b).1 ≠ 0) :
    ChildPair E b = (E.INF_NODES, 0) := by
  have hinf := hE.inf_pos
  rw [ChildPair_eq] at h1 h2 ⊢
  by_cases hd : ChildResult E b = E.DRAW
  · rw [if_pos hd] at h2
    simp only at h2
    omega
  · rw [if_neg hd] at h1 h2 ⊢
    by_cases hl : ChildResult E b = -E.WIN
    · rw [if_pos hl]
    · rw [if_neg hl] at h1 h2
      by_cases hw : ChildResult E b = E.WIN
      · rw [if_pos hw] at h1
        exact absurd rfl h1
      · rw [if_neg hw] at h2
        simp only at h2
        have hcount : E.movegen_CountMoves b = 0 := by rw [← hE.counts b]; exact h2
        have hres := SuicideResult_no_moves E b hcount
        rw [← hE.evaluator] at hres
        have hne : E.Result b ≠ E.UNKNOWN := by
          rcases hres with e | e | e
          · rw [e]; exact fun e' => hE.unknown_ne.1 e'.symm
          · rw [e]; exact fun e' => hE.unknown_ne.2.1 e'.symm
          · rw [e]; exact fun e' => hE.unknown_ne.2.2 e'.symm
        have hc := ChildResult_known E b hne
        rw [hc] at hd hl hw
        rcases hres with e | e | e
        · exact absurd e hd
        · exact absurd e hw
        · exact absurd e hl

theorem RootMoveStat_score_nonneg (E : Engine) (hE : SuicideSetup E) (n : PNSNode) :
    0 ≤ (RootMoveStat E n).score := by
  rw [(RootMoveStat_fields E n).2.2]
  split
  · exact le_of_lt hE.max_pos
  · rename_i hp
    by_cases hd : n.disproof = 0
    · rw [hd, hE.div_zero]
    · exact le_of_lt (hE.div_pos _ _ (Nat.pos_of_ne_zero hd) (Nat.pos_of_ne_zero hp))

theorem RootMoveStat_mate (E : Engine) (hE : SuicideSetup E) (b : Board) (x : Nat) (m : Move)
    (h : ChildPair E (b.MakeMove m) = (E.INF_NODES, 0)) :
    RootMoveStat E (ChildNode E b x m) =
      { move := m, score := 0, tree_size := 1, result := E.WIN } := by
  have hp : (ChildNode E b x m).proof = E.INF_NODES := by simp [ChildNode, h]
  have hd : (ChildNode E b x m).disproof = 0 := by simp [ChildNode, h]
  have hne : (ChildNode E b x m).proof ≠ 0 := by rw [hp]; exact Nat.pos_iff_ne_zero.mp hE.inf_pos
  unfold RootMoveStat
  rw [if_neg hne, if_pos ⟨hp, hd⟩, hd, hE.div_zero]
  rfl

/-- In a list sorted by score whose scores are not negative, an entry with
score 0 that is the only one with score 0 is at the head. -/
theorem head_of_sorted (L : List MoveStat) (e : MoveStat)
    (hs : List.Sorted (fun a b => a.score ≤ b.score) L) (he : e ∈ L) (h0 : e.score = 0)
    (hnn : ∀ y ∈ L, 0 ≤ y.score) (huniq : ∀ y ∈ L, y.score = 0 → y = e) :
    L.head? = some e := by
  cases L with
  | nil => simp at he
  | cons x L =>
    simp only [List.head?_cons, Option.some.injEq]
    apply huniq x (by simp)
    rcases List.mem_cons.mp he with e1 | e1
    · rw [← e1]; exact h0
    · have := (List.pairwise_cons.mp hs).1 e e1
      have h2 := hnn x (by simp)
      rw [h0] at this
      exact le_antisymm this h2

end Nakshatra

namespace Nakshatra

/-! ## Mate in one at the root -/

/-- The root of a `Search`, freshly reset. -/
theorem Search_root_fresh (s : PNSearch) :
    ({ s.setNode 0 PNSNode.fresh with next_ := 1 } : PNSearch).node 0 = PNSNode.fresh := by
  simp [PNSearch.node, PNSearch.setNode]

theorem map_through {α β γ : Type} (L : List α) (g : α → β) (h : β → γ) (M : List β)
    (e : L.map g = M) : L.map (fun c => h (g c)) = M.map h := by
  rw [← e, List.map_map]
  rfl

/-- After the root of a `Search` is expanded in PN1 mode and updated, its
children are the nodes the child loop built for the generated moves. -/
theorem root_expanded (E : Engine) (s : PNSearch) (hne : E.GenerateMoves s.board_ ≠ []) :
    let s0 : PNSearch := { s.setNode 0 PNSNode.fresh with next_ := 1 }
    let t := (UpdateNode E (ExpandPN1 E 0 s0) 0).2
    ArithOK E t 0 ∧
    t.kids 0 = (E.GenerateMoves s.board_).map (ChildNode E s.board_ 0) ∧
    ((ExpandPN1 E 0 s0).node 0).children_size = (E.GenerateMoves s.board_).length := by
  intro s0 t
  have hb : s0.board_ = s.board_ := rfl
  have hn : s0.next_ = 1 := rfl
  obtain ⟨e1, e2, e3, e4, _⟩ := ExpandPN1_spec E 0 s0 (by rw [hb]; exact hne) (by rw [hn]; omega)
  rw [hb] at e1 e2 e3 e4
  rw [hn] at e1 e3 e4
  have hch : ((ExpandPN1 E 0 s0).node 0).children = some 1 := by rw [e3]
  have hsz : ((ExpandPN1 E 0 s0).node 0).children_size = (E.GenerateMoves s.board_).length := by
    rw [e3]
  have hrange : ((ExpandPN1 E 0 s0).node 0).children_range =
      List.range' 1 (E.GenerateMoves s.board_).length := by
    rw [children_range_some hch, hsz]
  have hnot : 0 ∉ ((ExpandPN1 E 0 s0).node 0).children_range := by
    rw [hrange, List.mem_range'_1]; omega
  obtain ⟨u, stop, hu, hT, _, hA, _, _, _⟩ :=
    UpdateNode_inner E (ExpandPN1 E 0 s0) 0 (by rw [hch]; simp) hnot
  have ht : t = u := by
    show (UpdateNode E (ExpandPN1 E 0 s0) 0).2 = u
    rw [hu]
  rw [ht]
  refine ⟨hA, ?_, hsz⟩
  rw [hT.kids_of_not_mem hnot]
  unfold PNSearch.kids
  rw [hrange, ← map_range_getD (ChildNode E s.board_ 0) Move.null (E.GenerateMoves s.board_) 1]
  apply List.map_congr_left
  intro c hc
  rw [List.mem_range'_1] at hc
  exact e4 c hc.1 (by omega)

/-- With a move that leaves the opponent stalemated with more pieces, a PN1
`Search` returns after one expansion of the root, and lists one entry per
generated move. -/
theorem Search_mate_in_one (E : Engine) (lv f : Nat) (p : PNSParams)
    (s : PNSearch) (m : Move)
    (h1 : p.pns_type = PNSType.PN1) (h2 : p.save_progress ≤ 0) (h3 : p.log_progress ≤ 0)
    (hbudget : 1 ≤ E.max_nodes_) (htimer : E.timer_ = none)
    (hm : m ∈ E.GenerateMoves s.board_)
    (hpair : ChildPair E (s.board_.MakeMove m) = (E.INF_NODES, 0)) :
    ∃ out, Search E (lv + 1) (f + 2) p ⟨[], 0⟩ s = some out ∧
      out.2.ordered_moves = SortByScore ((E.GenerateMoves s.board_).map
        (fun m' => RootMoveStat E (ChildNode E s.board_ 0 m'))) := by
  have hne : E.GenerateMoves s.board_ ≠ [] := List.ne_nil_of_mem hm
  obtain ⟨hA, hk, hsz⟩ := root_expanded E s hne
  have hfresh := Search_root_fresh s
  have hproof : ((UpdateNode E (ExpandPN1 E 0 { s.setNode 0 PNSNode.fresh with next_ := 1 }) 0).2.node
      0).proof = 0 := by
    rw [hA.1, hk]
    have hmem : ChildNode E s.board_ 0 m ∈
        (E.GenerateMoves s.board_).map (ChildNode E s.board_ 0) := List.mem_map_of_mem _ hm
    have hle := (ProofOfChildren_spec E _).1 _ hmem
    have hd : (ChildNode E s.board_ 0 m).disproof = 0 := by simp [ChildNode, hpair]
    omega
  have hrun := Pns_one_run E lv f E.max_nodes_ p 0 { s.setNode 0 PNSNode.fresh with next_ := 1 }
    h2 h3 h1 (by omega) htimer (by rw [hfresh]; rfl) (by rw [hfresh]; rfl)
    (by rw [hfresh]; decide) (by rw [hfresh]; decide) (Or.inl hproof)
  have hbud : SearchBudget E p = some E.max_nodes_ := by
    unfold SearchBudget
    rw [if_neg (by rw [h1]; rintro ⟨h, _⟩; exact absurd h (by decide))]
  have hS : Search E (lv + 1) (f + 2) p ⟨[], 0⟩ s = some
      ((UpdateNode E (ExpandPN1 E 0 { s.setNode 0 PNSNode.fresh with next_ := 1 }) 0).2,
        { num_nodes := (0 : Int) +
            ((ExpandPN1 E 0 { s.setNode 0 PNSNode.fresh with next_ := 1 }).node 0).children_size,
          ordered_moves := SortByScore (([] : List MoveStat) ++
            ((UpdateNode E (ExpandPN1 E 0 { s.setNode 0 PNSNode.fresh with next_ := 1 })
              0).2.node 0).children_range.map (fun c => RootMoveStat E
                ((UpdateNode E (ExpandPN1 E 0 { s.setNode 0 PNSNode.fresh with next_ := 1 })
                  0).2.node c))) }) := by
    unfold Search
    simp only
    rw [hbud]
    simp only
    rw [hrun]
  refine ⟨_, hS, ?_⟩
  simp only [List.nil_append]
  congr 1
  have e := map_through _ (fun c => (UpdateNode E (ExpandPN1 E 0
    { s.setNode 0 PNSNode.fresh with next_ := 1 }) 0).2.node c) (RootMoveStat E) _ hk
  rw [e, List.map_map]
  rfl

/-- C8: mate in one. When the root position has a legal move `m` after which
the side then to move has no legal move and more pieces than the other side,
a PN1 `Search` with the Suicide evaluator, no timer, the progress output off
and a budget of at least one node returns (given a level and fuel for one run
of the loop): the list has the entry of `m` with result `WIN`, score 0 and
tree size 1, no entry has a score below 0, and when `m` is the only generated
move whose child gets the pair `(INF_NODES, 0)`, that entry is the first. -/
theorem C8_mate_in_one_first (E : Engine) (hE : SuicideSetup E) (lv f : Nat) (p : PNSParams)
    (s : PNSearch) (m : Move)
    (h1 : p.pns_type = PNSType.PN1) (h2 : p.save_progress ≤ 0) (h3 : p.log_progress ≤ 0)
    (hbudget : 1 ≤ E.max_nodes_) (htimer : E.timer_ = none)
    (hm : m ∈ E.GenerateMoves s.board_)
    (hnone : E.movegen_CountMoves (s.board_.MakeMove m) = 0)
    (hmore : NumPieces E (s.board_.MakeMove m) (OppositeSide (E.SideToMove (s.board_.MakeMove m)))
      < NumPieces E (s.board_.MakeMove m) (E.SideToMove (s.board_.MakeMove m))) :
    ∃ out, Search E (lv + 1) (f + 2) p ⟨[], 0⟩ s = some out ∧
      (⟨m, 0, 1, E.WIN⟩ : MoveStat) ∈ out.2.ordered_moves ∧
      (∀ e ∈ out.2.ordered_moves, (0 : ℚ) ≤ e.score) ∧
      ((∀ m' ∈ E.GenerateMoves s.board_,
          ChildPair E (s.board_.MakeMove m') = (E.INF_NODES, 0) → m' = m) →
        out.2.ordered_moves.head? = some ⟨m, 0, 1, E.WIN⟩) := by
  have hpair := ChildPair_mate E hE (s.board_.MakeMove m) hnone hmore
  obtain ⟨out, ho, hlist⟩ := Search_mate_in_one E lv f p s m h1 h2 h3 hbudget htimer hm hpair
  have hmem : (⟨m, 0, 1, E.WIN⟩ : MoveStat) ∈ out.2.ordered_moves := by
    rw [hlist, mem_SortByScore, ← RootMoveStat_mate E hE s.board_ 0 m hpair]
    exact List.mem_map_of_mem _ hm
  have hnn : ∀ e ∈ out.2.ordered_moves, (0 : ℚ) ≤ e.score := by
    intro e he
    rw [hlist, mem_SortByScore] at he
    obtain ⟨m', _, rfl⟩ := List.mem_map.mp he
    exact RootMoveStat_score_nonneg E hE _
  refine ⟨out, ho, hmem, hnn, fun huniq => ?_⟩
  apply head_of_sorted _ _ _ hmem rfl hnn
  · intro y hy hy0
    rw [hlist, mem_SortByScore] at hy
    obtain ⟨m', hm', rfl⟩ := List.mem_map.mp hy
    have hpz : (ChildNode E s.board_ 0 m').proof ≠ 0 := by
      intro h0
      have hsc : (RootMoveStat E (ChildNode E s.board_ 0 m')).score = E.DBL_MAX := by
        rw [(RootMoveStat_fields E _).2.2, if_pos h0]
      rw [hsc] at hy0
      exact absurd hy0 (ne_of_gt hE.max_pos)
    have hdz : (ChildNode E s.board_ 0 m').disproof = 0 := by
      by_contra hd
      have hsc : (RootMoveStat E (ChildNode E s.board_ 0 m')).score =
          E.double_div (ChildNode E s.board_ 0 m').disproof (ChildNode E s.board_ 0 m').proof := by
        rw [(RootMoveStat_fields E _).2.2, if_neg hpz]
      rw [hsc] at hy0
      exact absurd hy0 (ne_of_gt (hE.div_pos _ _ (Nat.pos_of_ne_zero hd) (Nat.pos_of_ne_zero hpz)))
    have hp' := ChildPair_zero E hE (s.board_.MakeMove m') hdz hpz
    rw [huniq m' hm' hp']
    exact RootMoveStat_mate E hE s.board_ 0 m hpair
  · rw [hlist]
    exact SortByScore_sorted _

/-- The engine of the small game meets `SuicideSetup`. -/
theorem Demo.engine_setup : SuicideSetup Demo.engine where
  evaluator := rfl
  counts := fun _ => rfl
  unknown_ne := by decide
  draw_ne := by decide
  inf_pos := by decide
  div_zero := fun p => by simp [Demo.engine, Demo.base]
  div_pos := fun d p hd hp => by
    have h1 : (0 : ℚ) < (d : ℚ) := by exact_mod_cast hd
    have h2 : (0 : ℚ) < (p : ℚ) := by exact_mod_cast hp
    exact div_pos h1 h2
  max_pos := by
    show (0 : ℚ) < 2 ^ 1024 - 2 ^ 971
    norm_num

/-- C8 on the small game: the move `a` leaves Black without a move and with two
pieces against one; the search with room for one node lists the entry of `a`
with result `WIN` and score 0, and puts it first. -/
theorem C8_mate_in_one_first_witness :
    ∃ out, Search Demo.engine 1 2 Demo.pn1 ⟨[], 0⟩ Demo.start = some out ∧
      (⟨Demo.a, 0, 1, Demo.engine.WIN⟩ : MoveStat) ∈ out.2.ordered_moves ∧
      (∀ e ∈ out.2.ordered_moves, (0 : ℚ) ≤ e.score) ∧
      ((∀ m' ∈ Demo.engine.GenerateMoves Demo.start.board_,
          ChildPair Demo.engine (Demo.start.board_.MakeMove m') = (Demo.engine.INF_NODES, 0) →
            m' = Demo.a) →
        out.2.ordered_moves.head? = some ⟨Demo.a, 0, 1, Demo.engine.WIN⟩) :=
  C8_mate_in_one_first Demo.engine Demo.engine_setup 0 0 Demo.pn1 Demo.start Demo.a
    rfl (by decide) (by decide) (by decide) rfl (by decide) (by decide) (by decide)

end Nakshatra

namespace Nakshatra

/-! ## The tablebase store -/

theorem Get_empty (k : String) : EGTBStore.empty.Get k = none := rfl

theorem Get_Put (st : EGTBStore) (fen : String) (d : Int) (mv : Move) (w : Side) (k : String) :
    (st.Put fen d mv w).Get k =
      if k = fen then some { fen := fen, moves_to_end := d, next_move := mv, winner := w }
      else st.Get k := rfl

theorem Get_Put_self (st : EGTBStore) (fen : String) (d : Int) (mv : Move) (w : Side) :
    (st.Put fen d mv w).Get fen =
      some { fen := fen, moves_to_end := d, next_move := mv, winner := w } := by
  rw [Get_Put, if_pos rfl]

theorem Get_Put_ne (st : EGTBStore) (fen : String) (d : Int) (mv : Move) (w : Side) (k : String)
    (h : k ≠ fen) : (st.Put fen d mv w).Get k = st.Get k := by
  rw [Get_Put, if_neg h]

theorem Get_MergeFrom (st store : EGTBStore) (k : String) :
    (st.MergeFrom store).Get k =
      match store.Get k with
      | some e => some e
      | none => st.Get k := rfl

theorem Get_MergeFrom_none (st store : EGTBStore) (k : String) (h : store.Get k = none) :
    (st.MergeFrom store).Get k = st.Get k := by
  rw [Get_MergeFrom, h]

theorem Get_MergeFrom_some (st store : EGTBStore) (k : String) (e : EGTBElement)
    (h : store.Get k = some e) : (st.MergeFrom store).Get k = some e := by
  rw [Get_MergeFrom, h]

/-! ## The move loops of a pass -/

theorem Offer_some {P : Board → String} {ws : Side} {store : EGTBStore} {b : Board} {mv : Move}
    {v : Int} :
    Offer P ws store b mv = some v ↔
      ∃ e, store.Get (P (b.MakeMove mv)) = some e ∧ e.winner = ws ∧ v = e.moves_to_end + 1 := by
  unfold Offer
  cases h : store.Get (P (b.MakeMove mv)) with
  | none => simp
  | some e =>
    by_cases hw : e.winner = ws
    · simp only [if_pos hw, Option.some.injEq]
      constructor
      · intro hv; exact ⟨e, rfl, hw, hv.symm⟩
      · rintro ⟨e', he, _, hv⟩; rw [← he] at hv; exact hv.symm
    · simp only [if_neg hw]
      constructor
      · intro hv; exact absurd hv (by simp)
      · rintro ⟨e', he, hw', _⟩
        exact absurd (show e.winner = ws by rw [Option.some.inj he]; exact hw') hw

/-- `WinnerStep` in terms of what the move offers. -/
theorem WinnerStep_eq (P : Board → String) (ws : Side) (store : EGTBStore) (l : MoveScan)
    (mv : Move) :
    WinnerStep P ws store l mv =
      match Offer P ws store l.board mv with
      | some v => if v < l.best then { l with best := v, m := mv, count := l.count + 1 } else l
      | none => l := by
  unfold WinnerStep Offer
  simp only [unmake_make]
  cases h : store.Get (P (l.board.MakeMove mv)) with
  | none => rfl
  | some e =>
    simp only
    by_cases hw : e.winner = ws
    · by_cases hb : e.moves_to_end + 1 < l.best
      · rw [if_pos ⟨hw, hb⟩, if_pos hw]; simp only; rw [if_pos hb]
      · rw [if_neg (fun x => hb x.2), if_pos hw]; simp only; rw [if_neg hb]
    · rw [if_neg (fun x => hw x.1), if_neg hw]

/-- `LoserStep` in terms of what the move offers. -/
theorem LoserStep_eq (P : Board → String) (ws : Side) (store : EGTBStore) (l : MoveScan)
    (mv : Move) :
    LoserStep P ws store l mv =
      match Offer P ws store l.board mv with
      | some v =>
        if v > l.best then { l with best := v, m := mv, count := l.count + 1 }
        else { l with count := l.count + 1 }
      | none => l := by
  unfold LoserStep Offer
  simp only [unmake_make]
  cases h : store.Get (P (l.board.MakeMove mv)) with
  | none => rfl
  | some e =>
    simp only
    by_cases hw : e.winner = ws
    · by_cases hb : e.moves_to_end + 1 > l.best
      · rw [if_pos hw, if_pos hw]; simp only; rw [if_pos hb, if_pos hb]
      · rw [if_pos hw, if_pos hw]; simp only; rw [if_neg hb, if_neg hb]
    · rw [if_neg hw, if_neg hw]

end Nakshatra

namespace Nakshatra

/-- The move loop for the winning side: the board is restored, `best` ends at
the least offer below its start, and `m` at the first move that offers it. -/
theorem WinnerFold_spec (P : Board → String) (ws : Side) (store : EGTBStore) (b : Board) :
    ∀ (ms : List Move) (l0 : MoveScan), l0.board = b →
      (ms.foldl (WinnerStep P ws store) l0).board = b ∧
      l0.count ≤ (ms.foldl (WinnerStep P ws store) l0).count ∧
      (ms.foldl (WinnerStep P ws store) l0).best ≤ l0.best ∧
      (∀ mv ∈ ms, ∀ v, Offer P ws store b mv = some v →
        (ms.foldl (WinnerStep P ws store) l0).best ≤ v) ∧
      (((ms.foldl (WinnerStep P ws store) l0).count = l0.count ∧
          (ms.foldl (WinnerStep P ws store) l0).best = l0.best ∧
          (ms.foldl (WinnerStep P ws store) l0).m = l0.m) ∨
        (l0.count < (ms.foldl (WinnerStep P ws store) l0).count ∧
          (ms.foldl (WinnerStep P ws store) l0).best < l0.best ∧
          ∃ pre post, ms = pre ++ (ms.foldl (WinnerStep P ws store) l0).m :: post ∧
            Offer P ws store b (ms.foldl (WinnerStep P ws store) l0).m =
              some (ms.foldl (WinnerStep P ws store) l0).best ∧
            ∀ m' ∈ pre, ∀ v, Offer P ws store b m' = some v →
              (ms.foldl (WinnerStep P ws store) l0).best < v)) := by
  intro ms
  induction ms with
  | nil =>
    intro l0 hb
    exact ⟨hb, le_refl _, le_refl _, fun _ h => absurd h (List.not_mem_nil _),
      Or.inl ⟨rfl, rfl, rfl⟩⟩
  | cons mv rest ih =>
    intro l0 hb
    subst hb
    rw [List.foldl_cons]
    have hstep := WinnerStep_eq P ws store l0 mv
    cases ho : Offer P ws store l0.board mv with
    | none =>
      rw [ho] at hstep
      simp only at hstep
      rw [hstep]
      obtain ⟨h1, h2, h3, h4, h5⟩ := ih l0 rfl
      refine ⟨h1, h2, h3, ?_, ?_⟩
      · intro m' hm' v hv
        rcases List.mem_cons.mp hm' with e | e
        · rw [e, ho] at hv; exact absurd hv (by simp)
        · exact h4 m' e v hv
      · rcases h5 with h5 | ⟨c1, c2, pre, post, e1, e2, e3⟩
        · exact Or.inl h5
        · refine Or.inr ⟨c1, c2, mv :: pre, post, congrArg (List.cons mv) e1, e2, ?_⟩
          intro m' hm' v hv
          rcases List.mem_cons.mp hm' with e | e
          · rw [e, ho] at hv; exact absurd hv (by simp)
          · exact e3 m' e v hv
    | some w =>
      rw [ho] at hstep
      simp only at hstep
      by_cases hlt : w < l0.best
      · rw [if_pos hlt] at hstep
        rw [hstep]
        obtain ⟨h1, h2, h3, h4, h5⟩ :=
          ih { l0 with best := w, m := mv, count := l0.count + 1 } rfl
        simp only at h2 h3 h5
        refine ⟨h1, by omega, by omega, ?_, Or.inr ?_⟩
        · intro m' hm' v hv
          rcases List.mem_cons.mp hm' with e | e
          · rw [e, ho] at hv
            rw [← Option.some.inj hv]; exact h3
          · exact h4 m' e v hv
        · rcases h5 with ⟨c1, c2, c3⟩ | ⟨c1, c2, pre, post, e1, e2, e3⟩
          · refine ⟨by omega, by omega, [], rest, by rw [c3]; rfl, by rw [c3, c2]; exact ho, ?_⟩
            intro m' hm'; exact absurd hm' (List.not_mem_nil _)
          · refine ⟨by omega, by omega, mv :: pre, post, congrArg (List.cons mv) e1, e2, ?_⟩
            intro m' hm' v hv
            rcases List.mem_cons.mp hm' with e | e
            · rw [e, ho] at hv
              rw [← Option.some.inj hv]; exact c2
            · exact e3 m' e v hv
      · rw [if_neg hlt] at hstep
        rw [hstep]
        obtain ⟨h1, h2, h3, h4, h5⟩ := ih l0 rfl
        refine ⟨h1, h2, h3, ?_, ?_⟩
        · intro m' hm' v hv
          rcases List.mem_cons.mp hm' with e | e
          · rw [e, ho] at hv
            rw [← Option.some.inj hv]; omega
          · exact h4 m' e v hv
        · rcases h5 with h5 | ⟨c1, c2, pre, post, e1, e2, e3⟩
          · exact Or.inl h5
          · refine Or.inr ⟨c1, c2, mv :: pre, post, congrArg (List.cons mv) e1, e2, ?_⟩
            intro m' hm' v hv
            rcases List.mem_cons.mp hm' with e | e
            · rw [e, ho] at hv
              rw [← Option.some.inj hv]; omega
            · exact e3 m' e v hv

/-- The move loop for the other side: the board is restored, `count` counts
the moves with an offer, `best` ends at the greatest offer above its start,
and `m` at the first move that offers it. -/
theorem LoserFold_spec (P : Board → String) (ws : Side) (store : EGTBStore) (b : Board) :
    ∀ (ms : List Move) (l0 : MoveScan), l0.board = b →
      (ms.foldl (LoserStep P ws store) l0).board = b ∧
      (ms.foldl (LoserStep P ws store) l0).count =
        l0.count + (ms.countP (fun mv => (Offer P ws store b mv).isSome) : Nat) ∧
      l0.best ≤ (ms.foldl (LoserStep P ws store) l0).best ∧
      (∀ mv ∈ ms, ∀ v, Offer P ws store b mv = some v →
        v ≤ (ms.foldl (LoserStep P ws store) l0).best) ∧
      (((ms.foldl (LoserStep P ws store) l0).best = l0.best ∧
          (ms.foldl (LoserStep P ws store) l0).m = l0.m) ∨
        (l0.best < (ms.foldl (LoserStep P ws store) l0).best ∧
          ∃ pre post, ms = pre ++ (ms.foldl (LoserStep P ws store) l0).m :: post ∧
            Offer P ws store b (ms.foldl (LoserStep P ws store) l0).m =
              some (ms.foldl (LoserStep P ws store) l0).best ∧
            ∀ m' ∈ pre, ∀ v, Offer P ws store b m' = some v →
              v < (ms.foldl (LoserStep P ws store) l0).best)) := by
  intro ms
  induction ms with
  | nil =>
    intro l0 hb
    refine ⟨hb, by simp, le_refl _, fun _ h => absurd h (List.not_mem_nil _), Or.inl ⟨rfl, rfl⟩⟩
  | cons mv rest ih =>
    intro l0 hb
    subst hb
    rw [List.foldl_cons]
    have hstep := LoserStep_eq P ws store l0 mv
    cases ho : Offer P ws store l0.board mv with
    | none =>
      rw [ho] at hstep
      simp only at hstep
      rw [hstep]
      obtain ⟨h1, h2, h3, h4, h5⟩ := ih l0 rfl
      refine ⟨h1, ?_, h3, ?_, ?_⟩
      · rw [h2, List.countP_cons_of_neg]
        rw [ho]; simp
      · intro m' hm' v hv
        rcases List.mem_cons.mp hm' with e | e
        · rw [e, ho] at hv; exact absurd hv (by simp)
        · exact h4 m' e v hv
      · rcases h5 with h5 | ⟨c2, pre, post, e1, e2, e3⟩
        · exact Or.inl h5
        · refine Or.inr ⟨c2, mv :: pre, post, congrArg (List.cons mv) e1, e2, ?_⟩
          intro m' hm' v hv
          rcases List.mem_cons.mp hm' with e | e
          · rw [e, ho] at hv; exact absurd hv (by simp)
          · exact e3 m' e v hv
    | some w =>
      rw [ho] at hstep
      simp only at hstep
      have hcount : (mv :: rest).countP (fun mv => (Offer P ws store l0.board mv).isSome) =
          rest.countP (fun mv => (Offer P ws store l0.board mv).isSome) + 1 := by
        rw [List.countP_cons_of_pos]
        simp only [ho]; rfl
      by_cases hlt : w > l0.best
      · rw [if_pos hlt] at hstep
        rw [hstep]
        obtain ⟨h1, h2, h3, h4, h5⟩ :=
          ih { l0 with best := w, m := mv, count := l0.count + 1 } rfl
        simp only at h2 h3 h5
        refine ⟨h1, ?_, by omega, ?_, Or.inr ?_⟩
        · rw [h2, hcount]; push_cast; omega
        · intro m' hm' v hv
          rcases List.mem_cons.mp hm' with e | e
          · rw [e, ho] at hv
            rw [← Option.some.inj hv]; exact h3
          · exact h4 m' e v hv
        · rcases h5 with ⟨c2, c3⟩ | ⟨c2, pre, post, e1, e2, e3⟩
          · refine ⟨by omega, [], rest, by rw [c3]; rfl, by rw [c3, c2]; exact ho, ?_⟩
            intro m' hm'; exact absurd hm' (List.not_mem_nil _)
          · refine ⟨by omega, mv :: pre, post, congrArg (List.cons mv) e1, e2, ?_⟩
            intro m' hm' v hv
            rcases List.mem_cons.mp hm' with e | e
            · rw [e, ho] at hv
              rw [← Option.some.inj hv]; exact c2
            · exact e3 m' e v hv
      · rw [if_neg hlt] at hstep
        rw [hstep]
        obtain ⟨h1, h2, h3, h4, h5⟩ := ih { l0 with count := l0.count + 1 } rfl
        simp only at h2 h3 h5
        refine ⟨h1, ?_, h3, ?_, ?_⟩
        · rw [h2, hcount]; push_cast; omega
        · intro m' hm' v hv
          rcases List.mem_cons.mp hm' with e | e
          · rw [e, ho] at hv
            rw [← Option.some.inj hv]; omega
          · exact h4 m' e v hv
        · rcases h5 with h5 | ⟨c2, pre, post, e1, e2, e3⟩
          · exact Or.inl h5
          · refine Or.inr ⟨c2, mv :: pre, post, congrArg (List.cons mv) e1, e2, ?_⟩
            intro m' hm' v hv
            rcases List.mem_cons.mp hm' with e | e
            · rw [e, ho] at hv
              rw [← Option.some.inj hv]; omega
            · exact e3 m' e v hv

end Nakshatra

namespace Nakshatra

/-! ## What a pass does with one position -/

theorem mem_of_split {α : Type} (L pre post : List α) (x : α) (h : L = pre ++ x :: post) :
    x ∈ L := by
  subst h
  simp

/-- The winning side's branch leaves a position in the list exactly when no
move offers a distance below 10000. -/
theorem ClassifyWinner_none (E : Engine) (P : Board → String) (ws : Side) (store : EGTBStore)
    (fen : String) :
    ClassifyWinner E P ws store fen = none ↔
      ∀ mv ∈ E.GenerateMoves (Board.ofFEN fen), ∀ v,
        Offer P ws store (Board.ofFEN fen) mv = some v → 10000 ≤ v := by
  obtain ⟨_, h2, h3, h4, h5⟩ := WinnerFold_spec P ws store (Board.ofFEN fen)
    (E.GenerateMoves (Board.ofFEN fen))
    { board := Board.ofFEN fen, count := 0, best := 10000, m := Move.null } rfl
  simp only at h2 h3 h5
  unfold ClassifyWinner
  simp only
  constructor
  · intro h
    have hc : ¬ ((E.GenerateMoves (Board.ofFEN fen)).foldl (WinnerStep P ws store)
        { board := Board.ofFEN fen, count := 0, best := 10000, m := Move.null }).count ≥ 1 := by
      intro hge; rw [if_pos hge] at h; exact absurd h (by simp)
    rcases h5 with ⟨_, c2, _⟩ | ⟨c1, _, _⟩
    · intro mv hmv v hv
      have := h4 mv hmv v hv
      omega
    · omega
  · intro h
    rcases h5 with ⟨c1, _, _⟩ | ⟨_, c2, pre, post, e1, e2, _⟩
    · rw [if_neg (by omega)]
    · have hmem := mem_of_split _ pre post _ e1
      have := h _ hmem _ e2
      omega

/-- The winning side's branch, when it stores the position: the distance is
the least offer, is below 10000, and the move is the first that offers it. -/
theorem ClassifyWinner_some (E : Engine) (P : Board → String) (ws : Side) (store : EGTBStore)
    (fen : String) (best : Int) (m : Move)
    (h : ClassifyWinner E P ws store fen = some (best, m)) :
    best < 10000 ∧
    (∀ mv ∈ E.GenerateMoves (Board.ofFEN fen), ∀ v,
      Offer P ws store (Board.ofFEN fen) mv = some v → best ≤ v) ∧
    ∃ pre post, E.GenerateMoves (Board.ofFEN fen) = pre ++ m :: post ∧
      Offer P ws store (Board.ofFEN fen) m = some best ∧
      ∀ m' ∈ pre, ∀ v, Offer P ws store (Board.ofFEN fen) m' = some v → best < v := by
  obtain ⟨_, h2, h3, h4, h5⟩ := WinnerFold_spec P ws store (Board.ofFEN fen)
    (E.GenerateMoves (Board.ofFEN fen))
    { board := Board.ofFEN fen, count := 0, best := 10000, m := Move.null } rfl
  simp only at h2 h3 h5
  unfold ClassifyWinner at h
  simp only at h
  split at h
  · rename_i hge
    have e := Option.some.inj h
    have eb := congrArg Prod.fst e
    have em := congrArg Prod.snd e
    simp only at eb em
    rcases h5 with ⟨c1, _, _⟩ | ⟨_, c2, pre, post, e1, e2, e3⟩
    · omega
    · rw [eb] at c2 h4 e2 e3
      rw [em] at e1 e2
      exact ⟨c2, h4, pre, post, e1, e2, e3⟩
  · exact absurd h (by simp)

/-- The other side's branch leaves a position in the list exactly when some
move has no offer. -/
theorem ClassifyLoser_none (E : Engine) (P : Board → String) (ws : Side) (store : EGTBStore)
    (fen : String) :
    ClassifyLoser E P ws store fen = none ↔
      ∃ mv ∈ E.GenerateMoves (Board.ofFEN fen),
        Offer P ws store (Board.ofFEN fen) mv = none := by
  obtain ⟨_, h2, _, _, _⟩ := LoserFold_spec P ws store (Board.ofFEN fen)
    (E.GenerateMoves (Board.ofFEN fen))
    { board := Board.ofFEN fen, count := 0, best := -1, m := Move.null } rfl
  simp only at h2
  have hle := List.countP_le_length (fun mv => (Offer P ws store (Board.ofFEN fen) mv).isSome)
    (l := E.GenerateMoves (Board.ofFEN fen))
  unfold ClassifyLoser
  simp only
  rw [h2]
  constructor
  · intro h
    have hne : (E.GenerateMoves (Board.ofFEN fen)).countP
        (fun mv => (Offer P ws store (Board.ofFEN fen) mv).isSome) ≠
        (E.GenerateMoves (Board.ofFEN fen)).length := by
      intro e
      rw [if_pos (by rw [e]; simp)] at h
      exact absurd h (by simp)
    by_contra hall
    apply hne
    rw [List.countP_eq_length]
    intro mv hmv
    cases ho : Offer P ws store (Board.ofFEN fen) mv with
    | none => exact absurd ⟨mv, hmv, ho⟩ hall
    | some v => rfl
  · rintro ⟨mv, hmv, ho⟩
    have hne : (E.GenerateMoves (Board.ofFEN fen)).countP
        (fun mv => (Offer P ws store (Board.ofFEN fen) mv).isSome) ≠
        (E.GenerateMoves (Board.ofFEN fen)).length := by
      intro e
      rw [List.countP_eq_length] at e
      have := e mv hmv
      rw [ho] at this
      exact absurd this (by simp)
    rw [if_neg (by omega)]

/-- The other side's branch, when it stores the position: every move has an
offer, the distance is at least -1 and at least every offer, and when it is
above -1 it is an offer and the move is the first that offers it. -/
theorem ClassifyLoser_some (E : Engine) (P : Board → String) (ws : Side) (store : EGTBStore)
    (fen : String) (best : Int) (m : Move)
    (h : ClassifyLoser E P ws store fen = some (best, m)) :
    (∀ mv ∈ E.GenerateMoves (Board.ofFEN fen),
      ∃ v, Offer P ws store (Board.ofFEN fen) mv = some v ∧ v ≤ best) ∧
    ((best = -1 ∧ m = Move.null) ∨
      (-1 < best ∧ ∃ pre post, E.GenerateMoves (Board.ofFEN fen) = pre ++ m :: post ∧
        Offer P ws store (Board.ofFEN fen) m = some best ∧
        ∀ m' ∈ pre, ∀ v, Offer P ws store (Board.ofFEN fen) m' = some v → v < best)) := by
  have hnone := ClassifyLoser_none E P ws store fen
  obtain ⟨_, _, h3, h4, h5⟩ := LoserFold_spec P ws store (Board.ofFEN fen)
    (E.GenerateMoves (Board.ofFEN fen))
    { board := Board.ofFEN fen, count := 0, best := -1, m := Move.null } rfl
  simp only at h3 h5
  have hall : ∀ mv ∈ E.GenerateMoves (Board.ofFEN fen),
      Offer P ws store (Board.ofFEN fen) mv ≠ none := by
    intro mv hmv ho
    have := hnone.mpr ⟨mv, hmv, ho⟩
    rw [this] at h
    exact absurd h (by simp)
  unfold ClassifyLoser at h
  simp only at h
  split at h
  · have e := Option.some.inj h
    have eb := congrArg Prod.fst e
    have em := congrArg Prod.snd e
    simp only at eb em
    rw [eb] at h4 h5
    rw [em] at h5
    refine ⟨?_, ?_⟩
    · intro mv hmv
      obtain ⟨v, hv⟩ := Option.ne_none_iff_exists'.mp (hall mv hmv)
      exact ⟨v, hv, h4 mv hmv v hv⟩
    · rcases h5 with ⟨c1, c2⟩ | ⟨c1, pre, post, e1, e2, e3⟩
      · exact Or.inl ⟨c1, c2⟩
      · exact Or.inr ⟨c1, pre, post, e1, e2, e3⟩
  · exact absurd h (by simp)

end Nakshatra

namespace Nakshatra

/-! ## One pass over the list -/

theorem GeneratePass_spec (E : Engine) (P : Board → String) (ws : Side) (store : EGTBStore) :
    ∀ (L : List String) (temp0 : EGTBStore) (del0 : Bool),
      (GeneratePass E P ws store L temp0 del0).all_pos_list =
        L.filter (fun fen => (Classify E P ws store fen).isNone) ∧
      (∀ k ∈ L, ∀ best m, Classify E P ws store k = some (best, m) →
        (GeneratePass E P ws store L temp0 del0).temp_store.Get k =
          some { fen := k, moves_to_end := best, next_move := m, winner := ws }) ∧
      (∀ k, (k ∉ L ∨ Classify E P ws store k = none) →
        (GeneratePass E P ws store L temp0 del0).temp_store.Get k = temp0.Get k) ∧
      ((GeneratePass E P ws store L temp0 del0).deleted = true ↔
        (del0 = true ∨ ∃ fen ∈ L, Classify E P ws store fen ≠ none)) := by
  intro L
  induction L with
  | nil =>
    intro temp0 del0
    refine ⟨rfl, fun k hk => absurd hk (List.not_mem_nil _), fun _ _ => rfl, ?_⟩
    simp [GeneratePass]
  | cons fen rest ih =>
    intro temp0 del0
    cases hc : Classify E P ws store fen with
    | none =>
      have hg : GeneratePass E P ws store (fen :: rest) temp0 del0 =
          { GeneratePass E P ws store rest temp0 del0 with
            all_pos_list := fen :: (GeneratePass E P ws store rest temp0 del0).all_pos_list } := by
        rw [GeneratePass, hc]
      obtain ⟨h1, h2, h3, h4⟩ := ih temp0 del0
      rw [hg]
      refine ⟨?_, ?_, ?_, ?_⟩
      · simp only
        rw [h1, List.filter_cons_of_pos (by rw [hc]; rfl)]
      · intro k hk best m hk2
        rcases List.mem_cons.mp hk with e | e
        · rw [e, hc] at hk2; exact absurd hk2 (by simp)
        · exact h2 k e best m hk2
      · intro k hk
        by_cases hkn : Classify E P ws store k = none
        · exact h3 k (Or.inr hkn)
        · rcases hk with hk | hk
          · exact h3 k (Or.inl (fun hin => hk (List.mem_cons_of_mem _ hin)))
          · exact absurd hk hkn
      · simp only
        rw [h4]
        constructor
        · rintro (h | ⟨f, hf, hne⟩)
          · exact Or.inl h
          · exact Or.inr ⟨f, List.mem_cons_of_mem _ hf, hne⟩
        · rintro (h | ⟨f, hf, hne⟩)
          · exact Or.inl h
          · rcases List.mem_cons.mp hf with e | e
            · rw [e] at hne; exact absurd hc hne
            · exact Or.inr ⟨f, e, hne⟩
    | some r =>
      obtain ⟨best0, m0⟩ := r
      have hg : GeneratePass E P ws store (fen :: rest) temp0 del0 =
          GeneratePass E P ws store rest (temp0.Put fen best0 m0 ws) true := by
        rw [GeneratePass, hc]
      obtain ⟨h1, h2, h3, h4⟩ := ih (temp0.Put fen best0 m0 ws) true
      rw [hg]
      refine ⟨?_, ?_, ?_, ?_⟩
      · rw [h1, List.filter_cons_of_neg (by rw [hc]; simp)]
      · intro k hk best m hk2
        by_cases hin : k ∈ rest
        · exact h2 k hin best m hk2
        · rcases List.mem_cons.mp hk with e | e
          · rw [h3 k (Or.inl hin), e, Get_Put_self]
            rw [e, hc] at hk2
            have e2 := Option.some.inj hk2
            have e3 : best0 = best := congrArg Prod.fst e2
            have e4 : m0 = m := congrArg Prod.snd e2
            rw [e3, e4]
          · exact absurd e hin
      · intro k hk
        have hne : k ≠ fen := by
          intro e
          rcases hk with hk | hk
          · exact hk (by rw [e]; exact List.mem_cons_self _ _)
          · rw [e, hc] at hk; exact absurd hk (by simp)
        have hk' : k ∉ rest ∨ Classify E P ws store k = none := by
          rcases hk with hk | hk
          · exact Or.inl (fun hin => hk (List.mem_cons_of_mem _ hin))
          · exact Or.inr hk
        rw [h3 k hk', Get_Put_ne _ _ _ _ _ _ hne]
      · rw [h4]
        constructor
        · intro _
          exact Or.inr ⟨fen, List.mem_cons_self _ _, by rw [hc]; simp⟩
        · intro _
          exact Or.inl rfl

end Nakshatra

namespace Nakshatra

/-! ## The fixed point -/

theorem Extends_refl (st : EGTBStore) : Extends st st := fun _ _ h => h

theorem Extends_trans {a b c : EGTBStore} (h1 : Extends a b) (h2 : Extends b c) : Extends a c :=
  fun k e h => h2 k e (h1 k e h)

theorem Settled_mono {E : Engine} {P : Board → String} {ws : Side} {st st2 : EGTBStore}
    {k : String} {e : EGTBElement} (h : Settled E P ws st k e) (hx : Extends st st2) :
    Settled E P ws st2 k e := by
  unfold Settled at h ⊢
  by_cases hs : E.SideToMove (Board.ofFEN k) = ws
  · rw [if_pos hs] at h ⊢
    obtain ⟨mv, hmv, e2, h1, h2, h3⟩ := h
    exact ⟨mv, hmv, e2, hx _ _ h1, h2, h3⟩
  · rw [if_neg hs] at h ⊢
    obtain ⟨ha, mv, hmv, e2, h1, h2, h3⟩ := h
    refine ⟨fun mv' hmv' => ?_, mv, hmv, e2, hx _ _ h1, h2, h3⟩
    obtain ⟨e3, g1, g2, g3⟩ := ha mv' hmv'
    exact ⟨e3, hx _ _ g1, g2, g3⟩

/-- A position a pass stores with a positive distance is settled. -/
theorem Classify_settled (E : Engine) (P : Board → String) (ws : Side) (st : EGTBStore)
    (k : String) (best : Int) (m : Move) (h : Classify E P ws st k = some (best, m))
    (hpos : 0 < best) :
    Settled E P ws st k { fen := k, moves_to_end := best, next_move := m, winner := ws } := by
  unfold Classify at h
  unfold Settled
  by_cases hs : E.SideToMove (Board.ofFEN k) = ws
  · rw [if_pos hs] at h ⊢
    obtain ⟨_, _, pre, post, e1, e2, _⟩ := ClassifyWinner_some E P ws st k best m h
    obtain ⟨e3, g1, g2, g3⟩ := Offer_some.mp e2
    exact ⟨m, mem_of_split _ pre post _ e1, e3, g1, g2, by simp only; omega⟩
  · rw [if_neg hs] at h ⊢
    obtain ⟨ha, hb⟩ := ClassifyLoser_some E P ws st k best m h
    refine ⟨fun mv hmv => ?_, ?_⟩
    · obtain ⟨v, hv, hle⟩ := ha mv hmv
      obtain ⟨e3, g1, g2, g3⟩ := Offer_some.mp hv
      exact ⟨e3, g1, g2, by simp only; omega⟩
    · rcases hb with ⟨c1, _⟩ | ⟨_, pre, post, e1, e2, _⟩
      · omega
      · obtain ⟨e3, g1, g2, g3⟩ := Offer_some.mp e2
        exact ⟨m, mem_of_split _ pre post _ e1, e3, g1, g2, by simp only; omega⟩

/-- One pass keeps the invariant, and the store it leaves extends the one it
found. -/
theorem GenInv_pass (E : Engine) (P : Board → String) (ws : Side) (L : List String)
    (st : EGTBStore) (h : GenInv E P ws L st) :
    GenInv E P ws (GeneratePass E P ws st L EGTBStore.empty false).all_pos_list
      (st.MergeFrom (GeneratePass E P ws st L EGTBStore.empty false).temp_store) ∧
    Extends st (st.MergeFrom (GeneratePass E P ws st L EGTBStore.empty false).temp_store) := by
  obtain ⟨h1, h2, h3, _⟩ := GeneratePass_spec E P ws st L EGTBStore.empty false
  have hx : Extends st
      (st.MergeFrom (GeneratePass E P ws st L EGTBStore.empty false).temp_store) := by
    intro k e hk
    have hnot : k ∉ L := fun hin => by
      rw [h.fresh k hin] at hk; exact absurd hk (by simp)
    rw [Get_MergeFrom_none _ _ _ (by rw [h3 k (Or.inl hnot)]; rfl)]
    exact hk
  refine ⟨⟨?_, ?_⟩, hx⟩
  · intro fen hfen
    rw [h1, List.mem_filter] at hfen
    have hc : Classify E P ws st fen = none := by
      cases hc : Classify E P ws st fen with
      | none => rfl
      | some r => rw [hc] at hfen; exact absurd hfen.2 (by simp)
    rw [Get_MergeFrom_none _ _ _ (by rw [h3 fen (Or.inr hc)]; rfl)]
    exact h.fresh fen hfen.1
  · intro k e hk hpos
    cases ht : (GeneratePass E P ws st L EGTBStore.empty false).temp_store.Get k with
    | none =>
      rw [Get_MergeFrom_none _ _ _ ht] at hk
      exact Settled_mono (h.settled k e hk hpos) hx
    | some e1 =>
      rw [Get_MergeFrom_some _ _ _ _ ht] at hk
      have he : e1 = e := Option.some.inj hk
      by_cases hin : k ∈ L
      · cases hc : Classify E P ws st k with
        | none =>
          rw [h3 k (Or.inr hc)] at ht
          exact absurd ht (by simp [Get_empty])
        | some r =>
          obtain ⟨best, m⟩ := r
          rw [h2 k hin best m hc] at ht
          have he2 := Option.some.inj ht
          rw [← he, ← he2] at hpos ⊢
          exact Settled_mono (Classify_settled E P ws st k best m hc hpos) hx
      · rw [h3 k (Or.inl hin)] at ht
        exact absurd ht (by simp [Get_empty])

/-- A pass that erases something leaves a shorter list. -/
theorem GeneratePass_shorter (E : Engine) (P : Board → String) (ws : Side) (L : List String)
    (st : EGTBStore)
    (h : (GeneratePass E P ws st L EGTBStore.empty false).deleted = true) :
    (GeneratePass E P ws st L EGTBStore.empty false).all_pos_list.length < L.length := by
  obtain ⟨h1, _, _, h4⟩ := GeneratePass_spec E P ws st L EGTBStore.empty false
  rw [h1, List.length_filter_lt_length_iff_exists]
  rcases h4.mp h with h | ⟨fen, hfen, hne⟩
  · exact absurd h (by simp)
  · refine ⟨fen, hfen, ?_⟩
    cases hc : Classify E P ws st fen with
    | none => exact absurd hc hne
    | some r => simp

/-- The 3-argument `Generate` returns when it is given more passes than the
list has positions; from a state that meets the invariant, every position of
the store it returns that has a positive distance is settled. -/
theorem Generate_spec (E : Engine) (P : Board → String) (ws : Side) :
    ∀ (fuel : Nat) (L : List String) (st : EGTBStore), L.length < fuel → GenInv E P ws L st →
      ∃ st2, EGTBGenerator.Generate E P fuel L ws st = some st2 ∧ Extends st st2 ∧
        ∀ k e, st2.Get k = some e → 0 < e.moves_to_end → Settled E P ws st2 k e := by
  intro fuel
  induction fuel with
  | zero => intro L st h; exact absurd h (Nat.not_lt_zero _)
  | succ fuel ih =>
    intro L st hlen hinv
    rw [EGTBGenerator.Generate]
    cases hd : (GeneratePass E P ws st L EGTBStore.empty false).deleted with
    | false =>
      simp only [Bool.not_false, if_true]
      exact ⟨st, rfl, Extends_refl st, hinv.settled⟩
    | true =>
      simp only [Bool.not_true, Bool.false_eq_true, if_false]
      have hshort := GeneratePass_shorter E P ws L st hd
      obtain ⟨hinv2, hx⟩ := GenInv_pass E P ws L st hinv
      obtain ⟨st2, g1, g2, g3⟩ := ih _ _ (by omega) hinv2
      exact ⟨st2, g1, Extends_trans hx g2, g3⟩

end Nakshatra

namespace Nakshatra

/-! ## Seeding -/

theorem SeedFinal_cons (ws : Side) (pos : String) (rest : List String) (st : EGTBStore) :
    SeedFinal ws (pos :: rest) st = SeedFinal ws rest (st.Put pos 0 Move.null ws) := rfl

/-- The store after the first loop of the seeding. -/
theorem SeedFinal_spec (ws : Side) :
    ∀ (L : List String) (st : EGTBStore) (k : String),
      (SeedFinal ws L st).Get k =
        if k ∈ L then
          some { fen := k, moves_to_end := 0, next_move := Move.null, winner := ws }
        else st.Get k := by
  intro L
  induction L with
  | nil => intro st k; simp [SeedFinal]
  | cons pos rest ih =>
    intro st k
    rw [SeedFinal_cons, ih]
    by_cases hin : k ∈ rest
    · rw [if_pos hin, if_pos (List.mem_cons_of_mem _ hin)]
    · rw [if_neg hin]
      by_cases he : k = pos
      · rw [if_pos (by rw [he]; exact List.mem_cons_self _ _), he, Get_Put_self]
      · rw [Get_Put_ne _ _ _ _ _ _ he, if_neg]
        intro h
        rcases List.mem_cons.mp h with e | e
        · exact he e
        · exact hin e

/-- The second loop of the seeding: the list it leaves and the store it
leaves. -/
theorem SeedAll_spec (E : Engine) :
    ∀ (L : List String) (st : EGTBStore),
      (SeedAll E L st).1 = L.filter (fun fen =>
        decide (¬ SuicideResult E (Board.ofFEN fen) = E.WIN ∧
          ¬ SuicideResult E (Board.ofFEN fen) = -E.WIN ∧
          ¬ SuicideResult E (Board.ofFEN fen) = E.DRAW)) ∧
      ∀ k, (SeedAll E L st).2.Get k =
        if k ∈ L ∧ SuicideResult E (Board.ofFEN k) = E.WIN then
          some { fen := k, moves_to_end := 0, next_move := Move.null,
                 winner := E.SideToMove (Board.ofFEN k) }
        else if k ∈ L ∧ SuicideResult E (Board.ofFEN k) = -E.WIN then
          some { fen := k, moves_to_end := 0, next_move := Move.null,
                 winner := OppositeSide (E.SideToMove (Board.ofFEN k)) }
        else st.Get k := by
  intro L
  induction L with
  | nil => intro st; simp [SeedAll]
  | cons fen rest ih =>
    intro st
    by_cases hw : SuicideResult E (Board.ofFEN fen) = E.WIN
    · have hg : SeedAll E (fen :: rest) st =
          SeedAll E rest (st.Put fen 0 Move.null (E.SideToMove (Board.ofFEN fen))) := by
        rw [SeedAll]; simp only; rw [if_pos hw]
      obtain ⟨h1, h2⟩ := ih (st.Put fen 0 Move.null (E.SideToMove (Board.ofFEN fen)))
      rw [hg]
      refine ⟨?_, fun k => ?_⟩
      · rw [h1, List.filter_cons_of_neg]
        simp [hw]
      · rw [h2 k]
        by_cases he : k = fen
        · subst he
          have hmem : k ∈ k :: rest := List.mem_cons_self _ _
          rw [Get_Put_self]
          split_ifs <;> first | rfl | (exfalso; tauto)
        · rw [Get_Put_ne _ _ _ _ _ _ he]
          simp [List.mem_cons, he]
    · by_cases hl : SuicideResult E (Board.ofFEN fen) = -E.WIN
      · have hg : SeedAll E (fen :: rest) st =
            SeedAll E rest
              (st.Put fen 0 Move.null (OppositeSide (E.SideToMove (Board.ofFEN fen)))) := by
          rw [SeedAll]; simp only; rw [if_neg hw, if_pos hl]
        obtain ⟨h1, h2⟩ :=
          ih (st.Put fen 0 Move.null (OppositeSide (E.SideToMove (Board.ofFEN fen))))
        rw [hg]
        refine ⟨?_, fun k => ?_⟩
        · rw [h1, List.filter_cons_of_neg]
          simp [hl]
        · rw [h2 k]
          by_cases he : k = fen
          · subst he
            have hmem : k ∈ k :: rest := List.mem_cons_self _ _
            rw [Get_Put_self]
            split_ifs <;> first | rfl | (exfalso; tauto)
          · rw [Get_Put_ne _ _ _ _ _ _ he]
            simp [List.mem_cons, he]
      · by_cases hd : SuicideResult E (Board.ofFEN fen) = E.DRAW
        · have hg : SeedAll E (fen :: rest) st = SeedAll E rest st := by
            rw [SeedAll]; simp only; rw [if_neg hw, if_neg hl, if_pos hd]
          obtain ⟨h1, h2⟩ := ih st
          rw [hg]
          refine ⟨?_, fun k => ?_⟩
          · rw [h1, List.filter_cons_of_neg]
            simp [hd]
          · rw [h2 k]
            by_cases he : k = fen
            · subst he
              simp [hw, hl]
            · simp [List.mem_cons, he]
        · have hg : SeedAll E (fen :: rest) st =
              (fen :: (SeedAll E rest st).1, (SeedAll E rest st).2) := by
            rw [SeedAll]; simp only; rw [if_neg hw, if_neg hl, if_neg hd]
          obtain ⟨h1, h2⟩ := ih st
          rw [hg]
          refine ⟨?_, fun k => ?_⟩
          · simp only
            rw [h1, List.filter_cons_of_pos]
            simp [hw, hl, hd]
          · simp only
            rw [h2 k]
            by_cases he : k = fen
            · subst he
              simp [hw, hl]
            · simp [List.mem_cons, he]

/-- After the seeding from an empty store, with lists that share no position,
the invariant of the passes holds, and every stored distance is 0. -/
theorem Seed_inv (E : Engine) (P : Board → String) (ws : Side)
    (final_pos_list all_pos_list : List String)
    (hdisj : ∀ fen ∈ final_pos_list, fen ∉ all_pos_list) :
    GenInv E P ws (SeedAll E all_pos_list (SeedFinal ws final_pos_list EGTBStore.empty)).1
      (SeedAll E all_pos_list (SeedFinal ws final_pos_list EGTBStore.empty)).2 := by
  obtain ⟨h1, h2⟩ := SeedAll_spec E all_pos_list (SeedFinal ws final_pos_list EGTBStore.empty)
  refine ⟨?_, ?_⟩
  · intro fen hfen
    rw [h1, List.mem_filter] at hfen
    obtain ⟨hin, hk⟩ := hfen
    have hk' := of_decide_eq_true hk
    rw [h2 fen, if_neg (fun x => hk'.1 x.2), if_neg (fun x => hk'.2.1 x.2), SeedFinal_spec,
      if_neg (fun x => hdisj fen x hin)]
    rfl
  · intro k e hk hpos
    exfalso
    rw [h2 k] at hk
    split at hk
    · rw [← Option.some.inj hk] at hpos; exact absurd hpos (lt_irrefl (0 : Int))
    · split at hk
      · rw [← Option.some.inj hk] at hpos; exact absurd hpos (lt_irrefl (0 : Int))
      · rw [SeedFinal_spec] at hk
        split at hk
        · rw [← Option.some.inj hk] at hpos; exact absurd hpos (lt_irrefl (0 : Int))
        · rw [Get_empty] at hk; exact absurd hk (by simp)

end Nakshatra

namespace Nakshatra

/-! ## The successive stores -/

theorem Stays_Put (st : EGTBStore) (fen : String) (d : Int) (mv : Move) (w : Side) :
    Stays st (st.Put fen d mv w) := by
  intro k hk
  rw [Get_Put]
  split
  · simp
  · exact hk

theorem Stays_MergeFrom (st t : EGTBStore) : Stays st (st.MergeFrom t) := by
  intro k hk
  rw [Get_MergeFrom]
  split
  · simp
  · exact hk

theorem NoLarger_of_Extends {st st2 : EGTBStore} (h : Extends st st2) : NoLarger st st2 := by
  intro k e e2 h1 h2
  rw [h k e h1] at h2
  rw [Option.some.inj h2]

/-- A `Put` with distance 0 on a position that is absent or stored with
distance 0. -/
theorem NoLarger_Put_zero (st : EGTBStore) (fen : String) (mv : Move) (w : Side)
    (h : ∀ e, st.Get fen = some e → e.moves_to_end = 0) :
    NoLarger st (st.Put fen 0 mv w) := by
  intro k e e2 h1 h2
  rw [Get_Put] at h2
  split at h2
  · rename_i hk
    rw [hk] at h1
    have h0 := h e h1
    rw [← Option.some.inj h2, h0]
  · rw [h1] at h2
    rw [Option.some.inj h2]

/-- The stores of the first seeding loop form a chain for any relation that
every `Put` with distance 0 on a listed position respects. -/
theorem SeedFinalStores_chain {R : EGTBStore → EGTBStore → Prop} {I : EGTBStore → Prop}
    (ws : Side) (S : String → Prop)
    (hstep : ∀ st pos w, I st → S pos →
      R st (st.Put pos 0 Move.null w) ∧ I (st.Put pos 0 Move.null w)) :
    ∀ (L : List String) (st : EGTBStore) (tail : List EGTBStore), (∀ pos ∈ L, S pos) → I st →
      (I (SeedFinal ws L st) → List.Chain R (SeedFinal ws L st) tail) →
      List.Chain R st (SeedFinalStores ws L st ++ tail) := by
  intro L
  induction L with
  | nil => intro st tail _ hI hk; exact hk hI
  | cons pos rest ih =>
    intro st tail hS hI hk
    obtain ⟨h1, h2⟩ := hstep st pos ws hI (hS pos (List.mem_cons_self _ _))
    rw [SeedFinalStores, List.cons_append]
    exact List.Chain.cons h1
      (ih _ tail (fun p hp => hS p (List.mem_cons_of_mem _ hp)) h2 hk)

/-- The stores of the second seeding loop form a chain, likewise. -/
theorem SeedAllStores_chain {R : EGTBStore → EGTBStore → Prop} {I : EGTBStore → Prop}
    (E : Engine) (S : String → Prop)
    (hstep : ∀ st pos w, I st → S pos →
      R st (st.Put pos 0 Move.null w) ∧ I (st.Put pos 0 Move.null w)) :
    ∀ (L : List String) (st : EGTBStore) (tail : List EGTBStore), (∀ pos ∈ L, S pos) → I st →
      List.Chain R (SeedAll E L st).2 tail →
      List.Chain R st (SeedAllStores E L st ++ tail) := by
  intro L
  induction L with
  | nil => intro st tail _ _ hk; exact hk
  | cons fen rest ih =>
    intro st tail hS hI hk
    have hrest : ∀ p ∈ rest, S p := fun p hp => hS p (List.mem_cons_of_mem _ hp)
    have hfen : S fen := hS fen (List.mem_cons_self _ _)
    by_cases hw : SuicideResult E (Board.ofFEN fen) = E.WIN
    · obtain ⟨h1, h2⟩ := hstep st fen (E.SideToMove (Board.ofFEN fen)) hI hfen
      have hg : SeedAll E (fen :: rest) st =
          SeedAll E rest (st.Put fen 0 Move.null (E.SideToMove (Board.ofFEN fen))) := by
        rw [SeedAll]; simp only; rw [if_pos hw]
      have ht : SeedAllStores E (fen :: rest) st =
          st.Put fen 0 Move.null (E.SideToMove (Board.ofFEN fen)) ::
            SeedAllStores E rest (st.Put fen 0 Move.null (E.SideToMove (Board.ofFEN fen))) := by
        rw [SeedAllStores]; rw [if_pos hw]
      rw [hg] at hk
      rw [ht, List.cons_append]
      exact List.Chain.cons h1 (ih _ tail hrest h2 hk)
    · by_cases hl : SuicideResult E (Board.ofFEN fen) = -E.WIN
      · obtain ⟨h1, h2⟩ :=
          hstep st fen (OppositeSide (E.SideToMove (Board.ofFEN fen))) hI hfen
        have hg : SeedAll E (fen :: rest) st =
            SeedAll E rest
              (st.Put fen 0 Move.null (OppositeSide (E.SideToMove (Board.ofFEN fen)))) := by
          rw [SeedAll]; simp only; rw [if_neg hw, if_pos hl]
        have ht : SeedAllStores E (fen :: rest) st =
            st.Put fen 0 Move.null (OppositeSide (E.SideToMove (Board.ofFEN fen))) ::
              SeedAllStores E rest
                (st.Put fen 0 Move.null (OppositeSide (E.SideToMove (Board.ofFEN fen)))) := by
          rw [SeedAllStores]; rw [if_neg hw, if_pos hl]
        rw [hg] at hk
        rw [ht, List.cons_append]
        exact List.Chain.cons h1 (ih _ tail hrest h2 hk)
      · have ht : SeedAllStores E (fen :: rest) st = SeedAllStores E rest st := by
          rw [SeedAllStores]; rw [if_neg hw, if_neg hl]
        have hg : (SeedAll E (fen :: rest) st).2 = (SeedAll E rest st).2 := by
          rw [SeedAll]; simp only; rw [if_neg hw, if_neg hl]
          split <;> rfl
        rw [hg] at hk
        rw [ht]
        exact ih st tail hrest hI hk

/-- A pass on a list of positions that are not in the store: the store it
leaves extends the one it found, and the positions of the list it leaves are
not in it. -/
theorem pass_fresh (E : Engine) (P : Board → String) (ws : Side) (L : List String)
    (st : EGTBStore) (h : ∀ fen ∈ L, st.Get fen = none) :
    Extends st (st.MergeFrom (GeneratePass E P ws st L EGTBStore.empty false).temp_store) ∧
    ∀ fen ∈ (GeneratePass E P ws st L EGTBStore.empty false).all_pos_list,
      (st.MergeFrom (GeneratePass E P ws st L EGTBStore.empty false).temp_store).Get fen =
        none := by
  obtain ⟨h1, _, h3, _⟩ := GeneratePass_spec E P ws st L EGTBStore.empty false
  refine ⟨?_, ?_⟩
  · intro k e hk
    have hnot : k ∉ L := fun hin => by
      rw [h k hin] at hk; exact absurd hk (by simp)
    rw [Get_MergeFrom_none _ _ _ (by rw [h3 k (Or.inl hnot)]; rfl)]
    exact hk
  · intro fen hfen
    rw [h1, List.mem_filter] at hfen
    have hc : Classify E P ws st fen = none := by
      cases hc : Classify E P ws st fen with
      | none => rfl
      | some r => rw [hc] at hfen; exact absurd hfen.2 (by simp)
    rw [Get_MergeFrom_none _ _ _ (by rw [h3 fen (Or.inr hc)]; rfl)]
    exact h fen hfen.1

theorem GenerateStores_stays (E : Engine) (P : Board → String) (ws : Side) :
    ∀ (fuel : Nat) (L : List String) (st : EGTBStore),
      List.Chain Stays st (GenerateStores E P fuel L ws st) := by
  intro fuel
  induction fuel with
  | zero => intro L st; exact List.Chain.nil
  | succ fuel ih =>
    intro L st
    rw [GenerateStores]
    split
    · exact List.Chain.nil
    · exact List.Chain.cons (Stays_MergeFrom _ _) (ih _ _)

theorem GenerateStores_noLarger (E : Engine) (P : Board → String) (ws : Side) :
    ∀ (fuel : Nat) (L : List String) (st : EGTBStore), (∀ fen ∈ L, st.Get fen = none) →
      List.Chain NoLarger st (GenerateStores E P fuel L ws st) := by
  intro fuel
  induction fuel with
  | zero => intro L st _; exact List.Chain.nil
  | succ fuel ih =>
    intro L st h
    obtain ⟨hx, hf⟩ := pass_fresh E P ws L st h
    rw [GenerateStores]
    split
    · exact List.Chain.nil
    · exact List.Chain.cons (NoLarger_of_Extends hx) (ih _ _ hf)

end Nakshatra

namespace Nakshatra

/-! ## The claims on the tablebase generator -/

theorem SeedAll_length (E : Engine) (L : List String) (st : EGTBStore) :
    (SeedAll E L st).1.length ≤ L.length := by
  rw [(SeedAll_spec E L st).1]
  exact List.length_filter_le _ _

/-- C2: the fixed point. The 4-argument `Generate`, started on an empty store
with a `final_pos_list` and an `all_pos_list` that share no position, returns
(within one pass more than `all_pos_list` has positions), and in the store it
returns every position `k` with a distance `d > 0` is settled: when the side
to move in `k` is `winning_side`, some legal move leads to a stored position
with winner `winning_side` and distance `d - 1`; when it is the other side,
every legal move leads to a stored position with winner `winning_side` and
distance at most `d - 1`, and one of them to distance `d - 1`. -/
theorem C2_generate_fixed_point (E : Engine) (ParseIntoFEN : Board → String) (fuel : Nat)
    (final_pos_list all_pos_list : List String) (winning_side : Side)
    (hdisj : ∀ fen ∈ final_pos_list, fen ∉ all_pos_list)
    (hfuel : all_pos_list.length < fuel) :
    ∃ store, EGTBGenerator.Generate4 E ParseIntoFEN fuel final_pos_list all_pos_list
        winning_side EGTBStore.empty = some store ∧
      ∀ k e, store.Get k = some e → 0 < e.moves_to_end →
        (E.SideToMove (Board.ofFEN k) = winning_side →
          ∃ mv ∈ E.GenerateMoves (Board.ofFEN k), ∃ e2,
            store.Get (ParseIntoFEN ((Board.ofFEN k).MakeMove mv)) = some e2 ∧
            e2.winner = winning_side ∧ e2.moves_to_end = e.moves_to_end - 1) ∧
        (E.SideToMove (Board.ofFEN k) ≠ winning_side →
          (∀ mv ∈ E.GenerateMoves (Board.ofFEN k), ∃ e2,
            store.Get (ParseIntoFEN ((Board.ofFEN k).MakeMove mv)) = some e2 ∧
            e2.winner = winning_side ∧ e2.moves_to_end ≤ e.moves_to_end - 1) ∧
          ∃ mv ∈ E.GenerateMoves (Board.ofFEN k), ∃ e2,
            store.Get (ParseIntoFEN ((Board.ofFEN k).MakeMove mv)) = some e2 ∧
            e2.winner = winning_side ∧ e2.moves_to_end = e.moves_to_end - 1) := by
  have hinv := Seed_inv E ParseIntoFEN winning_side final_pos_list all_pos_list hdisj
  have hlen := SeedAll_length E all_pos_list (SeedFinal winning_side final_pos_list EGTBStore.empty)
  obtain ⟨store, h1, _, h3⟩ := Generate_spec E ParseIntoFEN winning_side fuel _ _
    (lt_of_le_of_lt hlen hfuel) hinv
  refine ⟨store, h1, fun k e hk hpos => ?_⟩
  have hs := h3 k e hk hpos
  unfold Settled at hs
  refine ⟨fun hside => ?_, fun hside => ?_⟩
  · rw [if_pos hside] at hs; exact hs
  · rw [if_neg hside] at hs; exact hs

/-- C2 on the small endgame, with `f` final and six positions in the list. -/
theorem C2_generate_fixed_point_witness :
    ∃ store, EGTBGenerator.Generate4 Tiny.engine Tiny.ParseIntoFEN 7 ["f"]
        ["b2", "w1", "u", "t", "l", "d"] Side.WHITE EGTBStore.empty = some store ∧
      ∀ k e, store.Get k = some e → 0 < e.moves_to_end →
        (Tiny.engine.SideToMove (Board.ofFEN k) = Side.WHITE →
          ∃ mv ∈ Tiny.engine.GenerateMoves (Board.ofFEN k), ∃ e2,
            store.Get (Tiny.ParseIntoFEN ((Board.ofFEN k).MakeMove mv)) = some e2 ∧
            e2.winner = Side.WHITE ∧ e2.moves_to_end = e.moves_to_end - 1) ∧
        (Tiny.engine.SideToMove (Board.ofFEN k) ≠ Side.WHITE →
          (∀ mv ∈ Tiny.engine.GenerateMoves (Board.ofFEN k), ∃ e2,
            store.Get (Tiny.ParseIntoFEN ((Board.ofFEN k).MakeMove mv)) = some e2 ∧
            e2.winner = Side.WHITE ∧ e2.moves_to_end ≤ e.moves_to_end - 1) ∧
          ∃ mv ∈ Tiny.engine.GenerateMoves (Board.ofFEN k), ∃ e2,
            store.Get (Tiny.ParseIntoFEN ((Board.ofFEN k).MakeMove mv)) = some e2 ∧
            e2.winner = Side.WHITE ∧ e2.moves_to_end = e.moves_to_end - 1) :=
  C2_generate_fixed_point Tiny.engine Tiny.ParseIntoFEN 7 ["f"]
    ["b2", "w1", "u", "t", "l", "d"] Side.WHITE (by decide) (by decide)

/-- On the small endgame the generator gives `b2` the distance 2 (Black's
longest defence leads to `w1`) and `w1` the distance 1. -/
theorem Tiny.generated_distances :
    (Tiny.generated.bind (fun st => st.Get "b2")) = some ⟨"b2", 2, ⟨2, 1⟩, Side.WHITE⟩ ∧
    (Tiny.generated.bind (fun st => st.Get "w1")) = some ⟨"w1", 1, ⟨1, 0⟩, Side.WHITE⟩ ∧
    (Tiny.generated.bind (fun st => st.Get "u")) = none := by
  decide

end Nakshatra

namespace Nakshatra

/-- After the seeding, no position left in the list is in the store, when the
two lists share no position and the store had none of `all_pos_list`. -/
theorem Seed_fresh (E : Engine) (ws : Side) (final_pos_list all_pos_list : List String)
    (st : EGTBStore) (hdisj : ∀ fen ∈ final_pos_list, fen ∉ all_pos_list)
    (h0 : ∀ k ∈ all_pos_list, st.Get k = none) :
    ∀ fen ∈ (SeedAll E all_pos_list (SeedFinal ws final_pos_list st)).1,
      (SeedAll E all_pos_list (SeedFinal ws final_pos_list st)).2.Get fen = none := by
  obtain ⟨h1, h2⟩ := SeedAll_spec E all_pos_list (SeedFinal ws final_pos_list st)
  intro fen hfen
  rw [h1, List.mem_filter] at hfen
  obtain ⟨hin, hk⟩ := hfen
  have hk' := of_decide_eq_true hk
  rw [h2 fen, if_neg (fun x => hk'.1 x.2), if_neg (fun x => hk'.2.1 x.2), SeedFinal_spec,
    if_neg (fun x => hdisj fen x hin)]
  exact h0 fen hin

/-- The store the 3-argument `Generate` returns is the last of its successive
stores. -/
theorem GenerateStores_last (E : Engine) (P : Board → String) (ws : Side) :
    ∀ (fuel : Nat) (L : List String) (st st2 : EGTBStore),
      EGTBGenerator.Generate E P fuel L ws st = some st2 →
      (st :: GenerateStores E P fuel L ws st).getLast? = some st2 := by
  intro fuel
  induction fuel with
  | zero => intro L st st2 h; rw [EGTBGenerator.Generate] at h; exact absurd h (by simp)
  | succ fuel ih =>
    intro L st st2 h
    rw [EGTBGenerator.Generate] at h
    rw [GenerateStores]
    split at h
    · rename_i hd
      rw [if_pos hd]
      rw [← Option.some.inj h]
      rfl
    · rename_i hd
      rw [if_neg hd, List.getLast?_cons_cons]
      exact ih _ _ _ h

theorem SeedFinalStores_last (ws : Side) :
    ∀ (L : List String) (st : EGTBStore) (tail : List EGTBStore),
      (st :: (SeedFinalStores ws L st ++ tail)).getLast? =
        (SeedFinal ws L st :: tail).getLast? := by
  intro L
  induction L with
  | nil => intro st tail; rfl
  | cons pos rest ih =>
    intro st tail
    rw [SeedFinalStores, List.cons_append, List.getLast?_cons_cons, ih, SeedFinal_cons]

theorem SeedAllStores_last (E : Engine) :
    ∀ (L : List String) (st : EGTBStore) (tail : List EGTBStore),
      (st :: (SeedAllStores E L st ++ tail)).getLast? =
        ((SeedAll E L st).2 :: tail).getLast? := by
  intro L
  induction L with
  | nil => intro st tail; rfl
  | cons fen rest ih =>
    intro st tail
    rw [SeedAllStores, SeedAll]
    simp only
    split
    · rw [List.cons_append, List.getLast?_cons_cons, ih]
    · split
      · rw [List.cons_append, List.getLast?_cons_cons, ih]
      · rw [ih]
        split <;> rfl

/-- C17 as stated fails: on the small endgame with `w1` given both as a final
position and in the list, the seeding stores `w1` with distance 0 and the
first pass replaces that element by one with distance 1. -/
theorem C17_overlap_raises_distance :
    ¬ List.Chain' (fun a b => Stays a b ∧ NoLarger a b)
      (Generate4Stores Tiny.engine Tiny.ParseIntoFEN 2 ["w1", "f"] ["w1"] Side.WHITE
        EGTBStore.empty) := by
  intro h
  rw [List.chain'_iff_get] at h
  have h2 := (h 2 (by decide)).2 "w1" ⟨"w1", 0, ⟨0, 0⟩, Side.WHITE⟩
    ⟨"w1", 1, ⟨1, 0⟩, Side.WHITE⟩ (by decide) (by decide)
  exact absurd h2 (by decide)

/-- C17, amended: during the 4-argument `Generate` (the seeding and every
pass), a position present in the store stays present, for every input; and
when `final_pos_list` and `all_pos_list` share no position and the store has
at the start no element for a position of either list, no element is ever
replaced by one with a strictly larger `moves_to_end`. The store `Generate`
returns is the last of the successive stores. -/
theorem C17_store_grows (E : Engine) (ParseIntoFEN : Board → String) (fuel : Nat)
    (final_pos_list all_pos_list : List String) (winning_side : Side) (store : EGTBStore) :
    List.Chain' Stays
      (Generate4Stores E ParseIntoFEN fuel final_pos_list all_pos_list winning_side store) ∧
    ((∀ fen ∈ final_pos_list, fen ∉ all_pos_list) →
      (∀ k, k ∈ final_pos_list ∨ k ∈ all_pos_list → store.Get k = none) →
      List.Chain' NoLarger
        (Generate4Stores E ParseIntoFEN fuel final_pos_list all_pos_list winning_side store)) ∧
    (∀ store2, EGTBGenerator.Generate4 E ParseIntoFEN fuel final_pos_list all_pos_list
        winning_side store = some store2 →
      (Generate4Stores E ParseIntoFEN fuel final_pos_list all_pos_list winning_side
        store).getLast? = some store2) := by
  refine ⟨?_, ?_, ?_⟩
  · show List.Chain Stays store _
    apply SeedFinalStores_chain (I := fun _ => True) winning_side (fun _ => True)
      (fun st pos w _ _ => ⟨Stays_Put st pos 0 Move.null w, trivial⟩) final_pos_list store _
      (fun _ _ => trivial) trivial
    intro _
    apply SeedAllStores_chain (I := fun _ => True) E (fun _ => True)
      (fun st pos w _ _ => ⟨Stays_Put st pos 0 Move.null w, trivial⟩) all_pos_list _ _
      (fun _ _ => trivial) trivial
    exact GenerateStores_stays E ParseIntoFEN winning_side fuel _ _
  · intro hdisj h0
    show List.Chain NoLarger store _
    have hstep : ∀ (st : EGTBStore) (pos : String) (w : Side),
        (∀ k, k ∈ final_pos_list ∨ k ∈ all_pos_list → ∀ e, st.Get k = some e →
          e.moves_to_end = 0) →
        (pos ∈ final_pos_list ∨ pos ∈ all_pos_list) →
        NoLarger st (st.Put pos 0 Move.null w) ∧
        (∀ k, k ∈ final_pos_list ∨ k ∈ all_pos_list → ∀ e,
          (st.Put pos 0 Move.null w).Get k = some e → e.moves_to_end = 0) := by
      intro st pos w hI hpos
      refine ⟨NoLarger_Put_zero st pos Move.null w (hI pos hpos), ?_⟩
      intro k hk e he
      rw [Get_Put] at he
      split at he
      · rw [← Option.some.inj he]
      · exact hI k hk e he
    apply SeedFinalStores_chain
      (I := fun st => ∀ k, k ∈ final_pos_list ∨ k ∈ all_pos_list → ∀ e, st.Get k = some e →
        e.moves_to_end = 0)
      winning_side (fun k => k ∈ final_pos_list ∨ k ∈ all_pos_list) hstep final_pos_list store _
      (fun _ hp => Or.inl hp)
      (fun k hk e he => by rw [h0 k hk] at he; exact absurd he (by simp))
    intro hI1
    apply SeedAllStores_chain
      (I := fun st => ∀ k, k ∈ final_pos_list ∨ k ∈ all_pos_list → ∀ e, st.Get k = some e →
        e.moves_to_end = 0)
      E (fun k => k ∈ final_pos_list ∨ k ∈ all_pos_list) hstep all_pos_list _ _
      (fun _ hp => Or.inr hp) hI1
    exact GenerateStores_noLarger E ParseIntoFEN winning_side fuel _ _
      (Seed_fresh E winning_side final_pos_list all_pos_list store hdisj
        (fun k hk => h0 k (Or.inr hk)))
  · intro store2 h
    unfold Generate4Stores
    simp only
    rw [SeedFinalStores_last, SeedAllStores_last]
    exact GenerateStores_last E ParseIntoFEN winning_side fuel _ _ _ h

/-- C17, amended, on the small endgame with `f` final and six positions in the
list, from an empty store. -/
theorem C17_store_grows_witness :
    List.Chain' Stays
      (Generate4Stores Tiny.engine Tiny.ParseIntoFEN 7 ["f"] ["b2", "w1", "u", "t", "l", "d"]
        Side.WHITE EGTBStore.empty) ∧
    List.Chain' NoLarger
      (Generate4Stores Tiny.engine Tiny.ParseIntoFEN 7 ["f"] ["b2", "w1", "u", "t", "l", "d"]
        Side.WHITE EGTBStore.empty) :=
  ⟨(C17_store_grows Tiny.engine Tiny.ParseIntoFEN 7 ["f"] ["b2", "w1", "u", "t", "l", "d"]
      Side.WHITE EGTBStore.empty).1,
    (C17_store_grows Tiny.engine Tiny.ParseIntoFEN 7 ["f"] ["b2", "w1", "u", "t", "l", "d"]
      Side.WHITE EGTBStore.empty).2.1 (by decide) (fun _ _ => rfl)⟩

end Nakshatra

namespace Nakshatra

/-- The Suicide evaluator returns one of the four result codes. -/
theorem SuicideResult_values (E : Engine) (b : Board) :
    SuicideResult E b = E.DRAW ∨ SuicideResult E b = E.WIN ∨ SuicideResult E b = -E.WIN ∨
      SuicideResult E b = E.UNKNOWN := by
  unfold SuicideResult
  simp only
  split
  · exact Or.inl rfl
  · split
    · split
      · exact Or.inr (Or.inl rfl)
      · split
        · exact Or.inl rfl
        · exact Or.inr (Or.inr (Or.inl rfl))
    · exact Or.inr (Or.inr (Or.inr rfl))

/-- C18: the seeding of the 4-argument `Generate`, with distinct result codes
(`WIN` is not `-WIN`, `UNKNOWN` is none of `WIN`, `-WIN`, `DRAW`). After the
first loop every position of `final_pos_list` is stored with distance 0, the
null move and winner `winning_side`, and it is still so after the second loop
unless it is a `WIN` or `-WIN` position of `all_pos_list`. After the second
loop every position of `all_pos_list` with result `WIN` is stored with
distance 0, the null move and its side to move as winner, every one with
result `-WIN` with the opposite side as winner; the list handed to the
3-argument `Generate` is `all_pos_list` without the positions whose result is
`WIN`, `-WIN` or `DRAW`: the positions with result `UNKNOWN`, in their
order. -/
theorem C18_seeding (E : Engine) (ParseIntoFEN : Board → String) (fuel : Nat)
    (final_pos_list all_pos_list : List String) (winning_side : Side) (store : EGTBStore)
    (hwin : E.WIN ≠ -E.WIN)
    (hunknown : E.UNKNOWN ≠ E.WIN ∧ E.UNKNOWN ≠ -E.WIN ∧ E.UNKNOWN ≠ E.DRAW) :
    (∀ k ∈ final_pos_list, (SeedFinal winning_side final_pos_list store).Get k =
      some { fen := k, moves_to_end := 0, next_move := Move.null, winner := winning_side }) ∧
    (∀ k ∈ final_pos_list,
      ¬ (k ∈ all_pos_list ∧ (SuicideResult E (Board.ofFEN k) = E.WIN ∨
        SuicideResult E (Board.ofFEN k) = -E.WIN)) →
      (SeedAll E all_pos_list (SeedFinal winning_side final_pos_list store)).2.Get k =
        some { fen := k, moves_to_end := 0, next_move := Move.null, winner := winning_side }) ∧
    (∀ k ∈ all_pos_list, SuicideResult E (Board.ofFEN k) = E.WIN →
      (SeedAll E all_pos_list (SeedFinal winning_side final_pos_list store)).2.Get k =
        some { fen := k, moves_to_end := 0, next_move := Move.null,
               winner := E.SideToMove (Board.ofFEN k) }) ∧
    (∀ k ∈ all_pos_list, SuicideResult E (Board.ofFEN k) = -E.WIN →
      (SeedAll E all_pos_list (SeedFinal winning_side final_pos_list store)).2.Get k =
        some { fen := k, moves_to_end := 0, next_move := Move.null,
               winner := OppositeSide (E.SideToMove (Board.ofFEN k)) }) ∧
    (∀ k ∈ all_pos_list, (SuicideResult E (Board.ofFEN k) = E.WIN ∨
        SuicideResult E (Board.ofFEN k) = -E.WIN ∨ SuicideResult E (Board.ofFEN k) = E.DRAW) →
      k ∉ (SeedAll E all_pos_list (SeedFinal winning_side final_pos_list store)).1) ∧
    (SeedAll E all_pos_list (SeedFinal winning_side final_pos_list store)).1 =
      all_pos_list.filter (fun k => decide (SuicideResult E (Board.ofFEN k) = E.UNKNOWN)) ∧
    EGTBGenerator.Generate4 E ParseIntoFEN fuel final_pos_list all_pos_list winning_side store =
      EGTBGenerator.Generate E ParseIntoFEN fuel
        (SeedAll E all_pos_list (SeedFinal winning_side final_pos_list store)).1 winning_side
        (SeedAll E all_pos_list (SeedFinal winning_side final_pos_list store)).2 := by
  obtain ⟨h1, h2⟩ := SeedAll_spec E all_pos_list (SeedFinal winning_side final_pos_list store)
  have hfinal : ∀ k ∈ final_pos_list, (SeedFinal winning_side final_pos_list store).Get k =
      some { fen := k, moves_to_end := 0, next_move := Move.null, winner := winning_side } := by
    intro k hk
    rw [SeedFinal_spec, if_pos hk]
  refine ⟨hfinal, ?_, ?_, ?_, ?_, ?_, rfl⟩
  · intro k hk hnot
    rw [h2 k, if_neg (fun x => hnot ⟨x.1, Or.inl x.2⟩), if_neg (fun x => hnot ⟨x.1, Or.inr x.2⟩)]
    exact hfinal k hk
  · intro k hk hw
    rw [h2 k, if_pos ⟨hk, hw⟩]
  · intro k hk hl
    rw [h2 k, if_neg (fun x => hwin (x.2.symm.trans hl)), if_pos ⟨hk, hl⟩]
  · intro k _ hr hin
    rw [h1, List.mem_filter] at hin
    have hk' := of_decide_eq_true hin.2
    rcases hr with hr | hr | hr
    · exact hk'.1 hr
    · exact hk'.2.1 hr
    · exact hk'.2.2 hr
  · rw [h1]
    apply List.filter_congr
    intro k _
    apply Bool.decide_congr
    constructor
    · rintro ⟨a, b, c⟩
      rcases SuicideResult_values E (Board.ofFEN k) with h | h | h | h
      · exact absurd h c
      · exact absurd h a
      · exact absurd h b
      · exact h
    · intro h
      rw [h]
      exact ⟨hunknown.1, hunknown.2.1, hunknown.2.2⟩

/-- C18 on the small endgame: `f` is final, `t` has result `WIN`, `l` has
`-WIN`, `d` is drawn, and `b2`, `w1`, `u` are handed to the passes. -/
theorem C18_seeding_witness :
    (SeedAll Tiny.engine ["b2", "w1", "u", "t", "l", "d"]
        (SeedFinal Side.WHITE ["f"] EGTBStore.empty)).1 =
      ["b2", "w1", "u", "t", "l", "d"].filter
        (fun k => decide (SuicideResult Tiny.engine (Board.ofFEN k) = Tiny.engine.UNKNOWN)) ∧
    ["b2", "w1", "u", "t", "l", "d"].filter
        (fun k => decide (SuicideResult Tiny.engine (Board.ofFEN k) = Tiny.engine.UNKNOWN)) =
      ["b2", "w1", "u"] ∧
    (SeedAll Tiny.engine ["b2", "w1", "u", "t", "l", "d"]
        (SeedFinal Side.WHITE ["f"] EGTBStore.empty)).2.Get "l" =
      some ⟨"l", 0, Move.null, Side.BLACK⟩ :=
  ⟨(C18_seeding Tiny.engine Tiny.ParseIntoFEN 7 ["f"] ["b2", "w1", "u", "t", "l", "d"]
      Side.WHITE EGTBStore.empty (by decide) (by decide)).2.2.2.2.2.1,
    by decide, by decide⟩

end Nakshatra

namespace Nakshatra

/-- What a pass leaves for a position of its list: erased and stored when
`Classify` gives a pair, kept and not stored when it gives none. -/
theorem GeneratePass_at (E : Engine) (P : Board → String) (ws : Side) (store : EGTBStore)
    (L : List String) (temp0 : EGTBStore) (del0 : Bool) (fen : String) (hin : fen ∈ L) :
    (∀ best m, Classify E P ws store fen = some (best, m) →
      fen ∉ (GeneratePass E P ws store L temp0 del0).all_pos_list ∧
      (GeneratePass E P ws store L temp0 del0).temp_store.Get fen =
        some { fen := fen, moves_to_end := best, next_move := m, winner := ws }) ∧
    (Classify E P ws store fen = none →
      fen ∈ (GeneratePass E P ws store L temp0 del0).all_pos_list ∧
      (GeneratePass E P ws store L temp0 del0).temp_store.Get fen = temp0.Get fen) := by
  obtain ⟨h1, h2, h3, _⟩ := GeneratePass_spec E P ws store L temp0 del0
  refine ⟨fun best m hc => ⟨?_, h2 fen hin best m hc⟩, fun hc => ⟨?_, h3 fen (Or.inr hc)⟩⟩
  · rw [h1, List.mem_filter, hc]
    rintro ⟨_, h⟩
    exact absurd h (by simp)
  · rw [h1, List.mem_filter, hc]
    exact ⟨hin, rfl⟩

/-- C19: one pass, a position `fen` of the list with the winning side to move,
whatever the additions of the pass so far (`temp_store`). When some legal move
leads to a position that the master store holds with winner `winning_side` and
a distance below 9999, `fen` is erased from the list and stored with winner
`winning_side`, with distance one more than the least distance among the
successors stored for `winning_side`, and with the first legal move, in
generation order, that leads to that least distance. When no legal move does,
`fen` stays in the list and the pass stores nothing for it. -/
theorem C19_winner_side_classified (E : Engine) (ParseIntoFEN : Board → String)
    (winning_side : Side) (store : EGTBStore) (all_pos_list : List String)
    (temp_store : EGTBStore) (deleted : Bool) (fen : String) (hin : fen ∈ all_pos_list)
    (hside : E.SideToMove (Board.ofFEN fen) = winning_side) :
    ((∃ mv ∈ E.GenerateMoves (Board.ofFEN fen), ∃ e,
        store.Get (ParseIntoFEN ((Board.ofFEN fen).MakeMove mv)) = some e ∧
        e.winner = winning_side ∧ e.moves_to_end < 9999) →
      fen ∉ (GeneratePass E ParseIntoFEN winning_side store all_pos_list temp_store
        deleted).all_pos_list ∧
      ∃ pre mv post e, E.GenerateMoves (Board.ofFEN fen) = pre ++ mv :: post ∧
        store.Get (ParseIntoFEN ((Board.ofFEN fen).MakeMove mv)) = some e ∧
        e.winner = winning_side ∧ e.moves_to_end < 9999 ∧
        (GeneratePass E ParseIntoFEN winning_side store all_pos_list temp_store
          deleted).temp_store.Get fen =
          some { fen := fen, moves_to_end := 1 + e.moves_to_end, next_move := mv,
                 winner := winning_side } ∧
        (∀ mv2 ∈ E.GenerateMoves (Board.ofFEN fen), ∀ e2,
          store.Get (ParseIntoFEN ((Board.ofFEN fen).MakeMove mv2)) = some e2 →
          e2.winner = winning_side → e.moves_to_end ≤ e2.moves_to_end) ∧
        (∀ mv2 ∈ pre, ∀ e2,
          store.Get (ParseIntoFEN ((Board.ofFEN fen).MakeMove mv2)) = some e2 →
          e2.winner = winning_side → e.moves_to_end < e2.moves_to_end)) ∧
    ((¬ ∃ mv ∈ E.GenerateMoves (Board.ofFEN fen), ∃ e,
        store.Get (ParseIntoFEN ((Board.ofFEN fen).MakeMove mv)) = some e ∧
        e.winner = winning_side ∧ e.moves_to_end < 9999) →
      fen ∈ (GeneratePass E ParseIntoFEN winning_side store all_pos_list temp_store
        deleted).all_pos_list ∧
      (GeneratePass E ParseIntoFEN winning_side store all_pos_list temp_store
        deleted).temp_store.Get fen = temp_store.Get fen) := by
  obtain ⟨hsome, hnone⟩ := GeneratePass_at E ParseIntoFEN winning_side store all_pos_list
    temp_store deleted fen hin
  have hcl : Classify E ParseIntoFEN winning_side store fen =
      ClassifyWinner E ParseIntoFEN winning_side store fen := by
    unfold Classify
    rw [if_pos hside]
  refine ⟨?_, ?_⟩
  · rintro ⟨mv, hmv, e, he, hw, hd⟩
    cases hc : ClassifyWinner E ParseIntoFEN winning_side store fen with
    | none =>
      have := (ClassifyWinner_none E ParseIntoFEN winning_side store fen).mp hc mv hmv
        (e.moves_to_end + 1) (Offer_some.mpr ⟨e, he, hw, rfl⟩)
      omega
    | some r =>
      obtain ⟨best, m⟩ := r
      obtain ⟨hb, hleast, pre, post, e1, e2, e3⟩ :=
        ClassifyWinner_some E ParseIntoFEN winning_side store fen best m hc
      obtain ⟨e0, g1, g2, g3⟩ := Offer_some.mp e2
      obtain ⟨k1, k2⟩ := hsome best m (by rw [hcl, hc])
      refine ⟨k1, pre, m, post, e0, e1, g1, g2, by omega, ?_, ?_, ?_⟩
      · rw [k2, g3, add_comm]
      · intro mv2 hmv2 e4 h4 hw4
        have := hleast mv2 hmv2 _ (Offer_some.mpr ⟨e4, h4, hw4, rfl⟩)
        omega
      · intro mv2 hmv2 e4 h4 hw4
        have := e3 mv2 hmv2 _ (Offer_some.mpr ⟨e4, h4, hw4, rfl⟩)
        omega
  · intro hno
    apply hnone
    rw [hcl, ClassifyWinner_none]
    intro mv hmv v hv
    obtain ⟨e, he, hw, hv2⟩ := Offer_some.mp hv
    by_contra hlt
    exact hno ⟨mv, hmv, e, he, hw, by omega⟩

/-- C19 on the small endgame: `w1`, with White to move and the move to the
stored final position `f`. -/
theorem C19_winner_side_classified_witness :
    "w1" ∉ (GeneratePass Tiny.engine Tiny.ParseIntoFEN Side.WHITE
        (SeedFinal Side.WHITE ["f"] EGTBStore.empty) ["b2", "w1", "u"] EGTBStore.empty
        false).all_pos_list :=
  ((C19_winner_side_classified Tiny.engine Tiny.ParseIntoFEN Side.WHITE
      (SeedFinal Side.WHITE ["f"] EGTBStore.empty) ["b2", "w1", "u"] EGTBStore.empty false
      "w1" (by decide) (by decide)).1
    ⟨⟨1, 0⟩, by decide, ⟨"f", 0, Move.null, Side.WHITE⟩, by decide, rfl, by decide⟩).1

/-- C20: one pass, a position `fen` of the list with the other side to move
and at least one legal move, on a master store whose distances are not below
-1 (no `Put` of `Generate` writes a smaller one). When every legal move leads
to a position the master store holds with winner `winning_side`, `fen` is
erased from the list and stored with winner `winning_side`, with distance one
more than the greatest distance among the successors, and with the first
legal move, in generation order, that leads to that greatest distance. When
some legal move leads to a position that is missing or stored for the other
side, `fen` stays in the list and the pass stores nothing for it. -/
theorem C20_loser_side_classified (E : Engine) (ParseIntoFEN : Board → String)
    (winning_side : Side) (store : EGTBStore) (all_pos_list : List String)
    (temp_store : EGTBStore) (deleted : Bool) (fen : String) (hin : fen ∈ all_pos_list)
    (hside : E.SideToMove (Board.ofFEN fen) ≠ winning_side)
    (hmoves : E.GenerateMoves (Board.ofFEN fen) ≠ [])
    (hstore : ∀ k e, store.Get k = some e → -1 ≤ e.moves_to_end) :
    ((∀ mv ∈ E.GenerateMoves (Board.ofFEN fen), ∃ e,
        store.Get (ParseIntoFEN ((Board.ofFEN fen).MakeMove mv)) = some e ∧
        e.winner = winning_side) →
      fen ∉ (GeneratePass E ParseIntoFEN winning_side store all_pos_list temp_store
        deleted).all_pos_list ∧
      ∃ pre mv post e, E.GenerateMoves (Board.ofFEN fen) = pre ++ mv :: post ∧
        store.Get (ParseIntoFEN ((Board.ofFEN fen).MakeMove mv)) = some e ∧
        e.winner = winning_side ∧
        (GeneratePass E ParseIntoFEN winning_side store all_pos_list temp_store
          deleted).temp_store.Get fen =
          some { fen := fen, moves_to_end := 1 + e.moves_to_end, next_move := mv,
                 winner := winning_side } ∧
        (∀ mv2 ∈ E.GenerateMoves (Board.ofFEN fen), ∀ e2,
          store.Get (ParseIntoFEN ((Board.ofFEN fen).MakeMove mv2)) = some e2 →
          e2.moves_to_end ≤ e.moves_to_end) ∧
        (∀ mv2 ∈ pre, ∀ e2,
          store.Get (ParseIntoFEN ((Board.ofFEN fen).MakeMove mv2)) = some e2 →
          e2.moves_to_end < e.moves_to_end)) ∧
    ((¬ ∀ mv ∈ E.GenerateMoves (Board.ofFEN fen), ∃ e,
        store.Get (ParseIntoFEN ((Board.ofFEN fen).MakeMove mv)) = some e ∧
        e.winner = winning_side) →
      fen ∈ (GeneratePass E ParseIntoFEN winning_side store all_pos_list temp_store
        deleted).all_pos_list ∧
      (GeneratePass E ParseIntoFEN winning_side store all_pos_list temp_store
        deleted).temp_store.Get fen = temp_store.Get fen) := by
  obtain ⟨hsome, hnone⟩ := GeneratePass_at E ParseIntoFEN winning_side store all_pos_list
    temp_store deleted fen hin
  have hcl : Classify E ParseIntoFEN winning_side store fen =
      ClassifyLoser E ParseIntoFEN winning_side store fen := by
    unfold Classify
    rw [if_neg hside]
  refine ⟨?_, ?_⟩
  · intro hall
    cases hc : ClassifyLoser E ParseIntoFEN winning_side store fen with
    | none =>
      obtain ⟨mv, hmv, ho⟩ := (ClassifyLoser_none E ParseIntoFEN winning_side store fen).mp hc
      obtain ⟨e, he, hw⟩ := hall mv hmv
      have := Offer_some.mpr ⟨e, he, hw, rfl⟩
      rw [ho] at this
      exact absurd this (by simp)
    | some r =>
      obtain ⟨best, m⟩ := r
      obtain ⟨hle, halt⟩ := ClassifyLoser_some E ParseIntoFEN winning_side store fen best m hc
      obtain ⟨k1, k2⟩ := hsome best m (by rw [hcl, hc])
      rcases halt with ⟨c1, _⟩ | ⟨_, pre, post, e1, e2, e3⟩
      · exfalso
        obtain ⟨mv0, hmv0⟩ := List.exists_mem_of_ne_nil _ hmoves
        obtain ⟨v, hv, hvle⟩ := hle mv0 hmv0
        obtain ⟨e, he, _, hv2⟩ := Offer_some.mp hv
        have := hstore _ e he
        omega
      · obtain ⟨e0, g1, g2, g3⟩ := Offer_some.mp e2
        refine ⟨k1, pre, m, post, e0, e1, g1, g2, ?_, ?_, ?_⟩
        · rw [k2, g3, add_comm]
        · intro mv2 hmv2 e4 h4
          obtain ⟨v, hv, hvle⟩ := hle mv2 hmv2
          obtain ⟨e5, h5, _, hv5⟩ := Offer_some.mp hv
          rw [h4] at h5
          rw [Option.some.inj h5]
          omega
        · intro mv2 hmv2 e4 h4
          have hmem : mv2 ∈ E.GenerateMoves (Board.ofFEN fen) := by
            rw [e1]; exact List.mem_append_left _ hmv2
          obtain ⟨v, hv, _⟩ := hle mv2 hmem
          have hlt := e3 mv2 hmv2 v hv
          obtain ⟨e5, h5, _, hv5⟩ := Offer_some.mp hv
          rw [h4] at h5
          rw [Option.some.inj h5]
          omega
  · intro hno
    apply hnone
    rw [hcl, ClassifyLoser_none]
    by_contra hall
    apply hno
    intro mv hmv
    cases ho : Offer ParseIntoFEN winning_side store (Board.ofFEN fen) mv with
    | none => exact absurd ⟨mv, hmv, ho⟩ hall
    | some v =>
      obtain ⟨e, he, hw, _⟩ := Offer_some.mp ho
      exact ⟨e, he, hw⟩

end Nakshatra

namespace Nakshatra

/-! ## The distances `Generate` stores are not below -1 -/

theorem distances_empty : ∀ k e, EGTBStore.empty.Get k = some e → -1 ≤ e.moves_to_end := by
  intro k e h
  rw [Get_empty] at h
  exact absurd h (by simp)

theorem distances_Put (st : EGTBStore) (fen : String) (d : Int) (mv : Move) (w : Side)
    (h : ∀ k e, st.Get k = some e → -1 ≤ e.moves_to_end) (hd : -1 ≤ d) :
    ∀ k e, (st.Put fen d mv w).Get k = some e → -1 ≤ e.moves_to_end := by
  intro k e he
  rw [Get_Put] at he
  split at he
  · rw [← Option.some.inj he]; exact hd
  · exact h k e he

theorem Classify_distance (E : Engine) (P : Board → String) (ws : Side) (st : EGTBStore)
    (h : ∀ k e, st.Get k = some e → -1 ≤ e.moves_to_end) (fen : String) (best : Int) (m : Move)
    (hc : Classify E P ws st fen = some (best, m)) : -1 ≤ best := by
  unfold Classify at hc
  split at hc
  · obtain ⟨_, _, pre, post, _, e2, _⟩ := ClassifyWinner_some E P ws st fen best m hc
    obtain ⟨e, he, _, hv⟩ := Offer_some.mp e2
    have := h _ e he
    omega
  · obtain ⟨_, halt⟩ := ClassifyLoser_some E P ws st fen best m hc
    rcases halt with ⟨c, _⟩ | ⟨c, _⟩ <;> omega

theorem distances_pass (E : Engine) (P : Board → String) (ws : Side) (L : List String)
    (st : EGTBStore) (h : ∀ k e, st.Get k = some e → -1 ≤ e.moves_to_end) :
    ∀ k e, (st.MergeFrom (GeneratePass E P ws st L EGTBStore.empty false).temp_store).Get k =
      some e → -1 ≤ e.moves_to_end := by
  obtain ⟨_, h2, h3, _⟩ := GeneratePass_spec E P ws st L EGTBStore.empty false
  intro k e hk
  cases ht : (GeneratePass E P ws st L EGTBStore.empty false).temp_store.Get k with
  | none =>
    rw [Get_MergeFrom_none _ _ _ ht] at hk
    exact h k e hk
  | some e1 =>
    rw [Get_MergeFrom_some _ _ _ _ ht] at hk
    by_cases hin : k ∈ L
    · cases hc : Classify E P ws st k with
      | none =>
        rw [h3 k (Or.inr hc)] at ht
        exact absurd ht (by simp [Get_empty])
      | some r =>
        obtain ⟨best, m⟩ := r
        rw [h2 k hin best m hc] at ht
        rw [← Option.some.inj hk, ← Option.some.inj ht]
        exact Classify_distance E P ws st h k best m hc
    · rw [h3 k (Or.inl hin)] at ht
      exact absurd ht (by simp [Get_empty])

/-- Every store of a run of the 4-argument `Generate` has its distances at
least -1, when the store it starts from has. -/
theorem Generate4Stores_distances (E : Engine) (P : Board → String) (fuel : Nat)
    (final_pos_list all_pos_list : List String) (ws : Side) (store : EGTBStore)
    (h : ∀ k e, store.Get k = some e → -1 ≤ e.moves_to_end) :
    List.Chain' (fun _ st => ∀ k e, st.Get k = some e → -1 ≤ e.moves_to_end)
      (Generate4Stores E P fuel final_pos_list all_pos_list ws store) := by
  have hstep : ∀ (st : EGTBStore) (pos : String) (w : Side),
      (∀ k e, st.Get k = some e → -1 ≤ e.moves_to_end) → True →
      (∀ k e, (st.Put pos 0 Move.null w).Get k = some e → -1 ≤ e.moves_to_end) ∧
      (∀ k e, (st.Put pos 0 Move.null w).Get k = some e → -1 ≤ e.moves_to_end) :=
    fun st pos w hI _ =>
      ⟨distances_Put st pos 0 Move.null w hI (by decide),
        distances_Put st pos 0 Move.null w hI (by decide)⟩
  have hgen : ∀ (fuel : Nat) (L : List String) (st : EGTBStore),
      (∀ k e, st.Get k = some e → -1 ≤ e.moves_to_end) →
      List.Chain (fun _ st => ∀ k e, st.Get k = some e → -1 ≤ e.moves_to_end) st
        (GenerateStores E P fuel L ws st) := by
    intro fuel
    induction fuel with
    | zero => intro L st _; exact List.Chain.nil
    | succ fuel ih =>
      intro L st hI
      rw [GenerateStores]
      split
      · exact List.Chain.nil
      · exact List.Chain.cons (distances_pass E P ws L st hI)
          (ih _ _ (distances_pass E P ws L st hI))
  show List.Chain _ store _
  apply SeedFinalStores_chain
    (I := fun st => ∀ k e, st.Get k = some e → -1 ≤ e.moves_to_end)
    ws (fun _ => True) hstep final_pos_list store _ (fun _ _ => trivial) h
  intro hI1
  have hI2 : ∀ k e, (SeedAll E all_pos_list (SeedFinal ws final_pos_list store)).2.Get k =
      some e → -1 ≤ e.moves_to_end := by
    intro k e he
    rw [(SeedAll_spec E all_pos_list _).2 k] at he
    split at he
    · rw [← Option.some.inj he]; exact (by decide : (-1 : Int) ≤ 0)
    · split at he
      · rw [← Option.some.inj he]; exact (by decide : (-1 : Int) ≤ 0)
      · exact hI1 k e he
  apply SeedAllStores_chain
    (I := fun st => ∀ k e, st.Get k = some e → -1 ≤ e.moves_to_end)
    E (fun _ => True) hstep all_pos_list _ _ (fun _ _ => trivial) hI1
  exact hgen fuel _ _ hI2

/-- C20 on the small endgame: `b2`, with Black to move, once `w1` is stored
with distance 1 next to the final position `f`. -/
theorem C20_loser_side_classified_witness :
    "b2" ∉ (GeneratePass Tiny.engine Tiny.ParseIntoFEN Side.WHITE
        ((EGTBStore.empty.Put "f" 0 Move.null Side.WHITE).Put "w1" 1 ⟨1, 0⟩ Side.WHITE)
        ["b2", "u"] EGTBStore.empty false).all_pos_list ∧
    (GeneratePass Tiny.engine Tiny.ParseIntoFEN Side.WHITE
        ((EGTBStore.empty.Put "f" 0 Move.null Side.WHITE).Put "w1" 1 ⟨1, 0⟩ Side.WHITE)
        ["b2", "u"] EGTBStore.empty false).temp_store.Get "b2" =
      some ⟨"b2", 2, ⟨2, 1⟩, Side.WHITE⟩ :=
  ⟨((C20_loser_side_classified Tiny.engine Tiny.ParseIntoFEN Side.WHITE
      ((EGTBStore.empty.Put "f" 0 Move.null Side.WHITE).Put "w1" 1 ⟨1, 0⟩ Side.WHITE)
      ["b2", "u"] EGTBStore.empty false "b2" (by decide) (by decide) (by decide)
      (distances_Put _ _ _ _ _ (distances_Put _ _ _ _ _ distances_empty (by decide))
        (by decide))).1
      (by decide)).1,
    by decide⟩

end Nakshatra

namespace Nakshatra

/-! ## The claims on `Expand` and `RedundantMoves` -/

/-- `Expand` in PN1 mode on a node that is not drawn by the redundancy or the
depth rule, below the arena cursor: it returns, with the board unchanged, the
children's block at the cursor, every other slot below the cursor unchanged. -/
theorem Expand_PN1_spec (E : Engine)
    (pns : Int → PNSParams → Nat → PNSearch → Option (PNSearch × Int))
    (p : PNSParams) (nn depth : Int) (x : Nat) (s : PNSearch)
    (h1 : p.pns_type = PNSType.PN1) (h2 : RedundantMoves s x = false)
    (h3 : depth < PNS_MAX_DEPTH) (hx : x < s.next_) :
    ∃ t, Expand E pns p nn depth x s = some t ∧ t.board_ = s.board_ ∧
      t.next_ = s.next_ + (E.GenerateMoves s.board_).length ∧
      (∀ i, i < (E.GenerateMoves s.board_).length → t.node (s.next_ + i) =
        ChildNode E s.board_ x ((E.GenerateMoves s.board_).getD i Move.null)) ∧
      (∀ j, j < s.next_ → j ≠ x → t.node j = s.node j) ∧
      (E.GenerateMoves s.board_ ≠ [] → t.node x =
        { s.node x with
          children := some s.next_,
          children_size := (E.GenerateMoves s.board_).length,
          tree_size := 1 + (E.GenerateMoves s.board_).length }) ∧
      (E.GenerateMoves s.board_ = [] → t = s) := by
  refine ⟨ExpandPN1 E x s, Expand_plain E pns p nn depth x s h2 h3 h1, ?_⟩
  by_cases hne : E.GenerateMoves s.board_ = []
  · have e := ExpandPN1_nil E x s hne
    rw [e, hne]
    refine ⟨rfl, rfl, fun i hi => absurd hi (Nat.not_lt_zero _), fun _ _ _ => rfl,
      fun h => absurd rfl h, fun _ => rfl⟩
  · obtain ⟨e1, e2, e3, e4, e5⟩ := ExpandPN1_spec E x s hne hx
    refine ⟨e2, e1, fun i hi => ?_, e5, fun _ => e3, fun h => absurd h hne⟩
    have := e4 (s.next_ + i) (by omega) (by omega)
    rw [this]
    congr 2
    omega

end Nakshatra

namespace Nakshatra

/-- C12: `Expand` on a node for which `RedundantMoves` holds or whose depth is
600 or more, in PN1 and in PN2 mode. It returns exactly when the node has no
children and `children_size` 0 (the two assertions), and the state it returns
is the one it found with the node's pair set to `(INF_NODES, INF_NODES)`: the
node still has no children and `children_size` 0, the cursor `next_`, the
board and every other node are unchanged. The outcome is the same for every
move generator, evaluator, nested search and parameters: none of them is
called. -/
theorem C12_expand_draws (E : Engine)
    (pns : Int → PNSParams → Nat → PNSearch → Option (PNSearch × Int))
    (p : PNSParams) (nn depth : Int) (x : Nat) (s : PNSearch)
    (h : RedundantMoves s x = true ∨ depth ≥ PNS_MAX_DEPTH) :
    Expand E pns p nn depth x s =
      (if (s.node x).children = none ∧ (s.node x).children_size = 0 then
        some (s.setNode x { s.node x with proof := E.INF_NODES, disproof := E.INF_NODES })
      else none) ∧
    (∀ t, Expand E pns p nn depth x s = some t →
      (t.node x).proof = E.INF_NODES ∧ (t.node x).disproof = E.INF_NODES ∧
      (t.node x).children = none ∧ (t.node x).children_size = 0 ∧
      t.next_ = s.next_ ∧ t.board_ = s.board_ ∧ ∀ i, i ≠ x → t.node i = s.node i) ∧
    (∀ (E2 : Engine) (pns2 : Int → PNSParams → Nat → PNSearch → Option (PNSearch × Int))
      (p2 : PNSParams) (nn2 : Int), E2.INF_NODES = E.INF_NODES →
      Expand E2 pns2 p2 nn2 depth x s = Expand E pns p nn depth x s) := by
  have hcond : (RedundantMoves s x || decide (depth ≥ PNS_MAX_DEPTH)) = true := by
    rcases h with h | h
    · rw [h]; rfl
    · rw [decide_eq_true h]; simp
  have key : ∀ (E2 : Engine)
      (pns2 : Int → PNSParams → Nat → PNSearch → Option (PNSearch × Int))
      (p2 : PNSParams) (nn2 : Int),
      Expand E2 pns2 p2 nn2 depth x s =
        (if (s.node x).children = none ∧ (s.node x).children_size = 0 then
          some (s.setNode x { s.node x with proof := E2.INF_NODES, disproof := E2.INF_NODES })
        else none) := by
    intro E2 pns2 p2 nn2
    unfold Expand
    rw [if_pos hcond]
    simp only [node_setNode_same]
  refine ⟨key E pns p nn, ?_, ?_⟩
  · intro t ht
    rw [key E pns p nn] at ht
    split at ht
    · rename_i hc
      rw [← Option.some.inj ht]
      refine ⟨by simp, by simp, by simp [hc.1], by simp [hc.2], rfl, rfl, ?_⟩
      intro i hi
      exact node_setNode_ne _ _ hi
    · exact absurd ht (by simp)
  · intro E2 pns2 p2 nn2 hinf
    rw [key E2 pns2 p2 nn2, key E pns p nn, hinf]

/-- C12 on the small game: the fresh root, passed with depth 600. -/
theorem C12_expand_draws_witness :
    Expand Demo.engine (Pns Demo.engine 0 5) Demo.pn2 0 600 0 Demo.start =
      (if (Demo.start.node 0).children = none ∧ (Demo.start.node 0).children_size = 0 then
        some (Demo.start.setNode 0
          { Demo.start.node 0 with
            proof := Demo.engine.INF_NODES, disproof := Demo.engine.INF_NODES })
      else none) :=
  (C12_expand_draws Demo.engine (Pns Demo.engine 0 5) Demo.pn2 0 600 0 Demo.start
    (Or.inr (by decide))).1

/-- C13: `RedundantMoves` returns true exactly when the node has a parent, a
grandparent and a great-grandparent, the node's move goes from the destination
square of the grandparent's move to its origin square, and the parent's move
goes from the destination square of the great-grandparent's move to its origin
square. It returns false for a node without a parent, a node whose parent has
none and a node whose grandparent has none. -/
theorem C13_redundant_moves (s : PNSearch) (x : Nat) :
    (RedundantMoves s x = true ↔
      ∃ p2 p3 p4, (s.node x).parent = some p2 ∧ (s.node p2).parent = some p3 ∧
        (s.node p3).parent = some p4 ∧
        (s.node x).move.from_index = (s.node p3).move.to_index ∧
        (s.node x).move.to_index = (s.node p3).move.from_index ∧
        (s.node p2).move.from_index = (s.node p4).move.to_index ∧
        (s.node p2).move.to_index = (s.node p4).move.from_index) ∧
    (((s.node x).parent = none ∨
        ∃ p2, (s.node x).parent = some p2 ∧
          ((s.node p2).parent = none ∨
            ∃ p3, (s.node p2).parent = some p3 ∧ (s.node p3).parent = none)) →
      RedundantMoves s x = false) := by
  have hiff : RedundantMoves s x = true ↔
      ∃ p2 p3 p4, (s.node x).parent = some p2 ∧ (s.node p2).parent = some p3 ∧
        (s.node p3).parent = some p4 ∧
        (s.node x).move.from_index = (s.node p3).move.to_index ∧
        (s.node x).move.to_index = (s.node p3).move.from_index ∧
        (s.node p2).move.from_index = (s.node p4).move.to_index ∧
        (s.node p2).move.to_index = (s.node p4).move.from_index := by
    unfold RedundantMoves
    cases h2 : (s.node x).parent with
    | none => simp
    | some p2 =>
      simp only
      cases h3 : (s.node p2).parent with
      | none => simp [h3]
      | some p3 =>
        simp only
        cases h4 : (s.node p3).parent with
        | none => simp [h3, h4]
        | some p4 =>
          simp only [Bool.and_eq_true, beq_iff_eq]
          constructor
          · rintro ⟨⟨⟨a, b⟩, c⟩, d⟩
            exact ⟨p2, p3, p4, rfl, h3, h4, a, b, c, d⟩
          · rintro ⟨q2, q3, q4, e2, e3, e4, a, b, c, d⟩
            have e2' : p2 = q2 := Option.some.inj e2
            subst e2'
            rw [h3] at e3
            have e3' : p3 = q3 := Option.some.inj e3
            subst e3'
            rw [h4] at e4
            have e4' : p4 = q4 := Option.some.inj e4
            subst e4'
            exact ⟨⟨⟨a, b⟩, c⟩, d⟩
  refine ⟨hiff, fun h => ?_⟩
  cases hr : RedundantMoves s x with
  | false => rfl
  | true =>
    exfalso
    obtain ⟨p2, p3, p4, e2, e3, e4, _⟩ := hiff.mp hr
    rcases h with h | ⟨q2, f2, h⟩
    · rw [e2] at h; exact absurd h (by simp)
    · rw [e2] at f2
      have e : p2 = q2 := Option.some.inj f2
      subst e
      rcases h with h | ⟨q3, f3, h⟩
      · rw [e3] at h; exact absurd h (by simp)
      · rw [e3] at f3
        have e : p3 = q3 := Option.some.inj f3
        subst e
        rw [e4] at h
        exact absurd h (by simp)

/-- C15: `Expand` in PN1 mode, on a node `n` below the arena cursor `c` that
is not drawn by the redundancy or the depth rule, with `k` generated moves.
When `k >= 1`: `n.children` is the offset `c`, `n.children_size` is `k`,
`next_` is `c + k`, the node at `c + i` has parent `n` and the `i`-th generated
move for every `i < k`, and no slot below `c` other than `n` is modified.
When `k = 0` the state is returned as it is: no children, `next_`, proof and
disproof unchanged. -/
theorem C15_expand_frame (E : Engine)
    (pns : Int → PNSParams → Nat → PNSearch → Option (PNSearch × Int))
    (p : PNSParams) (nn depth : Int) (n : Nat) (s : PNSearch)
    (h1 : p.pns_type = PNSType.PN1) (h2 : RedundantMoves s n = false)
    (h3 : depth < PNS_MAX_DEPTH) (hn : n < s.next_)
    (hleaf : (s.node n).children = none) :
    (1 ≤ (E.GenerateMoves s.board_).length →
      ∃ t, Expand E pns p nn depth n s = some t ∧
        (t.node n).children = some s.next_ ∧
        (t.node n).children_size = (E.GenerateMoves s.board_).length ∧
        t.next_ = s.next_ + (E.GenerateMoves s.board_).length ∧
        (∀ i, i < (E.GenerateMoves s.board_).length →
          (t.node (s.next_ + i)).parent = some n ∧
          (t.node (s.next_ + i)).move = (E.GenerateMoves s.board_).getD i Move.null) ∧
        ∀ j, j < s.next_ → j ≠ n → t.node j = s.node j) ∧
    ((E.GenerateMoves s.board_).length = 0 →
      ∃ t, Expand E pns p nn depth n s = some t ∧
        (t.node n).children = none ∧ t.next_ = s.next_ ∧
        (t.node n).proof = (s.node n).proof ∧ (t.node n).disproof = (s.node n).disproof ∧
        t = s) := by
  obtain ⟨t, e1, _, e3, e4, e5, e6, e7⟩ := Expand_PN1_spec E pns p nn depth n s h1 h2 h3 hn
  refine ⟨fun hk => ?_, fun hk => ?_⟩
  · have hne : E.GenerateMoves s.board_ ≠ [] := by
      intro e; rw [e] at hk; exact absurd hk (by decide)
    refine ⟨t, e1, by rw [e6 hne], by rw [e6 hne], e3, fun i hi => ?_, e5⟩
    rw [e4 i hi]
    exact ⟨rfl, rfl⟩
  · have he : t = s := e7 (List.length_eq_zero.mp hk)
    refine ⟨t, e1, ?_, ?_, ?_, ?_, he⟩
    · rw [he]; exact hleaf
    · rw [he]
    · rw [he]
    · rw [he]

/-- C15 on the small game: the root gets its three children at the slots 1,
2 and 3. -/
theorem C15_expand_frame_witness :
    ∃ t, Expand Demo.engine (Pns Demo.engine 0 5) Demo.pn1 0 0 0 Demo.start = some t ∧
      (t.node 0).children = some Demo.start.next_ ∧
      (t.node 0).children_size = (Demo.engine.GenerateMoves Demo.start.board_).length ∧
      t.next_ = Demo.start.next_ + (Demo.engine.GenerateMoves Demo.start.board_).length ∧
      (∀ i, i < (Demo.engine.GenerateMoves Demo.start.board_).length →
        (t.node (Demo.start.next_ + i)).parent = some 0 ∧
        (t.node (Demo.start.next_ + i)).move =
          (Demo.engine.GenerateMoves Demo.start.board_).getD i Move.null) ∧
      ∀ j, j < Demo.start.next_ → j ≠ 0 → t.node j = Demo.start.node j :=
  (C15_expand_frame Demo.engine (Pns Demo.engine 0 5) Demo.pn1 0 0 0 Demo.start
    rfl (by decide) (by decide) (by decide) (by decide)).1 (by decide)

end Nakshatra

namespace Nakshatra

/-- C13 on a line of four moves that shuffle back and forth: the rule holds
at the fourth node and fails at the second, which has no great-grandparent. -/
theorem C13_redundant_moves_witness :
    RedundantMoves Demo.shuffle 4 = true ∧ RedundantMoves Demo.shuffle 2 = false :=
  ⟨(C13_redundant_moves Demo.shuffle 4).1.mpr
      ⟨3, 2, 1, by decide, by decide, by decide, by decide, by decide, by decide, by decide⟩,
    (C13_redundant_moves Demo.shuffle 2).2
      (Or.inr ⟨1, by decide, Or.inr ⟨0, by decide, by decide⟩⟩)⟩

/-- C14: `Expand` in PN2 mode on a childless node `x` below the arena cursor
that is not drawn by the redundancy or the depth rule. It runs the PN1 search
rooted at `x` with the budget `PnNodes`; when that search returns, `Expand`
returns, and the node has the pair the search left. If that pair has proof 0
or disproof 0, the node has no children, `children_size` 0, and `next_` is as
before the call. Otherwise the node keeps the children the search gave it,
they are the slots from the old `next_` to the old `next_` plus
`children_size`, each of them has no children, `children_size` 0 and `x` as
parent, and `next_` is the old `next_` plus `children_size`. -/
theorem C14_expand_pn2 (E : Engine) (level fuel : Nat) (p : PNSParams) (nn depth : Int)
    (x : Nat) (s s1 : PNSearch) (n1 : Int)
    (h1 : p.pns_type = PNSType.PN2) (h2 : RedundantMoves s x = false)
    (h3 : depth < PNS_MAX_DEPTH) (hx : x < s.next_)
    (hleaf : (s.node x).children = none) (hsize : (s.node x).children_size = 0)
    (hsub : Pns E level fuel (PnNodes E p nn) PNSParams.nested x s = some (s1, n1)) :
    ∃ t, Expand E (Pns E level fuel) p nn depth x s = some t ∧
      (t.node x).proof = (s1.node x).proof ∧ (t.node x).disproof = (s1.node x).disproof ∧
      (((t.node x).proof = 0 ∨ (t.node x).disproof = 0) →
        (t.node x).children = none ∧ (t.node x).children_size = 0 ∧ t.next_ = s.next_) ∧
      (¬ ((t.node x).proof = 0 ∨ (t.node x).disproof = 0) →
        (t.node x).children = (s1.node x).children ∧
        (t.node x).children_size = (s1.node x).children_size ∧
        (t.node x).children_range = List.range' s.next_ (t.node x).children_size ∧
        (∀ c ∈ (t.node x).children_range,
          (t.node c).children = none ∧ (t.node c).children_size = 0 ∧
          (t.node c).parent = some x) ∧
        t.next_ = s.next_ + (t.node x).children_size) := by
  have hpre : PnsPre PNSParams.nested s x :=
    ⟨hx, hleaf, hsize, fun h => absurd h (by decide)⟩
  have hS : Shape E s1 x s.next_ := (NestedOK_Pns E level fuel _ x s s1 n1 hpre hsub).tree.shape
  have hcond : ¬ ((RedundantMoves s x || decide (depth ≥ PNS_MAX_DEPTH)) = true) := by
    rw [h2]
    simp
    exact h3
  have hrange : (s1.node x).children_range = List.range' s.next_ (s1.node x).children_size := by
    cases hc : (s1.node x).children with
    | none =>
      rw [children_range_none hc, hS.leaf x (Or.inl rfl) hc]
      rfl
    | some c =>
      rw [children_range_some hc, hS.root_block c hc]
  have hself : x ∉ (s1.node x).children_range := by
    intro hin
    obtain ⟨c, hc, hle, _⟩ := mem_children_range.mp hin
    have := (hS.block x c (Or.inl rfl) hc).2.1
    omega
  by_cases hsolved : (s1.node x).proof = 0 ∨ (s1.node x).disproof = 0
  · refine ⟨{ s1.setNode x { s1.node x with children := none, children_size := 0 } with
        next_ := s.next_ }, ?_, ?_, ?_, ?_, ?_⟩
    · unfold Expand
      rw [if_neg hcond, if_pos h1, hsub]
      simp only
      rw [if_pos hsolved]
    · show ((s1.setNode x _).node x).proof = _
      rw [node_setNode_same]
    · show ((s1.setNode x _).node x).disproof = _
      rw [node_setNode_same]
    · intro _
      refine ⟨?_, ?_, rfl⟩
      · show ((s1.setNode x _).node x).children = _
        rw [node_setNode_same]
      · show ((s1.setNode x _).node x).children_size = _
        rw [node_setNode_same]
    · intro hno
      exfalso
      apply hno
      have e : (({ s1.setNode x { s1.node x with children := none, children_size := 0 } with
          next_ := s.next_ } : PNSearch).node x) =
          { s1.node x with children := none, children_size := 0 } := by
        show (s1.setNode x _).node x = _
        rw [node_setNode_same]
      rw [e]
      exact hsolved
  · obtain ⟨_, _, d3⟩ := DropGrandchildren_spec s1 x
    have hnx : (DropGrandchildren s1 x).node x = s1.node x := by
      rw [d3 x, if_neg hself]
    refine ⟨{ DropGrandchildren s1 x with
        next_ := s.next_ + ((DropGrandchildren s1 x).node x).children_size }, ?_, ?_, ?_, ?_, ?_⟩
    · unfold Expand
      rw [if_neg hcond, if_pos h1, hsub]
      simp only
      rw [if_neg hsolved]
    · show ((DropGrandchildren s1 x).node x).proof = _
      rw [hnx]
    · show ((DropGrandchildren s1 x).node x).disproof = _
      rw [hnx]
    · intro hs
      exfalso
      apply hsolved
      have e : (({ DropGrandchildren s1 x with
          next_ := s.next_ + ((DropGrandchildren s1 x).node x).children_size } :
          PNSearch).node x) = s1.node x := hnx
      rw [e] at hs
      exact hs
    · intro _
      have e : ∀ j, (({ DropGrandchildren s1 x with
          next_ := s.next_ + ((DropGrandchildren s1 x).node x).children_size } :
          PNSearch).node j) = (DropGrandchildren s1 x).node j := fun _ => rfl
      refine ⟨by rw [e, hnx], by rw [e, hnx], by rw [e, hnx]; exact hrange, ?_, ?_⟩
      · intro c hc
        rw [e x, hnx] at hc
        rw [e c, d3 c, if_pos hc]
        refine ⟨rfl, rfl, ?_⟩
        obtain ⟨c0, hc0, hle, hlt⟩ := mem_children_range.mp hc
        exact (hS.block x c0 (Or.inl rfl) hc0).2.2.2.2 c hle hlt
      · show s.next_ + ((DropGrandchildren s1 x).node x).children_size = _
        rw [e x]

/-- The nested search of the small game returns. -/
theorem Demo.nested_isSome : Demo.nested.isSome = true := by decide

/-- C14 on the small game: the position after `b`, with room for one node;
the nested search leaves the root unsolved with two children, which `Expand`
keeps at the slots 1 and 2. -/
theorem C14_expand_pn2_witness :
    ∃ t, Expand Demo.engine (Pns Demo.engine 1 5) Demo.pn2 0 0 0 Demo.afterB = some t ∧
      (t.node 0).proof = ((Demo.nested.get Demo.nested_isSome).1.node 0).proof ∧
      (t.node 0).disproof = ((Demo.nested.get Demo.nested_isSome).1.node 0).disproof ∧
      (((t.node 0).proof = 0 ∨ (t.node 0).disproof = 0) →
        (t.node 0).children = none ∧ (t.node 0).children_size = 0 ∧
        t.next_ = Demo.afterB.next_) ∧
      (¬ ((t.node 0).proof = 0 ∨ (t.node 0).disproof = 0) →
        (t.node 0).children = ((Demo.nested.get Demo.nested_isSome).1.node 0).children ∧
        (t.node 0).children_size =
          ((Demo.nested.get Demo.nested_isSome).1.node 0).children_size ∧
        (t.node 0).children_range = List.range' Demo.afterB.next_ (t.node 0).children_size ∧
        (∀ c ∈ (t.node 0).children_range,
          (t.node c).children = none ∧ (t.node c).children_size = 0 ∧
          (t.node c).parent = some 0) ∧
        t.next_ = Demo.afterB.next_ + (t.node 0).children_size) :=
  C14_expand_pn2 Demo.engine 1 5 Demo.pn2 0 0 0 Demo.afterB
    (Demo.nested.get Demo.nested_isSome).1 (Demo.nested.get Demo.nested_isSome).2
    rfl (by decide) (by decide) (by decide) (by decide) (by decide)
    (Option.some_get Demo.nested_isSome).symm

/-- The nested search of the small game leaves the root with the pair (1, 1)
and two children. -/
theorem Demo.nested_root :
    ((Demo.nested.get Demo.nested_isSome).1.node 0).proof = 1 ∧
    ((Demo.nested.get Demo.nested_isSome).1.node 0).disproof = 1 ∧
    ((Demo.nested.get Demo.nested_isSome).1.node 0).children_size = 2 := by
  decide

end Nakshatra

namespace Nakshatra

/-! ## `PnNodes`

The ramp `ceil(max(num_nodes, 1) * f_x)` is `double` arithmetic with `exp` and
stays a parameter of the engine; what does not depend on it is below. -/

theorem PnNodes_full_search (E : Engine) (p : PNSParams) (num_nodes : Int)
    (h : p.pn2_full_search = true) : PnNodes E p num_nodes = E.max_nodes_ - num_nodes := by
  unfold PnNodes
  rw [if_pos h]

theorem PnNodes_le_remaining (E : Engine) (p : PNSParams) (num_nodes : Int) :
    PnNodes E p num_nodes ≤ E.max_nodes_ - num_nodes := by
  unfold PnNodes
  split
  · exact le_refl _
  · exact min_le_right _ _

end Nakshatra

namespace Nakshatra

/-! ## The lone bishops -/

/-- The two masks, square by square. -/
theorem square_masks :
    ∀ k, k < 64 →
      ((2 ^ k &&& WHITE_SQUARES ≠ 0) ↔ SquareParity k = 0) ∧
      ((2 ^ k &&& BLACK_SQUARES ≠ 0) ↔ SquareParity k = 1) ∧
      (WHITE_SQUARES.testBit k = true ↔ SquareParity k = 0) ∧
      (BLACK_SQUARES.testBit k = true ↔ SquareParity k = 1) := by
  decide

theorem SquareParity_lt (k : Nat) : SquareParity k = 0 ∨ SquareParity k = 1 := by
  unfold SquareParity
  omega

/-- With one white bishop on square `i` and one black bishop on square `j`,
the bishops rule fires exactly when the squares differ in colour. -/
theorem RivalBishops_iff (E : Engine) (b : Board) (i j : Nat) (hi : i < 64) (hj : j < 64)
    (hwb : E.BitBoardPiece b E.BISHOP = 2 ^ i) (hbb : E.BitBoardPiece b (-E.BISHOP) = 2 ^ j) :
    RivalBishopsOnOppositeColoredSquares E b = true ↔ SquareParity i ≠ SquareParity j := by
  obtain ⟨a1, a2, _, _⟩ := square_masks i hi
  obtain ⟨b1, b2, _, _⟩ := square_masks j hj
  have hi0 : (2 : Nat) ^ i ≠ 0 := by positivity
  have hj0 : (2 : Nat) ^ j ≠ 0 := by positivity
  unfold RivalBishopsOnOppositeColoredSquares
  simp only [hwb, hbb, Bool.and_eq_true, Bool.or_eq_true, decide_eq_true_eq]
  rw [a1, a2, b1, b2]
  rcases SquareParity_lt i with e1 | e1 <;> rcases SquareParity_lt j with e2 | e2 <;>
    simp [e1, e2, hi0, hj0]

/-- C21: a position in which each side has exactly one piece, a white bishop
on square `i` and a black bishop on square `j`. When the two squares differ in
colour (the parity of row plus column), `Result` is `DRAW`, whichever side is
to move and whatever the move generator counts. When they have the same colour
the bishops rule does not fire and `Result` is decided by the move count:
`DRAW` (equal piece counts) without a move, `UNKNOWN` with one. The masks
`WHITE_SQUARES` and `BLACK_SQUARES` are disjoint, cover the 64 squares between
them, hold 32 squares each, and hold the squares of parity 0 and of parity
1. -/
theorem C21_lone_bishops (E : Engine) (b : Board) (i j : Nat) (hi : i < 64) (hj : j < 64)
    (hwb : E.BitBoardPiece b E.BISHOP = 2 ^ i) (hbb : E.BitBoardPiece b (-E.BISHOP) = 2 ^ j)
    (hw : NumPieces E b Side.WHITE = 1) (hbl : NumPieces E b Side.BLACK = 1) :
    (SquareParity i ≠ SquareParity j → SuicideResult E b = E.DRAW) ∧
    (SquareParity i = SquareParity j →
      RivalBishopsOnOppositeColoredSquares E b = false ∧
      SuicideResult E b = if E.movegen_CountMoves b = 0 then E.DRAW else E.UNKNOWN) ∧
    (WHITE_SQUARES &&& BLACK_SQUARES = 0 ∧ WHITE_SQUARES ||| BLACK_SQUARES = 2 ^ 64 - 1 ∧
      PopCount WHITE_SQUARES = 32 ∧ PopCount BLACK_SQUARES = 32 ∧
      ∀ k, k < 64 → (WHITE_SQUARES.testBit k = true ↔ SquareParity k = 0) ∧
        (BLACK_SQUARES.testBit k = true ↔ SquareParity k = 1)) := by
  have hself : NumPieces E b (E.SideToMove b) = 1 := by
    cases E.SideToMove b
    · exact hw
    · exact hbl
  have hopp : NumPieces E b (OppositeSide (E.SideToMove b)) = 1 := by
    cases E.SideToMove b
    · exact hbl
    · exact hw
  have hiff := RivalBishops_iff E b i j hi hj hwb hbb
  refine ⟨fun hne => ?_, fun heq => ?_, ?_⟩
  · unfold SuicideResult
    simp only
    rw [if_pos ⟨hself, hopp, hiff.mpr hne⟩]
  · have hr : RivalBishopsOnOppositeColoredSquares E b = false := by
      cases h : RivalBishopsOnOppositeColoredSquares E b with
      | false => rfl
      | true => exact absurd heq (hiff.mp h)
    refine ⟨hr, ?_⟩
    unfold SuicideResult
    simp only
    rw [if_neg (by rw [hr]; rintro ⟨_, _, h⟩; exact absurd h (by decide)), hself, hopp]
    by_cases hm : E.movegen_CountMoves b = 0
    · rw [if_pos hm, if_pos hm, if_neg (by decide), if_pos rfl]
    · rw [if_neg hm, if_neg hm]
  · refine ⟨by decide, by decide, by decide, by decide, fun k hk => ?_⟩
    obtain ⟨_, _, c1, c2⟩ := square_masks k hk
    exact ⟨c1, c2⟩

end Nakshatra

namespace Nakshatra

/-- C21 on a board with a white bishop on square 2 and a black bishop on
square 5, squares of different parity, in a position with moves. -/
theorem C21_lone_bishops_witness :
    SuicideResult Bishops.engine (Board.ofFEN "bishops") = Bishops.engine.DRAW ∧
    Bishops.engine.movegen_CountMoves (Board.ofFEN "bishops") = 3 :=
  ⟨(C21_lone_bishops Bishops.engine (Board.ofFEN "bishops") 2 5 (by decide) (by decide)
      (by decide) (by decide) (by decide) (by decide)).1 (by decide),
    by decide⟩

end Nakshatra

namespace Nakshatra

/-! ## The passes of the 3-argument `Generate` -/

theorem GenerateAfter_succ (E : Engine) (P : Board → String) (ws : Side) (k : Nat)
    (L : List String) (st : EGTBStore)
    (hd : (GeneratePass E P ws st L EGTBStore.empty false).deleted = true) :
    GenerateAfter E P ws (k + 1) L st =
      GenerateAfter E P ws k (GeneratePass E P ws st L EGTBStore.empty false).all_pos_list
        (st.MergeFrom (GeneratePass E P ws st L EGTBStore.empty false).temp_store) := by
  rw [GenerateAfter, hd]
  rfl

theorem GenerateAfter_succ_some (E : Engine) (P : Board → String) (ws : Side) (k : Nat)
    (L : List String) (st : EGTBStore) (out : List String × EGTBStore)
    (h : GenerateAfter E P ws (k + 1) L st = some out) :
    (GeneratePass E P ws st L EGTBStore.empty false).deleted = true ∧
    GenerateAfter E P ws k (GeneratePass E P ws st L EGTBStore.empty false).all_pos_list
      (st.MergeFrom (GeneratePass E P ws st L EGTBStore.empty false).temp_store) = some out := by
  cases hd : (GeneratePass E P ws st L EGTBStore.empty false).deleted with
  | false =>
    rw [GenerateAfter, hd] at h
    exact absurd h (by simp)
  | true =>
    rw [GenerateAfter_succ E P ws k L st hd] at h
    exact ⟨rfl, h⟩

/-- A pass leaves a sublist of the list it found. -/
theorem GeneratePass_sublist (E : Engine) (P : Board → String) (ws : Side) (L : List String)
    (st : EGTBStore) :
    (GeneratePass E P ws st L EGTBStore.empty false).all_pos_list.Sublist L := by
  rw [(GeneratePass_spec E P ws st L EGTBStore.empty false).1]
  exact List.filter_sublist L

/-- At the start of pass `k` the list is a sublist of the first one and has
lost at least `k` positions. -/
theorem GenerateAfter_shrinks (E : Engine) (P : Board → String) (ws : Side) :
    ∀ (k : Nat) (L : List String) (st : EGTBStore) (Lk : List String) (stk : EGTBStore),
      GenerateAfter E P ws k L st = some (Lk, stk) →
      Lk.Sublist L ∧ Lk.length + k ≤ L.length := by
  intro k
  induction k with
  | zero =>
    intro L st Lk stk h
    rw [GenerateAfter] at h
    have e := Option.some.inj h
    have e1 : L = Lk := congrArg Prod.fst e
    rw [← e1]
    exact ⟨List.Sublist.refl L, le_refl _⟩
  | succ k ih =>
    intro L st Lk stk h
    obtain ⟨hd, h2⟩ := GenerateAfter_succ_some E P ws k L st _ h
    obtain ⟨g1, g2⟩ := ih _ _ Lk stk h2
    have hs := GeneratePass_shorter E P ws L st hd
    exact ⟨g1.trans (GeneratePass_sublist E P ws L st), by omega⟩

/-- A pass that erases nothing could classify no position of its list. -/
theorem GeneratePass_idle (E : Engine) (P : Board → String) (ws : Side) (L : List String)
    (st : EGTBStore)
    (h : (GeneratePass E P ws st L EGTBStore.empty false).deleted = false) :
    ∀ fen ∈ L, Classify E P ws st fen = none := by
  obtain ⟨_, _, _, h4⟩ := GeneratePass_spec E P ws st L EGTBStore.empty false
  intro fen hfen
  by_contra hne
  have := h4.mpr (Or.inr ⟨fen, hfen, hne⟩)
  rw [h] at this
  exact absurd this (by simp)

/-- The 3-argument `Generate` returns when it is given more passes than the
list has positions: it returns the store of the first pass that erases
nothing. -/
theorem Generate_returns (E : Engine) (P : Board → String) (ws : Side) :
    ∀ (fuel : Nat) (L : List String) (st : EGTBStore), L.length < fuel →
      ∃ k Lk stk, k ≤ L.length ∧ GenerateAfter E P ws k L st = some (Lk, stk) ∧
        (GeneratePass E P ws stk Lk EGTBStore.empty false).deleted = false ∧
        EGTBGenerator.Generate E P fuel L ws st = some stk := by
  intro fuel
  induction fuel with
  | zero => intro L st h; exact absurd h (Nat.not_lt_zero _)
  | succ fuel ih =>
    intro L st hlen
    cases hd : (GeneratePass E P ws st L EGTBStore.empty false).deleted with
    | false =>
      refine ⟨0, L, st, Nat.zero_le _, rfl, hd, ?_⟩
      rw [EGTBGenerator.Generate, hd]
      rfl
    | true =>
      have hshort := GeneratePass_shorter E P ws L st hd
      obtain ⟨k, Lk, stk, g1, g2, g3, g4⟩ := ih _
        (st.MergeFrom (GeneratePass E P ws st L EGTBStore.empty false).temp_store)
        (show (GeneratePass E P ws st L EGTBStore.empty false).all_pos_list.length < fuel by
          omega)
      refine ⟨k + 1, Lk, stk, by omega, ?_, g3, ?_⟩
      · rw [GenerateAfter_succ E P ws k L st hd]
        exact g2
      · rw [EGTBGenerator.Generate, hd]
        exact g4

/-- C26: the 3-argument `Generate` terminates, for every working set,
`winning_side` and store. Given one pass more than the list has positions it
returns; the pass `k` at which it returns has `k` at most the size of the
list, the store returned is the store at the start of that pass, and no
position left in the list can be classified against it. Every pass that does
not end the loop removes a position and none adds one: the list at the start
of pass `k` is a sublist of the first list, shorter by at least `k`. -/
theorem C26_generate_terminates (E : Engine) (ParseIntoFEN : Board → String)
    (winning_side : Side) (all_pos_list : List String) (store : EGTBStore) (fuel : Nat)
    (hfuel : all_pos_list.length < fuel) :
    (∃ k Lk stk, k ≤ all_pos_list.length ∧
      GenerateAfter E ParseIntoFEN winning_side k all_pos_list store = some (Lk, stk) ∧
      EGTBGenerator.Generate E ParseIntoFEN fuel all_pos_list winning_side store = some stk ∧
      ∀ fen ∈ Lk, Classify E ParseIntoFEN winning_side stk fen = none) ∧
    (∀ k Lk stk,
      GenerateAfter E ParseIntoFEN winning_side k all_pos_list store = some (Lk, stk) →
      Lk.Sublist all_pos_list ∧ Lk.length + k ≤ all_pos_list.length) := by
  refine ⟨?_, fun k Lk stk h =>
    GenerateAfter_shrinks E ParseIntoFEN winning_side k all_pos_list store Lk stk h⟩
  obtain ⟨k, Lk, stk, g1, g2, g3, g4⟩ :=
    Generate_returns E ParseIntoFEN winning_side fuel all_pos_list store hfuel
  exact ⟨k, Lk, stk, g1, g2, g4, GeneratePass_idle E ParseIntoFEN winning_side Lk stk g3⟩

/-- C26 on the small endgame: three positions in the list, four passes
allowed. -/
theorem C26_generate_terminates_witness :
    ∃ k Lk stk, k ≤ ["b2", "w1", "u"].length ∧
      GenerateAfter Tiny.engine Tiny.ParseIntoFEN Side.WHITE k ["b2", "w1", "u"]
        (SeedFinal Side.WHITE ["f"] EGTBStore.empty) = some (Lk, stk) ∧
      EGTBGenerator.Generate Tiny.engine Tiny.ParseIntoFEN 4 ["b2", "w1", "u"] Side.WHITE
        (SeedFinal Side.WHITE ["f"] EGTBStore.empty) = some stk ∧
      ∀ fen ∈ Lk, Classify Tiny.engine Tiny.ParseIntoFEN Side.WHITE stk fen = none :=
  (C26_generate_terminates Tiny.engine Tiny.ParseIntoFEN Side.WHITE ["b2", "w1", "u"]
    (SeedFinal Side.WHITE ["f"] EGTBStore.empty) 4 (by decide)).1

end Nakshatra

namespace Nakshatra

/-! ## The layers of the retrograde iteration -/

/-- An offer against the store a pass leaves is an offer against the store it
found, or comes from an element the pass added. -/
theorem Offer_after_pass (E : Engine) (P : Board → String) (ws : Side) (L : List String)
    (st : EGTBStore) (b : Board) (mv : Move) (v : Int)
    (h : Offer P ws (st.MergeFrom (GeneratePass E P ws st L EGTBStore.empty false).temp_store)
      b mv = some v) :
    Offer P ws st b mv = some v ∨
    ∃ key best m, key ∈ L ∧ Classify E P ws st key = some (best, m) ∧ v = best + 1 := by
  obtain ⟨_, h2, h3, _⟩ := GeneratePass_spec E P ws st L EGTBStore.empty false
  obtain ⟨e, he, hw, hv⟩ := Offer_some.mp h
  cases ht : (GeneratePass E P ws st L EGTBStore.empty false).temp_store.Get
      (P (b.MakeMove mv)) with
  | none =>
    rw [Get_MergeFrom_none _ _ _ ht] at he
    exact Or.inl (Offer_some.mpr ⟨e, he, hw, hv⟩)
  | some e1 =>
    rw [Get_MergeFrom_some _ _ _ _ ht] at he
    have hee : e1 = e := Option.some.inj he
    by_cases hin : P (b.MakeMove mv) ∈ L
    · cases hc : Classify E P ws st (P (b.MakeMove mv)) with
      | none =>
        rw [h3 _ (Or.inr hc)] at ht
        exact absurd ht (by simp [Get_empty])
      | some r =>
        obtain ⟨best, m⟩ := r
        rw [h2 _ hin best m hc] at ht
        refine Or.inr ⟨_, best, m, hin, hc, ?_⟩
        rw [hv, ← hee, ← Option.some.inj ht]
    · rw [h3 _ (Or.inl hin)] at ht
      exact absurd ht (by simp [Get_empty])

/-- At the start of pass `k < 9999`, every position the pass classifies gets
the distance `k + 1`. -/
theorem Layered_classify (E : Engine) (P : Board → String) (ws : Side) (k : Nat)
    (L : List String) (st : EGTBStore) (hI : Layered E P ws k L st)
    (fen : String) (hin : fen ∈ L) (best : Int) (m : Move)
    (hc : Classify E P ws st fen = some (best, m)) : best = (k : Int) + 1 := by
  unfold Classify at hc
  by_cases hs : E.SideToMove (Board.ofFEN fen) = ws
  · rw [if_pos hs] at hc
    obtain ⟨_, _, pre, post, e1, e2, _⟩ := ClassifyWinner_some E P ws st fen best m hc
    have hlow := hI.winner fen hin hs m (mem_of_split _ pre post _ e1) best e2
    obtain ⟨e, he, _, hv⟩ := Offer_some.mp e2
    have := (hI.range _ e he).2
    omega
  · rw [if_neg hs] at hc
    obtain ⟨hle, halt⟩ := ClassifyLoser_some E P ws st fen best m hc
    obtain ⟨mv0, hmv0, hlow0⟩ := hI.loser fen hin hs
    obtain ⟨v0, hv0, hv0le⟩ := hle mv0 hmv0
    have h0 := hlow0 v0 hv0
    rcases halt with ⟨c, _⟩ | ⟨_, pre, post, e1, e2, _⟩
    · omega
    · obtain ⟨e, he, _, hv⟩ := Offer_some.mp e2
      have := (hI.range _ e he).2
      omega

/-- One pass takes the invariant of pass `k` to that of pass `k + 1`. -/
theorem Layered_pass (E : Engine) (P : Board → String) (ws : Side) (k : Nat) (hk : k < 9999)
    (L : List String) (st : EGTBStore) (hI : Layered E P ws k L st) :
    Layered E P ws (k + 1) (GeneratePass E P ws st L EGTBStore.empty false).all_pos_list
      (st.MergeFrom (GeneratePass E P ws st L EGTBStore.empty false).temp_store) := by
  obtain ⟨h1, h2, h3, _⟩ := GeneratePass_spec E P ws st L EGTBStore.empty false
  have hkept : ∀ fen ∈ (GeneratePass E P ws st L EGTBStore.empty false).all_pos_list,
      fen ∈ L ∧ Classify E P ws st fen = none := by
    intro fen hfen
    rw [h1, List.mem_filter] at hfen
    refine ⟨hfen.1, ?_⟩
    cases hc : Classify E P ws st fen with
    | none => rfl
    | some r => rw [hc] at hfen; exact absurd hfen.2 (by simp)
  refine ⟨?_, ?_, ?_⟩
  · intro key e he
    cases ht : (GeneratePass E P ws st L EGTBStore.empty false).temp_store.Get key with
    | none =>
      rw [Get_MergeFrom_none _ _ _ ht] at he
      have := hI.range key e he
      push_cast
      omega
    | some e1 =>
      rw [Get_MergeFrom_some _ _ _ _ ht] at he
      have hee : e1 = e := Option.some.inj he
      by_cases hin : key ∈ L
      · cases hc : Classify E P ws st key with
        | none =>
          rw [h3 key (Or.inr hc)] at ht
          exact absurd ht (by simp [Get_empty])
        | some r =>
          obtain ⟨best, m⟩ := r
          rw [h2 key hin best m hc] at ht
          have hb := Layered_classify E P ws k L st hI key hin best m hc
          rw [← hee, ← Option.some.inj ht]
          show 0 ≤ best ∧ best ≤ ((k + 1 : Nat) : Int)
          push_cast
          omega
      · rw [h3 key (Or.inl hin)] at ht
        exact absurd ht (by simp [Get_empty])
  · intro fen hfen hs mv hmv v hv
    obtain ⟨hin, hc⟩ := hkept fen hfen
    rcases Offer_after_pass E P ws L st _ mv v hv with ho | ⟨key, best, m, hkey, hck, hvb⟩
    · unfold Classify at hc
      rw [if_pos hs] at hc
      have := (ClassifyWinner_none E P ws st fen).mp hc mv hmv v ho
      push_cast
      omega
    · have hb := Layered_classify E P ws k L st hI key hkey best m hck
      push_cast
      omega
  · intro fen hfen hs
    obtain ⟨hin, hc⟩ := hkept fen hfen
    unfold Classify at hc
    rw [if_neg hs] at hc
    obtain ⟨mv, hmv, ho⟩ := (ClassifyLoser_none E P ws st fen).mp hc
    refine ⟨mv, hmv, fun v hv => ?_⟩
    rcases Offer_after_pass E P ws L st _ mv v hv with ho2 | ⟨key, best, m, hkey, hck, hvb⟩
    · rw [ho] at ho2
      exact absurd ho2 (by simp)
    · have hb := Layered_classify E P ws k L st hI key hkey best m hck
      push_cast
      omega

/-- The invariant at the start: all distances 0, a move in every position. -/
theorem Layered_start (E : Engine) (P : Board → String) (ws : Side) (L : List String)
    (st : EGTBStore) (h0 : ∀ key e, st.Get key = some e → e.moves_to_end = 0)
    (hmoves : ∀ fen ∈ L, E.GenerateMoves (Board.ofFEN fen) ≠ []) :
    Layered E P ws 0 L st := by
  have hoff : ∀ (b : Board) (mv : Move) (v : Int), Offer P ws st b mv = some v →
      ((0 : Nat) : Int) + 1 ≤ v := by
    intro b mv v hv
    obtain ⟨e, he, _, hv2⟩ := Offer_some.mp hv
    have := h0 _ e he
    push_cast
    omega
  refine ⟨?_, ?_, ?_⟩
  · intro key e he
    have := h0 key e he
    push_cast
    omega
  · intro fen _ _ mv _ v hv
    exact hoff _ mv v hv
  · intro fen hfen _
    obtain ⟨mv, hmv⟩ := List.exists_mem_of_ne_nil _ (hmoves fen hfen)
    exact ⟨mv, hmv, fun v hv => hoff _ mv v hv⟩

/-- The invariant holds at the start of every pass the loop reaches, up to
pass 9999. -/
theorem Layered_after (E : Engine) (P : Board → String) (ws : Side) :
    ∀ (k n : Nat) (L : List String) (st : EGTBStore) (Lk : List String) (stk : EGTBStore),
      Layered E P ws n L st → n + k ≤ 9999 →
      GenerateAfter E P ws k L st = some (Lk, stk) → Layered E P ws (n + k) Lk stk := by
  intro k
  induction k with
  | zero =>
    intro n L st Lk stk hI _ h
    rw [GenerateAfter] at h
    have e := Option.some.inj h
    have e1 : L = Lk := congrArg Prod.fst e
    have e2 : st = stk := congrArg Prod.snd e
    rw [← e1, ← e2]
    exact hI
  | succ k ih =>
    intro n L st Lk stk hI hn h
    obtain ⟨_, h2⟩ := GenerateAfter_succ_some E P ws k L st _ h
    have hstep := Layered_pass E P ws n (by omega) L st hI
    have := ih (n + 1) _ _ Lk stk hstep (by omega) h2
    rw [show n + (k + 1) = n + 1 + k by omega]
    exact this

/-- The stores of later passes hold the elements of the store of pass `n`, or
elements with a distance above `n`. -/
theorem Layered_later (E : Engine) (P : Board → String) (ws : Side) :
    ∀ (i n : Nat) (L : List String) (st : EGTBStore) (Li : List String) (sti : EGTBStore),
      Layered E P ws n L st → n + i ≤ 9999 →
      GenerateAfter E P ws i L st = some (Li, sti) →
      ∀ key e, sti.Get key = some e → st.Get key = some e ∨ (n : Int) + 1 ≤ e.moves_to_end := by
  intro i
  induction i with
  | zero =>
    intro n L st Li sti _ _ h key e he
    rw [GenerateAfter] at h
    have e2 : st = sti := congrArg Prod.snd (Option.some.inj h)
    rw [e2]
    exact Or.inl he
  | succ i ih =>
    intro n L st Li sti hI hn h key e he
    obtain ⟨_, h2⟩ := GenerateAfter_succ_some E P ws i L st _ h
    have hstep := Layered_pass E P ws n (by omega) L st hI
    rcases ih (n + 1) _ _ Li sti hstep (by omega) h2 key e he with hold | hnew
    · obtain ⟨_, g2, g3, _⟩ := GeneratePass_spec E P ws st L EGTBStore.empty false
      cases ht : (GeneratePass E P ws st L EGTBStore.empty false).temp_store.Get key with
      | none =>
        rw [Get_MergeFrom_none _ _ _ ht] at hold
        exact Or.inl hold
      | some e1 =>
        rw [Get_MergeFrom_some _ _ _ _ ht] at hold
        have hee : e1 = e := Option.some.inj hold
        by_cases hin : key ∈ L
        · cases hc : Classify E P ws st key with
          | none =>
            rw [g3 key (Or.inr hc)] at ht
            exact absurd ht (by simp [Get_empty])
          | some r =>
            obtain ⟨best, m⟩ := r
            rw [g2 key hin best m hc] at ht
            have hb := Layered_classify E P ws n L st hI key hin best m hc
            right
            rw [← hee, ← Option.some.inj ht]
            show (n : Int) + 1 ≤ best
            omega
        · rw [g3 key (Or.inl hin)] at ht
          exact absurd ht (by simp [Get_empty])
    · right
      push_cast at hnew
      omega

theorem GenerateAfter_add (E : Engine) (P : Board → String) (ws : Side) :
    ∀ (k i : Nat) (L : List String) (st : EGTBStore) (Lk : List String) (stk : EGTBStore),
      GenerateAfter E P ws k L st = some (Lk, stk) →
      GenerateAfter E P ws (k + i) L st = GenerateAfter E P ws i Lk stk := by
  intro k
  induction k with
  | zero =>
    intro i L st Lk stk h
    rw [GenerateAfter] at h
    have e := Option.some.inj h
    have e1 : L = Lk := congrArg Prod.fst e
    have e2 : st = stk := congrArg Prod.snd e
    rw [Nat.zero_add, e1, e2]
  | succ k ih =>
    intro i L st Lk stk h
    obtain ⟨hd, h2⟩ := GenerateAfter_succ_some E P ws k L st _ h
    rw [show k + 1 + i = (k + i) + 1 by omega, GenerateAfter_succ E P ws (k + i) L st hd]
    exact ih i _ _ Lk stk h2

end Nakshatra

namespace Nakshatra

/-- The first seeding loop, run on an empty store, stores only distances 0. -/
theorem SeedFinal_zero (ws : Side) (L : List String) :
    ∀ key e, (SeedFinal ws L EGTBStore.empty).Get key = some e → e.moves_to_end = 0 := by
  intro key e he
  rw [SeedFinal_spec] at he
  split at he
  · rw [← Option.some.inj he]
  · rw [Get_empty] at he
    exact absurd he (by simp)

/-- C24: the layers. The 3-argument `Generate` starts from a store whose
distances are all 0 and a list in which every position has a legal move. Then
every element that pass `k` adds (`k = 0, 1, ...`, `k < 9999`) has
`moves_to_end = k + 1` and winner `winning_side`, with the winning side or the
other side to move alike. And for a position with the winning side to move
that pass `k` classifies, every successor that the store of pass `k` or of a
later pass (up to pass 9999) holds for `winning_side` has a distance of at
least `k`, the one the minimum was taken at. -/
theorem C24_layering (E : Engine) (ParseIntoFEN : Board → String) (winning_side : Side)
    (all_pos_list : List String) (store : EGTBStore)
    (h0 : ∀ key e, store.Get key = some e → e.moves_to_end = 0)
    (hmoves : ∀ fen ∈ all_pos_list, E.GenerateMoves (Board.ofFEN fen) ≠ [])
    (k : Nat) (hk : k < 9999) (Lk : List String) (stk : EGTBStore)
    (hreach : GenerateAfter E ParseIntoFEN winning_side k all_pos_list store = some (Lk, stk)) :
    (∀ fen e,
      (GeneratePass E ParseIntoFEN winning_side stk Lk EGTBStore.empty false).temp_store.Get fen =
        some e →
      e.moves_to_end = (k : Int) + 1 ∧ e.winner = winning_side ∧ fen ∈ Lk) ∧
    (∀ fen e,
      (GeneratePass E ParseIntoFEN winning_side stk Lk EGTBStore.empty false).temp_store.Get fen =
        some e →
      E.SideToMove (Board.ofFEN fen) = winning_side →
      ∀ j Lj stj, k ≤ j → j ≤ 9999 →
        GenerateAfter E ParseIntoFEN winning_side j all_pos_list store = some (Lj, stj) →
        ∀ mv ∈ E.GenerateMoves (Board.ofFEN fen), ∀ e2,
          stj.Get (ParseIntoFEN ((Board.ofFEN fen).MakeMove mv)) = some e2 →
          e2.winner = winning_side → e.moves_to_end - 1 ≤ e2.moves_to_end) := by
  have hI0 := Layered_start E ParseIntoFEN winning_side all_pos_list store h0 hmoves
  have hI : Layered E ParseIntoFEN winning_side k Lk stk := by
    have := Layered_after E ParseIntoFEN winning_side k 0 all_pos_list store Lk stk hI0
      (by omega) hreach
    rw [Nat.zero_add] at this
    exact this
  obtain ⟨_, g2, g3, _⟩ := GeneratePass_spec E ParseIntoFEN winning_side stk Lk EGTBStore.empty
    false
  have hadd : ∀ fen e,
      (GeneratePass E ParseIntoFEN winning_side stk Lk EGTBStore.empty false).temp_store.Get fen =
        some e →
      e.moves_to_end = (k : Int) + 1 ∧ e.winner = winning_side ∧ fen ∈ Lk := by
    intro fen e he
    by_cases hin : fen ∈ Lk
    · cases hc : Classify E ParseIntoFEN winning_side stk fen with
      | none =>
        rw [g3 fen (Or.inr hc)] at he
        exact absurd he (by simp [Get_empty])
      | some r =>
        obtain ⟨best, m⟩ := r
        rw [g2 fen hin best m hc] at he
        have hb := Layered_classify E ParseIntoFEN winning_side k Lk stk hI fen hin best m hc
        rw [← Option.some.inj he]
        exact ⟨hb, rfl, hin⟩
    · rw [g3 fen (Or.inl hin)] at he
      exact absurd he (by simp [Get_empty])
  refine ⟨hadd, ?_⟩
  intro fen e he hside j Lj stj hkj hj hreachj mv hmv e2 he2 hw2
  obtain ⟨hd, _, hin⟩ := hadd fen e he
  obtain ⟨i, rfl⟩ : ∃ i, j = k + i := ⟨j - k, by omega⟩
  rw [GenerateAfter_add E ParseIntoFEN winning_side k i all_pos_list store Lk stk hreach]
    at hreachj
  rcases Layered_later E ParseIntoFEN winning_side i k Lk stk Lj stj hI hj hreachj _ e2 he2
    with hold | hnew
  · have := hI.winner fen hin hside mv hmv (e2.moves_to_end + 1)
      (Offer_some.mpr ⟨e2, hold, hw2, rfl⟩)
    omega
  · omega

/-- The loop of the small endgame reaches pass 1. -/
theorem Tiny.pass1_isSome : Tiny.pass1.isSome = true := by decide

/-- C24 on the small endgame: what pass 1 adds has distance 2; it adds the
position `b2`. -/
theorem C24_layering_witness :
    (∀ fen e,
      (GeneratePass Tiny.engine Tiny.ParseIntoFEN Side.WHITE (Tiny.pass1.get Tiny.pass1_isSome).2
        (Tiny.pass1.get Tiny.pass1_isSome).1 EGTBStore.empty false).temp_store.Get fen = some e →
      e.moves_to_end = ((1 : Nat) : Int) + 1 ∧ e.winner = Side.WHITE ∧
        fen ∈ (Tiny.pass1.get Tiny.pass1_isSome).1) ∧
    (GeneratePass Tiny.engine Tiny.ParseIntoFEN Side.WHITE (Tiny.pass1.get Tiny.pass1_isSome).2
        (Tiny.pass1.get Tiny.pass1_isSome).1 EGTBStore.empty false).temp_store.Get "b2" =
      some ⟨"b2", 2, ⟨2, 1⟩, Side.WHITE⟩ :=
  ⟨(C24_layering Tiny.engine Tiny.ParseIntoFEN Side.WHITE ["b2", "w1", "u"]
      (SeedFinal Side.WHITE ["f"] EGTBStore.empty) (SeedFinal_zero Side.WHITE ["f"])
      (by decide) 1 (by decide) (Tiny.pass1.get Tiny.pass1_isSome).1
      (Tiny.pass1.get Tiny.pass1_isSome).2 (Option.some_get Tiny.pass1_isSome).symm).1,
    by decide⟩

end Nakshatra

namespace Nakshatra

/-! ## What `FindMpn` can return -/

/-- In a well shaped tree with up to date numbers, the node `FindMpn` returns
from a start node whose pair is neither `(INF_NODES, 0)` nor `(0, INF_NODES)`
has again a pair that is neither of the two. -/
theorem FindMpn_undecided (E : Engine) (r n0 : Nat) :
    ∀ (fuel : Nat) (s : PNSearch) (x : Nat) (depth : Int) (out : Nat × Int × PNSearch),
      Shape E s r n0 →
      (∀ i, InTree r n0 s.next_ i → (s.node i).children ≠ none → ArithOK E s i) →
      InTree r n0 s.next_ x → Unsettled E s x →
      FindMpn E fuel x depth s = some out → Unsettled E s out.1 := by
  intro fuel
  induction fuel with
  | zero => intro s x depth out _ _ _ _ h; simp [FindMpn] at h
  | succ f ih =>
    intro s x depth out hS hA hx hu h
    cases hc : (s.node x).children with
    | none =>
      unfold FindMpn at h
      rw [hc] at h
      simp only at h
      rw [← Option.some.inj h]
      exact hu
    | some c0 =>
      have hne : (s.node x).children ≠ none := by rw [hc]; simp
      obtain ⟨hfirst, hgood⟩ := SelectChild_first E s x hne (hA x hx hne) hu
      obtain ⟨_, hk1, hk2, _⟩ := hS.range_facts hx hfirst.1
      have hTb : Touch s { s with board_ :=
          (s.board_.MakeMove (s.node (SelectChild E s x)).move) } x := Touch.board s x _
      unfold FindMpn at h
      rw [hc] at h
      simp only at h
      exact ih { s with board_ := (s.board_.MakeMove (s.node (SelectChild E s x)).move) }
        (SelectChild E s x) (depth + 1) out (hTb.shape_of_touch hS)
        (fun i hi hci => hA i hi hci) (Or.inr ⟨hk1, hk2⟩) hgood h

/-- C22 fails on the code: in a PN1 search of the game with a drawn reply, at
the second test of the loop condition the root has the pair
`(INF_NODES, INF_NODES)`, so its proof and disproof numbers are positive and
the loop goes on; `FindMpn`, started at the root, returns node 1, which has no
children and the pair `(INF_NODES, INF_NODES)` of a drawn position. -/
theorem C22_drawn_leaf_selected :
    Stale.secondMpn =
      some (Stale.engine.INF_NODES, Stale.engine.INF_NODES, 1,
        Stale.engine.INF_NODES, Stale.engine.INF_NODES, none) ∧
    0 < Stale.engine.INF_NODES :=
  ⟨by decide, by decide⟩

/-! ## What a pass stores for a position -/

/-- A position with at least one legal move that a pass stores, on a store
whose distances are not negative: the distance is at least 1 and the move is a
legal move that leads to a position stored for the winning side with a
distance one less. -/
theorem Classify_with_moves (E : Engine) (P : Board → String) (ws : Side) (st : EGTBStore)
    (h0 : ∀ key e, st.Get key = some e → 0 ≤ e.moves_to_end) (fen : String)
    (hmoves : E.GenerateMoves (Board.ofFEN fen) ≠ []) (best : Int) (m : Move)
    (hc : Classify E P ws st fen = some (best, m)) :
    1 ≤ best ∧ m ∈ E.GenerateMoves (Board.ofFEN fen) ∧
      ∃ e2, st.Get (P ((Board.ofFEN fen).MakeMove m)) = some e2 ∧ e2.winner = ws ∧
        e2.moves_to_end = best - 1 := by
  unfold Classify at hc
  split at hc
  · obtain ⟨_, _, pre, post, e1, e2, _⟩ := ClassifyWinner_some E P ws st fen best m hc
    obtain ⟨e, he, hw, hv⟩ := Offer_some.mp e2
    have := h0 _ e he
    exact ⟨by omega, mem_of_split _ pre post _ e1, e, he, hw, by omega⟩
  · obtain ⟨hle, halt⟩ := ClassifyLoser_some E P ws st fen best m hc
    obtain ⟨mv0, hmv0⟩ := List.exists_mem_of_ne_nil _ hmoves
    obtain ⟨v0, hv0, hv0le⟩ := hle mv0 hmv0
    obtain ⟨e0, he0, _, hv0e⟩ := Offer_some.mp hv0
    have h00 := h0 _ e0 he0
    rcases halt with ⟨c, _⟩ | ⟨_, pre, post, e1, e2, _⟩
    · omega
    · obtain ⟨e, he, hw, hv⟩ := Offer_some.mp e2
      exact ⟨by omega, mem_of_split _ pre post _ e1, e, he, hw, by omega⟩

end Nakshatra

namespace Nakshatra

/-! ## Solved pairs are consistent (PN1) -/

theorem disproof_fold_eq_zero (E : Engine) (hINF : 0 < E.INF_NODES) (kids : List PNSNode) :
    ∀ (acc : Nat),
      kids.foldl (fun disproof child =>
        if child.proof = E.INF_NODES then E.INF_NODES
        else if disproof ≠ E.INF_NODES then disproof + child.proof
        else disproof) acc = 0 → acc = 0 ∧ ∀ c ∈ kids, c.proof = 0 := by
  induction kids with
  | nil => intro acc h; exact ⟨h, fun c hc => absurd hc (List.not_mem_nil c)⟩
  | cons k kids ih =>
    intro acc h
    simp only [List.foldl_cons] at h
    obtain ⟨h1, h2⟩ := ih _ h
    by_cases hk : k.proof = E.INF_NODES
    · rw [if_pos hk] at h1; omega
    · rw [if_neg hk] at h1
      by_cases ha : acc ≠ E.INF_NODES
      · rw [if_pos ha] at h1
        refine ⟨by omega, fun c hc => ?_⟩
        rcases List.mem_cons.mp hc with e | e
        · rw [e]; omega
        · exact h2 c e
      · rw [if_neg ha] at h1
        have : acc = E.INF_NODES := not_not.mp ha
        omega

/-- A node whose numbers are computed from children with consistent pairs
holds a consistent pair. -/
theorem ConsistentPair_of_arith (E : Engine) (hINF : 0 < E.INF_NODES) (s : PNSearch) (i : Nat)
    (ha : ArithOK E s i)
    (hk : ∀ k ∈ (s.node i).children_range, ConsistentPair E (s.node k)) :
    ConsistentPair E (s.node i) := by
  have hk' : ∀ c ∈ s.kids i, ConsistentPair E c := by
    intro c hc
    obtain ⟨k, hk1, hk2⟩ := List.mem_map.mp hc
    rw [← hk2]; exact hk k hk1
  obtain ⟨a1, a2⟩ := ha
  obtain ⟨_, _, h3⟩ := proof_fold_spec (s.kids i) E.INF_NODES
  have h3' : ProofOfChildren E (s.kids i) = E.INF_NODES ∨
      ∃ c ∈ s.kids i, c.disproof = ProofOfChildren E (s.kids i) := h3
  constructor
  · intro hp
    rw [a1] at hp
    rw [a2]
    rcases h3' with e | ⟨c, hc, e⟩
    · omega
    · exact (DisproofOfChildren_spec E (s.kids i)).1 ⟨c, hc, (hk' c hc).2 (by omega)⟩
  · intro hd
    rw [a2] at hd
    rw [a1]
    have hz := (disproof_fold_eq_zero E hINF (s.kids i) 0 hd).2
    rcases h3' with e | ⟨c, hc, e⟩
    · exact e
    · rw [← e]
      exact (hk' c hc).1 (hz c hc)

/-- With consistent leaves and up to date numbers, every node of the tree
holds a consistent pair. -/
theorem LeavesConsistent.all {E : Engine} {s : PNSearch} {r n0 : Nat}
    (hL : LeavesConsistent E s r n0) (hINF : 0 < E.INF_NODES) (hS : Shape E s r n0)
    (hA : ArithButFor E s r n0 (fun _ => False)) :
    ∀ i, InTree r n0 s.next_ i → ConsistentPair E (s.node i) := by
  have key : ∀ (m i : Nat), s.next_ - i ≤ m → InTree r n0 s.next_ i →
      ConsistentPair E (s.node i) := by
    intro m
    induction m with
    | zero =>
      intro i hm hi
      have := InTree.lt_next hS hi
      omega
    | succ m ih =>
      intro i hm hi
      by_cases hc : (s.node i).children = none
      · exact hL i hi hc
      · refine ConsistentPair_of_arith E hINF s i (hA i hi hc (fun h => h)) (fun k hk => ?_)
        obtain ⟨_, a, b, c⟩ := hS.range_facts hi hk
        exact ih k (by omega) (Or.inr ⟨a, b⟩)
  exact fun i hi => key (s.next_ - i) i (le_refl _) hi

theorem SameLeaves_refl (s : PNSearch) : SameLeaves s s :=
  ⟨rfl, fun _ => ⟨rfl, fun _ => rfl⟩⟩

theorem SameLeaves_trans {s t u : PNSearch} (h1 : SameLeaves s t) (h2 : SameLeaves t u) :
    SameLeaves s u := by
  refine ⟨h2.1.trans h1.1, fun i => ⟨((h2.2 i).1).trans (h1.2 i).1, fun hc => ?_⟩⟩
  have e1 := (h1.2 i).2 hc
  have e2 := (h2.2 i).2 (by rw [(h1.2 i).1]; exact hc)
  exact e2.trans e1

theorem SameLeaves_setNode (s : PNSearch) (x : Nat) (n : PNSNode)
    (hn : n.children = (s.node x).children) (hx : (s.node x).children ≠ none) :
    SameLeaves s (s.setNode x n) := by
  refine ⟨rfl, fun i => ?_⟩
  by_cases hi : i = x
  · subst hi
    rw [node_setNode_same]
    exact ⟨hn, fun h => absurd h hx⟩
  · rw [node_setNode_ne s n hi]
    exact ⟨rfl, fun _ => rfl⟩

theorem SameLeaves_board (s : PNSearch) (b : Board) : SameLeaves s { s with board_ := b } :=
  ⟨rfl, fun _ => ⟨rfl, fun _ => rfl⟩⟩

theorem RefreshTreeSize_sameLeaves (s : PNSearch) (x : Nat)
    (hx : (s.node x).children ≠ none) : SameLeaves s (RefreshTreeSize s x) := by
  have key : ∀ (L : List Nat) (t : PNSearch), SameLeaves s t →
      SameLeaves s (L.foldl (fun t child =>
          t.setNode x { t.node x with
            tree_size := (t.node x).tree_size + (t.node child).tree_size }) t) := by
    intro L
    induction L with
    | nil => intro t ht; exact ht
    | cons k L ih =>
      intro t ht
      simp only [List.foldl_cons]
      refine ih _ (SameLeaves_trans ht (SameLeaves_setNode t x _ rfl ?_))
      rw [(ht.2 x).1]
      exact hx
  unfold RefreshTreeSize
  exact key _ _ (SameLeaves_setNode s x _ rfl hx)

theorem UpdateNode_sameLeaves (E : Engine) (s t : PNSearch) (x : Nat) (stop : Bool)
    (h : UpdateNode E s x = (stop, t)) : SameLeaves s t := by
  by_cases hc : (s.node x).children = none
  · rw [UpdateNode_leaf E s x hc] at h
    rw [← (Prod.mk.inj h).2]
    exact SameLeaves_refl s
  · have h1 := RefreshTreeSize_sameLeaves s x hc
    obtain ⟨c, hc'⟩ := Option.ne_none_iff_exists'.mp hc
    unfold UpdateNode at h
    rw [hc'] at h
    simp only at h
    split at h
    · rw [← (Prod.mk.inj h).2]
      exact h1
    · rw [← (Prod.mk.inj h).2]
      refine SameLeaves_trans h1 (SameLeaves_setNode _ x _ rfl ?_)
      rw [(h1.2 x).1]
      exact hc

theorem UpdateAncestors_sameLeaves (E : Engine) (r : Nat) :
    ∀ (fuel x : Nat) (depth : Int) (s : PNSearch) (cur : Nat) (depth' : Int) (s' : PNSearch),
      UpdateAncestors E fuel x r depth s = some (cur, depth', s') → SameLeaves s s' := by
  intro fuel
  induction fuel with
  | zero => intro x depth s cur depth' s' h; simp [UpdateAncestors] at h
  | succ f ih =>
    intro x depth s cur depth' s' h
    unfold UpdateAncestors at h
    cases hU : UpdateNode E s x with
    | mk stop s1 =>
      have h1 := UpdateNode_sameLeaves E s s1 x stop hU
      rw [hU] at h
      cases stop with
      | true =>
        simp only at h
        have e := Option.some.inj h
        rw [← (Prod.mk.inj (Prod.mk.inj e).2).2]
        exact h1
      | false =>
        simp only at h
        split at h
        · have e := Option.some.inj h
          rw [← (Prod.mk.inj (Prod.mk.inj e).2).2]
          exact h1
        · split at h
          · exact absurd h (by simp)
          · split at h
            · exact absurd h (by simp)
            · exact SameLeaves_trans (SameLeaves_trans h1 (SameLeaves_board s1 _))
                (ih _ _ _ _ _ _ h)

theorem LeavesConsistent_of_same {E : Engine} {s t : PNSearch} {r n0 : Nat}
    (h : SameLeaves s t) (hL : LeavesConsistent E s r n0) : LeavesConsistent E t r n0 := by
  intro i hi hc
  rw [h.1] at hi
  rw [(h.2 i).1] at hc
  rw [(h.2 i).2 hc]
  exact hL i hi hc

/-- The pair `Expand` gives a child is consistent when the evaluator returns
one of its four codes and `UNKNOWN` only with a legal move. -/
theorem ChildPair_consistent (E : Engine) (hINF : 0 < E.INF_NODES)
    (hcodes : ∀ b, E.Result b = E.DRAW ∨ E.Result b = E.WIN ∨ E.Result b = -E.WIN ∨
      E.Result b = E.UNKNOWN)
    (hunknown : ∀ b, E.Result b = E.UNKNOWN → 0 < E.CountMoves (E.SideToMove b) b)
    (b : Board) (x : Nat) (m : Move) : ConsistentPair E (ChildNode E b x m) := by
  have e1 : (ChildNode E b x m).proof = (ChildPair E (b.MakeMove m)).1 := rfl
  have e2 : (ChildNode E b x m).disproof = (ChildPair E (b.MakeMove m)).2 := rfl
  unfold ConsistentPair
  rw [e1, e2]
  unfold ChildPair
  simp only
  split_ifs with c1 c2 c3
  · exact ⟨fun h => rfl, fun h => rfl⟩
  · exact ⟨fun h => by simp only at h; omega, fun _ => rfl⟩
  · exact ⟨fun _ => rfl, fun h => by simp only at h; omega⟩
  · refine ⟨fun h => absurd h (by simp), fun h => ?_⟩
    simp only at h
    have hu : E.Result (b.MakeMove m) = E.UNKNOWN := by
      by_contra hne
      have e := ChildResult_known E (b.MakeMove m) hne
      rw [e] at c1 c2 c3
      rcases hcodes (b.MakeMove m) with h1 | h1 | h1 | h1
      · exact c1 h1
      · exact c3 h1
      · exact c2 h1
      · exact hne h1
    have := hunknown (b.MakeMove m) hu
    omega

/-- `Expand` in PN1 mode on a childless node of the tree keeps the leaves
consistent. -/
theorem Expand_PN1_leaves (E : Engine)
    (pns : Int → PNSParams → Nat → PNSearch → Option (PNSearch × Int))
    (p : PNSParams) (nn depth : Int) (x : Nat) (s t : PNSearch) (r n0 : Nat)
    (hINF : 0 < E.INF_NODES)
    (hcodes : ∀ b, E.Result b = E.DRAW ∨ E.Result b = E.WIN ∨ E.Result b = -E.WIN ∨
      E.Result b = E.UNKNOWN)
    (hunknown : ∀ b, E.Result b = E.UNKNOWN → 0 < E.CountMoves (E.SideToMove b) b)
    (h1 : p.pns_type = PNSType.PN1) (hS : Shape E s r n0) (hx : InTree r n0 s.next_ x)
    (hE : Expand E pns p nn depth x s = some t) (hL : LeavesConsistent E s r n0) :
    LeavesConsistent E t r n0 := by
  by_cases hd : (RedundantMoves s x || decide (depth ≥ PNS_MAX_DEPTH)) = true
  · unfold Expand at hE
    rw [if_pos hd] at hE
    simp only at hE
    split at hE
    · have e := Option.some.inj hE
      rw [← e]
      intro i hi hc
      by_cases hix : i = x
      · subst hix
        rw [node_setNode_same]
        exact ⟨fun h => by simp only at h; omega, fun h => by simp only at h; omega⟩
      · rw [node_setNode_ne s _ hix] at hc ⊢
        exact hL i hi hc
    · exact absurd hE (by simp)
  · have hr : RedundantMoves s x = false := by
      cases hq : RedundantMoves s x with
      | false => rfl
      | true => rw [hq] at hd; simp at hd
    have hdep : depth < PNS_MAX_DEPTH := by
      by_contra hge
      apply hd
      rw [hr]
      simp
      omega
    obtain ⟨t', e0, _, e2, e3, e4, e5, e6⟩ :=
      Expand_PN1_spec E pns p nn depth x s h1 hr hdep (InTree.lt_next hS hx)
    rw [e0] at hE
    have e := Option.some.inj hE
    subst e
    by_cases hm : E.GenerateMoves s.board_ = []
    · rw [e6 hm]
      exact hL
    · intro i hi hc
      by_cases hlt : i < s.next_
      · have hi' : InTree r n0 s.next_ i := by
          rcases hi with h | ⟨a, _⟩
          · exact Or.inl h
          · exact Or.inr ⟨a, hlt⟩
        by_cases hix : i = x
        · subst hix
          rw [e5 hm] at hc
          exact absurd hc (by simp)
        · rw [e4 i hlt hix] at hc ⊢
          exact hL i hi' hc
      · have hlt2 : i < t'.next_ := by
          rcases hi with h | ⟨_, b⟩
          · have := hS.root_lt; have := hS.le_next; omega
          · exact b
        rw [e2] at hlt2
        have e7 := e3 (i - s.next_) (by omega)
        have e8 : s.next_ + (i - s.next_) = i := by omega
        rw [e8] at e7
        rw [e7]
        exact ChildPair_consistent E hINF hcodes hunknown _ _ _

/-- One run of the body of the main loop of a PN1 search keeps the leaves
consistent. -/
theorem PnsBody_leaves (E : Engine)
    (pns : Int → PNSParams → Nat → PNSearch → Option (PNSearch × Int))
    (s0 : PNSearch) (r : Nat) (sn : Int) (fuel : Nat) (p : PNSParams) (l l2 : PnsLoop)
    (hINF : 0 < E.INF_NODES)
    (hcodes : ∀ b, E.Result b = E.DRAW ∨ E.Result b = E.WIN ∨ E.Result b = -E.WIN ∨
      E.Result b = E.UNKNOWN)
    (hunknown : ∀ b, E.Result b = E.UNKNOWN → 0 < E.CountMoves (E.SideToMove b) b)
    (h1 : p.pns_type = PNSType.PN1) (hI : LoopInv E s0 r sn l)
    (hL : LeavesConsistent E l.s r s0.next_)
    (hB : PnsBody E pns fuel p r l = some l2) : LeavesConsistent E l2.s r s0.next_ := by
  unfold PnsBody at hB
  cases g1 : PnsProgress E p l with
  | none => rw [g1] at hB; exact absurd hB (by simp)
  | some l1 =>
    rw [g1] at hB
    simp only at hB
    obtain ⟨p1, p2, p3, p4, p5, p6⟩ := PnsProgress_spec E p l l1 g1
    have hI1 : LoopInv E s0 r sn l1 := hI.loopInv_of_eq p1 p2 p3 p4 p5 p6
    have hnode1 : ∀ i, l1.s.node i = l.s.node i := fun i => by simp [PNSearch.node, p1]
    have hL1 : LeavesConsistent E l1.s r s0.next_ := by
      intro i hi hc
      rw [p2] at hi
      rw [hnode1 i] at hc ⊢
      exact hL i hi hc
    obtain ⟨path, hp, _⟩ := hI1.walk
    cases g2 : FindMpn E fuel l1.cur_node l1.depth l1.s with
    | none => rw [g2] at hB; exact absurd hB (by simp)
    | some res =>
      obtain ⟨mpn, depth, s1⟩ := res
      rw [g2] at hB
      simp only at hB
      obtain ⟨ext, f1, _, f3⟩ := FindMpn_spec E r s0.next_ s0.board_ fuel _ _ _ path mpn
        depth s1 hI1.shape hp g2
      have e1 : s1.pns_tree_buffer_ = l1.s.pns_tree_buffer_ := by
        have h := congrArg PNSearch.pns_tree_buffer_ f3
        exact h
      have e2 : s1.next_ = l1.s.next_ := by
        have h := congrArg PNSearch.next_ f3
        exact h
      have hS1 := Shape.shape_of_eq e1 e2 hI1.shape
      have hnode2 : ∀ i, s1.node i = l1.s.node i := fun i => by simp [PNSearch.node, e1]
      have hL2 : LeavesConsistent E s1 r s0.next_ := by
        intro i hi hc
        rw [e2] at hi
        rw [hnode2 i] at hc ⊢
        exact hL1 i hi hc
      cases g3 : Expand E pns p l1.num_nodes depth mpn s1 with
      | none => rw [g3] at hB; exact absurd hB (by simp)
      | some s2 =>
        rw [g3] at hB
        simp only at hB
        have hL3 := Expand_PN1_leaves E pns p l1.num_nodes depth mpn s1 s2 r s0.next_ hINF
          hcodes hunknown h1 hS1 f1.inT g3 hL2
        have hpn2 : ¬ (p.pns_type = PNSType.PN2) := by rw [h1]; decide
        rw [if_neg hpn2] at hB
        simp only at hB
        cases g4 : UpdateAncestors E fuel mpn r depth s2 with
        | none => rw [g4] at hB; exact absurd hB (by simp)
        | some res4 =>
          obtain ⟨cur, depth2, s4⟩ := res4
          rw [g4] at hB
          simp only at hB
          have e := Option.some.inj hB
          rw [← e]
          exact LeavesConsistent_of_same
            (UpdateAncestors_sameLeaves E r fuel mpn depth s2 cur depth2 s4 g4) hL3

/-- The leaves are consistent at every test of the loop condition of a PN1
search. -/
theorem PnsAfter_leaves (E : Engine)
    (pns : Int → PNSParams → Nat → PNSearch → Option (PNSearch × Int))
    (hN : NestedOK E pns) (s0 : PNSearch) (r : Nat) (sn : Int) (fuel : Nat) (p : PNSParams)
    (hINF : 0 < E.INF_NODES)
    (hcodes : ∀ b, E.Result b = E.DRAW ∨ E.Result b = E.WIN ∨ E.Result b = -E.WIN ∨
      E.Result b = E.UNKNOWN)
    (hunknown : ∀ b, E.Result b = E.UNKNOWN → 0 < E.CountMoves (E.SideToMove b) b)
    (h1 : p.pns_type = PNSType.PN1) :
    ∀ (k : Nat) (l l2 : PnsLoop), LoopInv E s0 r sn l → LeavesConsistent E l.s r s0.next_ →
      PnsAfter E pns fuel sn p r k l = some l2 → LeavesConsistent E l2.s r s0.next_ := by
  have horph : p.pns_type = PNSType.PN2 → (s0.node r).parent = none := by
    intro h; rw [h1] at h; exact absurd h (by decide)
  intro k
  induction k with
  | zero =>
    intro l l2 _ hL h
    have e : l = l2 := Option.some.inj h
    rw [← e]; exact hL
  | succ k ih =>
    intro l l2 hI hL h
    unfold PnsAfter at h
    cases hC : PnsCond E sn r l with
    | mk c l1 =>
      rw [hC] at h
      obtain ⟨c1, c2, c3, c4, c5, c6, c7⟩ := PnsCond_spec E sn r l l1 c hC
      cases c with
      | false => exact absurd h (by simp)
      | true =>
        simp only at h
        have hI1 : LoopInv E s0 r sn l1 := hI.loopInv_of_eq c1 c2 c3 c4 c5 c6
        have hnode1 : ∀ i, l1.s.node i = l.s.node i := fun i => by simp [PNSearch.node, c1]
        have hL1 : LeavesConsistent E l1.s r s0.next_ := by
          intro i hi hc
          rw [c2] at hi
          rw [hnode1 i] at hc ⊢
          exact hL i hi hc
        have hlt1 : l1.num_nodes < sn := by rw [c6]; exact c7 rfl
        cases hB : PnsBody E pns fuel p r l1 with
        | none => rw [hB] at h; exact absurd h (by simp)
        | some lb =>
          rw [hB] at h
          simp only at h
          exact ih lb l2 (PnsBody_spec E pns hN s0 r sn fuel p l1 lb horph hI1 hlt1 hB)
            (PnsBody_leaves E pns s0 r sn fuel p l1 lb hINF hcodes hunknown h1 hI1 hL1 hB) h

/-- The leaves are consistent when the main loop of a PN1 search ends. -/
theorem PnsMainLoop_leaves (E : Engine)
    (pns : Int → PNSParams → Nat → PNSearch → Option (PNSearch × Int))
    (hN : NestedOK E pns) (s0 : PNSearch) (r : Nat) (sn : Int) (fuel : Nat) (p : PNSParams)
    (hINF : 0 < E.INF_NODES)
    (hcodes : ∀ b, E.Result b = E.DRAW ∨ E.Result b = E.WIN ∨ E.Result b = -E.WIN ∨
      E.Result b = E.UNKNOWN)
    (hunknown : ∀ b, E.Result b = E.UNKNOWN → 0 < E.CountMoves (E.SideToMove b) b)
    (h1 : p.pns_type = PNSType.PN1) :
    ∀ (n : Nat) (l l2 : PnsLoop), LoopInv E s0 r sn l → LeavesConsistent E l.s r s0.next_ →
      PnsMainLoop E pns fuel sn p r n l = some l2 → LeavesConsistent E l2.s r s0.next_ := by
  have horph : p.pns_type = PNSType.PN2 → (s0.node r).parent = none := by
    intro h; rw [h1] at h; exact absurd h (by decide)
  intro n
  induction n with
  | zero => intro l l2 _ _ h; simp [PnsMainLoop] at h
  | succ n ih =>
    intro l l2 hI hL h
    unfold PnsMainLoop at h
    cases hC : PnsCond E sn r l with
    | mk c l1 =>
      rw [hC] at h
      obtain ⟨c1, c2, c3, c4, c5, c6, c7⟩ := PnsCond_spec E sn r l l1 c hC
      have hI1 : LoopInv E s0 r sn l1 := hI.loopInv_of_eq c1 c2 c3 c4 c5 c6
      have hnode1 : ∀ i, l1.s.node i = l.s.node i := fun i => by simp [PNSearch.node, c1]
      have hL1 : LeavesConsistent E l1.s r s0.next_ := by
        intro i hi hc
        rw [c2] at hi
        rw [hnode1 i] at hc ⊢
        exact hL i hi hc
      cases c with
      | false =>
        simp only at h
        have e := Option.some.inj h
        rw [← e]; exact hL1
      | true =>
        simp only at h
        have hlt1 : l1.num_nodes < sn := by rw [c6]; exact c7 rfl
        cases hB : PnsBody E pns fuel p r l1 with
        | none => rw [hB] at h; exact absurd h (by simp)
        | some lb =>
          rw [hB] at h
          simp only at h
          exact ih lb l2 (PnsBody_spec E pns hN s0 r sn fuel p l1 lb horph hI1 hlt1 hB)
            (PnsBody_leaves E pns s0 r sn fuel p l1 lb hINF hcodes hunknown h1 hI1 hL1 hB) h

/-- At the start of `Pns` the only node of the tree is the root. -/
theorem LeavesConsistent_init (E : Engine) (p : PNSParams) (s : PNSearch) (r : Nat)
    (hroot : ConsistentPair E (s.node r)) :
    LeavesConsistent E (PnsInit p r s).s r s.next_ := by
  intro i hi _
  have hir : i = r := by
    rcases hi with h | ⟨a, b⟩
    · exact h
    · have b' : i < s.next_ := b
      omega
  rw [hir]
  exact hroot

/-- With the loop invariant and consistent leaves, no pair of the tree is
half solved. -/
theorem LoopInv.pairs {E : Engine} {s0 : PNSearch} {r : Nat} {sn : Int} {l : PnsLoop}
    (hI : LoopInv E s0 r sn l) (hL : LeavesConsistent E l.s r s0.next_)
    (hINF : 0 < E.INF_NODES) :
    (∀ i, InTree r s0.next_ l.s.next_ i →
      ConsistentPair E (l.s.node i) ∧
      ¬ ((l.s.node i).proof = 0 ∧ (l.s.node i).disproof = 0)) ∧
    ((l.s.node r).proof = 0 ∨ (l.s.node r).disproof = 0 →
      ((l.s.node r).proof = 0 ∧ (l.s.node r).disproof = E.INF_NODES) ∨
      ((l.s.node r).proof = E.INF_NODES ∧ (l.s.node r).disproof = 0)) := by
  have hall := hL.all hINF hI.shape hI.arith
  refine ⟨fun i hi => ⟨hall i hi, fun h => ?_⟩, fun h => ?_⟩
  · have := (hall i hi).1 h.1
    omega
  · have hr := hall r (Or.inl rfl)
    rcases h with h | h
    · exact Or.inl ⟨h, hr.1 h⟩
    · exact Or.inr ⟨hr.2 h, h⟩

/-- The Suicide evaluator answers `UNKNOWN`, when that code is none of the
others, only for a position with a legal move. -/
theorem SuicideResult_unknown_moves (E : Engine) (b : Board)
    (hne : E.UNKNOWN ≠ E.DRAW ∧ E.UNKNOWN ≠ E.WIN ∧ E.UNKNOWN ≠ -E.WIN)
    (h : SuicideResult E b = E.UNKNOWN) : E.movegen_CountMoves b ≠ 0 := by
  intro h0
  unfold SuicideResult at h
  simp only at h
  split_ifs at h <;>
    first
    | exact hne.1 h.symm
    | exact hne.2.1 h.symm
    | exact hne.2.2 h.symm

/-- C25: solved pairs are consistent throughout a PN1 search. `Pns` is entered
in PN1 mode on a childless root below the arena cursor whose pair is
consistent (the fresh root of `Search`, with pair (1, 1), is), `INF_NODES` is
positive, and the evaluator returns one of its four codes, `UNKNOWN` only for
positions with at least one legal move. Then at every test of the condition of
the main loop, and when the loop ends, every node of the tree (the root and
every node created by `Expand`) has proof number 0 only if its disproof number
is `INF_NODES` and disproof number 0 only if its proof number is `INF_NODES`,
so no node has proof number 0 and disproof number 0 together; and a root that
is solved (proof number 0 or disproof number 0) holds exactly the pair
(0, `INF_NODES`) or (`INF_NODES`, 0). -/
theorem C25_solved_pairs_consistent (E : Engine) (level fuel : Nat) (search_nodes : Int)
    (pns_params : PNSParams) (pns_root : Nat) (s : PNSearch)
    (hpn1 : pns_params.pns_type = PNSType.PN1) (hpre : PnsPre pns_params s pns_root)
    (hINF : 0 < E.INF_NODES)
    (hcodes : ∀ b, E.Result b = E.DRAW ∨ E.Result b = E.WIN ∨ E.Result b = -E.WIN ∨
      E.Result b = E.UNKNOWN)
    (hunknown : ∀ b, E.Result b = E.UNKNOWN → 0 < E.CountMoves (E.SideToMove b) b)
    (hroot : ConsistentPair E (s.node pns_root)) :
    (∀ (k : Nat) (l : PnsLoop),
      PnsAfter E (Pns E level fuel) fuel search_nodes pns_params pns_root k
        (PnsInit pns_params pns_root s) = some l →
      (∀ i, InTree pns_root s.next_ l.s.next_ i →
        ConsistentPair E (l.s.node i) ∧
        ¬ ((l.s.node i).proof = 0 ∧ (l.s.node i).disproof = 0)) ∧
      ((l.s.node pns_root).proof = 0 ∨ (l.s.node pns_root).disproof = 0 →
        ((l.s.node pns_root).proof = 0 ∧ (l.s.node pns_root).disproof = E.INF_NODES) ∨
        ((l.s.node pns_root).proof = E.INF_NODES ∧ (l.s.node pns_root).disproof = 0))) ∧
    (∀ (l : PnsLoop),
      PnsMainLoop E (Pns E level fuel) fuel search_nodes pns_params pns_root fuel
        (PnsInit pns_params pns_root s) = some l →
      (∀ i, InTree pns_root s.next_ l.s.next_ i →
        ConsistentPair E (l.s.node i) ∧
        ¬ ((l.s.node i).proof = 0 ∧ (l.s.node i).disproof = 0)) ∧
      ((l.s.node pns_root).proof = 0 ∨ (l.s.node pns_root).disproof = 0 →
        ((l.s.node pns_root).proof = 0 ∧ (l.s.node pns_root).disproof = E.INF_NODES) ∨
        ((l.s.node pns_root).proof = E.INF_NODES ∧ (l.s.node pns_root).disproof = 0))) := by
  have hN := NestedOK_Pns E level fuel
  have hI0 := LoopInv_init E pns_params s pns_root search_nodes hpre
  have hL0 := LeavesConsistent_init E pns_params s pns_root hroot
  refine ⟨fun k l h => ?_, fun l h => ?_⟩
  · exact (PnsAfter_spec E _ hN s pns_root search_nodes fuel pns_params hpre.orphan k _ l
      hI0 h).pairs
      (PnsAfter_leaves E _ hN s pns_root search_nodes fuel pns_params hINF hcodes hunknown
        hpn1 k _ l hI0 hL0 h) hINF
  · exact (PnsMainLoop_spec E _ hN s pns_root search_nodes fuel pns_params hpre.orphan fuel _ l
      hI0 h).pairs
      (PnsMainLoop_leaves E _ hN s pns_root search_nodes fuel pns_params hINF hcodes hunknown
        hpn1 fuel _ l hI0 hL0 h) hINF

theorem Demo.mainLoop_isSome :
    (PnsMainLoop Demo.roomy (Pns Demo.roomy 0 5) 5 100 Demo.pn1 0 5
      (PnsInit Demo.pn1 0 Demo.afterB)).isSome = true := by decide

/-- C25, on the small game: the main loop of a PN1 search of the position
after `b` ends, and then no node of the tree holds the pair (0, 0) and the
root, if solved, holds (0, `INF_NODES`) or (`INF_NODES`, 0). -/
theorem C25_solved_pairs_consistent_witness :
    ∃ l, PnsMainLoop Demo.roomy (Pns Demo.roomy 0 5) 5 100 Demo.pn1 0 5
        (PnsInit Demo.pn1 0 Demo.afterB) = some l ∧
      (∀ i, InTree 0 Demo.afterB.next_ l.s.next_ i →
        ConsistentPair Demo.roomy (l.s.node i) ∧
        ¬ ((l.s.node i).proof = 0 ∧ (l.s.node i).disproof = 0)) ∧
      ((l.s.node 0).proof = 0 ∨ (l.s.node 0).disproof = 0 →
        ((l.s.node 0).proof = 0 ∧ (l.s.node 0).disproof = Demo.roomy.INF_NODES) ∨
        ((l.s.node 0).proof = Demo.roomy.INF_NODES ∧ (l.s.node 0).disproof = 0)) :=
  ⟨_, (Option.some_get Demo.mainLoop_isSome).symm,
    (C25_solved_pairs_consistent Demo.roomy 0 5 100 Demo.pn1 0 Demo.afterB rfl
      ⟨by decide, rfl, rfl, fun _ => rfl⟩ (by decide)
      (fun b => SuicideResult_values Demo.base b)
      (fun b h => Nat.pos_of_ne_zero
        (SuicideResult_unknown_moves Demo.base b (by decide) h))
      ⟨fun h => absurd h (by decide), fun h => absurd h (by decide)⟩).2 _
      (Option.some_get Demo.mainLoop_isSome).symm⟩

end Nakshatra

namespace Nakshatra

/-! ## The room of the move stack -/

end Nakshatra

namespace Nakshatra

end Nakshatra

namespace Nakshatra

theorem PlayLine_stack (line : List Move) :
    ∀ (b : Board), b.PlayLine line = { b with move_stack_ := line.reverse ++ b.move_stack_ } := by
  induction line with
  | nil => intro b; rfl
  | cons m rest ih =>
    intro b
    show (b.MakeMove m).PlayLine rest = _
    rw [ih]
    simp [Board.MakeMove]

theorem PlayLine_append (b : Board) (l1 l2 : List Move) :
    b.PlayLine (l1 ++ l2) = (b.PlayLine l1).PlayLine l2 := by
  unfold Board.PlayLine
  rw [List.foldl_append]

theorem PlayLine_ply (b : Board) (line : List Move) :
    (b.PlayLine line).Ply = b.Ply + line.length := by
  rw [PlayLine_stack]
  simp [Board.Ply]
  omega

theorem LegalLine_append (E : Engine) (l1 l2 : List Move) :
    ∀ (b : Board), LegalLine E b l1 → LegalLine E (b.PlayLine l1) l2 →
      LegalLine E b (l1 ++ l2) := by
  induction l1 with
  | nil => intro b _ h; exact h
  | cons m rest ih =>
    intro b h1 h2
    exact ⟨h1.1, ih (b.MakeMove m) h1.2 h2⟩

/-- The stack has room for the search when the board at entry is at a ply
that leaves the reach of the search below the top of the array: for a PN1
search, a ply of at most 399. -/
theorem StackRoom_of_ply (E : Engine) (p : PNSParams) (b : Board)
    (h : (b.Ply : Int) + SearchReach p < MOVE_STACK_ENTRIES) : StackRoom E p b := by
  intro line hlen _ _
  unfold Board.HasRoom
  rw [PlayLine_ply]
  omega

/-- The room of a PN2 search covers its nested searches: they begin on the
board of a node at a depth below `PNS_MAX_DEPTH`. -/
theorem StackRoom_nested (E : Engine) (p : PNSParams) (b : Board) (line : List Move)
    (hp2 : p.pns_type = PNSType.PN2) (hroom : StackRoom E p b)
    (hlen : (line.length : Int) < PNS_MAX_DEPTH) (hl : LegalLine E b line) :
    StackRoom E PNSParams.nested (b.PlayLine line) := by
  intro line2 hlen2 hl2 hne
  have e1 : SearchReach p = 2 * PNS_MAX_DEPTH := by
    unfold SearchReach
    rw [if_pos hp2]
  have e2 : SearchReach PNSParams.nested = PNS_MAX_DEPTH := by
    unfold SearchReach
    rw [if_neg (by simp [PNSParams.nested])]
  have h := hroom (line ++ line2)
    (by rw [List.length_append, e1]; rw [e2] at hlen2; push_cast; omega)
    (LegalLine_append E _ _ b hl hl2) (by rw [PlayLine_append]; exact hne)
  rw [PlayLine_append] at h
  exact h

end Nakshatra
